import Mathlib

/-!
pmemfile: the regular-file data engine

A shallow embedding of `src/libpmemfile-posix/data.c` (block allocation, sparse
reads and writes, hole punching, truncation) and of the read entry points of
`src/libpmemfile-posix/read.c`.

Conventions of the embedding

* `uint64_t` / `size_t` values are natural numbers; every C operation that can
  wrap is written with `u64`, `sub64` or `u32`.
* A block descriptor pointer is the address `addr` of the descriptor; `NULL` is
  `none`.  The persistent doubly linked chain `first_block -> next -> ...` is the
  list `chain` in link order, so `vinode->first_block` is its head,
  `block->next` / `block->prev` are the neighbours in the list.
* The volatile index `vinode->blocks` (a crit-bit tree keyed by block offset) is
  a list of `(key, pointer)` pairs; `none` is the `NULL` tree.
* A function returns `none` when an `ASSERT` of the source fails, when a dangling
  or `NULL` pointer would be dereferenced, or when a loop does not finish within
  its iteration budget.  Allocation from the object pool always succeeds, so the
  `TX_ONABORT` paths are never taken.
* Locks are not modelled: every function is one sequential step.
-/

namespace Pmemfile

/-! ## Machine arithmetic -/

def UINT64_MAX : Nat := 2 ^ 64 - 1

def SIZE_MAX : Nat := 2 ^ 64 - 1

def SSIZE_MAX : Nat := 2 ^ 63 - 1

/-- Value of an expression of type `uint64_t`. -/
def u64 (n : Nat) : Nat := n % 2 ^ 64

/-- Value of a cast to `uint32_t`. -/
def u32 (n : Nat) : Nat := n % 2 ^ 32

/-- The `uint64_t` difference `a - b` of two values below `2 ^ 64`. -/
def sub64 (a b : Nat) : Nat := (a + 2 ^ 64 - b) % 2 ^ 64

/-- Modelled from the spec: `FILE_PAGE_SIZE` is defined in a header that is not
under `src/`; the spec fixes `PAGE = 4096`. -/
def FILE_PAGE_SIZE : Nat := 4096

/-- Modelled from the spec: `page_rounddown` (header not under `src/`) clears the
low twelve bits, i.e. rounds down to a multiple of `FILE_PAGE_SIZE`. -/
def page_rounddown (n : Nat) : Nat := n - n % FILE_PAGE_SIZE

/-- Modelled from the spec: `page_roundup` (header not under `src/`) rounds up to
a multiple of `FILE_PAGE_SIZE`, computed in `uint64_t`. -/
def page_roundup (n : Nat) : Nat := page_rounddown (u64 (n + FILE_PAGE_SIZE - 1))

/-- Source `expand_to_full_pages`, returning the new `(offset, length)`. -/
def expand_to_full_pages (offset length : Nat) : Nat × Nat :=
  let length1 := u64 (length + offset % FILE_PAGE_SIZE)
  let offset1 := offset - offset % FILE_PAGE_SIZE
  (offset1, page_roundup length1)

/-- Source `narrow_to_full_pages`, returning the new `(offset, length)`. -/
def narrow_to_full_pages (offset length : Nat) : Nat × Nat :=
  let end_ := page_rounddown (u64 (offset + length))
  let offset1 := page_roundup offset
  if end_ > offset1 then (offset1, end_ - offset1) else (offset1, 0)

/-! ## Data model -/

/-- A block descriptor (`struct pmemfile_block`).  `addr` is the address of the
descriptor itself, `data` the contents of the data blob `block->data`, indexed
by the byte position inside the blob.  The `next` / `prev` links are the list
order of the chain that holds the descriptor. -/
structure pmemfile_block where
  addr : Nat
  offset : Nat
  size : Nat
  flags : Nat
  data : Nat → Nat

def BLOCK_INITIALIZED : Nat := 1

structure pmemfile_time where
  sec : Int
  nsec : Int
deriving DecidableEq, Repr

/-- The fields of `struct pmemfile_inode` used by the data engine and by
`chmod`; the owner and the group are 0 (root) unless given. -/
structure pmemfile_inode where
  flags : Nat
  size : Nat
  atime : pmemfile_time
  ctime : pmemfile_time
  mtime : pmemfile_time
  uid : Nat := 0
  gid : Nat := 0

/-- The volatile inode `struct pmemfile_vinode` of a regular file together
with the persistent state it points to. -/
structure pmemfile_vinode where
  inode : pmemfile_inode
  chain : List pmemfile_block
  blocks : Option (List (Nat × Nat))

/-- An open file handle (`struct pmemfile_file`). -/
structure pmemfile_file where
  offset : Nat
  flags : Nat
  block_pointer_cache : Option Nat

/-- Constants whose definitions are in headers that are not under `src/`; the
values are those of the library headers (handle flags) and of Linux (file
type bits, `fallocate` modes, errno numbers). -/
def PFILE_READ : Nat := 1

def PFILE_WRITE : Nat := 2

def PFILE_NOATIME : Nat := 4

def PFILE_APPEND : Nat := 8

def PMEMFILE_S_IFMT : Nat := 0o170000

def PMEMFILE_S_IFREG : Nat := 0o100000

def PMEMFILE_FL_KEEP_SIZE : Nat := 1

def PMEMFILE_FL_PUNCH_HOLE : Nat := 2

def EBADF : Nat := 9

def EINVAL : Nat := 22

/-- The global knobs and the object-pool allocator, as far as the data engine
observes them.  `usable_size n` is what `pmemobj_alloc_usable_size` reports for
an allocation of `n` bytes; `fresh` is the (arbitrary) content of newly
allocated block data. -/
structure config where
  pmemfile_posix_block_size : Nat
  pmemfile_overallocate_on_append : Bool
  MAX_BLOCK_SIZE : Nat
  usable_size : Nat → Nat
  fresh : Nat → Nat

/-- Modelled from the spec: `vinode_is_regular_file` (inode.h is not under
`src/`) decodes the inode type from the mode bits. -/
def vinode_is_regular_file (v : pmemfile_vinode) : Bool :=
  v.inode.flags &&& PMEMFILE_S_IFMT == PMEMFILE_S_IFREG

/-! ## The offset index (ctree) -/

/-- Modelled from the spec: `ctree_find_le_unlocked` (ctree.c is not under
`src/`) is the `find_le` of the offset index: the entry with the greatest key
that is at most `key`. -/
def ctree_find_le_unlocked : List (Nat × Nat) → Nat → Option (Nat × Nat)
  | [], _ => none
  | e :: c, key =>
    match ctree_find_le_unlocked c key with
    | none => if e.1 ≤ key then some e else none
    | some b => if e.1 ≤ key ∧ b.1 < e.1 then some e else some b

/-- Modelled from the spec: `ctree_insert_unlocked` (ctree.c is not under
`src/`) is the `insert` of the offset index; a key that is already present is
refused and the tree is left as it was. -/
def ctree_insert_unlocked (c : List (Nat × Nat)) (key value : Nat) : List (Nat × Nat) :=
  if c.any (fun e => e.1 == key) then c else (key, value) :: c

/-- Modelled from the spec: `ctree_remove_unlocked` with exact match (ctree.c is
not under `src/`) is the `remove` of the offset index. -/
def ctree_remove_unlocked (c : List (Nat × Nat)) (key : Nat) : List (Nat × Nat) :=
  c.filter (fun e => e.1 != key)

/-! ## The block chain -/

/-- Dereference of a descriptor pointer. -/
def block_deref (chain : List pmemfile_block) (p : Nat) : Option pmemfile_block :=
  chain.find? (fun b => b.addr == p)

/-- The pointer `D_RW(block->next)` of the descriptor at `p`. -/
def block_next : List pmemfile_block → Nat → Option Nat
  | [], _ => none
  | b :: rest, p =>
    if b.addr = p then rest.head?.map (fun n => n.addr) else block_next rest p

/-- The pointer `D_RW(block->prev)` of the descriptor at `p`. -/
def block_prev : List pmemfile_block → Nat → Option Nat
  | [], _ => none
  | [_], _ => none
  | a :: b :: rest, p =>
    if a.addr = p then none
    else if b.addr = p then some a.addr else block_prev (b :: rest) p

/-- A store through the descriptor pointer `p`. -/
def block_update (chain : List pmemfile_block) (p : Nat)
    (f : pmemfile_block → pmemfile_block) : List pmemfile_block :=
  chain.map (fun b => if b.addr = p then f b else b)

/-- Address of an unused descriptor slot. -/
def fresh_addr (chain : List pmemfile_block) : Nat :=
  (chain.map (fun b => b.addr)).foldr max 0 + 1

/-- Modelled from the spec: `block_list_insert_after` (block_array.c is not
under `src/`) links the descriptor `nb` into the chain right after `prev`, or
in front of the chain when `prev` is `NULL`. -/
def block_list_insert_after : List pmemfile_block → Option Nat → pmemfile_block →
    List pmemfile_block
  | chain, none, nb => nb :: chain
  | [], some _, nb => [nb]
  | b :: rest, some p, nb =>
    if b.addr = p then b :: nb :: rest else b :: block_list_insert_after rest (some p) nb

/-- Modelled from the spec: `block_list_remove` (block_array.c is not under
`src/`) unlinks the descriptor at `p`, frees its data and returns the pointer
to the preceding descriptor. -/
def block_list_remove (chain : List pmemfile_block) (p : Nat) :
    List pmemfile_block × Option Nat :=
  (chain.filter (fun b => b.addr != p), block_prev chain p)

/-- Source `block_cache_insert_block`. -/
def block_cache_insert_block (c : List (Nat × Nat)) (block : pmemfile_block) :
    List (Nat × Nat) :=
  ctree_insert_unlocked c block.offset block.addr

/-- Source `find_block`. -/
def find_block (c : List (Nat × Nat)) (off : Nat) : Option Nat :=
  (ctree_find_le_unlocked c off).map (fun e => e.2)

/-- Source `find_last_block`. -/
def find_last_block (c : List (Nat × Nat)) : Option Nat :=
  find_block c UINT64_MAX

/-- Source `vinode_rebuild_block_tree`: every descriptor of the file is put
into a new tree.  The descriptors are enumerated in link order, and
`first_block` (the descriptor with the smallest offset) is the head of the
chain. -/
def vinode_rebuild_block_tree (v : pmemfile_vinode) : pmemfile_vinode :=
  { v with blocks := some (v.chain.foldl block_cache_insert_block []) }

/-- Source `is_offset_in_block`. -/
def is_offset_in_block (block : Option pmemfile_block) (offset : Nat) : Bool :=
  match block with
  | none => false
  | some b => decide (b.offset ≤ offset) && decide (offset < u64 (b.offset + b.size))

/-- Source `is_block_data_initialized`. -/
def is_block_data_initialized (block : pmemfile_block) : Bool :=
  block.flags &&& BLOCK_INITIALIZED != 0

/-! ## Allocation -/

/-- Source `file_allocate_block_data`: fills in `data`, `size` and `flags` of
the descriptor `block`.  The three `ASSERT`s on `count` and on the forced block
size, and the one on the usable size, make the result `none` when they fail. -/
def file_allocate_block_data (cfg : config) (block : pmemfile_block) (count : Nat)
    (use_usable_size : Bool) : Option pmemfile_block :=
  if count = 0 ∨ count % FILE_PAGE_SIZE ≠ 0 then none
  else if cfg.pmemfile_posix_block_size ≠ 0 ∧
      (cfg.MAX_BLOCK_SIZE < cfg.pmemfile_posix_block_size ∨
        cfg.pmemfile_posix_block_size % FILE_PAGE_SIZE ≠ 0) then none
  else
    let size :=
      if cfg.pmemfile_posix_block_size ≠ 0 then u32 cfg.pmemfile_posix_block_size
      else if count ≤ cfg.MAX_BLOCK_SIZE then u32 count
      else u32 cfg.MAX_BLOCK_SIZE
    if use_usable_size then
      let usable := cfg.usable_size size
      if usable < size then none
      else
        let size1 :=
          if usable > cfg.MAX_BLOCK_SIZE then cfg.MAX_BLOCK_SIZE
          else u32 (page_rounddown usable)
        some { block with data := cfg.fresh, size := size1, flags := 0 }
    else some { block with data := cfg.fresh, size := size, flags := 0 }

/-- Source `is_append`. -/
def is_append (v : pmemfile_vinode) (c : List (Nat × Nat)) (offset size : Nat) :
    Option Bool :=
  if v.inode.size ≥ u64 (offset + size) then some false
  else
    match find_last_block c with
    | none => some true
    | some p =>
      match block_deref v.chain p with
      | none => none
      | some block => some (decide (u64 (block.offset + block.size) < u64 (offset + size)))

/-- Source `overallocate_size`. -/
def overallocate_size (count : Nat) : Nat :=
  if count ≤ 4096 then 16 * 1024
  else if count ≤ 64 * 1024 then 256 * 1024
  else if count ≤ 1024 * 1024 then 4 * 1024 * 1024
  else if count ≤ 64 * 1024 * 1024 then 64 * 1024 * 1024
  else count

/-- The three statements `block = block_list_insert_after(vinode, prev);
block->offset = offset; file_allocate_block_data(pfp, block, count, use);
block_cache_insert_block(vinode->blocks, block)` shared by the four allocating
branches of `vinode_allocate_interval`; `trim` is the size the new descriptor
is cut down to afterwards (only the branch for a hole between two blocks does
that).  Returns the new state and the pointer to the new descriptor. -/
def allocate_block (cfg : config) (v : pmemfile_vinode) (prev : Option Nat)
    (offset count : Nat) (use_usable_size : Bool) (trim : Option Nat) :
    Option (pmemfile_vinode × Nat) :=
  let slot : pmemfile_block :=
    { addr := fresh_addr v.chain, offset := offset, size := 0, flags := 0, data := cfg.fresh }
  match file_allocate_block_data cfg slot count use_usable_size with
  | none => none
  | some nb =>
    let nb1 : pmemfile_block :=
      match trim with
      | some hole_count => if nb.size > hole_count then { nb with size := u32 hole_count } else nb
      | none => nb
    some ({ v with
              chain := block_list_insert_after v.chain prev nb1
              blocks := v.blocks.map (fun c => block_cache_insert_block c nb) },
          nb.addr)

/-- The `do ... while (size > 0)` loop of source `vinode_allocate_interval`;
the first argument bounds the number of iterations. -/
def vinode_allocate_interval_loop (cfg : config) (over : Bool) :
    Nat → pmemfile_vinode → Option Nat → Nat → Nat → Option pmemfile_vinode
  | 0, _, _, _, _ => none
  | fuel + 1, v, block, offset, size =>
    let again := fun (v1 : pmemfile_vinode) (block1 : Option Nat) (offset1 size1 : Nat) =>
      if size1 > 0 then vinode_allocate_interval_loop cfg over fuel v1 block1 offset1 size1
      else some v1
    match block with
    | none =>
      match v.chain.head? with
      | none =>
        /- File size is zero -/
        match allocate_block cfg v none offset size over none with
        | none => none
        | some (v1, p1) => again v1 (some p1) offset size
      | some first =>
        /- In a hole before the first block -/
        let first_offset := first.offset
        let count :=
          if u64 (offset + size) > first_offset then u32 (sub64 first_offset offset) else size
        match allocate_block cfg v none offset count false none with
        | none => none
        | some (v1, p1) => again v1 (some p1) offset size
    | some p =>
      match block_deref v.chain p with
      | none => none
      | some b =>
        if is_offset_in_block (some b) offset then
          /- Not in a hole -/
          let available := sub64 b.size (sub64 offset b.offset)
          if available ≥ size then some v
          else again v block (u64 (offset + available)) (sub64 size available)
        else
          match block_next v.chain p with
          | none =>
            /- After the last allocated block -/
            match allocate_block cfg v (some p) offset size over none with
            | none => none
            | some (v1, p1) => again v1 (some p1) offset size
          | some q =>
            /- In a hole between two allocated blocks -/
            match block_deref v.chain q with
            | none => none
            | some next =>
              let hole_count0 := sub64 next.offset offset
              let hole_count := if hole_count0 > size then size else hole_count0
              if hole_count > 0 then
                match allocate_block cfg v (some p) offset hole_count false (some hole_count) with
                | none => none
                | some (v1, p1) => again v1 (some p1) offset size
              else again v (some q) offset size

/-- Source `vinode_allocate_interval`.  The loop is given `2 * size + 2`
iterations, `size` being the length after rounding to pages. -/
def vinode_allocate_interval (cfg : config) (v : pmemfile_vinode) (offset size : Nat) :
    Option pmemfile_vinode :=
  match v.blocks with
  | none => none
  | some c =>
    if size = 0 ∨ ¬ (u64 (offset + size) > offset) then none
    else
      match (if cfg.pmemfile_overallocate_on_append then is_append v c offset size
             else some false) with
      | none => none
      | some over =>
        let size1 := if over then overallocate_size size else size
        let r := expand_to_full_pages offset size1
        vinode_allocate_interval_loop cfg over (2 * r.2 + 2) v (find_block c r.1) r.1 r.2

/-! ## Reading and writing block ranges -/

/-- Source `find_following_block`. -/
def find_following_block (v : pmemfile_vinode) (block : Option Nat) : Option Nat :=
  match block with
  | some p => block_next v.chain p
  | none => v.chain.head?.map (fun b => b.addr)

inductive cpy_direction where
  | read_from_blocks
  | write_to_blocks
deriving DecidableEq, Repr

/-- Source `read_block_range`: the `len` bytes that are copied to the caller. -/
def read_block_range (block : Option pmemfile_block) (offset len : Nat) :
    Option (List Nat) :=
  if len = 0 then none
  else
    match block with
    | none => some (List.replicate len 0)
    | some b =>
      if ¬ (offset < b.size ∧ u64 (offset + len) ≤ b.size) then none
      else if is_block_data_initialized b then
        some ((List.range len).map (fun i => b.data (offset + i)))
      else some (List.replicate len 0)

/-- Source `write_block_range`: the descriptor after `len` bytes of `buf` were
copied to position `offset` of its data. -/
def write_block_range (block : pmemfile_block) (offset len : Nat) (buf : List Nat) :
    Option pmemfile_block :=
  if len = 0 ∨ ¬ (offset < block.size ∧ u64 (offset + len) ≤ block.size) then none
  else
    let block1 : pmemfile_block :=
      if ¬ is_block_data_initialized block then
        { block with
            data := fun i =>
              if i < offset then 0
              else if offset + len ≤ i ∧ i < block.size then 0
              else block.data i
            flags := block.flags ||| BLOCK_INITIALIZED }
      else block
    some { block1 with
             data := fun i =>
               if offset ≤ i ∧ i < offset + len then buf.getD (i - offset) 0
               else block1.data i }

/-- Source `file_find_block`: the block found and the handle with its updated
pointer cache. -/
def file_find_block (v : pmemfile_vinode) (file : pmemfile_file) (offset : Nat) :
    Option (Option Nat × pmemfile_file) :=
  match v.blocks with
  | none => none
  | some c =>
    let by_tree : Option (Option Nat × pmemfile_file) :=
      match find_block c offset with
      | some p => some (some p, { file with block_pointer_cache := some p })
      | none => some (none, file)
    match file.block_pointer_cache with
    | none => by_tree
    | some p =>
      match block_deref v.chain p with
      | none => none
      | some b => if is_offset_in_block (some b) offset then some (some p, file) else by_tree

/-- The `while (len > 0)` loop of source `iterate_on_file_range`.  When reading,
`buf` is what has been copied to the caller so far; when writing, it is the
part of the caller's buffer that is still to be copied.  The first argument
bounds the number of iterations. -/
def iterate_on_file_range_loop (dir : cpy_direction) :
    Nat → pmemfile_vinode → pmemfile_file → Option Nat → Nat → Nat → List Nat →
    Option (pmemfile_vinode × pmemfile_file × List Nat)
  | fuel, v, file, block, offset, len, buf =>
    if len = 0 then some (v, file, buf)
    else
      match fuel with
      | 0 => none
      | fuel + 1 =>
        if block = none ∧ dir ≠ cpy_direction.read_from_blocks then none
        else
          let file1 : pmemfile_file :=
            match block with
            | some p => { file with block_pointer_cache := some p }
            | none => file
          let cur : Option (Option pmemfile_block) :=
            match block with
            | none => some none
            | some p => (block_deref v.chain p).map some
          match cur with
          | none => none
          | some b? =>
            if ¬ is_offset_in_block b? offset then
              if dir ≠ cpy_direction.read_from_blocks then none
              else
                let next_block := find_following_block v block
                let step : Option (Nat × Option Nat) :=
                  match next_block with
                  | none => some (len, block)
                  | some q =>
                    match block_deref v.chain q with
                    | none => none
                    | some nb =>
                      let hole_end := sub64 nb.offset offset
                      some (if hole_end < len then hole_end else len, next_block)
                match step with
                | none => none
                | some (read_hole_count, block1) =>
                  match read_block_range none 0 read_hole_count with
                  | none => none
                  | some zeros =>
                    iterate_on_file_range_loop dir fuel v file1 block1
                      (u64 (offset + read_hole_count)) (len - read_hole_count) (buf ++ zeros)
            else
              match block, b? with
              | some p, some b =>
                let in_block_start := sub64 offset b.offset
                let in_block_len0 := sub64 b.size in_block_start
                let in_block_len := if len < in_block_len0 then len else in_block_len0
                if ¬ (in_block_start < b.size ∧ u64 (in_block_start + in_block_len) ≤ b.size) then
                  none
                else
                  match dir with
                  | cpy_direction.read_from_blocks =>
                    match read_block_range (some b) in_block_start in_block_len with
                    | none => none
                    | some bytes =>
                      iterate_on_file_range_loop dir fuel v file1 (block_next v.chain p)
                        (u64 (offset + in_block_len)) (len - in_block_len) (buf ++ bytes)
                  | cpy_direction.write_to_blocks =>
                    match write_block_range b in_block_start in_block_len buf with
                    | none => none
                    | some b1 =>
                      iterate_on_file_range_loop dir fuel
                        { v with chain := block_update v.chain p (fun _ => b1) } file1
                        (block_next v.chain p)
                        (u64 (offset + in_block_len)) (len - in_block_len)
                        (buf.drop in_block_len)
              | _, _ => none

/-- Source `iterate_on_file_range`; the loop is given `len` iterations. -/
def iterate_on_file_range (v : pmemfile_vinode) (file : pmemfile_file)
    (offset len : Nat) (buf : List Nat) (dir : cpy_direction) :
    Option (pmemfile_vinode × pmemfile_file × List Nat) :=
  match file_find_block v file offset with
  | none => none
  | some (block, file1) => iterate_on_file_range_loop dir len v file1 block offset len buf

/-- Source `file_write`. -/
def file_write (cfg : config) (v : pmemfile_vinode) (file : pmemfile_file)
    (buf : List Nat) (count : Nat) : Option (pmemfile_vinode × pmemfile_file) :=
  if count = 0 then none
  else
    match vinode_allocate_interval cfg v file.offset count with
    | none => none
    | some v1 =>
      let original_size := v1.inode.size
      let new_size :=
        if u64 (file.offset + count) > original_size then u64 (file.offset + count)
        else original_size
      match iterate_on_file_range v1 file file.offset count buf
          cpy_direction.write_to_blocks with
      | none => none
      | some (v2, file2, _) =>
        if new_size ≠ original_size then
          some ({ v2 with inode := { v2.inode with size := new_size } }, file2)
        else some (v2, file2)

/-- Source `pmemfile_write_locked` (and `pmemfile_write`, which only adds the
handle mutex): the return value (`Except.error e` is `-1` with `errno = e`),
the file and the handle afterwards.  `now` is the value of `file_get_time`. -/
def pmemfile_write (cfg : config) (now : pmemfile_time) (v : pmemfile_vinode)
    (file : pmemfile_file) (buf : List Nat) (count : Nat) :
    Option (Except Nat Nat × pmemfile_vinode × pmemfile_file) :=
  if ¬ vinode_is_regular_file v then some (Except.error EINVAL, v, file)
  else if file.flags &&& PFILE_WRITE = 0 then some (Except.error EBADF, v, file)
  else
    let count1 := if count > SSIZE_MAX then SSIZE_MAX else count
    let count2 :=
      if u64 (file.offset + count1) < file.offset then SIZE_MAX - file.offset else count1
    if count2 = 0 then some (Except.ok 0, v, file)
    else
      let v1 := if v.blocks.isNone then vinode_rebuild_block_tree v else v
      let file1 : pmemfile_file :=
        if file.flags &&& PFILE_APPEND ≠ 0 then { file with offset := v1.inode.size }
        else file
      match file_write cfg v1 file1 buf count2 with
      | none => none
      | some (v2, file2) =>
        some (Except.ok count2,
              { v2 with inode := { v2.inode with mtime := now } },
              { file2 with offset := u64 (file2.offset + count2) })

/-- Source `file_read`: the number of bytes read, the handle afterwards and
the bytes copied to the caller. -/
def file_read (v : pmemfile_vinode) (file : pmemfile_file) (count : Nat) :
    Option (Nat × pmemfile_file × List Nat) :=
  let size := v.inode.size
  if file.offset ≥ size then some (0, file, [])
  else
    let count1 := if size - file.offset < count then size - file.offset else count
    match iterate_on_file_range v file file.offset count1 [] cpy_direction.read_from_blocks with
    | none => none
    | some (_, file1, bytes) => some (count1, file1, bytes)

/-- Source `time_cmp`. -/
def time_cmp (t1 t2 : pmemfile_time) : Int :=
  if t1.sec < t2.sec then -1
  else if t1.sec > t2.sec then 1
  else if t1.nsec < t2.nsec then -1
  else if t1.nsec > t2.nsec then 1
  else 0

/-- Source `pmemfile_read_locked` of data.c (and `pmemfile_read`, which only
adds the handle mutex): the return value, the file and the handle afterwards,
and the bytes copied to the caller. -/
def pmemfile_read (now : pmemfile_time) (v : pmemfile_vinode) (file : pmemfile_file)
    (count : Nat) : Option (Except Nat Nat × pmemfile_vinode × pmemfile_file × List Nat) :=
  if ¬ vinode_is_regular_file v then some (Except.error EINVAL, v, file, [])
  else if file.flags &&& PFILE_READ = 0 then some (Except.error EBADF, v, file, [])
  else
    let count1 := if count > SSIZE_MAX then SSIZE_MAX else count
    let v1 := if v.blocks.isNone then vinode_rebuild_block_tree v else v
    match file_read v1 file count1 with
    | none => none
    | some (bytes_read, file1, bytes) =>
      let tm1d : pmemfile_time := { sec := now.sec - 86400, nsec := now.nsec }
      let update_atime :=
        decide (file.flags &&& PFILE_NOATIME = 0) &&
          (decide (time_cmp v1.inode.atime tm1d < 0) ||
           decide (time_cmp v1.inode.atime v1.inode.ctime < 0) ||
           decide (time_cmp v1.inode.atime v1.inode.mtime < 0))
      let v2 : pmemfile_vinode :=
        if update_atime then { v1 with inode := { v1.inode with atime := now } } else v1
      some (Except.ok bytes_read, v2,
            { file1 with offset := u64 (file1.offset + bytes_read) }, bytes)

/-! ## Removing an interval, truncation, fallocate -/

/-- Source `is_block_contained_by_interval`. -/
def is_block_contained_by_interval (block : pmemfile_block) (start len : Nat) : Bool :=
  decide (block.offset ≥ start) &&
    decide (u64 (block.offset + block.size) ≤ u64 (start + len))

/-- Source `is_interval_contained_by_block`. -/
def is_interval_contained_by_block (block : pmemfile_block) (start len : Nat) : Bool :=
  decide (block.offset < start) &&
    decide (u64 (block.offset + block.size) > u64 (start + len))

/-- Source `is_block_at_right_edge` (its `ASSERT` repeats the test that the
caller has just made). -/
def is_block_at_right_edge (block : pmemfile_block) (start len : Nat) : Bool :=
  decide (u64 (block.offset + block.size) > u64 (start + len))

/-- The effect of `memset(D_RW(block->data) + from_, 0, n)`. -/
def zero_block_data (block : pmemfile_block) (from_ n : Nat) : pmemfile_block :=
  { block with data := fun i => if from_ ≤ i ∧ i < from_ + n then 0 else block.data i }

/-- The `while` loop of source `vinode_remove_interval`; the first argument
bounds the number of iterations. -/
def vinode_remove_interval_loop :
    Nat → pmemfile_vinode → Option Nat → Nat → Nat → Option pmemfile_vinode
  | 0, _, _, _, _ => none
  | fuel + 1, v, block, offset, len =>
    match block with
    | none => some v
    | some p =>
      match block_deref v.chain p with
      | none => none
      | some b =>
        if ¬ (u64 (b.offset + b.size) > offset) then some v
        else if is_block_contained_by_interval b offset len then
          let r := block_list_remove v.chain p
          vinode_remove_interval_loop fuel
            { v with
                chain := r.1
                blocks := v.blocks.map (fun c => ctree_remove_unlocked c b.offset) }
            r.2 offset len
        else if is_interval_contained_by_block b offset len then
          if is_block_data_initialized b then
            some { v with
                     chain := block_update v.chain p
                       (fun b0 => zero_block_data b0 (sub64 offset b.offset) len) }
          else some v
        else if is_block_at_right_edge b offset len then
          let v1 : pmemfile_vinode :=
            if is_block_data_initialized b then
              { v with
                  chain := block_update v.chain p
                    (fun b0 => zero_block_data b0 0 (sub64 (u64 (offset + len)) b.offset)) }
            else v
          vinode_remove_interval_loop fuel v1 (block_prev v.chain p) offset len
        else
          let v1 : pmemfile_vinode :=
            if is_block_data_initialized b then
              let block_offset := sub64 offset b.offset
              let zero_len := sub64 b.size block_offset
              { v with
                  chain := block_update v.chain p
                    (fun b0 => zero_block_data b0 block_offset zero_len) }
            else v
          vinode_remove_interval_loop fuel v1 (block_prev v.chain p) offset len

/-- Source `vinode_remove_interval`.  The loop is given one iteration for each
descriptor of the chain, and one more. -/
def vinode_remove_interval (v : pmemfile_vinode) (offset len : Nat) :
    Option pmemfile_vinode :=
  if len = 0 then none
  else
    match v.blocks with
    | none => none
    | some c =>
      vinode_remove_interval_loop (v.chain.length + 1) v
        (find_block c (u64 (offset + len - 1))) offset len

/-- Source `vinode_truncate`; `now` is the value of `file_get_time`. -/
def vinode_truncate (cfg : config) (now : pmemfile_time) (v : pmemfile_vinode)
    (size : Nat) : Option pmemfile_vinode :=
  let v0 := if v.blocks.isNone then vinode_rebuild_block_tree v else v
  match vinode_remove_interval v0 size (UINT64_MAX - size) with
  | none => none
  | some v1 =>
    match (if v1.inode.size < size then
             vinode_allocate_interval cfg v1 v1.inode.size (size - v1.inode.size)
           else some v1) with
    | none => none
    | some v2 =>
      if v2.inode.size ≠ size then
        some { v2 with inode := { v2.inode with size := size, mtime := now } }
      else some v2

/-- Source `vinode_fallocate`: the error code returned and the file
afterwards. -/
def vinode_fallocate (cfg : config) (v : pmemfile_vinode) (mode offset length : Nat) :
    Option (Nat × pmemfile_vinode) :=
  if ¬ vinode_is_regular_file v then some (EBADF, v)
  else
    let off_plus_len := u64 (offset + length)
    let r :=
      if mode &&& PMEMFILE_FL_PUNCH_HOLE ≠ 0 then narrow_to_full_pages offset length
      else expand_to_full_pages offset length
    if r.2 = 0 then some (0, v)
    else
      let v0 := if v.blocks.isNone then vinode_rebuild_block_tree v else v
      if mode &&& PMEMFILE_FL_PUNCH_HOLE ≠ 0 then
        if mode &&& PMEMFILE_FL_KEEP_SIZE = 0 then none
        else (vinode_remove_interval v0 r.1 r.2).map (fun v1 => (0, v1))
      else
        match vinode_allocate_interval cfg v0 r.1 r.2 with
        | none => none
        | some v1 =>
          if mode &&& PMEMFILE_FL_KEEP_SIZE = 0 ∧ v1.inode.size < off_plus_len then
            some (0, { v1 with inode := { v1.inode with size := off_plus_len } })
          else some (0, v1)

/-! ## The read entry points of read.c -/

/-- Source `vinode_read` of read.c: the number of bytes read.  The copy itself
is made by a later revision of `iterate_on_file_range` that is not under
`src/`; it does not influence the count. -/
def vinode_read (v : pmemfile_vinode) (offset count : Nat) : Nat :=
  let size := v.inode.size
  if offset ≥ size then 0
  else if size - offset < count then size - offset else count

/-- The loop over the `iov` array in source `pmemfile_preadv_internal`: `ret`
and `offset` after the entries `iov` (their lengths) have been processed. -/
def pmemfile_preadv_loop (v : pmemfile_vinode) : List Nat → Nat → Nat → Nat × Nat
  | [], ret, offset => (ret, offset)
  | iov_len :: rest, ret, offset =>
    let len := if u64 (ret + iov_len) > SSIZE_MAX then SSIZE_MAX - ret else iov_len
    let bytes_read := vinode_read v offset len
    if bytes_read ≠ len then (ret + bytes_read, u64 (offset + bytes_read))
    else pmemfile_preadv_loop v rest (ret + bytes_read) (u64 (offset + bytes_read))

/-- Source `pmemfile_preadv_internal` for an `iov` array without `NULL`
entries, given by the lengths of its buffers: the return value and the inode
afterwards. -/
def pmemfile_preadv_internal (now : pmemfile_time) (v : pmemfile_vinode)
    (file_flags offset : Nat) (iov : List Nat) : Except Nat Nat × pmemfile_vinode :=
  if ¬ vinode_is_regular_file v then (Except.error EINVAL, v)
  else if file_flags &&& PFILE_READ = 0 then (Except.error EBADF, v)
  else if iov.length = 0 then (Except.ok 0, v)
  else
    let ret := (pmemfile_preadv_loop v iov 0 offset).1
    let tm1d : pmemfile_time := { sec := now.sec - 86400, nsec := now.nsec }
    let update_atime :=
      decide (file_flags &&& PFILE_NOATIME = 0) &&
        (decide (time_cmp v.inode.atime tm1d < 0) ||
         decide (time_cmp v.inode.atime v.inode.ctime < 0) ||
         decide (time_cmp v.inode.atime v.inode.mtime < 0))
    (Except.ok ret,
     if update_atime then { v with inode := { v.inode with atime := now } } else v)

/-- Source `pmemfile_readv` of read.c: the return value, the inode and the
handle afterwards. -/
def pmemfile_readv (now : pmemfile_time) (v : pmemfile_vinode) (file : pmemfile_file)
    (iov : List Nat) : Except Nat Nat × pmemfile_vinode × pmemfile_file :=
  match pmemfile_preadv_internal now v file.flags file.offset iov with
  | (Except.ok ret, v1) => (Except.ok ret, v1, { file with offset := u64 (file.offset + ret) })
  | (Except.error e, v1) => (Except.error e, v1, file)

/-- Source `pmemfile_read` of read.c: a `readv` with a single buffer. -/
def pmemfile_read_v (now : pmemfile_time) (v : pmemfile_vinode) (file : pmemfile_file)
    (count : Nat) : Except Nat Nat × pmemfile_vinode × pmemfile_file :=
  pmemfile_readv now v file [count]

/-! ## lseek -/

/-- Constants of headers that are not under `src/`: the handle flag of a
path-only handle, the directory type bits, the `whence` values and two errno
numbers, with the values of the library headers and of Linux. -/
def PFILE_PATH : Nat := 16

def PMEMFILE_S_IFDIR : Nat := 0o040000

def PMEMFILE_SEEK_SET : Int := 0

def PMEMFILE_SEEK_CUR : Int := 1

def PMEMFILE_SEEK_END : Int := 2

def PMEMFILE_SEEK_DATA : Int := 3

def PMEMFILE_SEEK_HOLE : Int := 4

def ENXIO : Nat := 6

def EOVERFLOW : Nat := 75

/-- Value of an expression of type `pmemfile_off_t` (`int64_t`): two's
complement wrap-around. -/
def s64 (n : Int) : Int := (n + 2 ^ 63) % 2 ^ 64 - 2 ^ 63

/-- Value of a cast of a signed value to `uint64_t` or `size_t`. -/
def u64_of_int (n : Int) : Nat := (n % 2 ^ 64).toNat

/-- Modelled from the spec: `vinode_is_dir` (inode.h is not under `src/`)
decodes the inode type from the mode bits. -/
def vinode_is_dir (v : pmemfile_vinode) : Bool :=
  v.inode.flags &&& PMEMFILE_S_IFMT == PMEMFILE_S_IFDIR

/-- Source `lseek_seek_data`: the offset found and the file (whose index may
have been rebuilt). -/
def lseek_seek_data (v : pmemfile_vinode) (offset fsize : Int) :
    Option (Int × pmemfile_vinode) :=
  let v1 := if v.blocks.isNone then vinode_rebuild_block_tree v else v
  match v1.blocks with
  | none => none
  | some c =>
    match find_block c (u64_of_int offset) with
    | none =>
      /- offset is before the first block -/
      match v1.chain.head? with
      | none => some (fsize, v1)
      | some first => some (s64 first.offset, v1)
    | some p =>
      match block_deref v1.chain p with
      | none => none
      | some b =>
        if is_offset_in_block (some b) (u64_of_int offset) then some (offset, v1)
        else
          match block_next v1.chain p with
          | none => some (fsize, v1)
          | some q =>
            match block_deref v1.chain q with
            | none => none
            | some nb => some (s64 nb.offset, v1)

/-- The `while` loop of source `lseek_seek_hole`; the first argument bounds the
number of iterations. -/
def lseek_seek_hole_loop (chain : List pmemfile_block) :
    Nat → Option Nat → Int → Int → Option Int
  | 0, _, _, _ => none
  | fuel + 1, block, offset, fsize =>
    match block with
    | none => some offset
    | some p =>
      if ¬ (offset < fsize) then some offset
      else
        match block_deref chain p with
        | none => none
        | some b =>
          let block_end := s64 (s64 b.offset + b.size)
          let next := block_next chain p
          let offset1 := if block_end ≥ offset then block_end else offset
          match next with
          | none => some offset1
          | some q =>
            match block_deref chain q with
            | none => none
            | some nb =>
              if offset1 < s64 nb.offset then some offset1
              else lseek_seek_hole_loop chain fuel (some q) offset1 fsize

/-- Source `lseek_seek_hole`.  The loop is given one iteration for each
descriptor of the chain, and one more. -/
def lseek_seek_hole (v : pmemfile_vinode) (offset fsize : Int) :
    Option (Int × pmemfile_vinode) :=
  let v1 := if v.blocks.isNone then vinode_rebuild_block_tree v else v
  match v1.blocks with
  | none => none
  | some c =>
    (lseek_seek_hole_loop v1.chain (v1.chain.length + 1)
      (find_block c (u64_of_int offset)) offset fsize).map (fun r => (r, v1))

/-- Source `lseek_seek_data_or_hole`: the offset found, or the negated errno
number. -/
def lseek_seek_data_or_hole (v : pmemfile_vinode) (offset whence : Int) :
    Option (Int × pmemfile_vinode) :=
  let fsize := s64 v.inode.size
  if ¬ vinode_is_regular_file v then some (-(EBADF : Int), v)
  else if offset > fsize then some (-( ENXIO : Int), v)
  else
    let offset1 := if offset < 0 then 0 else offset
    let found :=
      if whence = PMEMFILE_SEEK_DATA then lseek_seek_data v offset1 fsize
      else if whence = PMEMFILE_SEEK_HOLE then lseek_seek_hole v offset1 fsize
      else none
    match found with
    | none => none
    | some (offset2, v1) => some (if offset2 > fsize then fsize else offset2, v1)

/-- Source `pmemfile_lseek_locked` (and `pmemfile_lseek`, which only adds the
handle mutex): the return value (`Except.error e` is `-1` with `errno = e`),
the file and the handle afterwards. -/
def pmemfile_lseek (v : pmemfile_vinode) (file : pmemfile_file) (offset whence : Int) :
    Option (Except Nat Int × pmemfile_vinode × pmemfile_file) :=
  if file.flags &&& PFILE_PATH ≠ 0 then some (Except.error EBADF, v, file)
  else if vinode_is_dir v ∧ whence = PMEMFILE_SEEK_END then
    some (Except.error EINVAL, v, file)
  else if ¬ vinode_is_dir v ∧ ¬ vinode_is_regular_file v then
    some (Except.error EINVAL, v, file)
  else
    let r : Option (Int × Nat × pmemfile_vinode) :=
      if whence = PMEMFILE_SEEK_SET then some (offset, EINVAL, v)
      else if whence = PMEMFILE_SEEK_CUR then
        let ret := s64 (s64 file.offset + offset)
        some (ret, if ret < 0 then (if offset < 0 then EINVAL else EOVERFLOW) else EINVAL, v)
      else if whence = PMEMFILE_SEEK_END then
        let ret := s64 (s64 v.inode.size + offset)
        some (ret, if ret < 0 then (if offset < 0 then EINVAL else EOVERFLOW) else EINVAL, v)
      else if whence = PMEMFILE_SEEK_DATA ∨ whence = PMEMFILE_SEEK_HOLE then
        match lseek_seek_data_or_hole v offset whence with
        | none => none
        | some (ret, v1) =>
          if ret < 0 then some (-1, (-ret).toNat, v1) else some (ret, EINVAL, v1)
      else some (-1, EINVAL, v)
    match r with
    | none => none
    | some (ret, new_errno, v1) =>
      if ret < 0 then some (Except.error new_errno, v1, file)
      else some (Except.ok ret, v1, { file with offset := u64_of_int ret })

/-- Order of two time stamps: lexicographic on `(sec, nsec)`. -/
def time_lt (t1 t2 : pmemfile_time) : Prop :=
  t1.sec < t2.sec ∨ (t1.sec = t2.sec ∧ t1.nsec < t2.nsec)

instance (t1 t2 : pmemfile_time) : Decidable (time_lt t1 t2) := by
  unfold time_lt; infer_instance

/-! ## Well-formed files -/

/-- What the allocation code establishes for every descriptor it links: a
positive size, page alignment of offset and size, an end below `2 ^ 64`, and a
size that fits the `uint32_t` field. -/
def block_ok (b : pmemfile_block) : Prop :=
  0 < b.size ∧ b.offset % FILE_PAGE_SIZE = 0 ∧ b.size % FILE_PAGE_SIZE = 0 ∧
    b.offset + b.size < 2 ^ 64 ∧ b.size < 2 ^ 32

instance (b : pmemfile_block) : Decidable (block_ok b) := by
  unfold block_ok; infer_instance

/-- The chain is sorted by offset with pairwise disjoint ranges, no descriptor
is linked twice, and every descriptor is `block_ok`. -/
def chain_wf (chain : List pmemfile_block) : Prop :=
  chain.Pairwise (fun a b => a.offset + a.size ≤ b.offset) ∧
    (chain.map (fun b => b.addr)).Nodup ∧ ∀ b ∈ chain, block_ok b

instance (chain : List pmemfile_block) : Decidable (chain_wf chain) := by
  unfold chain_wf; infer_instance

/-- The index holds exactly the pairs `(block->offset, block)` of the chain. -/
def index_ok (chain : List pmemfile_block) (c : List (Nat × Nat)) : Prop :=
  (∀ e ∈ c, ∃ b ∈ chain, b.offset = e.1 ∧ b.addr = e.2) ∧
    ∀ b ∈ chain, (b.offset, b.addr) ∈ c

instance (chain : List pmemfile_block) (c : List (Nat × Nat)) :
    Decidable (index_ok chain c) := by
  unfold index_ok; infer_instance

/-- A regular file in a consistent state: a well-formed chain, an index (when
it is built) that reflects the chain, and a size that fits `uint64_t`. -/
def vinode_wf (v : pmemfile_vinode) : Prop :=
  chain_wf v.chain ∧ (∀ c, v.blocks = some c → index_ok v.chain c) ∧ v.inode.size < 2 ^ 64

/-- The pointer cache of the handle is `NULL` or points to a descriptor of the
file. -/
def cache_ok (v : pmemfile_vinode) (file : pmemfile_file) : Prop :=
  ∀ p, file.block_pointer_cache = some p → ∃ b ∈ v.chain, b.addr = p

/-- The knobs for which the allocation code keeps the chain sorted: no forced
block size other than one page, and a maximal block size that is a positive
multiple of the page size and fits `uint32_t`. -/
def config_ok (cfg : config) : Prop :=
  cfg.pmemfile_posix_block_size ≤ FILE_PAGE_SIZE ∧ 0 < cfg.MAX_BLOCK_SIZE ∧
    cfg.MAX_BLOCK_SIZE < 2 ^ 32 ∧ cfg.MAX_BLOCK_SIZE % FILE_PAGE_SIZE = 0

instance (cfg : config) : Decidable (config_ok cfg) := by
  unfold config_ok; infer_instance

/-- The two chains link the same descriptors with the same offsets and sizes;
only flags and data may differ. -/
def same_layout (c1 c2 : List pmemfile_block) : Prop :=
  c1.map (fun b => (b.addr, b.offset, b.size)) = c2.map (fun b => (b.addr, b.offset, b.size))

/-- Every file position of `[offset, offset + len)` lies in some descriptor. -/
def covered (chain : List pmemfile_block) (offset len : Nat) : Prop :=
  ∀ pos, offset ≤ pos → pos < offset + len →
    ∃ b ∈ chain, b.offset ≤ pos ∧ pos < b.offset + b.size

/-- The descriptor of the chain whose range holds the file position `pos`. -/
def covering (chain : List pmemfile_block) (pos : Nat) : Option pmemfile_block :=
  chain.find? (fun b => decide (b.offset ≤ pos) && decide (pos < b.offset + b.size))

/-- The byte stored for the file position `pos`: the data byte of the
initialised block that covers it, and zero in a hole or in a block that is not
initialised. -/
def content (chain : List pmemfile_block) (pos : Nat) : Nat :=
  match covering chain pos with
  | some b => if is_block_data_initialized b then b.data (pos - b.offset) else 0
  | none => 0

/-- The bytes that `iterate_on_file_range` copies to the caller when `count`
bytes are read at `pos` through the handle `file`. -/
def read_at (v : pmemfile_vinode) (file : pmemfile_file) (pos count : Nat) :
    Option (List Nat) :=
  (iterate_on_file_range v file pos count [] cpy_direction.read_from_blocks).map
    (fun r => r.2.2)

/-- What the `ASSERT`s of `file_allocate_block_data` ask of the environment:
a forced block size is a multiple of the page size, and the allocator never
reports a usable size below the requested one. -/
def alloc_ok (cfg : config) : Prop :=
  cfg.pmemfile_posix_block_size % FILE_PAGE_SIZE = 0 ∧ ∀ n, n ≤ cfg.usable_size n

/-- What the read loop of `iterate_on_file_range` knows about its block pointer
at the start of an iteration: a `NULL` pointer comes with an offset at which no
descriptor starts; any other pointer is to a descriptor that holds the offset,
or one after which every descriptor starts beyond the offset. -/
def read_inv (chain : List pmemfile_block) (block : Option Nat) (offset : Nat) : Prop :=
  match block with
  | none => ∀ a ∈ chain, a.offset ≠ offset
  | some p => ∃ b ∈ chain, b.addr = p ∧
      ((b.offset ≤ offset ∧ offset < b.offset + b.size) ∨
       (∀ a ∈ chain, b.offset < a.offset → offset < a.offset))

/-! ## Example states -/

/-- The default knobs: no forced block size, no over-allocation, the maximal
block size of the library, an allocator without slack. -/
def ex_cfg : config :=
  { pmemfile_posix_block_size := 0, pmemfile_overallocate_on_append := false,
    MAX_BLOCK_SIZE := 2 ^ 32 - 4096, usable_size := fun n => n, fresh := fun _ => 0x66 }

def ex_time : pmemfile_time := { sec := 0, nsec := 0 }

def ex_later : pmemfile_time := { sec := 100, nsec := 0 }

/-- A newly created regular file with mode 0600. -/
def ex_empty : pmemfile_vinode :=
  { inode := { flags := 0o100600, size := 0, atime := ex_time, ctime := ex_time,
               mtime := ex_time },
    chain := [], blocks := none }

/-- A handle opened for reading and writing. -/
def ex_file : pmemfile_file := { offset := 0, flags := 3, block_pointer_cache := none }

/-- A handle opened for reading and writing with `O_APPEND`. -/
def ex_file_append : pmemfile_file :=
  { offset := 77, flags := 11, block_pointer_cache := none }

def ex_hello : List Nat := [104, 101, 108, 108, 111]

/-- The file after `"hello"` was written to the empty file. -/
def ex_hello_written : pmemfile_vinode :=
  ((pmemfile_write ex_cfg ex_time ex_empty ex_file ex_hello 5).map (fun r => r.2.1)).getD
    ex_empty

/-- The handle after `"hello"` was written to the empty file. -/
def ex_hello_handle : pmemfile_file :=
  ((pmemfile_write ex_cfg ex_time ex_empty ex_file ex_hello 5).map (fun r => r.2.2)).getD
    ex_file

/-- The file after `"hello"` was written to the empty file through the
`O_APPEND` handle (whose offset is 77). -/
def ex_appended : pmemfile_vinode :=
  ((pmemfile_write ex_cfg ex_time ex_empty ex_file_append ex_hello 5).map
    (fun r => r.2.1)).getD ex_empty

/-- The `O_APPEND` handle after that write. -/
def ex_appended_handle : pmemfile_file :=
  ((pmemfile_write ex_cfg ex_time ex_empty ex_file_append ex_hello 5).map
    (fun r => r.2.2)).getD ex_file

/-- A sparse file of size 8194: an initialised block filled with `65` at
`[0, 4096)`, a hole at `[4096, 8192)`, and an initialised block filled with
`66` at `[8192, 12288)`. -/
def ex_sparse : pmemfile_vinode :=
  { inode := { flags := 0o100600, size := 8194, atime := ex_time, ctime := ex_time,
               mtime := ex_time },
    chain := [{ addr := 1, offset := 0, size := 4096, flags := BLOCK_INITIALIZED,
                data := fun _ => 65 },
              { addr := 2, offset := 8192, size := 4096, flags := BLOCK_INITIALIZED,
                data := fun _ => 66 }],
    blocks := some [(0, 1), (8192, 2)] }

/-- An empty-sized file whose only block, one page that was never written,
starts at `2 ^ 32`. -/
def ex_far : pmemfile_vinode :=
  { inode := { flags := 0o100600, size := 0, atime := ex_time, ctime := ex_time,
               mtime := ex_time },
    chain := [{ addr := 1, offset := 2 ^ 32, size := 4096, flags := 0, data := fun _ => 0 }],
    blocks := some [(2 ^ 32, 1)] }

/-- The default knobs with a forced block size of two pages. -/
def ex_cfg_forced : config := { ex_cfg with pmemfile_posix_block_size := 8192 }

/-- A file of size 8192 whose only block, one page that was never written, is
its second page `[4096, 8192)`. -/
def ex_second_page : pmemfile_vinode :=
  { inode := { flags := 0o100600, size := 8192, atime := ex_time, ctime := ex_time,
               mtime := ex_time },
    chain := [{ addr := 1, offset := 4096, size := 4096, flags := 0, data := fun _ => 0 }],
    blocks := some [(4096, 1)] }

/-- Knobs with over-allocation on append and an allocator that reports one page
more than was asked for. -/
def ex_cfg_slack : config :=
  { ex_cfg with pmemfile_overallocate_on_append := true, usable_size := fun n => n + 4096 }

/-- The empty file `ex_empty` with its (empty) index built. -/
def ex_empty_indexed : pmemfile_vinode := { ex_empty with blocks := some [] }

/-! ## chmod.c -/

/-- Constants of chmod.c whose definitions are in headers that are not under
`src/`; the values are those of the library header, which are those of Linux. -/
def PMEMFILE_ALLPERMS : Nat := 0o7777

def PMEMFILE_S_ISGID : Nat := 0o2000

def PMEMFILE_CAP_FOWNER : Nat := 3

def PMEMFILE_CAP_FSETID : Nat := 4

def EPERM : Nat := 1

/-- The credentials `struct pmemfile_cred` that `cred_acquire` hands out. -/
structure pmemfile_cred where
  fsuid : Nat
  fsgid : Nat
  groups : List Nat
  caps : Nat

/-- Modelled from the spec: `gid_in_list` (creds.c is not under `src/`) tells
whether `gid` is one of the caller's supplementary groups. -/
def gid_in_list (cred : pmemfile_cred) (gid : Nat) : Bool :=
  cred.groups.contains gid

/-- The complement `~(uint64_t)x` of a value below `2 ^ 64`. -/
def not64 (x : Nat) : Nat := (2 ^ 64 - 1) ^^^ x

/-- Source `vinode_chmod`: the error code returned and the file afterwards; an
aborted transaction leaves the inode as it was.  `now` is what
`tx_get_current_time` reads. -/
def vinode_chmod (now : pmemfile_time) (cred : pmemfile_cred) (v : pmemfile_vinode)
    (mode : Nat) : Nat × pmemfile_vinode :=
  if v.inode.uid ≠ cred.fsuid ∧ cred.caps &&& (1 <<< PMEMFILE_CAP_FOWNER) = 0 then (EPERM, v)
  else
    let flags1 := (v.inode.flags &&& not64 PMEMFILE_ALLPERMS) ||| mode
    let flags2 :=
      if v.inode.gid ≠ cred.fsgid ∧ gid_in_list cred v.inode.gid = false ∧
          cred.caps &&& (1 <<< PMEMFILE_CAP_FSETID) = 0 then
        flags1 &&& not64 PMEMFILE_S_ISGID
      else flags1
    (0, { v with inode := { v.inode with ctime := now, flags := flags2 } })

/-! ## offset_mapping.c -/

def N_CHILDREN_POW : Nat := 4

def N_CHILDREN : Nat := 1 <<< N_CHILDREN_POW

/-- An entry `struct offset_map_entry` as offset_mapping.c uses it: `leaf c` has
`internal == false` and `child == c`, a block descriptor pointer or `NULL`;
`node cs` has `internal == true` and `child` pointing to the array `cs` of
`N_CHILDREN` entries. -/
inductive offset_map_entry where
  | leaf (child : Option Nat)
  | node (child : List offset_map_entry)

/-- The tree `struct offset_map`: the root entry and the range it covers. -/
structure offset_map where
  entry : offset_map_entry
  range : Nat

/-- The test `e->child == NULL`. -/
def offset_map_entry.child_is_null : offset_map_entry → Bool
  | .leaf none => true
  | _ => false

/-- Source `offset_map_new`; `MIN_BLOCK_SIZE` is defined in a header that is not
under `src/` and is a parameter here. -/
def offset_map_new (MIN_BLOCK_SIZE : Nat) : offset_map :=
  { entry := .leaf none, range := MIN_BLOCK_SIZE }

/-- Source `add_new_level`; the allocation succeeds. -/
def add_new_level (m : offset_map) : offset_map :=
  let range := u64 (m.range <<< N_CHILDREN_POW)
  if m.entry.child_is_null then { entry := .leaf none, range := range }
  else
    { entry := .node ((List.replicate N_CHILDREN (.leaf none)).set 0 m.entry), range := range }

/-- The first loop of source `block_find_closest`: descend while the entry is
internal.  Returns the array the final entry lies in (`none` while still at the
root), its index there, the entry and the range of the entry. -/
def find_entry : Nat → Option (List offset_map_entry) → Nat → offset_map_entry → Nat → Nat →
    Option (Option (List offset_map_entry) × Nat × offset_map_entry × Nat)
  | 0, _, _, _, _, _ => none
  | fuel + 1, children, idx, entry, offset, range =>
    match entry with
    | .leaf _ => some (children, idx, entry, range)
    | .node cs =>
      let range1 := range >>> N_CHILDREN_POW
      if range1 = 0 then none
      else
        match cs[offset / range1]? with
        | none => none
        | some e => find_entry fuel (some cs) (offset / range1) e (offset % range1) range1

/-- The loop "look for block in entries with lower offset" of source
`block_find_closest`, with `e = children + k - 1`.  The result is `some (some r)`
when the loop returns `r`, and `some none` when it ends without returning and
without having moved to another array. -/
def find_lower : Nat → List offset_map_entry → Nat → Bool → Option (Option (Option Nat))
  | 0, _, _, _ => none
  | fuel + 1, children, k, moved =>
    match k with
    | 0 => if moved then none else some none
    | k1 + 1 =>
      match children[k1]? with
      | none => none
      | some (.leaf none) => find_lower fuel children k1 moved
      | some (.leaf (some b)) => some (some (some b))
      | some (.node cs) => find_lower fuel cs N_CHILDREN true

/-- The loop "look for block in entries with higher offset" of source
`block_find_closest`, with `e = children + k`: the first block found gives its
`prev`; `NULL` when the loop ends. -/
def find_higher (chain : List pmemfile_block) :
    Nat → List offset_map_entry → Nat → Option (Option Nat)
  | 0, _, _ => none
  | fuel + 1, children, k =>
    if k < N_CHILDREN then
      match children[k]? with
      | none => none
      | some (.leaf none) => find_higher chain fuel children (k + 1)
      | some (.leaf (some b)) => some (block_prev chain b)
      | some (.node cs) => find_higher chain fuel cs 0
    else some none

/-- Number of iterations granted to the loops over the tree: the tree has at
most 16 levels of `N_CHILDREN` entries each. -/
def offset_map_fuel : Nat := 17 * (N_CHILDREN + 2)

/-- Source `block_find_closest`; `chain` holds the block descriptors, for the
read of `desc->prev`.  The outer `none` stands for undefined behaviour. -/
def block_find_closest (MIN_BLOCK_SIZE : Nat) (chain : List pmemfile_block) (m : offset_map)
    (offset : Nat) : Option (Option Nat) :=
  let offset1 := if offset ≥ m.range then sub64 m.range MIN_BLOCK_SIZE else offset
  match find_entry offset_map_fuel none 0 m.entry offset1 m.range with
  | none => none
  | some (children, idx, entry, range) =>
    match entry with
    | .node _ => none
    | .leaf (some b) => some (some b)
    | .leaf none =>
      if range = m.range then some none
      else
        match children with
        | none => none
        | some cs =>
          match find_lower offset_map_fuel cs idx false with
          | none => none
          | some (some r) => some r
          | some none => find_higher chain offset_map_fuel cs (idx + 1)

/-- Source `check_and_free_range`. -/
def check_and_free_range (entry : offset_map_entry) : offset_map_entry :=
  match entry with
  | .node cs => if (cs.take N_CHILDREN).all (fun e => e.child_is_null) then .leaf none else .node cs
  | .leaf c => .leaf c

/-- The `while (remaining > 0)` loop of source `set_range` over the array
`entries`, with `entry = entries + i`; the recursive call of `set_range` on the
child array is inlined as `entry += offset / range` followed by the loop.  The
allocation succeeds; `none` stands for undefined behaviour. -/
def set_range_loop (block : Option Nat) :
    Nat → List offset_map_entry → Nat → Nat → Nat → Nat → Option (List offset_map_entry)
  | 0, _, _, _, _, _ => none
  | fuel + 1, entries, i, offset, remaining, range =>
    if remaining = 0 then some entries
    else if range = 0 then none
    else
      match entries[i]? with
      | none => none
      | some e =>
        if offset % range = 0 ∧ remaining ≥ range then
          set_range_loop block fuel (entries.set i (.leaf block)) (i + 1) (offset + range)
            (remaining - range) range
        else
          let child : Option (List offset_map_entry) :=
            match e with
            | .leaf none => some (List.replicate N_CHILDREN (.leaf none))
            | .leaf (some _) => none
            | .node cs => some cs
          match child with
          | none => none
          | some cs =>
            let sub_offset := offset % range
            let sub_remaining :=
              if remaining < range - sub_offset then remaining else range - sub_offset
            let range1 := range >>> N_CHILDREN_POW
            if range1 = 0 then none
            else
              match set_range_loop block fuel cs (sub_offset / range1) sub_offset sub_remaining
                  range1 with
              | none => none
              | some cs1 =>
                let e1 := if block = none then check_and_free_range (.node cs1) else .node cs1
                set_range_loop block fuel (entries.set i e1) (i + 1) (offset + sub_remaining)
                  (remaining - sub_remaining) range

/-- Source `set_range` called on the root entry `&m->entry`. -/
def set_range (entry : offset_map_entry) (block : Option Nat) (offset remaining range : Nat) :
    Option offset_map_entry :=
  if range = 0 then none
  else
    match set_range_loop block offset_map_fuel [entry] (offset / range) offset remaining range with
    | some [e] => some e
    | _ => none

/-- The loop of source `insert_block` that adds levels until the block fits. -/
def insert_block_grow (block : pmemfile_block) : Nat → offset_map → Option offset_map
  | 0, _ => none
  | fuel + 1, m =>
    if m.range ≤ u64 (block.offset + block.size) then insert_block_grow block fuel (add_new_level m)
    else some m

/-- Source `insert_block`. -/
def insert_block (m : offset_map) (block : pmemfile_block) : Option offset_map :=
  match insert_block_grow block 64 m with
  | none => none
  | some m1 =>
    (set_range m1.entry (some block.addr) block.offset block.size m1.range).map
      (fun e => { m1 with entry := e })

/-- The clean-up loop of source `remove_block`. -/
def remove_block_shrink (MIN_BLOCK_SIZE : Nat) : Nat → offset_map → Option offset_map
  | 0, _ => none
  | fuel + 1, m =>
    if m.range > MIN_BLOCK_SIZE then
      match m.entry with
      | .leaf _ => remove_block_shrink MIN_BLOCK_SIZE fuel { m with range := MIN_BLOCK_SIZE }
      | .node child =>
        match child[0]? with
        | none => none
        | some (offset_map_entry.leaf _) => some m
        | some (offset_map_entry.node grandchild) =>
          if ((child.take N_CHILDREN).drop 1).all (fun e => e.child_is_null) then
            remove_block_shrink MIN_BLOCK_SIZE fuel
              { entry := .node grandchild, range := m.range >>> N_CHILDREN_POW }
          else some m
    else some m

/-- Source `remove_block`. -/
def remove_block (MIN_BLOCK_SIZE : Nat) (m : offset_map) (block : pmemfile_block) :
    Option offset_map :=
  match set_range m.entry none block.offset block.size m.range with
  | none => none
  | some e => remove_block_shrink MIN_BLOCK_SIZE 64 { m with entry := e }

/-! ## libpmemfile-core/file.c: open and rename -/

/-- Constants of file.c whose definitions are in headers that are not under
`src/`: the open flags and error numbers have the values of Linux, which the
library header copies. -/
def PMEMFILE_O_RDONLY : Nat := 0o0

def PMEMFILE_O_WRONLY : Nat := 0o1

def PMEMFILE_O_RDWR : Nat := 0o2

def PMEMFILE_O_ACCMODE : Nat := 0o3

def PMEMFILE_O_CREAT : Nat := 0o100

def PMEMFILE_O_EXCL : Nat := 0o200

def PMEMFILE_O_NOCTTY : Nat := 0o400

def PMEMFILE_O_TRUNC : Nat := 0o1000

def PMEMFILE_O_APPEND : Nat := 0o2000

def PMEMFILE_O_NONBLOCK : Nat := 0o4000

def PMEMFILE_O_DSYNC : Nat := 0o10000

def PMEMFILE_O_ASYNC : Nat := 0o20000

def PMEMFILE_O_DIRECT : Nat := 0o40000

def PMEMFILE_O_DIRECTORY : Nat := 0o200000

def PMEMFILE_O_NOFOLLOW : Nat := 0o400000

def PMEMFILE_O_NOATIME : Nat := 0o1000000

def PMEMFILE_O_CLOEXEC : Nat := 0o2000000

def PMEMFILE_O_SYNC : Nat := 0o4010000

def PMEMFILE_O_PATH : Nat := 0o10000000

def PMEMFILE_O_TMPFILE : Nat := 0o20200000

def ENOENT : Nat := 2

def EACCES : Nat := 13

def EEXIST : Nat := 17

def ENOTDIR : Nat := 20

def ELOOP : Nat := 40

def ENOTSUP : Nat := 95

/-- The value of `a & ~b`. -/
def and_not (a b : Nat) : Nat := a ^^^ (a &&& b)

/-- Source `is_tmpfile`. -/
def is_tmpfile (flags : Nat) : Bool :=
  flags &&& PMEMFILE_O_TMPFILE == PMEMFILE_O_TMPFILE

/-- Source `check_flags`: `0`, or `-1` with `errno` set to the error given. -/
def check_flags (flags : Nat) : Except Nat Unit :=
  let flags := if flags &&& PMEMFILE_O_APPEND ≠ 0 then and_not flags PMEMFILE_O_APPEND else flags
  if flags &&& PMEMFILE_O_ASYNC ≠ 0 then .error EINVAL
  else
    let flags := if flags &&& PMEMFILE_O_CREAT ≠ 0 then and_not flags PMEMFILE_O_CREAT else flags
    let flags :=
      if flags &&& PMEMFILE_O_CLOEXEC ≠ 0 then and_not flags PMEMFILE_O_CLOEXEC else flags
    let flags := if flags &&& PMEMFILE_O_DIRECT ≠ 0 then and_not flags PMEMFILE_O_DIRECT else flags
    let flags :=
      if flags &&& PMEMFILE_O_TMPFILE = PMEMFILE_O_TMPFILE then and_not flags PMEMFILE_O_TMPFILE
      else flags
    let flags :=
      if flags &&& PMEMFILE_O_DIRECTORY ≠ 0 then and_not flags PMEMFILE_O_DIRECTORY else flags
    let flags := if flags &&& PMEMFILE_O_DSYNC ≠ 0 then and_not flags PMEMFILE_O_DSYNC else flags
    let flags := if flags &&& PMEMFILE_O_EXCL ≠ 0 then and_not flags PMEMFILE_O_EXCL else flags
    let flags := if flags &&& PMEMFILE_O_NOCTTY ≠ 0 then and_not flags PMEMFILE_O_NOCTTY else flags
    let flags :=
      if flags &&& PMEMFILE_O_NOATIME ≠ 0 then and_not flags PMEMFILE_O_NOATIME else flags
    let flags :=
      if flags &&& PMEMFILE_O_NOFOLLOW ≠ 0 then and_not flags PMEMFILE_O_NOFOLLOW else flags
    let flags :=
      if flags &&& PMEMFILE_O_NONBLOCK ≠ 0 then and_not flags PMEMFILE_O_NONBLOCK else flags
    if flags &&& PMEMFILE_O_PATH ≠ 0 then .error EINVAL
    else
      let flags := if flags &&& PMEMFILE_O_SYNC ≠ 0 then and_not flags PMEMFILE_O_SYNC else flags
      let flags := if flags &&& PMEMFILE_O_TRUNC ≠ 0 then and_not flags PMEMFILE_O_TRUNC else flags
      let flags :=
        if flags &&& PMEMFILE_O_ACCMODE = PMEMFILE_O_RDONLY then flags - PMEMFILE_O_RDONLY
        else flags
      let flags :=
        if flags &&& PMEMFILE_O_ACCMODE = PMEMFILE_O_WRONLY then flags - PMEMFILE_O_WRONLY
        else flags
      let flags :=
        if flags &&& PMEMFILE_O_ACCMODE = PMEMFILE_O_RDWR then flags - PMEMFILE_O_RDWR else flags
      if flags ≠ 0 then .error EINVAL else .ok ()

/-- What `resolve_pathat` leaves in `struct pmemfile_path_info`: the vinode of
the deepest directory that was reached (`NULL` when the resolution failed) and
the part of the path that is left. -/
structure pmemfile_path_info where
  vinode : Option Nat
  remaining : List Char

/-- The functions of the pool that file.c calls and whose definitions are not
under `src/`; they are parameters.  Vinodes are named by their addresses. -/
structure PMEMfilepool where
  root : Nat
  vinode_is_dir : Nat → Bool
  vinode_is_regular_file : Nat → Bool
  vinode_is_symlink : Nat → Bool
  vinode_lookup_dirent : Nat → List Char → Nat → Option Nat
  resolve_symlink : Nat → pmemfile_path_info → pmemfile_path_info
  more_than_1_component : List Char → Bool
  component_length : List Char → Nat

/-- What the transaction of `_pmemfile_openat` did to the file system:
`create_file` allocated an inode with the given flags and linked it under
`name` in `parent` (or made it an orphan, for `O_TMPFILE`), or `open_file`
opened the vinode and perhaps truncated it. -/
inductive openat_effect where
  | created (parent : Nat) (name : List Char) (namelen : Nat) (inode_flags : Nat)
      (orphan : Bool)
  | opened (vinode : Nat) (truncated : Bool)

/-- Source `create_file`. -/
def create_file (filename : List Char) (namelen : Nat) (parent_vinode : Nat) (flags mode : Nat) :
    openat_effect :=
  .created parent_vinode filename namelen (PMEMFILE_S_IFREG ||| mode) (is_tmpfile flags)

/-- Source `open_file`: the error the transaction is aborted with, or whether
the file was truncated. -/
def open_file (pfp : PMEMfilepool) (vinode : Nat) (flags : Nat) : Except Nat Bool :=
  if flags &&& PMEMFILE_O_DIRECTORY ≠ 0 ∧ pfp.vinode_is_dir vinode = false then .error ENOTDIR
  else if flags &&& PMEMFILE_O_TRUNC ≠ 0 then
    if pfp.vinode_is_regular_file vinode = false then .error EINVAL
    else if flags &&& PMEMFILE_O_ACCMODE = PMEMFILE_O_RDONLY then .error EACCES
    else .ok true
  else .ok false

/-- The `do ... while (path_info_changed)` loop of source `_pmemfile_openat`:
the error it leaves with, or `vparent`, `vinode`, `info` and `namelen` after
it.  The first argument bounds the number of symlinks that are followed. -/
def openat_resolve (pfp : PMEMfilepool) (flags : Nat) :
    Nat → pmemfile_path_info → Option (Except Nat (Nat × Option Nat × pmemfile_path_info × Nat))
  | 0, _ => none
  | fuel + 1, info =>
    match info.vinode with
    | none => some (.error ELOOP)
    | some vparent =>
      if pfp.vinode_is_dir vparent = false then some (.error ENOTDIR)
      else if pfp.more_than_1_component info.remaining then some (.error ENOENT)
      else
        let namelen := pfp.component_length info.remaining
        if namelen = 0 ∧ vparent ≠ pfp.root then none
        else
          let vinode :=
            if namelen = 0 then some vparent
            else pfp.vinode_lookup_dirent vparent info.remaining namelen
          match vinode with
          | none => some (.ok (vparent, none, info, namelen))
          | some vi =>
            if pfp.vinode_is_symlink vi then
              if flags &&& PMEMFILE_O_NOFOLLOW ≠ 0 then some (.error ELOOP)
              else if flags &&& (PMEMFILE_O_CREAT ||| PMEMFILE_O_EXCL) =
                  (PMEMFILE_O_CREAT ||| PMEMFILE_O_EXCL) then
                some (.ok (vparent, some vi, info, namelen))
              else openat_resolve pfp flags fuel (pfp.resolve_symlink vi info)
            else some (.ok (vparent, some vi, info, namelen))

/-- Source `_pmemfile_openat`, from the result `info` of `resolve_pathat` on:
the error, or what the transaction did together with the flags of the new
handle.  `mode` is the variadic argument; `none` stands for a failed assertion
or for more symlinks than `fuel`. -/
def _pmemfile_openat (pfp : PMEMfilepool) (fuel : Nat) (info : pmemfile_path_info)
    (flags mode : Nat) : Option (Except Nat (openat_effect × Nat)) :=
  match check_flags flags with
  | .error e => some (.error e)
  | .ok _ =>
    let mode :=
      if flags &&& PMEMFILE_O_CREAT ≠ 0 ∨ is_tmpfile flags then mode &&& PMEMFILE_ALLPERMS else 0
    match openat_resolve pfp flags fuel info with
    | none => none
    | some (.error e) => some (.error e)
    | some (.ok (vparent, vinode, info, namelen)) =>
      let not_dir_with_rest : Bool :=
        match vinode with
        | some vi => pfp.vinode_is_dir vi = false ∧ '/' ∈ info.remaining
        | none => false
      if not_dir_with_rest then some (.error ENOTDIR)
      else
        let check : Option Nat :=
          if is_tmpfile flags then
            match vinode with
            | none => some ENOENT
            | some vi =>
              if pfp.vinode_is_dir vi = false then some ENOTDIR
              else if flags &&& PMEMFILE_O_ACCMODE = PMEMFILE_O_RDONLY then some EINVAL
              else none
          else if flags &&& (PMEMFILE_O_CREAT ||| PMEMFILE_O_EXCL) =
              (PMEMFILE_O_CREAT ||| PMEMFILE_O_EXCL) then
            if vinode.isSome then some EEXIST
            else if pfp.vinode_is_dir vparent = false then some ENOTDIR
            else none
          else if flags &&& PMEMFILE_O_CREAT = PMEMFILE_O_CREAT then none
          else if vinode.isNone then some ENOENT
          else none
        match check with
        | some e => some (.error e)
        | none =>
          let target : Option (Nat × Option Nat) :=
            if is_tmpfile flags then vinode.map (fun vi => (vi, none)) else some (vparent, vinode)
          match target with
          | none => none
          | some (vparent1, vinode1) =>
            let effect : Except Nat openat_effect :=
              match vinode1 with
              | none => .ok (create_file info.remaining namelen vparent1 flags mode)
              | some vi =>
                match open_file pfp vi flags with
                | .error e => .error e
                | .ok truncated => .ok (.opened vi truncated)
            match effect with
            | .error e => some (.error e)
            | .ok eff =>
              let file_flags :=
                if flags &&& PMEMFILE_O_ACCMODE = PMEMFILE_O_RDONLY then PFILE_READ
                else if flags &&& PMEMFILE_O_ACCMODE = PMEMFILE_O_WRONLY then PFILE_WRITE
                else if flags &&& PMEMFILE_O_ACCMODE = PMEMFILE_O_RDWR then
                  PFILE_READ ||| PFILE_WRITE
                else 0
              let file_flags :=
                if flags &&& PMEMFILE_O_NOATIME ≠ 0 then file_flags ||| PFILE_NOATIME
                else file_flags
              let file_flags :=
                if flags &&& PMEMFILE_O_APPEND ≠ 0 then file_flags ||| PFILE_APPEND
                else file_flags
              some (.ok (eff, file_flags))

/-- What `_pmemfile_renameat2` does, in order: a write lock taken or released
on a parent vinode, or the transaction that moves the directory entry. -/
inductive rename_event where
  | wrlock (vinode : Nat)
  | unlock (vinode : Nat)
  | transaction (dst_parent : Nat) (dst_name : List Char) (src_parent : Nat)
      (src_name : List Char) (src_vinode : Nat)
deriving DecidableEq

/-- Source `_pmemfile_renameat2`, from the results `src` and `dst` of
`resolve_pathat` on: the error (0 when the call returns 0) and the locks and
the transaction in the order in which they happen.  `tx_error` is the error the
transaction ends with (0 when it commits); `vinode_unlink_dirent` and
`vinode_add_dirent`, which it runs, are not under `src/`.  Reference counts and
debug paths are left out. -/
def _pmemfile_renameat2 (pfp : PMEMfilepool) (tx_error : Nat) (src dst : pmemfile_path_info)
    (flags : Nat) : Nat × List rename_event :=
  if flags ≠ 0 then (EINVAL, [])
  else
    match src.vinode, dst.vinode with
    | none, _ => (ELOOP, [])
    | some _, none => (ELOOP, [])
    | some src_parent, some dst_parent =>
      if pfp.vinode_is_dir src_parent = false then (ENOTDIR, [])
      else if pfp.vinode_is_dir dst_parent = false then (ENOTDIR, [])
      else if pfp.more_than_1_component src.remaining then (ENOENT, [])
      else
        let src_namelen := pfp.component_length src.remaining
        if pfp.more_than_1_component dst.remaining then (ENOENT, [])
        else
          match pfp.vinode_lookup_dirent src_parent src.remaining src_namelen with
          | none => (ENOENT, [])
          | some src_vinode =>
            if pfp.vinode_is_dir src_vinode then (ENOTSUP, [])
            else
              let locks :=
                if src_parent = dst_parent then [rename_event.wrlock dst_parent]
                else if src_parent < dst_parent then
                  [rename_event.wrlock src_parent, rename_event.wrlock dst_parent]
                else [rename_event.wrlock dst_parent, rename_event.wrlock src_parent]
              let tx :=
                [rename_event.transaction dst_parent dst.remaining src_parent src.remaining
                  src_vinode]
              let unlocks :=
                if src_parent = dst_parent then [rename_event.unlock dst_parent]
                else [rename_event.unlock src_parent, rename_event.unlock dst_parent]
              (tx_error, locks ++ tx ++ unlocks)

/-! ## Example pool -/

/-- A pool for the examples: vinode 1 is the root directory, vinode 2 a symlink
that the root holds under the name `l`, vinode 3 a regular file that the root
holds under the name `f`, vinode 4 a directory that the root holds under the
name `d`.  A name is what stands before the first `/` of the path. -/
def ex_pool : PMEMfilepool :=
  { root := 1
    vinode_is_dir := fun v => v == 1 || v == 4
    vinode_is_regular_file := fun v => v == 3
    vinode_is_symlink := fun v => v == 2
    vinode_lookup_dirent := fun parent name namelen =>
      if parent = 1 ∧ name.take namelen = ['l'] then some 2
      else if parent = 1 ∧ name.take namelen = ['f'] then some 3
      else if parent = 1 ∧ name.take namelen = ['d'] then some 4
      else none
    resolve_symlink := fun _ _ => { vinode := some 1, remaining := ['f'] }
    more_than_1_component := fun path =>
      ((path.dropWhile (fun c => c != '/')).dropWhile (fun c => c == '/')) != []
    component_length := fun path => (path.takeWhile (fun c => c != '/')).length }

/-! ## What an offset map stands for -/

/-- The range of an entry `k` levels above the lowest one: `MIN_BLOCK_SIZE`
times `N_CHILDREN ^ k`. -/
def level_range (M k : Nat) : Nat := M * N_CHILDREN ^ k

/-- The child pointer that an entry of level `k` holds for the offset `off`,
counted from the start of the range of the entry. -/
def entry_lookup (M : Nat) : Nat → offset_map_entry → Nat → Option Nat
  | _, .leaf c, _ => c
  | 0, .node _, _ => none
  | k + 1, .node cs, off =>
    match cs[off / level_range M k]? with
    | some e => entry_lookup M k e (off % level_range M k)
    | none => none

/-- The child pointer that an array of entries of level `k` holds for the
offset `off`, counted from the start of the range of its first entry. -/
def array_lookup (M k : Nat) (cs : List offset_map_entry) (off : Nat) : Option Nat :=
  match cs[off / level_range M k]? with
  | some e => entry_lookup M k e (off % level_range M k)
  | none => none

/-- The shape of an entry of level `k`: internal entries occur above the lowest
level only, their arrays have `N_CHILDREN` entries of the level below, and at
least one of these is not `NULL`. -/
def entry_wf : Nat → offset_map_entry → Prop
  | _, .leaf _ => True
  | 0, .node _ => False
  | k + 1, .node cs =>
    cs.length = N_CHILDREN ∧ (∀ e ∈ cs, entry_wf k e) ∧ ∃ e ∈ cs, e.child_is_null = false

/-- The blocks an offset map is used with: positive sizes, offsets and sizes
that are multiples of `MIN_BLOCK_SIZE`, ends below `2 ^ 60`, pairwise disjoint
ranges, and no descriptor twice. -/
def map_blocks_ok (M : Nat) (bs : List pmemfile_block) : Prop :=
  (∀ b ∈ bs, 0 < b.size ∧ M ∣ b.offset ∧ M ∣ b.size ∧ b.offset + b.size < 2 ^ 60) ∧
    bs.Pairwise (fun a b => a.offset + a.size ≤ b.offset ∨ b.offset + b.size ≤ a.offset) ∧
    bs.Pairwise (fun a b => a.addr ≠ b.addr)

/-- The offset map `m`, of `k` levels above the lowest, holds exactly the blocks
`bs`: its range is the range of level `k` and fits 64 bits, the root has the
shape of that level and is not a leaf with a block, every block ends within
the range, and an offset of the range finds the descriptor of the block whose
range it lies in, if any. -/
def map_repr_at (M k : Nat) (m : offset_map) (bs : List pmemfile_block) : Prop :=
  m.range = level_range M k ∧ m.range < 2 ^ 64 ∧ entry_wf k m.entry ∧
    (∀ c, m.entry ≠ .leaf (some c)) ∧
    (∀ b ∈ bs, b.offset + b.size ≤ m.range) ∧
    ∀ off, off < m.range → ∀ a, entry_lookup M k m.entry off = some a ↔
      ∃ b ∈ bs, b.addr = a ∧ b.offset ≤ off ∧ off < b.offset + b.size

/-- The offset map `m` holds exactly the blocks `bs`. -/
def map_repr (M : Nat) (m : offset_map) (bs : List pmemfile_block) : Prop :=
  ∃ k, map_repr_at M k m bs

/-- The map after the blocks `bs` were inserted one after the other. -/
def insert_blocks (m : offset_map) : List pmemfile_block → Option offset_map
  | [] => some m
  | b :: bs => (insert_block m b).bind (fun m1 => insert_blocks m1 bs)

/-- The answer the specification gives for `find_le`: `r` is the descriptor of
the block of `bs` with the greatest offset that is not above `q`, and `NULL`
when no block of `bs` has an offset that is not above `q`. -/
def find_le_answer (bs : List pmemfile_block) (q : Nat) (r : Option Nat) : Prop :=
  match r with
  | none => ∀ b ∈ bs, q < b.offset
  | some a => ∃ b ∈ bs, b.addr = a ∧ b.offset ≤ q ∧ ∀ c ∈ bs, c.offset ≤ q → c.offset ≤ b.offset

/-- Three block descriptors for a map with `MIN_BLOCK_SIZE = 4096`: one block at
the start of the file, one of two units behind a hole, one in the second
array of the tree. -/
def ex_map_block1 : pmemfile_block :=
  { addr := 100, offset := 0, size := 4096, flags := 0, data := fun _ => 0 }

def ex_map_block2 : pmemfile_block :=
  { addr := 200, offset := 8192, size := 8192, flags := 0, data := fun _ => 0 }

def ex_map_block3 : pmemfile_block :=
  { addr := 300, offset := 69632, size := 4096, flags := 0, data := fun _ => 0 }

/-- The map with `MIN_BLOCK_SIZE = 4096` after `ex_map_block1` and
`ex_map_block2` were inserted into a new map. -/
def ex_map : offset_map :=
  (insert_blocks (offset_map_new 4096) [ex_map_block1, ex_map_block2]).getD (offset_map_new 4096)

/-! ## locks.c -/

/-- A lock that a transaction takes: an `os_rwlock_t` or a `PMEMmutex`, named by
its address. -/
inductive tx_lock where
  | rwlock (l : Nat)
  | mutex (m : Nat)
deriving DecidableEq, Repr

/-- What happens to the locks: `acquire` is `os_rwlock_wrlock` or
`pmemobj_mutex_lock_nofail`, `release` is `os_rwlock_unlock` or
`pmemobj_mutex_unlock_nofail`. -/
inductive lock_event where
  | acquire (l : tx_lock)
  | release (l : tx_lock)
deriving DecidableEq, Repr

inductive tx_stage where
  | TX_STAGE_ONABORT
  | TX_STAGE_ONCOMMIT
deriving DecidableEq, Repr

/-- Modelled from the spec: the callback queues of the running transaction
(callbacks.c is not under `src/`), one for each of the two final stages.  The
callbacks that locks.c registers are `rwlock_unlock_cb` and `mutex_unlock_cb`;
a queue holds their arguments.  `events` is what has happened to the locks so
far. -/
structure tx_callbacks where
  onabort : List tx_lock
  oncommit : List tx_lock
  events : List lock_event

/-- The state at `TX_BEGIN_CB`. -/
def tx_begin : tx_callbacks := { onabort := [], oncommit := [], events := [] }

/-- Modelled from the spec: `cb_push_front` (callbacks.c is not under `src/`)
puts the callback in front of the queue of the stage. -/
def cb_push_front (stage : tx_stage) (arg : tx_lock) (st : tx_callbacks) : tx_callbacks :=
  match stage with
  | .TX_STAGE_ONABORT => { st with onabort := arg :: st.onabort }
  | .TX_STAGE_ONCOMMIT => { st with oncommit := arg :: st.oncommit }

/-- Modelled from the spec: `cb_push_back` (callbacks.c is not under `src/`)
puts the callback at the end of the queue of the stage. -/
def cb_push_back (stage : tx_stage) (arg : tx_lock) (st : tx_callbacks) : tx_callbacks :=
  match stage with
  | .TX_STAGE_ONABORT => { st with onabort := st.onabort ++ [arg] }
  | .TX_STAGE_ONCOMMIT => { st with oncommit := st.oncommit ++ [arg] }

/-- Source `rwlock_unlock_cb` and `mutex_unlock_cb`. -/
def unlock_cb (arg : tx_lock) (events : List lock_event) : List lock_event :=
  events ++ [.release arg]

/-- Modelled from the spec: `cb_queue` (callbacks.c is not under `src/`), the
callback of `TX_BEGIN_CB`, runs the callbacks of the stage that the transaction
has reached, from the front of the queue to its end. -/
def cb_queue (stage : tx_stage) (st : tx_callbacks) : List lock_event :=
  match stage with
  | .TX_STAGE_ONABORT => st.onabort.foldl (fun ev arg => unlock_cb arg ev) st.events
  | .TX_STAGE_ONCOMMIT => st.oncommit.foldl (fun ev arg => unlock_cb arg ev) st.events

/-- Source `rwlock_tx_wlock`. -/
def rwlock_tx_wlock (l : Nat) (st : tx_callbacks) : tx_callbacks :=
  let st1 := cb_push_front .TX_STAGE_ONABORT (.rwlock l) st
  { st1 with events := st1.events ++ [.acquire (.rwlock l)] }

/-- Source `rwlock_tx_unlock_on_commit`. -/
def rwlock_tx_unlock_on_commit (l : Nat) (st : tx_callbacks) : tx_callbacks :=
  cb_push_back .TX_STAGE_ONCOMMIT (.rwlock l) st

/-- Source `mutex_tx_unlock_on_abort`. -/
def mutex_tx_unlock_on_abort (m : Nat) (st : tx_callbacks) : tx_callbacks :=
  cb_push_front .TX_STAGE_ONABORT (.mutex m) st

/-- Source `mutex_tx_lock`. -/
def mutex_tx_lock (m : Nat) (st : tx_callbacks) : tx_callbacks :=
  let st1 := cb_push_front .TX_STAGE_ONABORT (.mutex m) st
  { st1 with events := st1.events ++ [.acquire (.mutex m)] }

/-- Source `mutex_tx_unlock_on_commit`. -/
def mutex_tx_unlock_on_commit (m : Nat) (st : tx_callbacks) : tx_callbacks :=
  cb_push_back .TX_STAGE_ONCOMMIT (.mutex m) st

/-- A call of one of the lock functions of locks.c in the body of a
transaction. -/
inductive tx_op where
  | wlock (l : Nat)
  | unlock_on_commit (l : Nat)
  | mutex_lock (m : Nat)
  | mutex_unlock_on_commit (m : Nat)
deriving DecidableEq, Repr

/-- The body of a transaction, as far as the locks go: the calls in program
order. -/
def tx_body : List tx_op → tx_callbacks → tx_callbacks
  | [], st => st
  | .wlock l :: ops, st => tx_body ops (rwlock_tx_wlock l st)
  | .unlock_on_commit l :: ops, st => tx_body ops (rwlock_tx_unlock_on_commit l st)
  | .mutex_lock m :: ops, st => tx_body ops (mutex_tx_lock m st)
  | .mutex_unlock_on_commit m :: ops, st => tx_body ops (mutex_tx_unlock_on_commit m st)

/-- The locks that the body acquires, in the order of the acquisitions. -/
def tx_acquired : List tx_op → List tx_lock
  | [] => []
  | .wlock l :: ops => .rwlock l :: tx_acquired ops
  | .mutex_lock m :: ops => .mutex m :: tx_acquired ops
  | _ :: ops => tx_acquired ops

/-- The locks that the body passes to the `unlock_on_commit` functions, in the
order of the calls. -/
def tx_scheduled : List tx_op → List tx_lock
  | [] => []
  | .unlock_on_commit l :: ops => .rwlock l :: tx_scheduled ops
  | .mutex_unlock_on_commit m :: ops => .mutex m :: tx_scheduled ops
  | _ :: ops => tx_scheduled ops

/-- The locks released by a list of events, in the order of the releases. -/
def released : List lock_event → List tx_lock
  | [] => []
  | .release l :: ev => l :: released ev
  | .acquire _ :: ev => released ev

/-- The body of the transaction of source `create_file`, as far as the locks
go, for a parent whose `rwlock` is at the address 7. -/
def ex_create_file_locks : List tx_op := [.wlock 7, .unlock_on_commit 7]

/-! ## symlink.c -/

def PMEMFILE_S_IFLNK : Nat := 0o120000

def PMEMFILE_ACCESSPERMS : Nat := 0o777

def ENAMETOOLONG : Nat := 36

def PMEMFILE_MAX_FILE_NAME : Nat := 255

/-- Source (layout.h) `PMEMFILE_IN_INODE_STORAGE`: `sizeof(struct pmemfile_dir)`
is 24 (two `uint32_t` and a `TOID`), `sizeof(struct pmemfile_dirent)` is a
`TOID` and the name. -/
def PMEMFILE_IN_INODE_STORAGE : Nat :=
  (4 + 4 + 16) + 2 * (16 + (PMEMFILE_MAX_FILE_NAME + 1)) + 8

/-- The member of the union `file_data` that was stored last: the bytes of the
buffer `short_symlink`, or the bytes of the block that `long_symlink` points
to. -/
inductive symlink_data where
  | short_symlink (buf : List Nat)
  | long_symlink (block : List Nat)

/-- The fields of `struct pmemfile_inode` that symlink.c uses. -/
structure symlink_inode where
  flags : Nat
  size : Nat
  file_data : symlink_data

/-- What `_pmemfile_symlinkat` gets from functions, constants and memory that
are not under `src/`: `info.error` after `resolve_pathat`, whether
`vinode_lookup_dirent` finds the name, the size of the class that
`data_block_info(len + 1, MAX_BLOCK_SIZE)` picks, the answer of
`_vinode_can_access`, the flag `PMEMFILE_S_LONGSYMLINK`, and the bytes that
new memory holds. -/
structure symlink_env where
  info_error : Nat
  found : Bool
  block_size : Nat
  can_access : Bool
  PMEMFILE_S_LONGSYMLINK : Nat
  fresh : Nat → Nat

/-- The effect of `memcpy(buf, src, n)` with `n` the length of `src`. -/
def memcpy (buf src : List Nat) : List Nat := src ++ buf.drop src.length

/-- New memory of `n` bytes. -/
def fresh_bytes (fresh : Nat → Nat) (n : Nat) : List Nat := (List.range n).map fresh

/-- The C string that starts at the first byte of `buf`. -/
def c_string (buf : List Nat) : List Nat := buf.takeWhile (fun c => c != 0)

/-- Modelled from the spec: `inode_alloc` (inode.c is not under `src/`) gives a
new inode with the flags asked for and the size 0; the union `file_data` is
new memory. -/
def inode_alloc (env : symlink_env) (flags : Nat) : symlink_inode :=
  { flags := flags, size := 0,
    file_data := .short_symlink (fresh_bytes env.fresh PMEMFILE_IN_INODE_STORAGE) }

/-- Modelled from the spec: `inode_is_longsymlink` (inode.h is not under
`src/`) tests the flag `PMEMFILE_S_LONGSYMLINK`. -/
def inode_is_longsymlink (env : symlink_env) (inode : symlink_inode) : Bool :=
  inode.flags &&& env.PMEMFILE_S_LONGSYMLINK != 0

/-- Source `get_symlink`: the bytes at the pointer that is returned; `none`
when the pointer is read from the other member of the union. -/
def get_symlink (env : symlink_env) (inode : symlink_inode) : Option (List Nat) :=
  if inode_is_longsymlink env inode then
    match inode.file_data with
    | .long_symlink block => some block
    | .short_symlink _ => none
  else
    match inode.file_data with
    | .short_symlink buf => some buf
    | .long_symlink _ => none

/-- Source `_pmemfile_symlinkat`: the error, or the new inode when the call
returns 0.  `target` holds the bytes of the string in front of its terminating
NUL, so that `strlen(target)` is its length. -/
def _pmemfile_symlinkat (env : symlink_env) (target : List Nat) : Except Nat symlink_inode :=
  if env.info_error ≠ 0 then .error env.info_error
  else if env.found then .error EEXIST
  else
    let len := target.length
    if len + 1 > env.block_size then .error ENAMETOOLONG
    else if env.can_access = false then .error EACCES
    else
      let inode := inode_alloc env (PMEMFILE_S_IFLNK ||| PMEMFILE_ACCESSPERMS)
      let inode1 : symlink_inode :=
        if len + 1 ≤ PMEMFILE_IN_INODE_STORAGE then
          match inode.file_data with
          | .short_symlink buf =>
            { inode with file_data := .short_symlink (memcpy buf (target ++ [0])) }
          | .long_symlink _ => inode
        else
          { inode with
              file_data :=
                .long_symlink (memcpy (fresh_bytes env.fresh env.block_size) (target ++ [0]))
              flags := inode.flags ||| env.PMEMFILE_S_LONGSYMLINK }
      .ok { inode1 with size := len }

/-- An environment in which the name is free and the parent writable, with
blocks of 16 kilobytes and the flag `0x10000`. -/
def ex_symlink_env : symlink_env :=
  { info_error := 0, found := false, block_size := 16384, can_access := true,
    PMEMFILE_S_LONGSYMLINK := 0x10000, fresh := fun _ => 0x66 }

/-- The inode of the link that `_pmemfile_symlinkat` makes for the target
`/aaa` in `ex_symlink_env`. -/
def ex_symlink_inode : symlink_inode :=
  match _pmemfile_symlinkat ex_symlink_env [47, 97, 97, 97] with
  | .ok inode => inode
  | .error _ => inode_alloc ex_symlink_env 0

/-! ## fcntl -/

/-- Constants of `pmemfile_fcntl` whose definitions are in headers that are not
under `src/`; the values are those of Linux. -/
def PMEMFILE_F_GETFL : Nat := 3

def PMEMFILE_F_SETLK : Nat := 6

def PMEMFILE_F_UNLCK : Nat := 2

def PMEMFILE_O_LARGEFILE : Nat := 0o100000

/-- Source `pmemfile_fcntl` on a handle with the flags `file_flags`: the return
value, or the `errno` of a return of `-1`. -/
def pmemfile_fcntl (file_flags cmd : Nat) : Except Nat Nat :=
  if cmd = PMEMFILE_F_SETLK ∨ cmd = PMEMFILE_F_UNLCK then .ok 0
  else if cmd = PMEMFILE_F_GETFL then
    let ret := 0 ||| PMEMFILE_O_LARGEFILE
    let ret := if file_flags &&& PFILE_APPEND ≠ 0 then ret ||| PMEMFILE_O_APPEND else ret
    let ret := if file_flags &&& PFILE_NOATIME ≠ 0 then ret ||| PMEMFILE_O_NOATIME else ret
    let ret := if file_flags &&& PFILE_READ = PFILE_READ then ret ||| PMEMFILE_O_RDONLY else ret
    let ret := if file_flags &&& PFILE_WRITE = PFILE_WRITE then ret ||| PMEMFILE_O_WRONLY else ret
    let ret :=
      if file_flags &&& (PFILE_READ ||| PFILE_WRITE) = (PFILE_READ ||| PFILE_WRITE) then
        ret ||| PMEMFILE_O_RDWR
      else ret
    .ok ret
  else .error ENOTSUP

/-- The flags of the handle that `_pmemfile_openat` returns, 0 when it returns
no handle. -/
def opened_flags (r : Option (Except Nat (openat_effect × Nat))) : Nat :=
  match r with
  | some (.ok (_, file_flags)) => file_flags
  | _ => 0

/-! ## chmod.c, the entry points -/

def PMEMFILE_AT_SYMLINK_NOFOLLOW : Nat := 0x100

/-- Source `_pmemfile_fchmodat`, from the result of `resolve_pathat_full` on:
`info_error` is `info.error` and `v` the inode that the path names.  Returns
the error (0 for a return of 0) and the inode afterwards. -/
def _pmemfile_fchmodat (now : pmemfile_time) (cred : pmemfile_cred) (info_error : Nat)
    (v : pmemfile_vinode) (mode flags : Nat) : Nat × pmemfile_vinode :=
  let mode := mode &&& PMEMFILE_ALLPERMS
  if flags &&& PMEMFILE_AT_SYMLINK_NOFOLLOW ≠ 0 then (ENOTSUP, v)
  else if flags &&& not64 PMEMFILE_AT_SYMLINK_NOFOLLOW ≠ 0 then (EINVAL, v)
  else if info_error ≠ 0 then (info_error, v)
  else vinode_chmod now cred v mode

/-- Source `pmemfile_fchmod` with a pool and a handle that are not `NULL`; the
handle is on the inode `v`. -/
def pmemfile_fchmod (now : pmemfile_time) (cred : pmemfile_cred) (v : pmemfile_vinode)
    (file : pmemfile_file) (mode : Nat) : Nat × pmemfile_vinode :=
  if file.flags &&& PFILE_PATH ≠ 0 then (EBADF, v)
  else vinode_chmod now cred v mode

/-- The owner of the files of the examples, without capabilities. -/
def ex_cred : pmemfile_cred := { fsuid := 0, fsgid := 0, groups := [], caps := 0 }

/-- A regular file with mode 0644. -/
def ex_regular : pmemfile_vinode :=
  { ex_empty with inode := { ex_empty.inode with flags := 0o100644 } }

/-! ## data.c: the rebuild of the index from the block arrays -/

/-- The `for` loop of source `vinode_rebuild_block_tree` over the descriptors
`blocks[0 .. length)` of one block array; the state is the tree and `first`.
A descriptor of size 0 ends the loop. -/
def rebuild_block_array :
    List pmemfile_block → List (Nat × Nat) × Option pmemfile_block →
      List (Nat × Nat) × Option pmemfile_block
  | [], s => s
  | block :: rest, (c, first) =>
    if block.size = 0 then (c, first)
    else
      let c1 := block_cache_insert_block c block
      let first1 :=
        match first with
        | none => some block
        | some f => if block.offset < f.offset then some block else some f
      rebuild_block_array rest (c1, first1)

/-- The `while` loop of source `vinode_rebuild_block_tree` over the chain of
block arrays, the array in the inode first. -/
def rebuild_block_arrays :
    List (List pmemfile_block) → List (Nat × Nat) × Option pmemfile_block →
      List (Nat × Nat) × Option pmemfile_block
  | [], s => s
  | block_array :: rest, s => rebuild_block_arrays rest (rebuild_block_array block_array s)

/-- Source `vinode_rebuild_block_tree` on the block arrays of the inode (each
array with its descriptors in slot order; `ctree_new` succeeds): the new
`vinode->blocks` and `vinode->first_block`. -/
def rebuild_block_tree (arrays : List (List pmemfile_block)) :
    List (Nat × Nat) × Option Nat :=
  let r := rebuild_block_arrays arrays ([], none)
  (r.1, r.2.map (fun b => b.addr))

/-- The descriptors of an array in front of its first descriptor of size 0. -/
def used_slots : List pmemfile_block → List pmemfile_block
  | [] => []
  | block :: rest => if block.size = 0 then [] else block :: used_slots rest

/-- The descriptors of the arrays that stand in front of the first descriptor
of size 0 of their array. -/
def used_blocks : List (List pmemfile_block) → List pmemfile_block
  | [] => []
  | block_array :: rest => used_slots block_array ++ used_blocks rest

/-- A block array whose first slot is free and whose second slot holds a block
of one page at the start of the file. -/
def ex_block_array : List pmemfile_block :=
  [{ addr := 1, offset := 0, size := 0, flags := 0, data := fun _ => 0 },
   { addr := 2, offset := 0, size := 4096, flags := 0, data := fun _ => 0 }]

/-- Two block arrays that are filled from the front; the blocks are not in the
order of their offsets. -/
def ex_block_arrays : List (List pmemfile_block) :=
  [[{ addr := 1, offset := 8192, size := 4096, flags := 0, data := fun _ => 0 },
    { addr := 2, offset := 0, size := 4096, flags := 0, data := fun _ => 0 }],
   [{ addr := 3, offset := 4096, size := 4096, flags := 0, data := fun _ => 0 },
    { addr := 4, offset := 0, size := 0, flags := 0, data := fun _ => 0 }]]

/-! ## data.c: examples -/

/-- A file of size `2 ^ 63 + 1`, which is what a write of two bytes at the
offset `2 ^ 63 - 1` leaves: one initialised block of two pages around
`2 ^ 63`. -/
def ex_huge : pmemfile_vinode :=
  { inode := { flags := 0o100600, size := 2 ^ 63 + 1, atime := ex_time, ctime := ex_time,
               mtime := ex_time },
    chain := [{ addr := 1, offset := 2 ^ 63 - 4096, size := 8192, flags := BLOCK_INITIALIZED,
                data := fun _ => 0 }],
    blocks := some [(2 ^ 63 - 4096, 1)] }

/-- A handle opened for writing with `O_APPEND`, at the offset 0. -/
def ex_append_handle : pmemfile_file :=
  { offset := 0, flags := PFILE_WRITE ||| PFILE_APPEND, block_pointer_cache := none }

/-- A file whose only block is the page in front of the last page below
`2 ^ 64`. -/
def ex_top : pmemfile_vinode :=
  { inode := { flags := 0o100600, size := 0, atime := ex_time, ctime := ex_time,
               mtime := ex_time },
    chain := [{ addr := 1, offset := 2 ^ 64 - 8192, size := 4096, flags := BLOCK_INITIALIZED,
                data := fun _ => 65 }],
    blocks := some [(2 ^ 64 - 8192, 1)] }

/-! ## offset_mapping.c: the ranges of the calls of `set_range` -/

/-- Source `set_range` as in `set_range_loop`, which also returns the values of
`range` that the recursive calls are made with, in the order of the calls. -/
def set_range_trace (block : Option Nat) :
    Nat → List offset_map_entry → Nat → Nat → Nat → Nat →
      Option (List offset_map_entry × List Nat)
  | 0, _, _, _, _, _ => none
  | fuel + 1, entries, i, offset, remaining, range =>
    if remaining = 0 then some (entries, [])
    else if range = 0 then none
    else
      match entries[i]? with
      | none => none
      | some e =>
        if offset % range = 0 ∧ remaining ≥ range then
          set_range_trace block fuel (entries.set i (.leaf block)) (i + 1) (offset + range)
            (remaining - range) range
        else
          let child : Option (List offset_map_entry) :=
            match e with
            | .leaf none => some (List.replicate N_CHILDREN (.leaf none))
            | .leaf (some _) => none
            | .node cs => some cs
          match child with
          | none => none
          | some cs =>
            let sub_offset := offset % range
            let sub_remaining :=
              if remaining < range - sub_offset then remaining else range - sub_offset
            let range1 := range >>> N_CHILDREN_POW
            if range1 = 0 then none
            else
              match set_range_trace block fuel cs (sub_offset / range1) sub_offset sub_remaining
                  range1 with
              | none => none
              | some (cs1, t1) =>
                let e1 := if block = none then check_and_free_range (.node cs1) else .node cs1
                match set_range_trace block fuel (entries.set i e1) (i + 1)
                    (offset + sub_remaining) (remaining - sub_remaining) range with
                | none => none
                | some (entries1, t2) => some (entries1, range1 :: t1 ++ t2)

/-- A call of `insert_block` or of `remove_block`. -/
inductive map_op where
  | insert (block : pmemfile_block)
  | remove (block : pmemfile_block)

/-- The map after a list of calls, `none` when one of them does not return. -/
def map_apply (MIN_BLOCK_SIZE : Nat) : offset_map → List map_op → Option offset_map
  | m, [] => some m
  | m, .insert b :: ops => (insert_block m b).bind (fun m1 => map_apply MIN_BLOCK_SIZE m1 ops)
  | m, .remove b :: ops =>
    (remove_block MIN_BLOCK_SIZE m b).bind (fun m1 => map_apply MIN_BLOCK_SIZE m1 ops)

/-- The blocks in the map after a list of calls on a map that holds `bs`. -/
def map_blocks : List pmemfile_block → List map_op → List pmemfile_block
  | bs, [] => bs
  | bs, .insert b :: ops => map_blocks (b :: bs) ops
  | bs, .remove b :: ops => map_blocks (bs.filter (fun x => x.addr != b.addr)) ops

/-- The calls that the offset map is made for: a block that is inserted has a
positive size, an offset and a size that are multiples of `MIN_BLOCK_SIZE`, an
end below `2 ^ 60` and a descriptor of its own, and it is disjoint from the
blocks in the map; a block that is removed is in the map. -/
def map_ops_ok (M : Nat) : List pmemfile_block → List map_op → Prop
  | _, [] => True
  | bs, .insert b :: ops => map_blocks_ok M (b :: bs) ∧ map_ops_ok M (b :: bs) ops
  | bs, .remove b :: ops =>
    b ∈ bs ∧ map_ops_ok M (bs.filter (fun x => x.addr != b.addr)) ops

/-- Three inserts and a remove on a map with `MIN_BLOCK_SIZE = 4096`. -/
def ex_map_ops : List map_op :=
  [.insert ex_map_block1, .insert ex_map_block3, .remove ex_map_block1, .insert ex_map_block2]

/-! ## Arithmetic lemmas -/

theorem u64_of_lt {n : Nat} (h : n < 2 ^ 64) : u64 n = n := by
  unfold u64; omega

theorem u32_of_lt {n : Nat} (h : n < 2 ^ 32) : u32 n = n := by
  unfold u32; omega

theorem sub64_of_le {a b : Nat} (h : b ≤ a) (ha : a < 2 ^ 64) : sub64 a b = a - b := by
  unfold sub64; omega

theorem sub64_pos {a b : Nat} (ha : a < 2 ^ 64) (hb : b < 2 ^ 64) (h : a ≠ b) :
    0 < sub64 a b := by
  unfold sub64; omega

theorem sub64_wrap {a b : Nat} (h : a < b) (hb : b < 2 ^ 64) :
    sub64 a b = a + 2 ^ 64 - b := by
  unfold sub64; omega

theorem page_rounddown_mod (n : Nat) : page_rounddown n % FILE_PAGE_SIZE = 0 := by
  unfold page_rounddown FILE_PAGE_SIZE; omega

theorem page_rounddown_le (n : Nat) : page_rounddown n ≤ n := by
  unfold page_rounddown; omega

theorem page_rounddown_gt (n : Nat) : n < page_rounddown n + FILE_PAGE_SIZE := by
  unfold page_rounddown FILE_PAGE_SIZE; omega

theorem page_rounddown_of_mod {n : Nat} (h : n % FILE_PAGE_SIZE = 0) : page_rounddown n = n := by
  unfold page_rounddown; omega

theorem is_init_iff (b : pmemfile_block) :
    is_block_data_initialized b = true ↔ b.flags % 2 = 1 := by
  simp only [is_block_data_initialized, BLOCK_INITIALIZED, bne_iff_ne, ne_eq,
    Nat.and_one_is_mod]
  omega

theorem is_init_or (b : pmemfile_block) (d : Nat → Nat) :
    is_block_data_initialized
      { b with data := d, flags := b.flags ||| BLOCK_INITIALIZED } = true := by
  rw [is_init_iff]
  simp [BLOCK_INITIALIZED, Nat.or_mod_two_eq_one]

/-! ## Pointers into the chain -/

theorem block_deref_some {chain : List pmemfile_block} {p : Nat} {b : pmemfile_block}
    (h : block_deref chain p = some b) : b ∈ chain ∧ b.addr = p := by
  unfold block_deref at h
  have h1 := List.mem_of_find?_eq_some h
  have h2 := List.find?_some h
  exact ⟨h1, by simpa using h2⟩

theorem block_deref_split (pre post : List pmemfile_block) (b : pmemfile_block)
    (h : ∀ a ∈ pre, a.addr ≠ b.addr) :
    block_deref (pre ++ b :: post) b.addr = some b := by
  unfold block_deref
  induction pre with
  | nil => simp
  | cons a pre ih =>
    have ha : a.addr ≠ b.addr := h a (by simp)
    simp only [List.cons_append, List.find?_cons]
    have : (a.addr == b.addr) = false := by simpa using ha
    rw [this]
    exact ih (fun x hx => h x (by simp [hx]))

theorem block_next_split (pre post : List pmemfile_block) (b : pmemfile_block)
    (h : ∀ a ∈ pre, a.addr ≠ b.addr) :
    block_next (pre ++ b :: post) b.addr = post.head?.map (fun n => n.addr) := by
  induction pre with
  | nil => simp [block_next]
  | cons a pre ih =>
    have ha : a.addr ≠ b.addr := h a (by simp)
    simp only [List.cons_append, block_next, ha, if_false]
    exact ih (fun x hx => h x (by simp [hx]))

theorem block_prev_split (pre post : List pmemfile_block) (b : pmemfile_block)
    (h : ∀ a ∈ pre, a.addr ≠ b.addr) :
    block_prev (pre ++ b :: post) b.addr = pre.getLast?.map (fun n => n.addr) := by
  induction pre with
  | nil =>
    cases post with
    | nil => simp [block_prev]
    | cons c post => simp [block_prev]
  | cons a pre ih =>
    have ha : a.addr ≠ b.addr := h a (by simp)
    have ih1 := ih (fun x hx => h x (by simp [hx]))
    cases pre with
    | nil => simp [block_prev, ha]
    | cons a2 pre2 =>
      have ha2 : a2.addr ≠ b.addr := h a2 (by simp)
      simp only [List.cons_append, block_prev, ha, ha2, if_false, List.append_eq]
      simp only [List.cons_append] at ih1
      rw [ih1]
      simp [List.getLast?_cons_cons]

theorem block_update_split (pre post : List pmemfile_block) (b : pmemfile_block)
    (f : pmemfile_block → pmemfile_block)
    (h1 : ∀ a ∈ pre, a.addr ≠ b.addr) (h2 : ∀ a ∈ post, a.addr ≠ b.addr) :
    block_update (pre ++ b :: post) b.addr f = pre ++ f b :: post := by
  unfold block_update
  simp only [List.map_append, List.map_cons, if_true]
  congr 1
  · conv => rhs; rw [← List.map_id pre]
    apply List.map_congr_left
    intro a ha
    simp [h1 a ha]
  · congr 1
    conv => rhs; rw [← List.map_id post]
    apply List.map_congr_left
    intro a ha
    simp [h2 a ha]

theorem block_list_insert_after_split (pre post : List pmemfile_block)
    (b nb : pmemfile_block) (h : ∀ a ∈ pre, a.addr ≠ b.addr) :
    block_list_insert_after (pre ++ b :: post) (some b.addr) nb = pre ++ b :: nb :: post := by
  induction pre with
  | nil => simp [block_list_insert_after]
  | cons a pre ih =>
    have ha : a.addr ≠ b.addr := h a (by simp)
    simp only [List.cons_append, block_list_insert_after, ha, if_false, List.append_eq]
    rw [ih (fun x hx => h x (by simp [hx]))]

theorem block_list_remove_split (pre post : List pmemfile_block) (b : pmemfile_block)
    (h1 : ∀ a ∈ pre, a.addr ≠ b.addr) (h2 : ∀ a ∈ post, a.addr ≠ b.addr) :
    (pre ++ b :: post).filter (fun x => x.addr != b.addr) = pre ++ post := by
  simp only [List.filter_append, List.filter_cons, bne_self_eq_false, Bool.false_eq_true,
    if_false]
  congr 1
  · apply List.filter_eq_self.mpr
    intro a ha; simpa using h1 a ha
  · apply List.filter_eq_self.mpr
    intro a ha; simpa using h2 a ha

theorem fresh_addr_gt (chain : List pmemfile_block) :
    ∀ b ∈ chain, b.addr < fresh_addr chain := by
  unfold fresh_addr
  induction chain with
  | nil => simp
  | cons a chain ih =>
    intro b hb
    simp only [List.map_cons, List.foldr_cons]
    rcases List.mem_cons.mp hb with h | h
    · subst h; omega
    · have := ih b h; omega

/-- The facts about the position of a descriptor in a well-formed chain. -/
theorem chain_wf_split {chain : List pmemfile_block} (hw : chain_wf chain)
    {b : pmemfile_block} (hb : b ∈ chain) :
    ∃ pre post, chain = pre ++ b :: post ∧
      (∀ a ∈ pre, a.addr ≠ b.addr) ∧ (∀ a ∈ post, a.addr ≠ b.addr) ∧
      (∀ a ∈ pre, a.offset + a.size ≤ b.offset) ∧
      (∀ a ∈ post, b.offset + b.size ≤ a.offset) := by
  obtain ⟨pre, post, rfl⟩ := List.append_of_mem hb
  refine ⟨pre, post, rfl, ?_, ?_, ?_, ?_⟩
  · intro a ha
    have hn := hw.2.1
    rw [List.map_append, List.map_cons] at hn
    have := (List.nodup_append.mp hn).2.2
    intro heq
    exact this (List.mem_map.mpr ⟨a, ha, rfl⟩) (by rw [heq]; simp)
  · intro a ha
    have hn := hw.2.1
    rw [List.map_append, List.map_cons] at hn
    have := ((List.nodup_append.mp hn).2.1)
    rw [List.nodup_cons] at this
    intro heq
    exact this.1 (List.mem_map.mpr ⟨a, ha, heq⟩)
  · intro a ha
    have hp := hw.1
    rw [List.pairwise_append] at hp
    exact hp.2.2 a ha b (by simp)
  · intro a ha
    have hp := hw.1
    rw [List.pairwise_append] at hp
    have := hp.2.1
    rw [List.pairwise_cons] at this
    exact this.1 a ha

theorem chain_wf_deref {chain : List pmemfile_block} (hw : chain_wf chain)
    {b : pmemfile_block} (hb : b ∈ chain) : block_deref chain b.addr = some b := by
  obtain ⟨pre, post, rfl, h1, _, _, _⟩ := chain_wf_split hw hb
  exact block_deref_split pre post b h1

theorem chain_wf_addr_inj {chain : List pmemfile_block} (hw : chain_wf chain)
    {a b : pmemfile_block} (ha : a ∈ chain) (hb : b ∈ chain) (h : a.addr = b.addr) :
    a = b := by
  have h1 := chain_wf_deref hw ha
  have h2 := chain_wf_deref hw hb
  rw [h] at h1
  rw [h1] at h2
  exact Option.some.inj h2

/-! ## The offset index -/

theorem ctree_find_le_none {c : List (Nat × Nat)} {key : Nat}
    (h : ctree_find_le_unlocked c key = none) : ∀ x ∈ c, key < x.1 := by
  induction c with
  | nil => simp
  | cons d c ihc =>
    simp only [ctree_find_le_unlocked] at h
    cases hr2 : ctree_find_le_unlocked c key with
    | none =>
      rw [hr2] at h
      simp only at h
      split at h
      · cases h
      · intro y hy
        rcases List.mem_cons.mp hy with rfl | hy
        · omega
        · exact ihc hr2 y hy
    | some b =>
      rw [hr2] at h
      simp only at h
      split at h <;> cases h

theorem ctree_find_le_some {c : List (Nat × Nat)} {key : Nat} {e : Nat × Nat}
    (h : ctree_find_le_unlocked c key = some e) :
    e ∈ c ∧ e.1 ≤ key ∧ ∀ x ∈ c, x.1 ≤ key → x.1 ≤ e.1 := by
  induction c generalizing e with
  | nil => simp [ctree_find_le_unlocked] at h
  | cons a c ih =>
    simp only [ctree_find_le_unlocked] at h
    cases hr : ctree_find_le_unlocked c key with
    | none =>
      rw [hr] at h
      simp only at h
      split at h
      · cases h
        refine ⟨by simp, by assumption, ?_⟩
        intro x hx hxk
        rcases List.mem_cons.mp hx with rfl | hx
        · exact le_refl _
        · exfalso
          have := ctree_find_le_none hr x hx
          omega
      · cases h
    | some b =>
      rw [hr] at h
      simp only at h
      obtain ⟨hb1, hb2, hb3⟩ := ih hr
      split at h
      · cases h
        rename_i hc
        refine ⟨by simp, hc.1, ?_⟩
        intro x hx hxk
        rcases List.mem_cons.mp hx with rfl | hx
        · exact le_refl _
        · have := hb3 x hx hxk; omega
      · cases h
        rename_i hc
        refine ⟨by simp [hb1], hb2, ?_⟩
        intro x hx hxk
        rcases List.mem_cons.mp hx with rfl | hx
        · by_contra hcon
          exact hc ⟨hxk, by omega⟩
        · exact hb3 x hx hxk

theorem find_block_some {chain : List pmemfile_block} {c : List (Nat × Nat)}
    (hi : index_ok chain c) {off p : Nat} (h : find_block c off = some p) :
    ∃ b ∈ chain, b.addr = p ∧ b.offset ≤ off ∧ ∀ a ∈ chain, a.offset ≤ off → a.offset ≤ b.offset := by
  unfold find_block at h
  cases hr : ctree_find_le_unlocked c off with
  | none => rw [hr] at h; cases h
  | some e =>
    rw [hr] at h
    simp only [Option.map_some', Option.some.injEq] at h
    obtain ⟨h1, h2, h3⟩ := ctree_find_le_some hr
    obtain ⟨b, hb, hbo, hba⟩ := hi.1 e h1
    refine ⟨b, hb, by rw [hba, h], by omega, ?_⟩
    intro a ha hao
    have := h3 (a.offset, a.addr) (hi.2 a ha) hao
    simp only at this
    omega

theorem find_block_none {chain : List pmemfile_block} {c : List (Nat × Nat)}
    (hi : index_ok chain c) {off : Nat} (h : find_block c off = none) :
    ∀ a ∈ chain, off < a.offset := by
  unfold find_block at h
  cases hr : ctree_find_le_unlocked c off with
  | some e => rw [hr] at h; cases h
  | none =>
    intro a ha
    exact ctree_find_le_none hr (a.offset, a.addr) (hi.2 a ha)

theorem index_ok_congr {chain chain1 : List pmemfile_block} {c : List (Nat × Nat)}
    (hi : index_ok chain c)
    (h1 : ∀ b ∈ chain, ∃ b1 ∈ chain1, b1.offset = b.offset ∧ b1.addr = b.addr)
    (h2 : ∀ b1 ∈ chain1, ∃ b ∈ chain, b1.offset = b.offset ∧ b1.addr = b.addr) :
    index_ok chain1 c := by
  constructor
  · intro e he
    obtain ⟨b, hb, hbo, hba⟩ := hi.1 e he
    obtain ⟨b1, hb1, ho, ha⟩ := h1 b hb
    exact ⟨b1, hb1, by omega, by omega⟩
  · intro b1 hb1
    obtain ⟨b, hb, ho, ha⟩ := h2 b1 hb1
    rw [ho, ha]
    exact hi.2 b hb

theorem index_ok_insert {chain chain1 : List pmemfile_block} {c : List (Nat × Nat)}
    (hi : index_ok chain c) (nb nb1 : pmemfile_block)
    (hk : nb1.offset = nb.offset) (ha : nb1.addr = nb.addr)
    (hfresh : ∀ a ∈ chain, a.offset ≠ nb.offset)
    (hm : ∀ x, x ∈ chain1 ↔ x = nb1 ∨ x ∈ chain) :
    index_ok chain1 (block_cache_insert_block c nb) := by
  unfold block_cache_insert_block ctree_insert_unlocked
  have hnot : (c.any fun e => e.1 == nb.offset) = false := by
    rw [Bool.eq_false_iff]
    intro hany
    rw [List.any_eq_true] at hany
    obtain ⟨e, he, hek⟩ := hany
    obtain ⟨b, hb, hbo, _⟩ := hi.1 e he
    have : e.1 = nb.offset := by simpa using hek
    exact hfresh b hb (by omega)
  rw [hnot]
  simp only [Bool.false_eq_true, if_false]
  constructor
  · intro e he
    rcases List.mem_cons.mp he with rfl | he
    · exact ⟨nb1, (hm nb1).mpr (Or.inl rfl), hk, ha⟩
    · obtain ⟨b, hb, h1, h2⟩ := hi.1 e he
      exact ⟨b, (hm b).mpr (Or.inr hb), h1, h2⟩
  · intro b hb
    rcases (hm b).mp hb with rfl | hb
    · rw [hk, ha]; simp
    · exact List.mem_cons_of_mem _ (hi.2 b hb)

theorem index_ok_remove {pre post : List pmemfile_block} {b : pmemfile_block}
    {c : List (Nat × Nat)} (hw : chain_wf (pre ++ b :: post))
    (hi : index_ok (pre ++ b :: post) c) :
    index_ok (pre ++ post) (ctree_remove_unlocked c b.offset) := by
  have hbm : b ∈ pre ++ b :: post := by simp
  obtain ⟨hsz, _⟩ := hw.2.2 b hbm
  have hp := hw.1
  rw [List.pairwise_append] at hp
  have hpost := (List.pairwise_cons.mp hp.2.1).1
  have hpre := fun a ha => hp.2.2 a ha b (by simp)
  have hne : ∀ a ∈ pre ++ post, a.offset ≠ b.offset := by
    intro a ha
    rcases List.mem_append.mp ha with h | h
    · have := hpre a h
      have := (hw.2.2 a (by simp [h])).1
      omega
    · have := hpost a h
      omega
  unfold ctree_remove_unlocked
  constructor
  · intro e he
    rw [List.mem_filter] at he
    obtain ⟨x, hx, hxo, hxa⟩ := hi.1 e he.1
    have hek : e.1 ≠ b.offset := by simpa using he.2
    refine ⟨x, ?_, hxo, hxa⟩
    rcases List.mem_append.mp hx with h | h
    · exact List.mem_append.mpr (Or.inl h)
    · rcases List.mem_cons.mp h with rfl | h
      · exact absurd hxo.symm (by omega)
      · exact List.mem_append.mpr (Or.inr h)
  · intro x hx
    rw [List.mem_filter]
    refine ⟨hi.2 x ?_, by simpa using hne x hx⟩
    rcases List.mem_append.mp hx with h | h
    · simp [h]
    · simp [h]

/-! ## Well-formed chains -/

theorem chain_wf_replace {pre post : List pmemfile_block} {b b1 : pmemfile_block}
    (hw : chain_wf (pre ++ b :: post))
    (ho : b1.offset = b.offset) (hs : b1.size = b.size) (ha : b1.addr = b.addr) :
    chain_wf (pre ++ b1 :: post) := by
  obtain ⟨hp, hn, hk⟩ := hw
  refine ⟨?_, ?_, ?_⟩
  · rw [List.pairwise_append] at hp ⊢
    refine ⟨hp.1, ?_, ?_⟩
    · rw [List.pairwise_cons] at hp ⊢
      refine ⟨?_, hp.2.1.2⟩
      intro a ha'
      have := hp.2.1.1 a ha'
      omega
    · intro a ha' x hx
      rcases List.mem_cons.mp hx with rfl | hx
      · have := hp.2.2 a ha' b (by simp); omega
      · exact hp.2.2 a ha' x (by simp [hx])
  · simpa [List.map_append, ha] using hn
  · intro x hx
    rcases List.mem_append.mp hx with h | h
    · exact hk x (by simp [h])
    · rcases List.mem_cons.mp h with rfl | h
      · have := hk b (by simp)
        unfold block_ok at this ⊢
        rw [ho, hs]; exact this
      · exact hk x (by simp [h])

theorem chain_wf_remove {pre post : List pmemfile_block} {b : pmemfile_block}
    (hw : chain_wf (pre ++ b :: post)) : chain_wf (pre ++ post) := by
  obtain ⟨hp, hn, hk⟩ := hw
  have hsub : List.Sublist (pre ++ post) (pre ++ b :: post) :=
    List.Sublist.append_left (List.sublist_cons_self b post) pre
  refine ⟨hp.sublist hsub, ?_, ?_⟩
  · exact hn.sublist (hsub.map _)
  · intro x hx
    exact hk x (hsub.subset hx)

theorem chain_wf_insert {pre post : List pmemfile_block} {b nb : pmemfile_block}
    (hw : chain_wf (pre ++ b :: post)) (hok : block_ok nb)
    (hfresh : ∀ a ∈ pre ++ b :: post, a.addr ≠ nb.addr)
    (h1 : b.offset + b.size ≤ nb.offset)
    (h2 : ∀ a ∈ post, nb.offset + nb.size ≤ a.offset) :
    chain_wf (pre ++ b :: nb :: post) := by
  obtain ⟨hp, hn, hk⟩ := hw
  refine ⟨?_, ?_, ?_⟩
  · rw [List.pairwise_append] at hp ⊢
    refine ⟨hp.1, ?_, ?_⟩
    · rw [List.pairwise_cons] at hp ⊢
      refine ⟨?_, ?_⟩
      · intro a ha
        rcases List.mem_cons.mp ha with rfl | ha
        · exact h1
        · exact hp.2.1.1 a ha
      · rw [List.pairwise_cons]
        exact ⟨h2, hp.2.1.2⟩
    · intro a ha x hx
      rcases List.mem_cons.mp hx with rfl | hx
      · exact hp.2.2 a ha _ (by simp)
      · rcases List.mem_cons.mp hx with rfl | hx
        · have := hp.2.2 a ha b (by simp)
          have := hok.1
          have := (hk b (by simp)).1
          omega
        · exact hp.2.2 a ha x (by simp [hx])
  · have hperm : List.Perm (pre ++ b :: nb :: post) (nb :: (pre ++ b :: post)) := by
      have : pre ++ b :: nb :: post = (pre ++ [b]) ++ nb :: post := by simp
      rw [this]
      refine (List.perm_middle).trans ?_
      simp
    rw [(hperm.map _).nodup_iff]
    rw [List.map_cons, List.nodup_cons]
    refine ⟨?_, hn⟩
    intro hmem
    obtain ⟨a, ha, hae⟩ := List.mem_map.mp hmem
    exact hfresh a ha hae
  · intro x hx
    rcases List.mem_append.mp hx with h | h
    · exact hk x (by simp [h])
    · rcases List.mem_cons.mp h with rfl | h
      · exact hk _ (by simp)
      · rcases List.mem_cons.mp h with rfl | h
        · exact hok
        · exact hk x (by simp [h])

theorem chain_wf_cons {chain : List pmemfile_block} {nb : pmemfile_block}
    (hw : chain_wf chain) (hok : block_ok nb)
    (hfresh : ∀ a ∈ chain, a.addr ≠ nb.addr)
    (h2 : ∀ a ∈ chain, nb.offset + nb.size ≤ a.offset) :
    chain_wf (nb :: chain) := by
  obtain ⟨hp, hn, hk⟩ := hw
  refine ⟨List.pairwise_cons.mpr ⟨h2, hp⟩, ?_, ?_⟩
  · rw [List.map_cons, List.nodup_cons]
    refine ⟨?_, hn⟩
    intro hmem
    obtain ⟨a, ha, hae⟩ := List.mem_map.mp hmem
    exact hfresh a ha hae
  · intro x hx
    rcases List.mem_cons.mp hx with rfl | h
    · exact hok
    · exact hk x h

/-! ## Stored content -/

theorem covering_some {chain : List pmemfile_block} {pos : Nat} {b : pmemfile_block}
    (h : covering chain pos = some b) :
    b ∈ chain ∧ b.offset ≤ pos ∧ pos < b.offset + b.size := by
  unfold covering at h
  have h1 := List.mem_of_find?_eq_some h
  have h2 := List.find?_some h
  simp only [Bool.and_eq_true, decide_eq_true_eq] at h2
  exact ⟨h1, h2.1, h2.2⟩

theorem covering_none {chain : List pmemfile_block} {pos : Nat}
    (h : ∀ b ∈ chain, ¬ (b.offset ≤ pos ∧ pos < b.offset + b.size)) :
    covering chain pos = none := by
  unfold covering
  rw [List.find?_eq_none]
  intro b hb
  simpa using h b hb

theorem covering_of_mem {chain : List pmemfile_block} (hw : chain_wf chain) {pos : Nat}
    {b : pmemfile_block} (hb : b ∈ chain) (h1 : b.offset ≤ pos)
    (h2 : pos < b.offset + b.size) : covering chain pos = some b := by
  cases hc : covering chain pos with
  | none =>
    unfold covering at hc
    rw [List.find?_eq_none] at hc
    have := hc b hb
    simp at this
    omega
  | some x =>
    obtain ⟨hx, hx1, hx2⟩ := covering_some hc
    obtain ⟨pre, post, rfl, _, _, h5, h6⟩ := chain_wf_split hw hb
    rcases List.mem_append.mp hx with h | h
    · have := h5 x h; omega
    · rcases List.mem_cons.mp h with rfl | h
      · rfl
      · have := h6 x h; omega

/-! ## Allocation of one block -/

theorem file_allocate_block_data_spec {cfg : config} (hc : config_ok cfg)
    {slot nb : pmemfile_block} {count : Nat} {use : Bool}
    (h : file_allocate_block_data cfg slot count use = some nb) :
    nb.addr = slot.addr ∧ nb.offset = slot.offset ∧ nb.flags = 0 ∧ 0 < nb.size ∧
      nb.size % FILE_PAGE_SIZE = 0 ∧ nb.size < 2 ^ 32 ∧ (use = false → nb.size ≤ count) ∧
      0 < count ∧ count % FILE_PAGE_SIZE = 0 := by
  obtain ⟨hB, hM0, hM1, hM2⟩ := hc
  unfold file_allocate_block_data at h
  unfold FILE_PAGE_SIZE at *
  unfold u32 page_rounddown FILE_PAGE_SIZE at h
  dsimp only at h
  split_ifs at h <;> cases h <;> simp only [true_and] <;> refine ⟨?_, ?_, ?_, ?_, ?_, ?_⟩ <;>
    first
    | omega
    | (intro hu; simp_all)

theorem file_allocate_block_data_size {cfg : config}
    {s1 s2 n1 n2 : pmemfile_block} {count : Nat} {use : Bool}
    (h1 : file_allocate_block_data cfg s1 count use = some n1)
    (h2 : file_allocate_block_data cfg s2 count use = some n2) : n1.size = n2.size := by
  unfold file_allocate_block_data at h1 h2
  dsimp only at h1 h2
  split_ifs at h1 h2 <;> cases h1 <;> cases h2 <;> rfl

theorem allocate_block_spec {cfg : config} (hc : config_ok cfg) {v v1 : pmemfile_vinode}
    {prev trim : Option Nat} {offset count p1 : Nat} {use : Bool}
    (ht : ∀ h, trim = some h → h = count)
    (h : allocate_block cfg v prev offset count use trim = some (v1, p1)) :
    ∃ nb nb1 : pmemfile_block,
      v1 = { v with
               chain := block_list_insert_after v.chain prev nb1
               blocks := v.blocks.map (fun c => block_cache_insert_block c nb) } ∧
      nb.offset = nb1.offset ∧ nb.addr = nb1.addr ∧
      p1 = fresh_addr v.chain ∧ nb1.addr = p1 ∧ nb1.offset = offset ∧ nb1.flags = 0 ∧
      0 < nb1.size ∧ nb1.size % FILE_PAGE_SIZE = 0 ∧ nb1.size < 2 ^ 32 ∧
      (use = false → nb1.size ≤ count) ∧ 0 < count ∧
      (trim = none → ∃ slot, file_allocate_block_data cfg slot count use = some nb1) := by
  unfold allocate_block at h
  dsimp only at h
  cases hf : file_allocate_block_data cfg
      { addr := fresh_addr v.chain, offset := offset, size := 0, flags := 0, data := cfg.fresh }
      count use with
  | none => rw [hf] at h; cases h
  | some nb =>
    rw [hf] at h
    simp only [Option.some.injEq, Prod.mk.injEq] at h
    obtain ⟨h1, h2⟩ := h
    obtain ⟨ha, ho, hfl, hs0, hsm, hs32, hu, hc0, hcm⟩ := file_allocate_block_data_spec hc hf
    simp only at ha ho
    cases trim with
    | none =>
      refine ⟨nb, nb, h1.symm, rfl, rfl, ?_, ?_, ho, hfl, hs0, hsm, hs32, hu, hc0, ?_⟩
      · rw [← h2, ha]
      · rw [← h2]
      · intro _
        exact ⟨_, hf⟩
    | some hole =>
      have hh := ht hole rfl
      subst hh
      by_cases hgt : nb.size > hole
      · refine ⟨nb, { nb with size := u32 hole }, ?_, rfl, rfl, ?_, ?_, ho, hfl, ?_, ?_, ?_, ?_,
          hc0, ?_⟩
        · rw [← h1]; simp [hgt]
        · rw [← h2, ha]
        · rw [← h2]
        · show 0 < u32 hole
          rw [u32_of_lt (by omega)]; exact hc0
        · show u32 hole % FILE_PAGE_SIZE = 0
          rw [u32_of_lt (by omega)]; exact hcm
        · show u32 hole < 2 ^ 32
          rw [u32_of_lt (by omega)]; omega
        · intro _
          show u32 hole ≤ hole
          rw [u32_of_lt (by omega)]
        · intro hn; cases hn
      · refine ⟨nb, nb, ?_, rfl, rfl, ?_, ?_, ho, hfl, hs0, hsm, hs32, hu, hc0, ?_⟩
        · rw [← h1]; simp [hgt]
        · rw [← h2, ha]
        · rw [← h2]
        · intro hn; cases hn

/-- Linking a new descriptor in front of a well-formed chain. -/
theorem vinode_wf_insert_head {v : pmemfile_vinode} (hw : vinode_wf v)
    {nb nb1 : pmemfile_block} (hko : nb.offset = nb1.offset) (hka : nb.addr = nb1.addr)
    (hok : block_ok nb1) (hfr : nb1.addr = fresh_addr v.chain)
    (hlt : ∀ a ∈ v.chain, nb1.offset + nb1.size ≤ a.offset) :
    vinode_wf { v with
                  chain := nb1 :: v.chain
                  blocks := v.blocks.map (fun c => block_cache_insert_block c nb) } := by
  obtain ⟨hcw, hix, hsz⟩ := hw
  have hfresh : ∀ a ∈ v.chain, a.addr ≠ nb1.addr := by
    intro a ha
    have := fresh_addr_gt v.chain a ha
    omega
  refine ⟨chain_wf_cons hcw hok hfresh hlt, ?_, hsz⟩
  intro c1 hc1
  simp only [Option.map_eq_some'] at hc1
  obtain ⟨c, hc, rfl⟩ := hc1
  refine index_ok_insert (hix c hc) nb nb1 hko.symm hka.symm ?_ ?_
  · intro a ha
    have := hlt a ha
    have := hok.1
    omega
  · intro x; simp

/-- Linking a new descriptor behind the descriptor `b` of a well-formed chain. -/
theorem vinode_wf_insert_after {v : pmemfile_vinode} (hw : vinode_wf v)
    {pre post : List pmemfile_block} {b : pmemfile_block} (hch : v.chain = pre ++ b :: post)
    {nb nb1 : pmemfile_block} (hko : nb.offset = nb1.offset) (hka : nb.addr = nb1.addr)
    (hok : block_ok nb1) (hfr : nb1.addr = fresh_addr v.chain)
    (h1 : b.offset + b.size ≤ nb1.offset)
    (h2 : ∀ a ∈ post, nb1.offset + nb1.size ≤ a.offset) :
    vinode_wf { v with
                  chain := pre ++ b :: nb1 :: post
                  blocks := v.blocks.map (fun c => block_cache_insert_block c nb) } := by
  obtain ⟨hcw, hix, hsz⟩ := hw
  rw [hch] at hcw
  have hfresh : ∀ a ∈ pre ++ b :: post, a.addr ≠ nb1.addr := by
    intro a ha
    have := fresh_addr_gt v.chain a (by rw [hch]; exact ha)
    omega
  refine ⟨chain_wf_insert hcw hok hfresh h1 h2, ?_, hsz⟩
  intro c1 hc1
  simp only [Option.map_eq_some'] at hc1
  obtain ⟨c, hc, rfl⟩ := hc1
  have hbm : b ∈ pre ++ b :: post := by simp
  obtain ⟨pre2, post2, heq, _, _, h5, h6⟩ := chain_wf_split hcw hbm
  have hp := hcw.1
  rw [List.pairwise_append] at hp
  refine index_ok_insert (hix c hc) nb nb1 hko.symm hka.symm ?_ ?_
  · intro a ha
    rw [hch] at ha
    rcases List.mem_append.mp ha with h | h
    · have := hp.2.2 a h b (by simp)
      have := (hcw.2.2 a (by simp [h])).1
      omega
    · rcases List.mem_cons.mp h with rfl | h
      · have := (hcw.2.2 a (by simp)).1
        omega
      · have := h2 a h
        have := hok.1
        omega
  · intro x
    rw [hch]
    simp only [List.mem_append, List.mem_cons]
    tauto

theorem mem_block_list_insert_after {chain : List pmemfile_block} {prev : Option Nat}
    {nb x : pmemfile_block} (h : x ∈ block_list_insert_after chain prev nb) :
    x = nb ∨ x ∈ chain := by
  cases prev with
  | none =>
    have : block_list_insert_after chain none nb = nb :: chain := by
      cases chain <;> rfl
    rw [this] at h
    exact List.mem_cons.mp h
  | some p =>
    induction chain with
    | nil => simp [block_list_insert_after] at h; exact Or.inl h
    | cons a chain ih =>
      simp only [block_list_insert_after] at h
      split at h
      · simp only [List.mem_cons] at h ⊢; tauto
      · simp only [List.mem_cons] at h ⊢
        rcases h with h | h
        · tauto
        · have := ih h; tauto

/-- A request whose end is at or above `2 ^ 64` never leaves the loop. -/
theorem alloc_loop_overflow_none (cfg : config) (hc : config_ok cfg) (over : Bool) :
    ∀ (fuel : Nat) (v : pmemfile_vinode) (block : Option Nat) (offset size : Nat),
      (∀ b ∈ v.chain, b.size < 2 ^ 32) → offset < 2 ^ 64 → size < 2 ^ 64 → 0 < size →
      2 ^ 64 ≤ offset + size →
      vinode_allocate_interval_loop cfg over fuel v block offset size = none := by
  intro fuel
  induction fuel with
  | zero => intros; rfl
  | succ fuel ih =>
    intro v block offset size hsz ho hs hs0 hov
    have step : ∀ (prev trim : Option Nat) (count : Nat) (use : Bool),
        (∀ h, trim = some h → h = count) →
        (match allocate_block cfg v prev offset count use trim with
          | none => none
          | some (v1, p1) =>
            if size > 0 then vinode_allocate_interval_loop cfg over fuel v1 (some p1) offset size
            else some v1) = none := by
      intro prev trim count use ht
      cases ha : allocate_block cfg v prev offset count use trim with
      | none => rfl
      | some r =>
        obtain ⟨v1, p1⟩ := r
        obtain ⟨nb, nb1, hv1, _, _, _, _, _, _, _, _, hlt, _⟩ := allocate_block_spec hc ht ha
        simp only [hs0, if_true]
        apply ih _ _ _ _ _ ho hs hs0 hov
        intro b hb
        rw [hv1] at hb
        rcases mem_block_list_insert_after hb with rfl | hb
        · exact hlt
        · exact hsz b hb
    unfold vinode_allocate_interval_loop
    dsimp only
    cases block with
    | none =>
      dsimp only
      cases hh : v.chain.head? with
      | none => exact step none none size over (by intro h hh; cases hh)
      | some first => exact step none none _ false (by intro h hh; cases hh)
    | some p =>
      dsimp only
      cases hd : block_deref v.chain p with
      | none => rfl
      | some b =>
        dsimp only
        have hbs := hsz b (block_deref_some hd).1
        by_cases hin : is_offset_in_block (some b) offset = true
        · rw [if_pos hin]
          simp only [is_offset_in_block, Bool.and_eq_true, decide_eq_true_eq] at hin
          have hav : sub64 b.size (sub64 offset b.offset) < size ∧
              0 < sub64 size (sub64 b.size (sub64 offset b.offset)) ∧
              u64 (offset + sub64 b.size (sub64 offset b.offset)) < 2 ^ 64 ∧
              sub64 size (sub64 b.size (sub64 offset b.offset)) < 2 ^ 64 ∧
              2 ^ 64 ≤ u64 (offset + sub64 b.size (sub64 offset b.offset)) +
                sub64 size (sub64 b.size (sub64 offset b.offset)) := by
            unfold u64 at hin ⊢
            unfold sub64
            omega
          rw [if_neg (by omega)]
          rw [if_pos hav.2.1]
          exact ih _ _ _ _ hsz hav.2.2.1 hav.2.2.2.1 hav.2.1 hav.2.2.2.2
        · rw [if_neg hin]
          cases hn : block_next v.chain p with
          | none => exact step (some p) none size over (by intro h hh; cases hh)
          | some q =>
            dsimp only
            cases hd2 : block_deref v.chain q with
            | none => rfl
            | some next =>
              dsimp only
              by_cases hpos : (if sub64 next.offset offset > size then size
                  else sub64 next.offset offset) > 0
              · rw [if_pos hpos]
                exact step (some p) (some _) _ false (by intro h hh; cases hh; rfl)
              · rw [if_neg hpos, if_pos hs0]
                exact ih _ _ _ _ hsz ho hs hs0 hov

/-- Once the last descriptor of the chain starts at `offset` and ends at or
above `2 ^ 64`, the loop links copies of it for ever. -/
theorem alloc_loop_stuck (cfg : config) (hc : config_ok cfg) (over : Bool) :
    ∀ (fuel : Nat) (v : pmemfile_vinode) (pre : List pmemfile_block) (b : pmemfile_block)
      (offset size : Nat),
      v.chain = pre ++ [b] → (∀ a ∈ pre, a.addr ≠ b.addr) → b.offset = offset →
      b.size < 2 ^ 32 → 2 ^ 64 ≤ b.offset + b.size → offset < 2 ^ 64 → 0 < size →
      (∀ slot nb, file_allocate_block_data cfg slot size over = some nb → nb.size = b.size) →
      vinode_allocate_interval_loop cfg over fuel v (some b.addr) offset size = none := by
  intro fuel
  induction fuel with
  | zero => intros; rfl
  | succ fuel ih =>
    intro v pre b offset size hch hpre hbo hbs hov ho hs0 hsame
    unfold vinode_allocate_interval_loop
    dsimp only
    rw [hch, block_deref_split pre [] b hpre]
    dsimp only
    have hin : ¬ is_offset_in_block (some b) offset = true := by
      simp only [is_offset_in_block, Bool.and_eq_true, decide_eq_true_eq]
      unfold u64
      omega
    rw [if_neg hin, block_next_split pre [] b hpre]
    simp only [List.head?_nil, Option.map_none']
    cases ha : allocate_block cfg v (some b.addr) offset size over none with
    | none => rfl
    | some r =>
      obtain ⟨v1, p1⟩ := r
      obtain ⟨nb, nb1, hv1, _, _, hp1, hnba, hnbo, _, _, _, hlt, _, _, hex⟩ :=
        allocate_block_spec hc (by intro h hh; cases hh) ha
      obtain ⟨slot, hslot⟩ := hex rfl
      have hsz : nb1.size = b.size := hsame slot nb1 hslot
      simp only [hs0, if_true]
      have hch1 : v1.chain = (pre ++ [b]) ++ [nb1] := by
        rw [hv1]
        show block_list_insert_after v.chain (some b.addr) nb1 = _
        rw [hch, block_list_insert_after_split pre [] b nb1 hpre]
        simp
      have hfresh : ∀ a ∈ pre ++ [b], a.addr ≠ nb1.addr := by
        intro a ha
        have := fresh_addr_gt v.chain a (by rw [hch]; exact ha)
        omega
      rw [← hnba]
      refine ih v1 (pre ++ [b]) nb1 offset size hch1 hfresh hnbo hlt (by omega) ho hs0 ?_
      intro slot2 nb2 h2
      rw [hsz]
      exact hsame slot2 nb2 h2

theorem chain_wf_after {chain : List pmemfile_block} (hw : chain_wf chain)
    {a b : pmemfile_block} (ha : a ∈ chain) (hb : b ∈ chain) (h : b.offset < a.offset) :
    b.offset + b.size ≤ a.offset := by
  obtain ⟨pre, post, rfl, _, _, h5, h6⟩ := chain_wf_split hw hb
  rcases List.mem_append.mp ha with h1 | h1
  · have := h5 a h1
    have := (hw.2.2 a (by simp [h1])).1
    omega
  · rcases List.mem_cons.mp h1 with rfl | h1
    · omega
    · exact h6 a h1

theorem block_list_insert_after_none (chain : List pmemfile_block) (nb : pmemfile_block) :
    block_list_insert_after chain none nb = nb :: chain := by
  cases chain <;> rfl

theorem mem_insert_mid (pre post : List pmemfile_block) (b nb x : pmemfile_block) :
    x ∈ pre ++ b :: nb :: post ↔ x = nb ∨ x ∈ pre ++ b :: post := by
  simp only [List.mem_append, List.mem_cons]
  tauto

/-- Partial correctness of the allocation loop. -/
theorem alloc_loop_spec (cfg : config) (hc : config_ok cfg) (over : Bool) :
    ∀ (fuel : Nat) (v : pmemfile_vinode) (block : Option Nat) (offset size : Nat)
      (v' : pmemfile_vinode),
      vinode_wf v → (∃ c, v.blocks = some c) → offset % FILE_PAGE_SIZE = 0 → 0 < size →
      offset + size < 2 ^ 64 →
      (match block with
        | none => ∀ a ∈ v.chain, offset < a.offset
        | some p => ∃ b ∈ v.chain, b.addr = p ∧ b.offset ≤ offset ∧
            ∀ a ∈ v.chain, b.offset < a.offset → offset ≤ a.offset) →
      vinode_allocate_interval_loop cfg over fuel v block offset size = some v' →
      vinode_wf v' ∧ (∃ c, v'.blocks = some c) ∧ v'.inode = v.inode ∧
        (∀ b ∈ v.chain, b ∈ v'.chain) ∧
        (∀ b ∈ v'.chain, b ∈ v.chain ∨ b.flags = 0) ∧
        (∀ pos, offset ≤ pos → pos < offset + size →
          ∃ b ∈ v'.chain, b.offset ≤ pos ∧ pos < b.offset + b.size) := by
  intro fuel
  induction fuel with
  | zero => intro v block offset size v' _ _ _ _ _ _ h; cases h
  | succ fuel ih =>
    intro v block offset size v' hw hbl hom hs0 hend hinv h
    obtain ⟨c, hcb⟩ := hbl
    -- what a successful allocation step gives, once the new chain is known to be well formed
    have finish : ∀ (v1 : pmemfile_vinode) (nb1 : pmemfile_block),
        vinode_wf v1 → v1.blocks.isSome → v1.inode = v.inode →
        (∀ x, x ∈ v1.chain ↔ x = nb1 ∨ x ∈ v.chain) →
        nb1.offset = offset → nb1.flags = 0 →
        vinode_allocate_interval_loop cfg over fuel v1 (some nb1.addr) offset size = some v' →
        vinode_wf v' ∧ (∃ c, v'.blocks = some c) ∧ v'.inode = v.inode ∧
          (∀ b ∈ v.chain, b ∈ v'.chain) ∧
          (∀ b ∈ v'.chain, b ∈ v.chain ∨ b.flags = 0) ∧
          (∀ pos, offset ≤ pos → pos < offset + size →
            ∃ b ∈ v'.chain, b.offset ≤ pos ∧ pos < b.offset + b.size) := by
      intro v1 nb1 hw1 hb1 hi1 hm1 hno hnf hl
      have hinv1 : ∃ b ∈ v1.chain, b.addr = nb1.addr ∧ b.offset ≤ offset ∧
          ∀ a ∈ v1.chain, b.offset < a.offset → offset ≤ a.offset := by
        refine ⟨nb1, (hm1 nb1).mpr (Or.inl rfl), rfl, by omega, ?_⟩
        intro a _ hlt
        omega
      obtain ⟨q1, q2, q3, q4, q5, q6⟩ :=
        ih v1 (some nb1.addr) offset size v' hw1 (Option.isSome_iff_exists.mp hb1) hom hs0 hend
          hinv1 hl
      refine ⟨q1, q2, by rw [q3, hi1], ?_, ?_, q6⟩
      · intro b hb
        exact q4 b ((hm1 b).mpr (Or.inr hb))
      · intro b hb
        rcases q5 b hb with h1 | h1
        · rcases (hm1 b).mp h1 with rfl | h2
          · exact Or.inr hnf
          · exact Or.inl h2
        · exact Or.inr h1
    unfold vinode_allocate_interval_loop at h
    dsimp only at h
    cases block with
    | none =>
      dsimp only at h hinv
      cases hh : v.chain.head? with
      | none =>
        rw [hh] at h
        dsimp only at h
        have hnil : v.chain = [] := List.head?_eq_none_iff.mp hh
        cases ha : allocate_block cfg v none offset size over none with
        | none => rw [ha] at h; cases h
        | some r =>
          obtain ⟨v1, p1⟩ := r
          rw [ha] at h
          dsimp only at h
          rw [if_pos hs0] at h
          obtain ⟨nb, nb1, hv1, hko, hka, hp1, hnba, hnbo, hnf, hn0, hnm, hn32, hu, hc0, hex⟩ :=
            allocate_block_spec hc (by intro x hx; cases hx) ha
          rw [block_list_insert_after_none] at hv1
          rw [← hnba] at h
          by_cases hov : nb1.offset + nb1.size < 2 ^ 64
          · have hok : block_ok nb1 := ⟨hn0, by rw [hnbo]; exact hom, hnm, hov, hn32⟩
            have hw1 := vinode_wf_insert_head hw hko hka hok (by rw [hnba, hp1])
              (by rw [hnil]; simp)
            rw [← hv1] at hw1
            refine finish v1 nb1 hw1 (by rw [hv1, hcb]; rfl) (by rw [hv1]) ?_ hnbo hnf h
            intro x; rw [hv1]; simp
          · exfalso
            obtain ⟨slot, hslot⟩ := hex rfl
            have := alloc_loop_stuck cfg hc over fuel v1 [] nb1 offset size
              (by rw [hv1, hnil]; rfl) (by simp) hnbo hn32 (by omega) (by omega) hs0
              (fun s2 n2 h2 => file_allocate_block_data_size h2 hslot)
            rw [this] at h; cases h
      | some first =>
        rw [hh] at h
        dsimp only at h
        obtain ⟨rest, hrest⟩ : ∃ rest, v.chain = first :: rest := by
          cases hv : v.chain with
          | nil => rw [hv] at hh; cases hh
          | cons a rest => rw [hv] at hh; simp at hh; exact ⟨rest, by rw [hh]⟩
        have hfm : first ∈ v.chain := by rw [hrest]; simp
        have hfo := hinv first hfm
        have hfok := hw.1.2.2 first hfm
        cases ha : allocate_block cfg v none offset
            (if u64 (offset + size) > first.offset then u32 (sub64 first.offset offset) else size)
            false none with
        | none => rw [ha] at h; cases h
        | some r =>
          obtain ⟨v1, p1⟩ := r
          rw [ha] at h
          dsimp only at h
          rw [if_pos hs0] at h
          obtain ⟨nb, nb1, hv1, hko, hka, hp1, hnba, hnbo, hnf, hn0, hnm, hn32, hu, hc0, hex⟩ :=
            allocate_block_spec hc (by intro x hx; cases hx) ha
          rw [block_list_insert_after_none] at hv1
          rw [← hnba] at h
          have hle : nb1.offset + nb1.size ≤ first.offset := by
            have := hu rfl
            have hfb := hfok.2.2.2.1
            rw [hnbo]
            unfold u64 u32 sub64 at this
            split_ifs at this <;> omega
          have hok : block_ok nb1 := ⟨hn0, by rw [hnbo]; exact hom, hnm, by
            have := hfok.2.2.2.1; omega, hn32⟩
          have hall : ∀ a ∈ v.chain, nb1.offset + nb1.size ≤ a.offset := by
            intro a ha
            rw [hrest] at ha
            rcases List.mem_cons.mp ha with rfl | ha
            · exact hle
            · have hp := hw.1.1
              rw [hrest, List.pairwise_cons] at hp
              have := hp.1 a ha
              omega
          have hw1 := vinode_wf_insert_head hw hko hka hok (by rw [hnba, hp1]) hall
          rw [← hv1] at hw1
          refine finish v1 nb1 hw1 (by rw [hv1, hcb]; rfl) (by rw [hv1]) ?_ hnbo hnf h
          intro x; rw [hv1]; simp
    | some p =>
      dsimp only at h hinv
      obtain ⟨b, hbm, hba, hbo, hafter⟩ := hinv
      have hd : block_deref v.chain p = some b := by
        rw [← hba]; exact chain_wf_deref hw.1 hbm
      rw [hd] at h
      dsimp only at h
      have hbok := hw.1.2.2 b hbm
      obtain ⟨pre, post, hch, hpre, hpost, hpre_le, hpost_le⟩ := chain_wf_split hw.1 hbm
      by_cases hin : is_offset_in_block (some b) offset = true
      · rw [if_pos hin] at h
        simp only [is_offset_in_block, Bool.and_eq_true, decide_eq_true_eq] at hin
        have hu : u64 (b.offset + b.size) = b.offset + b.size := u64_of_lt hbok.2.2.2.1
        rw [hu] at hin
        have hav : sub64 b.size (sub64 offset b.offset) = b.offset + b.size - offset := by
          have := hbok.2.2.2.1
          unfold sub64; omega
        rw [hav] at h
        by_cases hge : b.offset + b.size - offset ≥ size
        · rw [if_pos hge] at h
          cases h
          refine ⟨hw, ⟨c, hcb⟩, rfl, fun _ hx => hx, fun _ hx => Or.inl hx, ?_⟩
          intro pos h1 h2
          exact ⟨b, hbm, by omega, by omega⟩
        · rw [if_neg hge] at h
          have h1 : u64 (offset + (b.offset + b.size - offset)) = b.offset + b.size := by
            unfold u64; omega
          have h2 : sub64 size (b.offset + b.size - offset) = size - (b.offset + b.size - offset) := by
            unfold sub64; omega
          rw [h1, h2, if_pos (by omega)] at h
          have hinv1 : ∃ b1 ∈ v.chain, b1.addr = p ∧ b1.offset ≤ b.offset + b.size ∧
              ∀ a ∈ v.chain, b1.offset < a.offset → b.offset + b.size ≤ a.offset :=
            ⟨b, hbm, hba, by omega, fun a ha hlt => chain_wf_after hw.1 ha hbm hlt⟩
          have hal : (b.offset + b.size) % FILE_PAGE_SIZE = 0 := by
            have := hbok.2.1
            have := hbok.2.2.1
            unfold FILE_PAGE_SIZE at *
            omega
          obtain ⟨q1, q2, q3, q4, q5, q6⟩ :=
            ih v (some p) (b.offset + b.size) (size - (b.offset + b.size - offset)) v' hw
              ⟨c, hcb⟩ hal (by omega) (by omega) hinv1 h
          refine ⟨q1, q2, q3, q4, q5, ?_⟩
          intro pos hp1 hp2
          by_cases hpb : pos < b.offset + b.size
          · exact ⟨b, q4 b hbm, by omega, hpb⟩
          · exact q6 pos (by omega) (by omega)
      · rw [if_neg hin] at h
        simp only [is_offset_in_block, Bool.and_eq_true, decide_eq_true_eq] at hin
        have hu : u64 (b.offset + b.size) = b.offset + b.size := u64_of_lt hbok.2.2.2.1
        rw [hu] at hin
        have hbe : b.offset + b.size ≤ offset := by omega
        have hnx : block_next v.chain p = post.head?.map (fun n => n.addr) := by
          rw [hch, ← hba]; exact block_next_split pre post b hpre
        rw [hnx] at h
        cases post with
        | nil =>
          simp only [List.head?_nil, Option.map_none'] at h
          cases ha : allocate_block cfg v (some p) offset size over none with
          | none => rw [ha] at h; cases h
          | some r =>
            obtain ⟨v1, p1⟩ := r
            rw [ha] at h
            dsimp only at h
            rw [if_pos hs0] at h
            obtain ⟨nb, nb1, hv1, hko, hka, hp1, hnba, hnbo, hnf, hn0, hnm, hn32, hu1, hc0,
              hex⟩ := allocate_block_spec hc (by intro x hx; cases hx) ha
            have hins : block_list_insert_after v.chain (some p) nb1 = pre ++ b :: nb1 :: [] := by
              rw [hch, ← hba]; exact block_list_insert_after_split pre [] b nb1 hpre
            rw [hins] at hv1
            rw [← hnba] at h
            by_cases hov : nb1.offset + nb1.size < 2 ^ 64
            · have hok : block_ok nb1 := ⟨hn0, by rw [hnbo]; exact hom, hnm, hov, hn32⟩
              have hw1 := vinode_wf_insert_after hw hch hko hka hok (by rw [hnba, hp1])
                (by omega) (by simp)
              rw [← hv1] at hw1
              refine finish v1 nb1 hw1 (by rw [hv1, hcb]; rfl) (by rw [hv1]) ?_ hnbo hnf h
              intro x; rw [hv1, hch]
              exact mem_insert_mid pre _ b nb1 x
            · exfalso
              obtain ⟨slot, hslot⟩ := hex rfl
              have hfresh : ∀ a ∈ pre ++ [b], a.addr ≠ nb1.addr := by
                intro a ha
                have := fresh_addr_gt v.chain a (by rw [hch]; exact ha)
                omega
              have := alloc_loop_stuck cfg hc over fuel v1 (pre ++ [b]) nb1 offset size
                (by rw [hv1]; simp) hfresh hnbo hn32 (by omega) (by omega) hs0
                (fun s2 n2 h2 => file_allocate_block_data_size h2 hslot)
              rw [this] at h; cases h
        | cons next post1 =>
          simp only [List.head?_cons, Option.map_some'] at h
          have hnm : next ∈ v.chain := by rw [hch]; simp
          have hdn : block_deref v.chain next.addr = some next := chain_wf_deref hw.1 hnm
          rw [hdn] at h
          dsimp only at h
          have hnok := hw.1.2.2 next hnm
          have hbn : b.offset + b.size ≤ next.offset := hpost_le next (by simp)
          have hon : offset ≤ next.offset := hafter next hnm (by have := hbok.1; omega)
          have hhc : sub64 next.offset offset = next.offset - offset := by
            have := hnok.2.2.2.1
            unfold sub64; omega
          rw [hhc] at h
          by_cases hpos : (if next.offset - offset > size then size else next.offset - offset) > 0
          · rw [if_pos hpos] at h
            cases ha : allocate_block cfg v (some p) offset
                (if next.offset - offset > size then size else next.offset - offset) false
                (some (if next.offset - offset > size then size else next.offset - offset)) with
            | none => rw [ha] at h; cases h
            | some r =>
              obtain ⟨v1, p1⟩ := r
              rw [ha] at h
              dsimp only at h
              rw [if_pos hs0] at h
              obtain ⟨nb, nb1, hv1, hko, hka, hp1, hnba, hnbo, hnf, hn0, hnm1, hn32, hu1, hc0,
                hex⟩ := allocate_block_spec hc (by intro x hx; cases hx; rfl) ha
              have hins : block_list_insert_after v.chain (some p) nb1 =
                  pre ++ b :: nb1 :: next :: post1 := by
                rw [hch, ← hba]; exact block_list_insert_after_split pre _ b nb1 hpre
              rw [hins] at hv1
              rw [← hnba] at h
              have hle : nb1.offset + nb1.size ≤ next.offset := by
                have := hu1 rfl
                rw [hnbo]
                split_ifs at this <;> omega
              have hok : block_ok nb1 := ⟨hn0, by rw [hnbo]; exact hom, hnm1, by
                have := hnok.2.2.2.1; omega, hn32⟩
              have hw1 := vinode_wf_insert_after hw hch hko hka hok (by rw [hnba, hp1])
                (by omega) (by
                  intro a ha
                  rcases List.mem_cons.mp ha with rfl | ha
                  · exact hle
                  · have hp := hw.1.1
                    rw [hch, List.pairwise_append] at hp
                    have := (List.pairwise_cons.mp (List.pairwise_cons.mp hp.2.1).2).1 a ha
                    have := hnok.1
                    omega)
              rw [← hv1] at hw1
              refine finish v1 nb1 hw1 (by rw [hv1, hcb]; rfl) (by rw [hv1]) ?_ hnbo hnf h
              intro x; rw [hv1, hch]
              exact mem_insert_mid pre _ b nb1 x
          · rw [if_neg hpos, if_pos hs0] at h
            have heq : next.offset = offset := by
              split_ifs at hpos <;> omega
            have hinv1 : ∃ b1 ∈ v.chain, b1.addr = next.addr ∧ b1.offset ≤ offset ∧
                ∀ a ∈ v.chain, b1.offset < a.offset → offset ≤ a.offset :=
              ⟨next, hnm, rfl, by omega, fun a _ hlt => by omega⟩
            exact ih v (some next.addr) offset size v' hw ⟨c, hcb⟩ hom hs0 hend hinv1 h

theorem overallocate_size_ge (n : Nat) : n ≤ overallocate_size n := by
  unfold overallocate_size; split_ifs <;> omega

theorem overallocate_size_le (n : Nat) : overallocate_size n ≤ n + 64 * 1024 * 1024 := by
  unfold overallocate_size; split_ifs <;> omega

theorem expand_to_full_pages_spec {offset length : Nat}
    (h : length + 2 * FILE_PAGE_SIZE ≤ 2 ^ 64) :
    (expand_to_full_pages offset length).1 % FILE_PAGE_SIZE = 0 ∧
      (expand_to_full_pages offset length).2 % FILE_PAGE_SIZE = 0 ∧
      (expand_to_full_pages offset length).1 ≤ offset ∧
      offset < (expand_to_full_pages offset length).1 + FILE_PAGE_SIZE ∧
      offset + length ≤ (expand_to_full_pages offset length).1 + (expand_to_full_pages offset length).2 ∧
      (expand_to_full_pages offset length).1 + (expand_to_full_pages offset length).2 <
        offset + length + FILE_PAGE_SIZE := by
  unfold expand_to_full_pages page_roundup page_rounddown u64 FILE_PAGE_SIZE at *
  dsimp only
  omega

/-- Partial correctness of `vinode_allocate_interval`: when it returns, the
file is still well formed, the descriptors that were there are still there,
every other descriptor is not initialised, and the requested range is
covered. -/
theorem vinode_allocate_interval_spec {cfg : config} (hc : config_ok cfg)
    {v v' : pmemfile_vinode} {offset size : Nat} (hw : vinode_wf v)
    (ho : offset < 2 ^ 64) (hs : size < 2 ^ 63)
    (h : vinode_allocate_interval cfg v offset size = some v') :
    vinode_wf v' ∧ (∃ c, v'.blocks = some c) ∧ v'.inode = v.inode ∧
      (∀ b ∈ v.chain, b ∈ v'.chain) ∧
      (∀ b ∈ v'.chain, b ∈ v.chain ∨ b.flags = 0) ∧
      (∀ pos, page_rounddown offset ≤ pos → pos < offset + size →
        ∃ b ∈ v'.chain, b.offset ≤ pos ∧ pos < b.offset + b.size) ∧
      0 < size ∧ offset + size < 2 ^ 64 := by
  unfold vinode_allocate_interval at h
  cases hcb : v.blocks with
  | none => rw [hcb] at h; cases h
  | some c =>
    rw [hcb] at h
    dsimp only at h
    split at h
    · cases h
    rename_i hassert
    have hs0 : 0 < size := by omega
    have hnov : offset + size < 2 ^ 64 := by
      have : u64 (offset + size) > offset := by
        by_contra hcon; exact hassert (Or.inr hcon)
      unfold u64 at this; omega
    split at h
    · cases h
    rename_i over hover
    generalize hsz1 : (if over = true then overallocate_size size else size) = size1 at h
    have hs1 : size ≤ size1 ∧ size1 ≤ size + 64 * 1024 * 1024 := by
      rw [← hsz1]
      have := overallocate_size_ge size
      have := overallocate_size_le size
      split_ifs <;> omega
    obtain ⟨e1, e2, e3, e4, e5, e6⟩ :=
      @expand_to_full_pages_spec offset size1
        (by unfold FILE_PAGE_SIZE; omega)
    generalize expand_to_full_pages offset size1 = r at *
    have hrd : page_rounddown offset = r.1 := by
      unfold page_rounddown FILE_PAGE_SIZE at *
      omega
    by_cases hov : r.1 + r.2 < 2 ^ 64
    · have hinv : (match find_block c r.1 with
          | none => ∀ a ∈ v.chain, r.1 < a.offset
          | some p => ∃ b ∈ v.chain, b.addr = p ∧ b.offset ≤ r.1 ∧
              ∀ a ∈ v.chain, b.offset < a.offset → r.1 ≤ a.offset) := by
        cases hf : find_block c r.1 with
        | none => exact find_block_none (hw.2.1 c hcb) hf
        | some p =>
          obtain ⟨b, hb, hba, hbo, hmax⟩ := find_block_some (hw.2.1 c hcb) hf
          refine ⟨b, hb, hba, hbo, ?_⟩
          intro a ha hlt
          by_contra hcon
          have := hmax a ha (by omega)
          omega
      obtain ⟨q1, q2, q3, q4, q5, q6⟩ :=
        alloc_loop_spec cfg hc over _ v _ r.1 r.2 v' hw ⟨c, hcb⟩ e1
          (by unfold FILE_PAGE_SIZE at *; omega) hov hinv h
      refine ⟨q1, q2, q3, q4, q5, ?_, hs0, hnov⟩
      intro pos hp1 hp2
      exact q6 pos (by omega) (by omega)
    · exfalso
      have := alloc_loop_overflow_none cfg hc over (2 * r.2 + 2) v (find_block c r.1) r.1 r.2
        (fun b hb => (hw.1.2.2 b hb).2.2.2.2) (by omega)
        (by unfold FILE_PAGE_SIZE at *; omega) (by unfold FILE_PAGE_SIZE at *; omega) (by omega)
      rw [this] at h; cases h

/-! ## Chains with the same layout -/

theorem same_layout_refl (c : List pmemfile_block) : same_layout c c := rfl

theorem same_layout_trans {c1 c2 c3 : List pmemfile_block} (h1 : same_layout c1 c2)
    (h2 : same_layout c2 c3) : same_layout c1 c3 := Eq.trans h1 h2

theorem same_layout_mem {c1 c2 : List pmemfile_block} (h : same_layout c1 c2)
    {b : pmemfile_block} (hb : b ∈ c1) :
    ∃ b1 ∈ c2, b1.addr = b.addr ∧ b1.offset = b.offset ∧ b1.size = b.size := by
  have : (b.addr, b.offset, b.size) ∈ c1.map (fun b => (b.addr, b.offset, b.size)) :=
    List.mem_map.mpr ⟨b, hb, rfl⟩
  rw [h] at this
  obtain ⟨b1, hb1, he⟩ := List.mem_map.mp this
  simp only [Prod.mk.injEq] at he
  exact ⟨b1, hb1, he.1, he.2.1, he.2.2⟩

theorem same_layout_symm {c1 c2 : List pmemfile_block} (h : same_layout c1 c2) :
    same_layout c2 c1 := Eq.symm h

theorem same_layout_replace (pre post : List pmemfile_block) {b b1 : pmemfile_block}
    (ha : b1.addr = b.addr) (ho : b1.offset = b.offset) (hs : b1.size = b.size) :
    same_layout (pre ++ b :: post) (pre ++ b1 :: post) := by
  unfold same_layout
  simp [ha, ho, hs]

theorem chain_wf_same_layout {c1 c2 : List pmemfile_block} (hw : chain_wf c1)
    (h : same_layout c1 c2) : chain_wf c2 := by
  obtain ⟨hp, hn, hk⟩ := hw
  have e1 : ∀ c : List pmemfile_block,
      c.Pairwise (fun a b => a.offset + a.size ≤ b.offset) ↔
      (c.map (fun b => (b.addr, b.offset, b.size))).Pairwise
        (fun a b => a.2.1 + a.2.2 ≤ b.2.1) := by
    intro c; rw [List.pairwise_map]
  have e2 : ∀ c : List pmemfile_block,
      c.map (fun b => b.addr) = (c.map (fun b => (b.addr, b.offset, b.size))).map (fun t => t.1) := by
    intro c; rw [List.map_map]; rfl
  refine ⟨?_, ?_, ?_⟩
  · rw [e1, ← h, ← e1]; exact hp
  · rw [e2, ← h, ← e2]; exact hn
  · intro b hb
    obtain ⟨b0, hb0, h1, h2, h3⟩ := same_layout_mem (same_layout_symm h) hb
    have := hk b0 hb0
    unfold block_ok at this ⊢
    rw [h2, h3] at this
    exact this

theorem index_ok_same_layout {c1 c2 : List pmemfile_block} {c : List (Nat × Nat)}
    (hi : index_ok c1 c) (h : same_layout c1 c2) : index_ok c2 c := by
  refine index_ok_congr hi ?_ ?_
  · intro b hb
    obtain ⟨b1, hb1, h1, h2, _⟩ := same_layout_mem h hb
    exact ⟨b1, hb1, h2, h1⟩
  · intro b hb
    obtain ⟨b1, hb1, h1, h2, _⟩ := same_layout_mem (same_layout_symm h) hb
    exact ⟨b1, hb1, h2.symm, h1.symm⟩

theorem covered_same_layout {c1 c2 : List pmemfile_block} {offset len : Nat}
    (hcov : covered c1 offset len) (h : same_layout c1 c2) : covered c2 offset len := by
  intro pos h1 h2
  obtain ⟨b, hb, h3, h4⟩ := hcov pos h1 h2
  obtain ⟨b1, hb1, _, ho, hs⟩ := same_layout_mem h hb
  exact ⟨b1, hb1, by omega, by omega⟩

/-! ## Content after a store into one descriptor -/

theorem covering_replace {pre post : List pmemfile_block} {b b1 : pmemfile_block}
    (hw : chain_wf (pre ++ b :: post))
    (ha : b1.addr = b.addr) (ho : b1.offset = b.offset) (hs : b1.size = b.size) (pos : Nat) :
    covering (pre ++ b1 :: post) pos =
      if b.offset ≤ pos ∧ pos < b.offset + b.size then some b1
      else covering (pre ++ b :: post) pos := by
  have hw1 := chain_wf_replace hw ho hs ha
  split
  · rename_i hin
    exact covering_of_mem hw1 (by simp) (by omega) (by omega)
  · rename_i hin
    unfold covering
    rw [List.find?_append, List.find?_append, List.find?_cons, List.find?_cons]
    have e1 : (decide (b1.offset ≤ pos) && decide (pos < b1.offset + b1.size)) = false := by
      rw [ho, hs]; simp only [Bool.and_eq_false_imp, decide_eq_true_eq, decide_eq_false_iff_not]
      intro h1 h2; exact hin ⟨h1, h2⟩
    have e2 : (decide (b.offset ≤ pos) && decide (pos < b.offset + b.size)) = false := by
      simp only [Bool.and_eq_false_imp, decide_eq_true_eq, decide_eq_false_iff_not]
      intro h1 h2; exact hin ⟨h1, h2⟩
    rw [e1, e2]

theorem content_replace {pre post : List pmemfile_block} {b b1 : pmemfile_block}
    (hw : chain_wf (pre ++ b :: post))
    (ha : b1.addr = b.addr) (ho : b1.offset = b.offset) (hs : b1.size = b.size) (pos : Nat) :
    content (pre ++ b1 :: post) pos =
      if b.offset ≤ pos ∧ pos < b.offset + b.size then
        (if is_block_data_initialized b1 then b1.data (pos - b.offset) else 0)
      else content (pre ++ b :: post) pos := by
  unfold content
  rw [covering_replace hw ha ho hs]
  by_cases hin : b.offset ≤ pos ∧ pos < b.offset + b.size
  · rw [if_pos hin, if_pos hin]
    dsimp only
    rw [ho]
  · rw [if_neg hin, if_neg hin]

theorem content_of_mem {chain : List pmemfile_block} (hw : chain_wf chain) {pos : Nat}
    {b : pmemfile_block} (hb : b ∈ chain) (h1 : b.offset ≤ pos)
    (h2 : pos < b.offset + b.size) :
    content chain pos = if is_block_data_initialized b then b.data (pos - b.offset) else 0 := by
  unfold content
  rw [covering_of_mem hw hb h1 h2]

theorem content_of_not_covered {chain : List pmemfile_block} {pos : Nat}
    (h : ∀ b ∈ chain, ¬ (b.offset ≤ pos ∧ pos < b.offset + b.size)) :
    content chain pos = 0 := by
  unfold content
  rw [covering_none h]

theorem write_block_range_spec {b b1 : pmemfile_block} {start len : Nat} {buf : List Nat}
    (h : write_block_range b start len buf = some b1) :
    b1.addr = b.addr ∧ b1.offset = b.offset ∧ b1.size = b.size ∧
      is_block_data_initialized b1 = true ∧
      ∀ i, i < b.size → b1.data i =
        if start ≤ i ∧ i < start + len then buf.getD (i - start) 0
        else if is_block_data_initialized b then b.data i else 0 := by
  unfold write_block_range at h
  split at h
  · cases h
  dsimp only at h
  by_cases hi : is_block_data_initialized b = true
  · simp only [hi, not_true_eq_false, if_false] at h
    cases h
    refine ⟨rfl, rfl, rfl, hi, ?_⟩
    intro i _
    simp only [hi, if_true]
  · simp only [hi, not_false_eq_true, if_true] at h
    cases h
    refine ⟨rfl, rfl, rfl, ?_, ?_⟩
    · exact is_init_or b _
    · intro i hlt
      simp only [hi, Bool.false_eq_true, not_false_eq_true, if_true, if_false]
      split_ifs <;> first | rfl | omega

/-- In a covered range the descriptor that follows `b` starts where `b` ends. -/
theorem covered_next {pre post : List pmemfile_block} {b : pmemfile_block}
    (hw : chain_wf (pre ++ b :: post)) {offset len : Nat}
    (hcov : covered (pre ++ b :: post) offset len)
    (h1 : offset ≤ b.offset + b.size) (h2 : b.offset + b.size < offset + len) :
    ∃ next post1, post = next :: post1 ∧ next.offset = b.offset + b.size := by
  obtain ⟨c, hc, hc1, hc2⟩ := hcov (b.offset + b.size) h1 h2
  have hp := hw.1
  rw [List.pairwise_append] at hp
  have hbpost := (List.pairwise_cons.mp hp.2.1).1
  have hpostp := (List.pairwise_cons.mp hp.2.1).2
  rcases List.mem_append.mp hc with h | h
  · have := hp.2.2 c h b (by simp)
    have := (hw.2.2 b (by simp)).1
    omega
  · rcases List.mem_cons.mp h with rfl | h
    · omega
    · cases post with
      | nil => cases h
      | cons next post1 =>
        refine ⟨next, post1, rfl, ?_⟩
        have hn := hbpost next (by simp)
        rcases List.mem_cons.mp h with rfl | h
        · omega
        · have := (List.pairwise_cons.mp hpostp).1 c h
          have := (hw.2.2 next (by simp)).1
          omega

theorem getD_drop (l : List Nat) (n i d : Nat) : (l.drop n).getD i d = l.getD (n + i) d := by
  simp [List.getD_eq_getElem?_getD, List.getElem?_drop]

/-- Partial correctness of the copy loop when writing into a covered range. -/
theorem write_loop_spec :
    ∀ (fuel : Nat) (v : pmemfile_vinode) (file : pmemfile_file) (p offset len : Nat)
      (buf : List Nat) (r : pmemfile_vinode × pmemfile_file × List Nat),
      chain_wf v.chain → 0 < len → offset + len < 2 ^ 64 → covered v.chain offset len →
      (∃ b ∈ v.chain, b.addr = p ∧ b.offset ≤ offset ∧ offset < b.offset + b.size) →
      iterate_on_file_range_loop cpy_direction.write_to_blocks fuel v file (some p) offset len buf
        = some r →
      same_layout v.chain r.1.chain ∧ r.1.inode = v.inode ∧ r.1.blocks = v.blocks ∧
        r.2.1.offset = file.offset ∧ r.2.1.flags = file.flags ∧ cache_ok r.1 r.2.1 ∧
        ∀ pos, content r.1.chain pos =
          if offset ≤ pos ∧ pos < offset + len then buf.getD (pos - offset) 0
          else content v.chain pos := by
  intro fuel
  induction fuel with
  | zero =>
    intro v file p offset len buf r _ hl _ _ _ h
    unfold iterate_on_file_range_loop at h
    rw [if_neg (by omega)] at h
    cases h
  | succ fuel ih =>
    intro v file p offset len buf r hw hl hend hcov hinv h
    obtain ⟨b, hbm, hba, hb1, hb2⟩ := hinv
    have hbok := hw.2.2 b hbm
    obtain ⟨pre, post, hch, hpre, hpost, hpre_le, hpost_le⟩ := chain_wf_split hw hbm
    unfold iterate_on_file_range_loop at h
    rw [if_neg (by omega)] at h
    dsimp only at h
    rw [if_neg (by simp)] at h
    have hd : block_deref v.chain p = some b := by
      rw [← hba]; exact chain_wf_deref hw hbm
    rw [hd] at h
    simp only [Option.map_some'] at h
    have hu : u64 (b.offset + b.size) = b.offset + b.size := u64_of_lt hbok.2.2.2.1
    have hin : is_offset_in_block (some b) offset = true := by
      simp only [is_offset_in_block, Bool.and_eq_true, decide_eq_true_eq, hu]
      exact ⟨hb1, hb2⟩
    rw [if_neg (by simp [hin])] at h
    have hst : sub64 offset b.offset = offset - b.offset := by unfold sub64; omega
    have hl0 : sub64 b.size (offset - b.offset) = b.offset + b.size - offset := by
      have := hbok.2.2.2.2
      unfold sub64; omega
    rw [hst, hl0] at h
    generalize hil : (if len < b.offset + b.size - offset then len
      else b.offset + b.size - offset) = ilen at h
    have hilen : 0 < ilen ∧ ilen ≤ len ∧ ilen ≤ b.offset + b.size - offset ∧
        (ilen < len → ilen = b.offset + b.size - offset) := by
      rw [← hil]; split_ifs <;> omega
    have hass : (offset - b.offset < b.size ∧ u64 (offset - b.offset + ilen) ≤ b.size) := by
      unfold u64; omega
    rw [if_neg (by simp only [not_not]; exact hass)] at h
    cases hwr : write_block_range b (offset - b.offset) ilen buf with
    | none => rw [hwr] at h; cases h
    | some b1 =>
      rw [hwr] at h
      dsimp only at h
      obtain ⟨wa, wo, ws, wi, wd⟩ := write_block_range_spec hwr
      have hupd : block_update v.chain p (fun _ => b1) = pre ++ b1 :: post := by
        rw [hch, ← hba]; exact block_update_split pre post b _ hpre hpost
      rw [hupd] at h
      have hu2 : u64 (offset + ilen) = offset + ilen := by unfold u64; omega
      rw [hu2] at h
      have hlay : same_layout v.chain (pre ++ b1 :: post) := by
        rw [hch]; exact same_layout_replace pre post wa wo ws
      have hw1 : chain_wf (pre ++ b1 :: post) := by
        rw [hch] at hw; exact chain_wf_replace hw wo ws wa
      have hcont : ∀ pos, content (pre ++ b1 :: post) pos =
          if offset ≤ pos ∧ pos < offset + ilen then buf.getD (pos - offset) 0
          else content v.chain pos := by
        intro pos
        rw [hch] at hw ⊢
        rw [content_replace hw wa wo ws]
        by_cases hpin : b.offset ≤ pos ∧ pos < b.offset + b.size
        · rw [if_pos hpin, wi, if_pos rfl, wd _ (by omega)]
          rw [content_of_mem hw (by simp) hpin.1 hpin.2]
          by_cases hr : offset ≤ pos ∧ pos < offset + ilen
          · rw [if_pos (by omega), if_pos hr]
            congr 1; omega
          · rw [if_neg (by omega), if_neg hr]
        · rw [if_neg hpin, if_neg (by omega)]
      by_cases hdone : len - ilen = 0
      · unfold iterate_on_file_range_loop at h
        rw [if_pos hdone] at h
        cases h
        dsimp only
        refine ⟨hlay, rfl, rfl, rfl, rfl, ?_, ?_⟩
        · intro q hq
          simp only [Option.some.injEq] at hq
          exact ⟨b1, by simp, by rw [wa, hba, hq]⟩
        · intro pos
          rw [hcont]
          have : ilen = len := by omega
          rw [this]
      · have hlt : ilen < len := by omega
        have hie := hilen.2.2.2 hlt
        rw [hch] at hcov hw
        obtain ⟨next, post1, hpn, hno⟩ := covered_next hw hcov (by omega) (by omega)
        have hnx : block_next v.chain p = some next.addr := by
          rw [hch, ← hba, block_next_split pre post b hpre, hpn]; rfl
        rw [hnx] at h
        have hnm : next ∈ pre ++ b1 :: post := by rw [hpn]; simp
        have hnok := hw1.2.2 next hnm
        have hcov1 : covered (pre ++ b1 :: post) (offset + ilen) (len - ilen) := by
          have := covered_same_layout hcov (same_layout_replace pre post wa wo ws)
          intro pos q1 q2
          exact this pos (by omega) (by omega)
        obtain ⟨r1, r2, r3, r4, r5, r6, r7⟩ :=
          ih { v with chain := pre ++ b1 :: post }
            { file with block_pointer_cache := some p } next.addr (offset + ilen) (len - ilen)
            (buf.drop ilen) r hw1 (by omega) (by omega) hcov1
            ⟨next, hnm, rfl, by omega, by have := hnok.1; omega⟩ h
        refine ⟨same_layout_trans hlay r1, r2, r3, r4, r5, r6, ?_⟩
        intro pos
        rw [r7 pos]
        dsimp only
        rw [hcont pos, getD_drop]
        by_cases q1 : offset + ilen ≤ pos ∧ pos < offset + ilen + (len - ilen)
        · rw [if_pos q1, if_pos (by omega)]
          congr 1; omega
        · rw [if_neg q1]
          by_cases q2 : offset ≤ pos ∧ pos < offset + ilen
          · rw [if_pos q2, if_pos (by omega)]
          · rw [if_neg q2, if_neg (by omega)]

/-- What `file_find_block` returns on a well-formed file: the descriptor with
the greatest offset at or below `off`. -/
theorem file_find_block_spec {v : pmemfile_vinode} {file : pmemfile_file} {c : List (Nat × Nat)}
    (hw : chain_wf v.chain) (hcb : v.blocks = some c) (hix : index_ok v.chain c)
    (hca : cache_ok v file) (off : Nat) :
    ∃ blk file1, file_find_block v file off = some (blk, file1) ∧
      file1.offset = file.offset ∧ file1.flags = file.flags ∧ cache_ok v file1 ∧
      (match blk with
        | none => ∀ a ∈ v.chain, off < a.offset
        | some p => ∃ b ∈ v.chain, b.addr = p ∧ b.offset ≤ off ∧
            ∀ a ∈ v.chain, a.offset ≤ off → a.offset ≤ b.offset) := by
  have tree : ∃ blk file1,
      (match find_block c off with
        | some p => some (some p, { file with block_pointer_cache := some p })
        | none => some (none, file)) = some (blk, file1) ∧
      file1.offset = file.offset ∧ file1.flags = file.flags ∧ cache_ok v file1 ∧
      (match blk with
        | none => ∀ a ∈ v.chain, off < a.offset
        | some p => ∃ b ∈ v.chain, b.addr = p ∧ b.offset ≤ off ∧
            ∀ a ∈ v.chain, a.offset ≤ off → a.offset ≤ b.offset) := by
    cases hf : find_block c off with
    | none => exact ⟨none, file, rfl, rfl, rfl, hca, find_block_none hix hf⟩
    | some p =>
      obtain ⟨b, hb, hba, hbo, hmax⟩ := find_block_some hix hf
      refine ⟨some p, _, rfl, rfl, rfl, ?_, ⟨b, hb, hba, hbo, hmax⟩⟩
      intro q hq
      simp only [Option.some.injEq] at hq
      exact ⟨b, hb, by rw [hba, hq]⟩
  unfold file_find_block
  rw [hcb]
  dsimp only
  cases hcc : file.block_pointer_cache with
  | none => exact tree
  | some p =>
    dsimp only
    obtain ⟨b, hb, hba⟩ := hca p hcc
    have hd : block_deref v.chain p = some b := by rw [← hba]; exact chain_wf_deref hw hb
    rw [hd]
    dsimp only
    by_cases hin : is_offset_in_block (some b) off = true
    · rw [if_pos hin]
      refine ⟨some p, file, rfl, rfl, rfl, hca, b, hb, hba, ?_⟩
      have hbok := hw.2.2 b hb
      simp only [is_offset_in_block, Bool.and_eq_true, decide_eq_true_eq,
        u64_of_lt hbok.2.2.2.1] at hin
      refine ⟨hin.1, ?_⟩
      intro a ha hao
      by_contra hcon
      have := chain_wf_after hw ha hb (by omega)
      omega
    · rw [if_neg hin]
      exact tree

theorem find_covering {chain : List pmemfile_block} (hw : chain_wf chain) {off : Nat}
    {b b0 : pmemfile_block} (hb : b ∈ chain) (hbo : b.offset ≤ off)
    (hmax : ∀ a ∈ chain, a.offset ≤ off → a.offset ≤ b.offset)
    (hb0 : b0 ∈ chain) (h1 : b0.offset ≤ off) (h2 : off < b0.offset + b0.size) : b = b0 := by
  have h3 := hmax b0 hb0 h1
  by_cases he : b0.offset = b.offset
  · obtain ⟨pre, post, rfl, _, _, h5, h6⟩ := chain_wf_split hw hb
    rcases List.mem_append.mp hb0 with h | h
    · have := h5 b0 h
      have := (hw.2.2 b0 hb0).1
      omega
    · rcases List.mem_cons.mp h with rfl | h
      · rfl
      · have := h6 b0 h
        have := (hw.2.2 b hb).1
        omega
  · have := chain_wf_after hw hb hb0 (by omega)
    omega

theorem range_map_split (f : Nat → Nat) (a n : Nat) (h : a ≤ n) :
    (List.range n).map f =
      (List.range a).map f ++ (List.range (n - a)).map (fun i => f (a + i)) := by
  have : n = a + (n - a) := by omega
  conv => lhs; rw [this, List.range_add]
  simp [List.map_append, List.map_map, Function.comp]

theorem read_block_range_content {chain : List pmemfile_block} (hw : chain_wf chain)
    {b : pmemfile_block} (hb : b ∈ chain) {offset ilen : Nat} (h0 : 0 < ilen)
    (h1 : b.offset ≤ offset) (h2 : offset + ilen ≤ b.offset + b.size) :
    read_block_range (some b) (offset - b.offset) ilen =
      some ((List.range ilen).map (fun i => content chain (offset + i))) := by
  have hbok := hw.2.2 b hb
  unfold read_block_range
  rw [if_neg (by omega)]
  dsimp only
  have : offset - b.offset < b.size ∧ u64 (offset - b.offset + ilen) ≤ b.size := by
    have := hbok.2.2.2.2
    unfold u64; omega
  rw [if_neg (by simp only [not_not]; exact this)]
  by_cases hi : is_block_data_initialized b = true
  · rw [if_pos hi]
    congr 1
    apply List.map_congr_left
    intro i hi2
    rw [List.mem_range] at hi2
    rw [content_of_mem hw hb (by omega) (by omega), if_pos hi]
    congr 1; omega
  · rw [if_neg hi]
    congr 1
    symm
    rw [List.eq_replicate_iff]
    constructor
    · simp
    · intro x hx
      obtain ⟨i, hi2, rfl⟩ := List.mem_map.mp hx
      rw [List.mem_range] at hi2
      rw [content_of_mem hw hb (by omega) (by omega), if_neg hi]

/-- The copy loop, reading a covered range: it finishes and returns the stored
content. -/
theorem read_loop_covered :
    ∀ (fuel : Nat) (v : pmemfile_vinode) (file : pmemfile_file) (p offset len : Nat)
      (out : List Nat),
      chain_wf v.chain → 0 < len → offset + len < 2 ^ 64 → covered v.chain offset len →
      (∃ b ∈ v.chain, b.addr = p ∧ b.offset ≤ offset ∧ offset < b.offset + b.size) →
      len ≤ fuel →
      ∃ file1, iterate_on_file_range_loop cpy_direction.read_from_blocks fuel v file (some p)
          offset len out =
          some (v, file1, out ++ (List.range len).map (fun i => content v.chain (offset + i))) ∧
        file1.offset = file.offset ∧ file1.flags = file.flags ∧ cache_ok v file1 := by
  intro fuel
  induction fuel with
  | zero => intro v file p offset len out _ hl _ _ _ hf; omega
  | succ fuel ih =>
    intro v file p offset len out hw hl hend hcov hinv hfuel
    obtain ⟨b, hbm, hba, hb1, hb2⟩ := hinv
    have hbok := hw.2.2 b hbm
    obtain ⟨pre, post, hch, hpre, hpost, hpre_le, hpost_le⟩ := chain_wf_split hw hbm
    unfold iterate_on_file_range_loop
    rw [if_neg (by omega)]
    dsimp only
    rw [if_neg (by simp)]
    have hd : block_deref v.chain p = some b := by
      rw [← hba]; exact chain_wf_deref hw hbm
    rw [hd]
    simp only [Option.map_some']
    have hu : u64 (b.offset + b.size) = b.offset + b.size := u64_of_lt hbok.2.2.2.1
    have hin : is_offset_in_block (some b) offset = true := by
      simp only [is_offset_in_block, Bool.and_eq_true, decide_eq_true_eq, hu]
      exact ⟨hb1, hb2⟩
    rw [if_neg (by simp [hin])]
    have hst : sub64 offset b.offset = offset - b.offset := by unfold sub64; omega
    have hl0 : sub64 b.size (offset - b.offset) = b.offset + b.size - offset := by
      have := hbok.2.2.2.2
      unfold sub64; omega
    rw [hst, hl0]
    generalize hil : (if len < b.offset + b.size - offset then len
      else b.offset + b.size - offset) = ilen
    have hilen : 0 < ilen ∧ ilen ≤ len ∧ ilen ≤ b.offset + b.size - offset ∧
        (ilen < len → ilen = b.offset + b.size - offset) := by
      rw [← hil]; split_ifs <;> omega
    have hass : (offset - b.offset < b.size ∧ u64 (offset - b.offset + ilen) ≤ b.size) := by
      unfold u64; omega
    rw [if_neg (by simp only [not_not]; exact hass)]
    rw [read_block_range_content hw hbm hilen.1 hb1 (by omega)]
    dsimp only
    have hu2 : u64 (offset + ilen) = offset + ilen := by unfold u64; omega
    rw [hu2]
    have hsplit := range_map_split (fun i => content v.chain (offset + i)) ilen len hilen.2.1
    by_cases hdone : len - ilen = 0
    · unfold iterate_on_file_range_loop
      rw [if_pos hdone]
      have : ilen = len := by omega
      subst this
      refine ⟨_, rfl, rfl, rfl, ?_⟩
      intro q hq
      simp only [Option.some.injEq] at hq
      exact ⟨b, hbm, by rw [hba, hq]⟩
    · have hlt : ilen < len := by omega
      have hie := hilen.2.2.2 hlt
      have hcov0 := hcov
      rw [hch] at hcov hw
      obtain ⟨next, post1, hpn, hno⟩ := covered_next hw hcov (by omega) (by omega)
      have hnx : block_next v.chain p = some next.addr := by
        rw [hch, ← hba, block_next_split pre post b hpre, hpn]; rfl
      rw [hnx]
      rw [← hch] at hw
      have hnm : next ∈ v.chain := by rw [hch, hpn]; simp
      have hnok := hw.2.2 next hnm
      have hcov1 : covered v.chain (offset + ilen) (len - ilen) := by
        intro pos q1 q2
        exact hcov0 pos (by omega) (by omega)
      obtain ⟨file1, r1, r2, r3, r4⟩ :=
        ih v { file with block_pointer_cache := some p } next.addr (offset + ilen) (len - ilen)
          (out ++ (List.range ilen).map (fun i => content v.chain (offset + i)))
          hw (by omega) (by omega) hcov1
          ⟨next, hnm, rfl, by omega, by have := hnok.1; omega⟩ (by omega)
      refine ⟨file1, ?_, r2, r3, r4⟩
      rw [r1, hsplit]
      simp only [List.append_assoc, Nat.add_assoc]

/-! ## Rebuilding the index -/

theorem rebuild_index_ok : ∀ (l2 l1 : List pmemfile_block) (acc : List (Nat × Nat)),
    chain_wf (l1 ++ l2) → index_ok l1 acc →
    index_ok (l1 ++ l2) (l2.foldl block_cache_insert_block acc) := by
  intro l2
  induction l2 with
  | nil => intro l1 acc _ hi; simpa using hi
  | cons b l2 ih =>
    intro l1 acc hw hi
    simp only [List.foldl_cons]
    have hw' : chain_wf ((l1 ++ [b]) ++ l2) := by simpa using hw
    have := ih (l1 ++ [b]) (block_cache_insert_block acc b) hw' ?_
    · simpa using this
    · refine index_ok_insert hi b b rfl rfl ?_ ?_
      · intro a ha
        have hp := hw.1
        rw [List.pairwise_append] at hp
        have h1 := hp.2.2 a ha b (by simp)
        have h2 := (hw.2.2 a (by simp [ha])).1
        omega
      · intro x; simp only [List.mem_append, List.mem_singleton]; tauto

theorem vinode_rebuild_block_tree_wf {v : pmemfile_vinode} (hw : vinode_wf v) :
    vinode_wf (vinode_rebuild_block_tree v) ∧
      (∃ c, (vinode_rebuild_block_tree v).blocks = some c) ∧
      (vinode_rebuild_block_tree v).chain = v.chain ∧
      (vinode_rebuild_block_tree v).inode = v.inode := by
  unfold vinode_rebuild_block_tree
  refine ⟨⟨hw.1, ?_, hw.2.2⟩, ⟨_, rfl⟩, rfl, rfl⟩
  intro c hc
  simp only [Option.some.injEq] at hc
  subst hc
  have := rebuild_index_ok v.chain [] [] (by simpa using hw.1) (by constructor <;> simp)
  simpa using this

/-- The state in which the entry points work: the index is built when it is
missing. -/
theorem with_index_wf {v : pmemfile_vinode} (hw : vinode_wf v) :
    vinode_wf (if v.blocks.isNone then vinode_rebuild_block_tree v else v) ∧
      (∃ c, (if v.blocks.isNone then vinode_rebuild_block_tree v else v).blocks = some c) ∧
      (if v.blocks.isNone then vinode_rebuild_block_tree v else v).chain = v.chain ∧
      (if v.blocks.isNone then vinode_rebuild_block_tree v else v).inode = v.inode := by
  by_cases h : v.blocks.isNone = true
  · rw [if_pos h]; exact vinode_rebuild_block_tree_wf hw
  · rw [if_neg h]
    refine ⟨hw, ?_, rfl, rfl⟩
    cases hb : v.blocks with
    | none => rw [hb] at h; simp at h
    | some c => exact ⟨c, rfl⟩

/-! ## Content is not changed by allocation -/

theorem not_init_of_flags_zero {b : pmemfile_block} (h : b.flags = 0) :
    is_block_data_initialized b = false := by
  unfold is_block_data_initialized; rw [h]; rfl

theorem content_alloc {c0 c1 : List pmemfile_block} (hw0 : chain_wf c0) (hw1 : chain_wf c1)
    (h1 : ∀ b ∈ c0, b ∈ c1) (h2 : ∀ b ∈ c1, b ∈ c0 ∨ b.flags = 0) (pos : Nat) :
    content c1 pos = content c0 pos := by
  cases hc : covering c1 pos with
  | none =>
    have e1 : content c1 pos = 0 := by unfold content; rw [hc]
    rw [e1]
    symm
    apply content_of_not_covered
    intro b hb hin
    have := covering_of_mem hw1 (h1 b hb) hin.1 hin.2
    rw [hc] at this; cases this
  | some b =>
    obtain ⟨hb, hb1, hb2⟩ := covering_some hc
    rw [content_of_mem hw1 hb hb1 hb2]
    rcases h2 b hb with h | h
    · rw [content_of_mem hw0 h hb1 hb2]
    · rw [not_init_of_flags_zero h]
      symm
      simp only [Bool.false_eq_true, if_false]
      by_cases hex : ∃ b0 ∈ c0, b0.offset ≤ pos ∧ pos < b0.offset + b0.size
      · obtain ⟨b0, hb0, q1, q2⟩ := hex
        have := covering_of_mem hw1 (h1 b0 hb0) q1 q2
        rw [hc] at this
        cases this
        rw [content_of_mem hw0 hb0 q1 q2, not_init_of_flags_zero h]
        rfl
      · apply content_of_not_covered
        intro b0 hb0 hin
        exact hex ⟨b0, hb0, hin.1, hin.2⟩

/-! ## Writing -/

theorem file_write_spec {cfg : config} (hc : config_ok cfg) {v v2 : pmemfile_vinode}
    {file file2 : pmemfile_file} {buf : List Nat} {count : Nat}
    (hw : vinode_wf v) (hca : cache_ok v file) (ho : file.offset < 2 ^ 64)
    (hcnt : count < 2 ^ 63)
    (h : file_write cfg v file buf count = some (v2, file2)) :
    vinode_wf v2 ∧ (∃ c, v2.blocks = some c) ∧
      v2.inode = { v.inode with size := max v.inode.size (file.offset + count) } ∧
      file2.offset = file.offset ∧ file2.flags = file.flags ∧ cache_ok v2 file2 ∧
      covered v2.chain file.offset count ∧ 0 < count ∧ file.offset + count < 2 ^ 64 ∧
      ∀ pos, content v2.chain pos =
        if file.offset ≤ pos ∧ pos < file.offset + count then buf.getD (pos - file.offset) 0
        else content v.chain pos := by
  unfold file_write at h
  split at h
  · cases h
  cases hal : vinode_allocate_interval cfg v file.offset count with
  | none => rw [hal] at h; cases h
  | some v1 =>
    rw [hal] at h
    dsimp only at h
    obtain ⟨a1, ⟨c1, a2⟩, a3, a4, a5, a6, a7, a8⟩ := vinode_allocate_interval_spec hc hw ho hcnt hal
    have hcov1 : covered v1.chain file.offset count := by
      intro pos q1 q2
      exact a6 pos (by have := page_rounddown_le file.offset; omega) q2
    have hca1 : cache_ok v1 file := by
      intro p hp
      obtain ⟨b, hb, hba⟩ := hca p hp
      exact ⟨b, a4 b hb, hba⟩
    cases hit : iterate_on_file_range v1 file file.offset count buf
        cpy_direction.write_to_blocks with
    | none => rw [hit] at h; cases h
    | some r =>
      rw [hit] at h
      obtain ⟨vw, fw, rest⟩ := r
      dsimp only at h
      unfold iterate_on_file_range at hit
      obtain ⟨blk, file1, f1, f2, f3, f4, f5⟩ :=
        file_find_block_spec a1.1 a2 (a1.2.1 c1 a2) hca1 file.offset
      rw [f1] at hit
      dsimp only at hit
      obtain ⟨b0, hb0, q1, q2⟩ := hcov1 file.offset (le_refl _) (by omega)
      have hblk : blk = some b0.addr := by
        cases blk with
        | none =>
          have := f5 b0 hb0
          omega
        | some p =>
          obtain ⟨b, hb, hba, hbo, hmax⟩ := f5
          have := find_covering a1.1 hb hbo hmax hb0 q1 q2
          rw [← hba, this]
      rw [hblk] at hit
      obtain ⟨w1, w2, w3, w4, w5, w6, w7⟩ :=
        write_loop_spec count v1 file1 b0.addr file.offset count buf (vw, fw, rest) a1.1 a7 a8
          hcov1 ⟨b0, hb0, rfl, q1, q2⟩ hit
      dsimp only at w1 w2 w3 w4 w5 w6 w7
      have hu : u64 (file.offset + count) = file.offset + count := u64_of_lt a8
      rw [hu, a3] at h
      have hwf_w : vinode_wf vw := by
        refine ⟨chain_wf_same_layout a1.1 w1, ?_, by rw [w2, a3]; exact hw.2.2⟩
        intro c hcw
        rw [w3, a2] at hcw
        simp only [Option.some.injEq] at hcw
        subst hcw
        exact index_ok_same_layout (a1.2.1 c1 a2) w1
      have hcontent : ∀ pos, content vw.chain pos =
          if file.offset ≤ pos ∧ pos < file.offset + count then buf.getD (pos - file.offset) 0
          else content v.chain pos := by
        intro pos
        rw [w7 pos, content_alloc hw.1 a1.1 a4 a5 pos]
      have hcovw : covered vw.chain file.offset count := covered_same_layout hcov1 w1
      by_cases hgt : file.offset + count > v.inode.size
      · rw [if_pos hgt, if_pos (by omega)] at h
        simp only [Option.some.injEq, Prod.mk.injEq] at h
        obtain ⟨h1, h2⟩ := h
        subst h1 h2
        refine ⟨⟨hwf_w.1, hwf_w.2.1, ?_⟩, ⟨c1, by rw [← a2, ← w3]⟩, ?_, by rw [w4, f2],
          by rw [w5, f3], w6, hcovw, a7, a8, hcontent⟩
        · show file.offset + count < 2 ^ 64
          exact a8
        · show ({ vw.inode with size := _ } : pmemfile_inode) = _
          rw [w2, a3, max_eq_right (le_of_lt hgt)]
      · rw [if_neg hgt, if_neg (by simp)] at h
        simp only [Option.some.injEq, Prod.mk.injEq] at h
        obtain ⟨h1, h2⟩ := h
        subst h1 h2
        refine ⟨hwf_w, ⟨c1, by rw [← a2, ← w3]⟩, ?_, by rw [w4, f2],
          by rw [w5, f3], w6, hcovw, a7, a8, hcontent⟩
        rw [w2, a3]
        rw [max_eq_left (by omega)]

/-- The postcondition of a `pmemfile_write` that returned a positive count. -/
theorem pmemfile_write_spec {cfg : config} (hc : config_ok cfg) {now : pmemfile_time}
    {v v' : pmemfile_vinode} {file file' : pmemfile_file} {buf : List Nat} {count k : Nat}
    (hw : vinode_wf v) (hca : cache_ok v file) (ho : file.offset < 2 ^ 64)
    (h : pmemfile_write cfg now v file buf count = some (Except.ok k, v', file'))
    (hk : 0 < k) :
    vinode_is_regular_file v = true ∧ file.flags &&& PFILE_WRITE ≠ 0 ∧
      k ≤ count ∧ k ≤ SSIZE_MAX ∧
      (count ≤ SSIZE_MAX → file.offset + count < 2 ^ 64 → k = count) ∧
      (k = count → file.offset + count < 2 ^ 64) ∧
      vinode_wf v' ∧ (∃ c, v'.blocks = some c) ∧
      v'.inode = { v.inode with
                     size := max v.inode.size
                       ((if file.flags &&& PFILE_APPEND ≠ 0 then v.inode.size
                         else file.offset) + k)
                     mtime := now } ∧
      file'.offset = (if file.flags &&& PFILE_APPEND ≠ 0 then v.inode.size
                      else file.offset) + k ∧
      file'.flags = file.flags ∧ cache_ok v' file' ∧
      covered v'.chain
        (if file.flags &&& PFILE_APPEND ≠ 0 then v.inode.size else file.offset) k ∧
      (if file.flags &&& PFILE_APPEND ≠ 0 then v.inode.size else file.offset) + k < 2 ^ 64 ∧
      ∀ pos, content v'.chain pos =
        if (if file.flags &&& PFILE_APPEND ≠ 0 then v.inode.size else file.offset) ≤ pos ∧
            pos < (if file.flags &&& PFILE_APPEND ≠ 0 then v.inode.size else file.offset) + k
        then buf.getD
          (pos - (if file.flags &&& PFILE_APPEND ≠ 0 then v.inode.size else file.offset)) 0
        else content v.chain pos := by
  unfold pmemfile_write at h
  by_cases hreg : vinode_is_regular_file v = true
  swap
  · rw [if_pos (by simpa using hreg)] at h
    simp at h
  rw [if_neg (by simpa using hreg)] at h
  by_cases hwr : file.flags &&& PFILE_WRITE = 0
  · rw [if_pos hwr] at h
    simp at h
  rw [if_neg hwr] at h
  dsimp only at h
  generalize hc2 : (if u64 (file.offset + if count > SSIZE_MAX then SSIZE_MAX else count) <
      file.offset then SIZE_MAX - file.offset
      else if count > SSIZE_MAX then SSIZE_MAX else count) = count2 at h
  have hcount2 : count2 ≤ count ∧ count2 ≤ SSIZE_MAX ∧
      (count ≤ SSIZE_MAX → file.offset + count < 2 ^ 64 → count2 = count) ∧
      (count2 = count → 0 < count → file.offset + count < 2 ^ 64) := by
    rw [← hc2]
    unfold u64 SSIZE_MAX SIZE_MAX
    split_ifs <;> omega
  by_cases hz : count2 = 0
  · rw [if_pos hz] at h
    simp only [Option.some.injEq, Prod.mk.injEq, Except.ok.injEq] at h
    omega
  rw [if_neg hz] at h
  obtain ⟨i1, i2, i3, i4⟩ := with_index_wf hw
  generalize (if v.blocks.isNone then vinode_rebuild_block_tree v else v) = v1 at *
  generalize hoe : (if file.flags &&& PFILE_APPEND ≠ 0 then v.inode.size else file.offset)
    = oeff
  generalize hf1 : (if file.flags &&& PFILE_APPEND ≠ 0 then
      ({ file with offset := v1.inode.size } : pmemfile_file) else file) = file1 at h
  have hfile1 : file1.offset = oeff ∧ file1.flags = file.flags ∧
      file1.block_pointer_cache = file.block_pointer_cache := by
    rw [← hf1, ← hoe]
    split_ifs
    · exact ⟨by rw [i4], rfl, rfl⟩
    · exact ⟨rfl, rfl, rfl⟩
  have hoeff : oeff < 2 ^ 64 := by
    rw [← hoe]; have := hw.2.2; split_ifs <;> assumption
  have hca1 : cache_ok v1 file1 := by
    intro p hp
    rw [hfile1.2.2] at hp
    rw [i3]
    exact hca p hp
  cases hfw : file_write cfg v1 file1 buf count2 with
  | none => rw [hfw] at h; cases h
  | some r =>
    obtain ⟨v2, file2⟩ := r
    rw [hfw] at h
    simp only [Option.some.injEq, Prod.mk.injEq, Except.ok.injEq] at h
    obtain ⟨h1, h2, h3⟩ := h
    subst h1
    obtain ⟨w1, w2, w3, w4, w5, w6, w7, w8, w9, w10⟩ :=
      file_write_spec hc i1 hca1 (by rw [hfile1.1]; exact hoeff)
        (by unfold SSIZE_MAX at hcount2; omega) hfw
    rw [hfile1.1] at w3 w4 w7 w9 w10
    rw [hfile1.2.1] at w5
    have hu : u64 (file2.offset + count2) = oeff + count2 := by
      rw [w4]; exact u64_of_lt w9
    refine ⟨hreg, hwr, hcount2.1, hcount2.2.1, hcount2.2.2.1,
      fun he => hcount2.2.2.2 he (by omega), ?_, ?_, ?_, ?_, ?_, ?_, ?_, w9, ?_⟩
    · rw [← h2]
      exact ⟨w1.1, w1.2.1, w1.2.2⟩
    · rw [← h2]; exact w2
    · rw [← h2]
      show ({ v2.inode with mtime := now } : pmemfile_inode) = _
      rw [w3, i4]
    · rw [← h3]
      show u64 (file2.offset + count2) = _
      exact hu
    · rw [← h3]; exact w5
    · rw [← h2, ← h3]
      intro p hp
      exact w6 p hp
    · rw [← h2]; exact w7
    · intro pos
      rw [← h2]
      show content v2.chain pos = _
      rw [w10 pos, i3]

theorem map_range_getD (l : List Nat) :
    (List.range l.length).map (fun i => l.getD i 0) = l := by
  apply List.ext_getElem
  · simp
  · intro i h1 h2
    simp [List.getD_eq_getElem?_getD, List.getElem?_eq_getElem h2]

/-- A read of a covered range that lies inside the file returns the stored
content. -/
theorem pmemfile_read_covered (now : pmemfile_time) {v : pmemfile_vinode}
    {g : pmemfile_file} {k : Nat} (hw : vinode_wf v) (hca : cache_ok v g)
    (hreg : vinode_is_regular_file v = true) (hrd : g.flags &&& PFILE_READ ≠ 0)
    (hk : 0 < k) (hk2 : k ≤ SSIZE_MAX) (hsz : g.offset + k ≤ v.inode.size)
    (hcov : covered v.chain g.offset k) :
    ∃ v2 g2, pmemfile_read now v g k =
        some (Except.ok k, v2, g2, (List.range k).map (fun i => content v.chain (g.offset + i))) ∧
      g2.offset = g.offset + k := by
  unfold pmemfile_read
  rw [if_neg (by simpa using hreg), if_neg hrd]
  dsimp only
  rw [if_neg (show ¬ k > SSIZE_MAX by omega)]
  obtain ⟨i1, ⟨c, i2⟩, i3, i4⟩ := with_index_wf hw
  generalize (if v.blocks.isNone then vinode_rebuild_block_tree v else v) = v1 at *
  have hca1 : cache_ok v1 g := by rw [cache_ok, i3]; exact hca
  unfold file_read
  dsimp only
  rw [i4, if_neg (show ¬ g.offset ≥ v.inode.size by omega),
    if_neg (show ¬ v.inode.size - g.offset < k by omega)]
  unfold iterate_on_file_range
  obtain ⟨blk, file1, f1, f2, f3, f4, f5⟩ :=
    file_find_block_spec i1.1 i2 (i1.2.1 c i2) hca1 g.offset
  rw [f1]
  dsimp only
  rw [← i3] at hcov
  obtain ⟨b0, hb0, q1, q2⟩ := hcov g.offset (le_refl _) (by omega)
  have hblk : blk = some b0.addr := by
    cases blk with
    | none =>
      have := f5 b0 hb0
      omega
    | some p =>
      obtain ⟨b, hb, hba, hbo, hmax⟩ := f5
      have := find_covering i1.1 hb hbo hmax hb0 q1 q2
      rw [← hba, this]
  rw [hblk]
  have hsize := hw.2.2
  obtain ⟨file2, r1, r2, r3, r4⟩ :=
    read_loop_covered k v1 file1 b0.addr g.offset k [] i1.1 hk (by omega) hcov
      ⟨b0, hb0, rfl, q1, q2⟩ (le_refl _)
  rw [r1]
  dsimp only
  rw [List.nil_append, i3]
  refine ⟨_, _, rfl, ?_⟩
  show u64 (file2.offset + k) = _
  rw [r2, f2]
  exact u64_of_lt (by omega)

/-! ## Frame properties that need no well-formedness -/

theorem allocate_block_inode {cfg : config} {v v1 : pmemfile_vinode} {prev trim : Option Nat}
    {offset count p1 : Nat} {use : Bool}
    (h : allocate_block cfg v prev offset count use trim = some (v1, p1)) :
    v1.inode = v.inode := by
  unfold allocate_block at h
  dsimp only at h
  split at h
  · cases h
  · simp only [Option.some.injEq, Prod.mk.injEq] at h
    rw [← h.1]

theorem alloc_loop_inode (cfg : config) (over : Bool) :
    ∀ (fuel : Nat) (v : pmemfile_vinode) (block : Option Nat) (offset size : Nat)
      (v' : pmemfile_vinode),
      vinode_allocate_interval_loop cfg over fuel v block offset size = some v' →
      v'.inode = v.inode := by
  intro fuel
  induction fuel with
  | zero => intro v block offset size v' h; cases h
  | succ fuel ih =>
    intro v block offset size v' h
    have step : ∀ (prev trim : Option Nat) (count : Nat) (use : Bool),
        (match allocate_block cfg v prev offset count use trim with
          | none => none
          | some (v1, p1) =>
            if size > 0 then vinode_allocate_interval_loop cfg over fuel v1 (some p1) offset size
            else some v1) = some v' → v'.inode = v.inode := by
      intro prev trim count use hs
      cases ha : allocate_block cfg v prev offset count use trim with
      | none => rw [ha] at hs; cases hs
      | some r =>
        obtain ⟨v1, p1⟩ := r
        rw [ha] at hs
        dsimp only at hs
        have hi := allocate_block_inode ha
        split at hs
        · rw [ih _ _ _ _ _ hs, hi]
        · cases hs; exact hi
    unfold vinode_allocate_interval_loop at h
    dsimp only at h
    cases block with
    | none =>
      dsimp only at h
      cases hh : v.chain.head? with
      | none => rw [hh] at h; exact step _ _ _ _ h
      | some first => rw [hh] at h; exact step _ _ _ _ h
    | some p =>
      dsimp only at h
      cases hd : block_deref v.chain p with
      | none => rw [hd] at h; cases h
      | some b =>
        rw [hd] at h
        dsimp only at h
        by_cases hin : is_offset_in_block (some b) offset = true
        · rw [if_pos hin] at h
          split at h
          · cases h; rfl
          · split at h
            · exact ih _ _ _ _ _ h
            · cases h; rfl
        · rw [if_neg hin] at h
          cases hn : block_next v.chain p with
          | none => rw [hn] at h; exact step _ _ _ _ h
          | some q =>
            rw [hn] at h
            dsimp only at h
            cases hd2 : block_deref v.chain q with
            | none => rw [hd2] at h; cases h
            | some next =>
              rw [hd2] at h
              dsimp only at h
              by_cases hpos : (if sub64 next.offset offset > size then size
                  else sub64 next.offset offset) > 0
              · rw [if_pos hpos] at h
                exact step _ _ _ _ h
              · rw [if_neg hpos] at h
                split at h
                · exact ih _ _ _ _ _ h
                · cases h; rfl

theorem vinode_allocate_interval_frame {cfg : config} {v v' : pmemfile_vinode}
    {offset size : Nat} (h : vinode_allocate_interval cfg v offset size = some v') :
    v'.inode = v.inode ∧ 0 < size ∧ u64 (offset + size) > offset := by
  unfold vinode_allocate_interval at h
  split at h
  · cases h
  dsimp only at h
  split at h
  · cases h
  rename_i hassert
  split at h
  · cases h
  exact ⟨alloc_loop_inode cfg _ _ _ _ _ _ _ h, by omega, by omega⟩

theorem iterate_loop_frame (dir : cpy_direction) :
    ∀ (fuel : Nat) (v : pmemfile_vinode) (file : pmemfile_file) (block : Option Nat)
      (offset len : Nat) (buf : List Nat) (r : pmemfile_vinode × pmemfile_file × List Nat),
      iterate_on_file_range_loop dir fuel v file block offset len buf = some r →
      r.1.inode = v.inode ∧ r.2.1.offset = file.offset ∧ r.2.1.flags = file.flags := by
  intro fuel
  induction fuel with
  | zero =>
    intro v file block offset len buf r h
    unfold iterate_on_file_range_loop at h
    split at h
    · cases h; exact ⟨rfl, rfl, rfl⟩
    · cases h
  | succ fuel ih =>
    intro v file block offset len buf r h
    unfold iterate_on_file_range_loop at h
    split at h
    · cases h; exact ⟨rfl, rfl, rfl⟩
    dsimp only at h
    split at h
    · cases h
    -- the hole branch, for any handle with the same offset and flags
    have hole : ∀ (f1 : pmemfile_file) (step : Option (Nat × Option Nat)),
        f1.offset = file.offset → f1.flags = file.flags →
        (match step with
          | none => none
          | some (read_hole_count, block1) =>
            match read_block_range none 0 read_hole_count with
            | none => none
            | some zeros =>
              iterate_on_file_range_loop dir fuel v f1 block1
                (u64 (offset + read_hole_count)) (len - read_hole_count) (buf ++ zeros)) = some r →
        r.1.inode = v.inode ∧ r.2.1.offset = file.offset ∧ r.2.1.flags = file.flags := by
      intro f1 step e1 e2 hs
      cases step with
      | none => cases hs
      | some st =>
        obtain ⟨rhc, blk1⟩ := st
        dsimp only at hs
        cases hz : read_block_range none 0 rhc with
        | none => rw [hz] at hs; cases hs
        | some zeros =>
          rw [hz] at hs
          obtain ⟨q1, q2, q3⟩ := ih _ _ _ _ _ _ _ hs
          exact ⟨q1, by rw [q2, e1], by rw [q3, e2]⟩
    cases block with
    | none =>
      dsimp only at h
      rw [if_pos (by simp [is_offset_in_block])] at h
      split at h
      · cases h
      exact hole file _ rfl rfl h
    | some p =>
      dsimp only at h
      cases hd : block_deref v.chain p with
      | none => rw [hd] at h; simp at h
      | some b =>
        rw [hd] at h
        simp only [Option.map_some'] at h
        by_cases hin : is_offset_in_block (some b) offset = true
        · rw [if_neg (by simp [hin])] at h
          generalize (if len < sub64 b.size (sub64 offset b.offset) then len
            else sub64 b.size (sub64 offset b.offset)) = ilen at h
          by_cases hass : sub64 offset b.offset < b.size ∧
              u64 (sub64 offset b.offset + ilen) ≤ b.size
          swap
          · rw [if_pos hass] at h; cases h
          rw [if_neg (by simp only [not_not]; exact hass)] at h
          cases dir with
          | read_from_blocks =>
            dsimp only at h
            cases hr : read_block_range (some b) (sub64 offset b.offset) ilen with
            | none => rw [hr] at h; cases h
            | some bytes =>
              rw [hr] at h
              obtain ⟨q1, q2, q3⟩ := ih _ _ _ _ _ _ _ h
              exact ⟨q1, q2, q3⟩
          | write_to_blocks =>
            dsimp only at h
            cases hr : write_block_range b (sub64 offset b.offset) ilen buf with
            | none => rw [hr] at h; cases h
            | some b1 =>
              rw [hr] at h
              obtain ⟨q1, q2, q3⟩ := ih _ _ _ _ _ _ _ h
              exact ⟨q1, q2, q3⟩
        · rw [if_pos (by simp [hin])] at h
          split at h
          · cases h
          exact hole { file with block_pointer_cache := some p } _ rfl rfl h

theorem file_find_block_frame {v : pmemfile_vinode} {file file1 : pmemfile_file}
    {off : Nat} {blk : Option Nat} (h : file_find_block v file off = some (blk, file1)) :
    file1.offset = file.offset ∧ file1.flags = file.flags := by
  unfold file_find_block at h
  split at h
  · cases h
  dsimp only at h
  have tree : ∀ c : List (Nat × Nat),
      (match find_block c off with
        | some p => some (some p, ({ file with block_pointer_cache := some p } : pmemfile_file))
        | none => some (none, file)) = some (blk, file1) →
      file1.offset = file.offset ∧ file1.flags = file.flags := by
    intro c ht
    split at ht <;>
      · simp only [Option.some.injEq, Prod.mk.injEq] at ht
        rw [← ht.2]
        exact ⟨rfl, rfl⟩
  split at h
  · exact tree _ h
  · split at h
    · cases h
    · split at h
      · simp only [Option.some.injEq, Prod.mk.injEq] at h
        rw [← h.2]
        exact ⟨rfl, rfl⟩
      · exact tree _ h

theorem iterate_on_file_range_frame {v : pmemfile_vinode} {file : pmemfile_file}
    {offset len : Nat} {buf : List Nat} {dir : cpy_direction}
    {r : pmemfile_vinode × pmemfile_file × List Nat}
    (h : iterate_on_file_range v file offset len buf dir = some r) :
    r.1.inode = v.inode ∧ r.2.1.offset = file.offset ∧ r.2.1.flags = file.flags := by
  unfold iterate_on_file_range at h
  split at h
  · cases h
  rename_i blk file1 hf
  obtain ⟨e1, e2⟩ := file_find_block_frame hf
  obtain ⟨q1, q2, q3⟩ := iterate_loop_frame dir _ _ _ _ _ _ _ _ h
  exact ⟨q1, by rw [q2, e1], by rw [q3, e2]⟩

theorem file_write_frame {cfg : config} {v v2 : pmemfile_vinode}
    {file file2 : pmemfile_file} {buf : List Nat} {count : Nat}
    (ho : file.offset < 2 ^ 64) (hcnt : count < 2 ^ 64)
    (h : file_write cfg v file buf count = some (v2, file2)) :
    0 < count ∧ file.offset + count < 2 ^ 64 ∧
      v2.inode = { v.inode with size := max v.inode.size (file.offset + count) } ∧
      file2.offset = file.offset ∧ file2.flags = file.flags := by
  unfold file_write at h
  split at h
  · cases h
  cases hal : vinode_allocate_interval cfg v file.offset count with
  | none => rw [hal] at h; cases h
  | some v1 =>
    rw [hal] at h
    dsimp only at h
    obtain ⟨a1, a2, a3⟩ := vinode_allocate_interval_frame hal
    have hnov : file.offset + count < 2 ^ 64 := by
      unfold u64 at a3; omega
    cases hit : iterate_on_file_range v1 file file.offset count buf
        cpy_direction.write_to_blocks with
    | none => rw [hit] at h; cases h
    | some r =>
      rw [hit] at h
      obtain ⟨vw, fw, rest⟩ := r
      dsimp only at h
      obtain ⟨w1, w2, w3⟩ := iterate_on_file_range_frame hit
      dsimp only at w1 w2 w3
      rw [u64_of_lt hnov, a1] at h
      by_cases hgt : file.offset + count > v.inode.size
      · rw [if_pos hgt, if_pos (by omega)] at h
        simp only [Option.some.injEq, Prod.mk.injEq] at h
        obtain ⟨h1, h2⟩ := h
        subst h1 h2
        refine ⟨a2, hnov, ?_, w2, w3⟩
        show ({ vw.inode with size := _ } : pmemfile_inode) = _
        rw [w1, a1, max_eq_right (le_of_lt hgt)]
      · rw [if_neg hgt, if_neg (by simp)] at h
        simp only [Option.some.injEq, Prod.mk.injEq] at h
        obtain ⟨h1, h2⟩ := h
        subst h1 h2
        refine ⟨a2, hnov, ?_, w2, w3⟩
        rw [w1, a1, max_eq_left (by omega)]

/-- What a `pmemfile_write` that returned a count did to the sizes, without
any assumption on the block chain. -/
theorem pmemfile_write_frame {cfg : config} {now : pmemfile_time}
    {v v' : pmemfile_vinode} {file file' : pmemfile_file} {buf : List Nat} {count k : Nat}
    (ho : file.offset < 2 ^ 64) (hs : v.inode.size < 2 ^ 64)
    (h : pmemfile_write cfg now v file buf count = some (Except.ok k, v', file')) :
    vinode_is_regular_file v = true ∧
    (count ≤ SSIZE_MAX → file.offset + count < 2 ^ 64 → k = count) ∧
    ((k = 0 ∧ v' = v ∧ file' = file) ∨
     (0 < k ∧
      (if file.flags &&& PFILE_APPEND ≠ 0 then v.inode.size else file.offset) + k < 2 ^ 64 ∧
      v'.inode = { v.inode with
                     size := max v.inode.size
                       ((if file.flags &&& PFILE_APPEND ≠ 0 then v.inode.size
                         else file.offset) + k)
                     mtime := now } ∧
      file'.offset = (if file.flags &&& PFILE_APPEND ≠ 0 then v.inode.size
                      else file.offset) + k ∧
      file'.flags = file.flags)) := by
  unfold pmemfile_write at h
  by_cases hreg : vinode_is_regular_file v = true
  swap
  · rw [if_pos (by simpa using hreg)] at h
    simp at h
  rw [if_neg (by simpa using hreg)] at h
  by_cases hwr : file.flags &&& PFILE_WRITE = 0
  · rw [if_pos hwr] at h
    simp at h
  rw [if_neg hwr] at h
  dsimp only at h
  generalize hc2 : (if u64 (file.offset + if count > SSIZE_MAX then SSIZE_MAX else count) <
      file.offset then SIZE_MAX - file.offset
      else if count > SSIZE_MAX then SSIZE_MAX else count) = count2 at h
  have hcount2 : count2 ≤ SSIZE_MAX ∧
      (count ≤ SSIZE_MAX → file.offset + count < 2 ^ 64 → count2 = count) := by
    rw [← hc2]
    unfold u64 SSIZE_MAX SIZE_MAX
    split_ifs <;> omega
  refine ⟨hreg, ?_, ?_⟩
  · intro q1 q2
    by_cases hz : count2 = 0
    · rw [if_pos hz] at h
      simp only [Option.some.injEq, Prod.mk.injEq, Except.ok.injEq] at h
      rw [← h.1, ← hcount2.2 q1 q2, hz]
    · rw [if_neg hz] at h
      split at h
      · cases h
      · simp only [Option.some.injEq, Prod.mk.injEq, Except.ok.injEq] at h
        rw [← h.1, hcount2.2 q1 q2]
  by_cases hz : count2 = 0
  · rw [if_pos hz] at h
    simp only [Option.some.injEq, Prod.mk.injEq, Except.ok.injEq] at h
    exact Or.inl ⟨h.1.symm, h.2.1.symm, h.2.2.symm⟩
  rw [if_neg hz] at h
  right
  have hv1 : (if v.blocks.isNone then vinode_rebuild_block_tree v else v).inode = v.inode := by
    split_ifs <;> rfl
  generalize (if v.blocks.isNone then vinode_rebuild_block_tree v else v) = v1 at *
  generalize hoe : (if file.flags &&& PFILE_APPEND ≠ 0 then v.inode.size else file.offset)
    = oeff
  generalize hf1 : (if file.flags &&& PFILE_APPEND ≠ 0 then
      ({ file with offset := v1.inode.size } : pmemfile_file) else file) = file1 at h
  have hfile1 : file1.offset = oeff ∧ file1.flags = file.flags := by
    rw [← hf1, ← hoe]
    split_ifs
    · exact ⟨by rw [hv1], rfl⟩
    · exact ⟨rfl, rfl⟩
  have hoeff : oeff < 2 ^ 64 := by
    rw [← hoe]; split_ifs <;> assumption
  cases hfw : file_write cfg v1 file1 buf count2 with
  | none => rw [hfw] at h; cases h
  | some r =>
    obtain ⟨v2, file2⟩ := r
    rw [hfw] at h
    simp only [Option.some.injEq, Prod.mk.injEq, Except.ok.injEq] at h
    obtain ⟨h1, h2, h3⟩ := h
    subst h1
    obtain ⟨w1, w2, w3, w4, w5⟩ :=
      file_write_frame (by rw [hfile1.1]; exact hoeff)
        (by unfold SSIZE_MAX at hcount2; omega) hfw
    rw [hfile1.1] at w2 w3 w4
    rw [hfile1.2] at w5
    refine ⟨w1, w2, ?_, ?_, ?_⟩
    · rw [← h2]
      show ({ v2.inode with mtime := now } : pmemfile_inode) = _
      rw [w3, hv1]
    · rw [← h3]
      show u64 (file2.offset + count2) = _
      rw [w4]; exact u64_of_lt w2
    · rw [← h3]; exact w5

theorem map_range_getD_take (l : List Nat) (k : Nat) (hk : k ≤ l.length) :
    (List.range k).map (fun i => l.getD i 0) = l.take k := by
  apply List.ext_getElem
  · simp [hk]
  · intro i h1 h2
    simp only [List.length_map, List.length_range] at h1
    simp [List.getD_eq_getElem?_getD, List.getElem?_eq_getElem (show i < l.length by omega)]

theorem read_loop_zero (fuel : Nat) (v : pmemfile_vinode) (file : pmemfile_file)
    (block : Option Nat) (offset : Nat) (out : List Nat) :
    iterate_on_file_range_loop cpy_direction.read_from_blocks fuel v file block offset 0 out =
      some (v, file, out) := by
  unfold iterate_on_file_range_loop
  rw [if_pos rfl]

/-- Under a well-formed chain the read loop finishes within `len` iterations and
delivers `len` bytes. -/
theorem read_loop_total :
    ∀ (fuel : Nat) (v : pmemfile_vinode) (file : pmemfile_file) (block : Option Nat)
      (offset len : Nat) (out : List Nat),
      chain_wf v.chain → offset + len < 2 ^ 64 →
      (0 < len → read_inv v.chain block offset) → len ≤ fuel →
      ∃ file1 bytes,
        iterate_on_file_range_loop cpy_direction.read_from_blocks fuel v file block
          offset len out = some (v, file1, out ++ bytes) ∧
        bytes.length = len ∧ file1.offset = file.offset ∧ file1.flags = file.flags := by
  intro fuel
  induction fuel with
  | zero =>
    intro v file block offset len out _ _ _ hf
    have : len = 0 := by omega
    subst this
    exact ⟨file, [], by rw [read_loop_zero, List.append_nil], rfl, rfl, rfl⟩
  | succ fuel ih =>
    intro v file block offset len out hw hend hinv hfuel
    by_cases hl : len = 0
    · subst hl
      exact ⟨file, [], by rw [read_loop_zero, List.append_nil], rfl, rfl, rfl⟩
    have hinv := hinv (by omega)
    -- the recursive call, in the form in which every branch uses it
    have rec_call : ∀ (file0 : pmemfile_file) (blk : Option Nat) (n : Nat) (bytes0 : List Nat),
        file0.offset = file.offset → file0.flags = file.flags →
        0 < n → n ≤ len → bytes0.length = n →
        (n < len → read_inv v.chain blk (offset + n)) →
        ∃ file1 bytes,
          iterate_on_file_range_loop cpy_direction.read_from_blocks fuel v file0 blk
            (u64 (offset + n)) (len - n) (out ++ bytes0) = some (v, file1, out ++ bytes) ∧
          bytes.length = len ∧ file1.offset = file.offset ∧ file1.flags = file.flags := by
      intro file0 blk n bytes0 e1 e2 hn hnl hb hi
      have hu : u64 (offset + n) = offset + n := u64_of_lt (by omega)
      rw [hu]
      obtain ⟨file1, bytes, r1, r2, r3, r4⟩ :=
        ih v file0 blk (offset + n) (len - n) (out ++ bytes0) hw (by omega)
          (fun h => hi (by omega)) (by omega)
      refine ⟨file1, bytes0 ++ bytes, ?_, ?_, by rw [r3, e1], by rw [r4, e2]⟩
      · rw [r1, List.append_assoc]
      · rw [List.length_append, hb, r2]; omega
    unfold iterate_on_file_range_loop
    rw [if_neg hl]
    dsimp only
    rw [if_neg (by simp)]
    cases block with
    | none =>
      dsimp only
      rw [if_pos (by simp [is_offset_in_block]), if_neg (by simp)]
      unfold read_inv at hinv
      dsimp only at hinv
      cases hch : v.chain with
      | nil =>
        simp only [find_following_block, hch, List.head?_nil, Option.map_none']
        have hrb : read_block_range none 0 len = some (List.replicate len 0) := by
          unfold read_block_range
          rw [if_neg hl]
        rw [hrb]
        dsimp only
        exact rec_call file none len _ rfl rfl (by omega) (le_refl _)
          (List.length_replicate _ _) (fun h => absurd h (lt_irrefl _))
      | cons hb rest =>
        have hbm : hb ∈ v.chain := by rw [hch]; simp
        have hbok := hw.2.2 hb hbm
        have hne := hinv hb hbm
        simp only [find_following_block, hch, List.head?_cons, Option.map_some']
        have hd : block_deref (hb :: rest) hb.addr = some hb := by
          simp [block_deref]
        rw [hd]
        dsimp only
        have hpos : 0 < sub64 hb.offset offset :=
          sub64_pos (by have := hbok.2.2.2.1; omega) (by omega) hne
        generalize hcn : (if sub64 hb.offset offset < len then sub64 hb.offset offset
          else len) = cnt
        have hcnt : 0 < cnt ∧ cnt ≤ len ∧ (cnt < len → cnt = sub64 hb.offset offset) := by
          rw [← hcn]; split_ifs <;> omega
        have hrb : read_block_range none 0 cnt = some (List.replicate cnt 0) := by
          unfold read_block_range
          rw [if_neg (by omega)]
        rw [hrb]
        dsimp only
        refine rec_call file (some hb.addr) cnt _ rfl rfl hcnt.1 hcnt.2.1
          (List.length_replicate _ _) ?_
        intro hlt
        have hc := hcnt.2.2 hlt
        refine ⟨hb, hbm, rfl, Or.inl ?_⟩
        have := hbok.1
        have := hbok.2.2.2.1
        unfold sub64 at hc
        omega
    | some p =>
      unfold read_inv at hinv
      dsimp only at hinv
      obtain ⟨b, hbm, hba, hor⟩ := hinv
      have hbok := hw.2.2 b hbm
      obtain ⟨pre, post, hch, hpre, hpost, hpre_le, hpost_le⟩ := chain_wf_split hw hbm
      have hd : block_deref v.chain p = some b := by
        rw [← hba]; exact chain_wf_deref hw hbm
      have hnx : block_next v.chain p = post.head?.map (fun n => n.addr) := by
        rw [hch, ← hba, block_next_split pre post b hpre]
      dsimp only
      rw [hd]
      simp only [Option.map_some']
      have hu : u64 (b.offset + b.size) = b.offset + b.size := u64_of_lt hbok.2.2.2.1
      by_cases hin : b.offset ≤ offset ∧ offset < b.offset + b.size
      · have hin2 : is_offset_in_block (some b) offset = true := by
          simp only [is_offset_in_block, Bool.and_eq_true, decide_eq_true_eq, hu]
          exact hin
        rw [if_neg (by simp [hin2])]
        have hst : sub64 offset b.offset = offset - b.offset := by unfold sub64; omega
        have hl0 : sub64 b.size (offset - b.offset) = b.offset + b.size - offset := by
          have := hbok.2.2.2.2
          unfold sub64; omega
        rw [hst, hl0]
        generalize hil : (if len < b.offset + b.size - offset then len
          else b.offset + b.size - offset) = ilen
        have hilen : 0 < ilen ∧ ilen ≤ len ∧ ilen ≤ b.offset + b.size - offset ∧
            (ilen < len → ilen = b.offset + b.size - offset) := by
          rw [← hil]; split_ifs <;> omega
        have hass : (offset - b.offset < b.size ∧ u64 (offset - b.offset + ilen) ≤ b.size) := by
          unfold u64; omega
        rw [if_neg (by simp only [not_not]; exact hass)]
        rw [read_block_range_content hw hbm hilen.1 hin.1 (by omega)]
        dsimp only
        refine rec_call _ _ ilen _ rfl rfl hilen.1 hilen.2.1 (by simp) ?_
        intro hlt
        have hie := hilen.2.2.2 hlt
        rw [hnx]
        cases post with
        | nil =>
          simp only [List.head?_nil, Option.map_none']
          unfold read_inv
          dsimp only
          intro a ha
          rw [hch] at ha
          rcases List.mem_append.mp ha with h | h
          · have := hpre_le a h
            omega
          · rcases List.mem_cons.mp h with rfl | h
            · omega
            · cases h
        | cons nb post1 =>
          simp only [List.head?_cons, Option.map_some']
          unfold read_inv
          dsimp only
          have hnm : nb ∈ v.chain := by rw [hch]; simp
          have hnok := hw.2.2 nb hnm
          have hnb := hpost_le nb (by simp)
          refine ⟨nb, hnm, rfl, ?_⟩
          by_cases he : nb.offset = b.offset + b.size
          · left
            have := hnok.1
            omega
          · right
            intro a _ hlt2
            omega
      · have hin2 : is_offset_in_block (some b) offset = false := by
          simp only [is_offset_in_block, hu]
          by_contra hc
          simp only [Bool.not_eq_false, Bool.and_eq_true, decide_eq_true_eq] at hc
          exact hin hc
        rw [if_pos (by simp [hin2]), if_neg (by simp)]
        have hafter : ∀ a ∈ v.chain, b.offset < a.offset → offset < a.offset := by
          rcases hor with h | h
          · exact absurd h hin
          · exact h
        simp only [find_following_block]
        rw [hnx]
        cases post with
        | nil =>
          simp only [List.head?_nil, Option.map_none']
          have hrb : read_block_range none 0 len = some (List.replicate len 0) := by
            unfold read_block_range
            rw [if_neg hl]
          rw [hrb]
          dsimp only
          exact rec_call _ (some p) len _ rfl rfl (by omega) (le_refl _)
            (List.length_replicate _ _) (fun h => absurd h (lt_irrefl _))
        | cons nb post1 =>
          simp only [List.head?_cons, Option.map_some']
          have hnm : nb ∈ v.chain := by rw [hch]; simp
          have hnok := hw.2.2 nb hnm
          have hnb := hpost_le nb (by simp)
          have hd2 : block_deref v.chain nb.addr = some nb := chain_wf_deref hw hnm
          rw [hd2]
          dsimp only
          have hgt : offset < nb.offset := hafter nb hnm (by have := hbok.1; omega)
          have hs : sub64 nb.offset offset = nb.offset - offset :=
            sub64_of_le (by omega) (by have := hnok.2.2.2.1; omega)
          rw [hs]
          generalize hcn : (if nb.offset - offset < len then nb.offset - offset
            else len) = cnt
          have hcnt : 0 < cnt ∧ cnt ≤ len ∧ (cnt < len → cnt = nb.offset - offset) := by
            rw [← hcn]; split_ifs <;> omega
          have hrb : read_block_range none 0 cnt = some (List.replicate cnt 0) := by
            unfold read_block_range
            rw [if_neg (by omega)]
          rw [hrb]
          dsimp only
          refine rec_call _ (some nb.addr) cnt _ rfl rfl hcnt.1 hcnt.2.1
            (List.length_replicate _ _) ?_
          intro hlt
          have hc := hcnt.2.2 hlt
          refine ⟨nb, hnm, rfl, Or.inl ?_⟩
          have := hnok.1
          omega

theorem file_find_block_inv {v : pmemfile_vinode} {file : pmemfile_file}
    {c : List (Nat × Nat)} (hw : chain_wf v.chain) (hcb : v.blocks = some c)
    (hix : index_ok v.chain c) (hca : cache_ok v file) (off : Nat) :
    ∃ blk file1, file_find_block v file off = some (blk, file1) ∧
      file1.offset = file.offset ∧ file1.flags = file.flags ∧ read_inv v.chain blk off := by
  obtain ⟨blk, file1, f1, f2, f3, _, f5⟩ := file_find_block_spec hw hcb hix hca off
  refine ⟨blk, file1, f1, f2, f3, ?_⟩
  cases blk with
  | none =>
    intro a ha
    have := f5 a ha
    omega
  | some p =>
    obtain ⟨b, hb, hba, hbo, hmax⟩ := f5
    refine ⟨b, hb, hba, Or.inr ?_⟩
    intro a ha hlt
    by_contra hc
    have := hmax a ha (by omega)
    omega

/-- A read of a range that ends below `2 ^ 64` returns, with as many bytes as
were asked for. -/
theorem iterate_read_total {v : pmemfile_vinode} {file : pmemfile_file}
    {c : List (Nat × Nat)} (hw : vinode_wf v) (hcb : v.blocks = some c)
    (hca : cache_ok v file) {offset len : Nat} (hend : offset + len < 2 ^ 64) :
    ∃ file1 bytes,
      iterate_on_file_range v file offset len [] cpy_direction.read_from_blocks =
        some (v, file1, bytes) ∧
      bytes.length = len ∧ file1.offset = file.offset ∧ file1.flags = file.flags := by
  obtain ⟨blk, file0, f1, f2, f3, f4⟩ :=
    file_find_block_inv hw.1 hcb (hw.2.1 c hcb) hca offset
  unfold iterate_on_file_range
  rw [f1]
  dsimp only
  obtain ⟨file1, bytes, r1, r2, r3, r4⟩ :=
    read_loop_total len v file0 blk offset len [] hw.1 hend (fun _ => f4) (le_refl _)
  rw [List.nil_append] at r1
  exact ⟨file1, bytes, r1, r2, by rw [r3, f2], by rw [r4, f3]⟩

theorem file_read_total {v : pmemfile_vinode} {file : pmemfile_file}
    {c : List (Nat × Nat)} (hw : vinode_wf v) (hcb : v.blocks = some c)
    (hca : cache_ok v file) (count : Nat) :
    ∃ file1 bytes,
      file_read v file count =
        some ((if file.offset ≥ v.inode.size then 0
               else if v.inode.size - file.offset < count then v.inode.size - file.offset
               else count), file1, bytes) ∧
      bytes.length = (if file.offset ≥ v.inode.size then 0
               else if v.inode.size - file.offset < count then v.inode.size - file.offset
               else count) ∧
      file1.offset = file.offset ∧ file1.flags = file.flags := by
  unfold file_read
  dsimp only
  by_cases h : file.offset ≥ v.inode.size
  · rw [if_pos h, if_pos h]
    exact ⟨file, [], rfl, rfl, rfl, rfl⟩
  · rw [if_neg h, if_neg h]
    generalize hc1 : (if v.inode.size - file.offset < count then v.inode.size - file.offset
      else count) = count1
    have hb : count1 ≤ v.inode.size - file.offset := by
      rw [← hc1]; split_ifs <;> omega
    have hs := hw.2.2
    obtain ⟨file1, bytes, r1, r2, r3, r4⟩ :=
      iterate_read_total hw hcb hca (show file.offset + count1 < 2 ^ 64 by omega)
    rw [r1]
    exact ⟨file1, bytes, rfl, r2, r3, r4⟩

/-- On a well-formed regular file `pmemfile_read` returns, and it returns the
number of bytes between the handle offset and the end of the file, at most
`count`. -/
theorem pmemfile_read_total (now : pmemfile_time) {v : pmemfile_vinode}
    {file : pmemfile_file} (hw : vinode_wf v) (hca : cache_ok v file)
    (hreg : vinode_is_regular_file v = true) (hrd : file.flags &&& PFILE_READ ≠ 0)
    (ho : file.offset < 2 ^ 64) {count : Nat} (hc : count ≤ SSIZE_MAX) :
    ∃ v2 g2 bytes,
      pmemfile_read now v file count =
        some (Except.ok (if file.offset ≥ v.inode.size then 0
               else if v.inode.size - file.offset < count then v.inode.size - file.offset
               else count), v2, g2, bytes) ∧
      bytes.length = (if file.offset ≥ v.inode.size then 0
               else if v.inode.size - file.offset < count then v.inode.size - file.offset
               else count) ∧
      g2.offset = file.offset + (if file.offset ≥ v.inode.size then 0
               else if v.inode.size - file.offset < count then v.inode.size - file.offset
               else count) ∧
      g2.flags = file.flags ∧ v2.chain = v.chain ∧ v2.inode.size = v.inode.size := by
  unfold pmemfile_read
  rw [if_neg (by simpa using hreg), if_neg hrd]
  dsimp only
  rw [if_neg (show ¬ count > SSIZE_MAX by omega)]
  obtain ⟨i1, ⟨c, i2⟩, i3, i4⟩ := with_index_wf hw
  generalize (if v.blocks.isNone then vinode_rebuild_block_tree v else v) = v1 at *
  have hca1 : cache_ok v1 file := by rw [cache_ok, i3]; exact hca
  obtain ⟨file1, bytes, r1, r2, r3, r4⟩ := file_read_total i1 i2 hca1 count
  rw [i4] at r1 r2
  rw [r1]
  dsimp only
  generalize hr : (if file.offset ≥ v.inode.size then 0
               else if v.inode.size - file.offset < count then v.inode.size - file.offset
               else count) = r at *
  have hs := hw.2.2
  have hrb : file.offset + r < 2 ^ 64 := by
    rw [← hr]; split_ifs <;> omega
  refine ⟨_, _, bytes, rfl, r2, ?_, r4, ?_, ?_⟩
  · show u64 (file1.offset + r) = _
    rw [r3]
    exact u64_of_lt hrb
  · split_ifs
    · exact i3
    · exact i3
  · split_ifs
    · show v1.inode.size = _
      rw [i4]
    · rw [i4]

theorem preadv_loop_spec (v : pmemfile_vinode) (hs : v.inode.size < 2 ^ 64) :
    ∀ (iov : List Nat) (ret offset : Nat), offset < 2 ^ 64 → ret + iov.sum ≤ SSIZE_MAX →
      (pmemfile_preadv_loop v iov ret offset).1 =
        ret + (if offset ≥ v.inode.size then 0
               else if v.inode.size - offset < iov.sum then v.inode.size - offset
               else iov.sum) := by
  intro iov
  induction iov with
  | nil =>
    intro ret offset _ _
    simp only [pmemfile_preadv_loop, List.sum_nil]
    split_ifs <;> omega
  | cons l rest ih =>
    intro ret offset ho hsum
    rw [List.sum_cons] at hsum ⊢
    unfold pmemfile_preadv_loop
    dsimp only
    have hlen : (if u64 (ret + l) > SSIZE_MAX then SSIZE_MAX - ret else l) = l := by
      have : u64 (ret + l) ≤ ret + l := by unfold u64; exact Nat.mod_le _ _
      rw [if_neg (by omega)]
    rw [hlen]
    unfold vinode_read
    dsimp only
    by_cases h1 : offset ≥ v.inode.size
    · rw [if_pos h1, if_pos h1]
      by_cases h2 : (0 : Nat) ≠ l
      · rw [if_pos h2]
      · rw [if_neg h2]
        have hl : l = 0 := by omega
        subst hl
        have hu : u64 (offset + 0) = offset := u64_of_lt ho
        rw [hu, ih (ret + 0) offset ho (by omega), if_pos h1]
    · rw [if_neg h1, if_neg h1]
      by_cases h3 : v.inode.size - offset < l
      · rw [if_pos h3, if_pos (by omega)]
        dsimp only
        rw [if_pos (by omega)]
      · rw [if_neg h3, if_neg (by omega)]
        have hu : u64 (offset + l) = offset + l := u64_of_lt (by omega)
        rw [hu, ih (ret + l) (offset + l) (by omega) (by omega)]
        split_ifs <;> omega

/-! ## Removing an interval -/

theorem chain_wf_parts {pre post : List pmemfile_block} {b : pmemfile_block}
    (hw : chain_wf (pre ++ b :: post)) :
    (∀ a ∈ pre, a.addr ≠ b.addr) ∧ (∀ a ∈ post, a.addr ≠ b.addr) ∧
      (∀ a ∈ pre, a.offset + a.size ≤ b.offset) ∧
      (∀ a ∈ post, b.offset + b.size ≤ a.offset) := by
  refine ⟨?_, ?_, ?_, ?_⟩
  · intro a ha
    have hn := hw.2.1
    rw [List.map_append, List.map_cons] at hn
    have := (List.nodup_append.mp hn).2.2
    intro heq
    exact this (List.mem_map.mpr ⟨a, ha, rfl⟩) (by rw [heq]; simp)
  · intro a ha
    have hn := hw.2.1
    rw [List.map_append, List.map_cons] at hn
    have := ((List.nodup_append.mp hn).2.1)
    rw [List.nodup_cons] at this
    intro heq
    exact this.1 (List.mem_map.mpr ⟨a, ha, heq⟩)
  · intro a ha
    have hp := hw.1
    rw [List.pairwise_append] at hp
    exact hp.2.2 a ha b (by simp)
  · intro a ha
    have hp := hw.1
    rw [List.pairwise_append] at hp
    have := hp.2.1
    rw [List.pairwise_cons] at this
    exact this.1 a ha

/-- The content after a descriptor was unlinked. -/
theorem content_remove {pre post : List pmemfile_block} {b : pmemfile_block}
    (hw : chain_wf (pre ++ b :: post)) (pos : Nat) :
    content (pre ++ post) pos =
      if b.offset ≤ pos ∧ pos < b.offset + b.size then 0
      else content (pre ++ b :: post) pos := by
  obtain ⟨_, _, h3, h4⟩ := chain_wf_parts hw
  by_cases hin : b.offset ≤ pos ∧ pos < b.offset + b.size
  · rw [if_pos hin]
    apply content_of_not_covered
    intro a ha
    rcases List.mem_append.mp ha with h | h
    · have := h3 a h
      omega
    · have := h4 a h
      omega
  · rw [if_neg hin]
    unfold content covering
    have hb : (decide (b.offset ≤ pos) && decide (pos < b.offset + b.size)) = false := by
      by_contra hc
      simp only [Bool.not_eq_false, Bool.and_eq_true, decide_eq_true_eq] at hc
      exact hin hc
    simp only [List.find?_append, List.find?_cons, hb]

/-- A position left of a descriptor and right of everything that precedes it
lies in a hole. -/
theorem content_gap {pre post : List pmemfile_block} {b : pmemfile_block}
    (hw : chain_wf (pre ++ b :: post)) {pos : Nat} (h1 : pos < b.offset)
    (h2 : ∀ a ∈ pre, a.offset + a.size ≤ pos) :
    content (pre ++ b :: post) pos = 0 := by
  obtain ⟨_, _, _, h4⟩ := chain_wf_parts hw
  apply content_of_not_covered
  intro a ha
  rcases List.mem_append.mp ha with h | h
  · have := h2 a h
    omega
  · rcases List.mem_cons.mp h with rfl | h
    · omega
    · have := h4 a h
      have := (hw.2.2 b (by simp)).1
      omega

/-- The content after `memset` cleared a range of an initialised block. -/
theorem content_zero {pre post : List pmemfile_block} {b : pmemfile_block}
    (hw : chain_wf (pre ++ b :: post)) (from_ n : Nat) (pos : Nat) :
    content (pre ++ zero_block_data b from_ n :: post) pos =
      if b.offset + from_ ≤ pos ∧ pos < b.offset + from_ + n ∧ pos < b.offset + b.size then 0
      else content (pre ++ b :: post) pos := by
  rw [@content_replace pre post b (zero_block_data b from_ n) hw rfl rfl rfl pos]
  have hinit : is_block_data_initialized (zero_block_data b from_ n) =
      is_block_data_initialized b := rfl
  rw [hinit]
  by_cases hin : b.offset ≤ pos ∧ pos < b.offset + b.size
  · rw [if_pos hin, content_of_mem hw (by simp) hin.1 hin.2]
    by_cases hi : is_block_data_initialized b = true
    · rw [if_pos hi, if_pos hi]
      show (if from_ ≤ pos - b.offset ∧ pos - b.offset < from_ + n then 0
        else b.data (pos - b.offset)) = _
      by_cases hz : from_ ≤ pos - b.offset ∧ pos - b.offset < from_ + n
      · rw [if_pos hz, if_pos (by omega)]
      · rw [if_neg hz, if_neg (by omega)]
    · rw [if_neg hi, if_neg hi]
      split_ifs <;> rfl
  · rw [if_neg hin, if_neg (by omega)]

/-- The loop of `vinode_remove_interval`, started at a descriptor that begins
before the end of the interval, finishes and clears the part of the interval
that lies before the end of that descriptor.  The descriptors that are left
are descriptors of the old chain, and none of them lies inside the interval. -/
theorem remove_loop_spec :
    ∀ (fuel : Nat) (v : pmemfile_vinode) (c : List (Nat × Nat))
      (pre post : List pmemfile_block) (b : pmemfile_block) (offset len : Nat),
      vinode_wf v → v.blocks = some c → v.chain = pre ++ b :: post →
      offset + len < 2 ^ 64 → b.offset < offset + len →
      (∀ a ∈ post, ¬ (offset ≤ a.offset ∧ a.offset + a.size ≤ offset + len)) →
      pre.length + 2 ≤ fuel →
      ∃ v', vinode_remove_interval_loop fuel v (some b.addr) offset len = some v' ∧
        vinode_wf v' ∧ (∃ c', v'.blocks = some c') ∧ v'.inode = v.inode ∧
        (∀ pos, content v'.chain pos =
          if offset ≤ pos ∧ pos < offset + len ∧ pos < b.offset + b.size then 0
          else content v.chain pos) ∧
        (∀ a ∈ v'.chain, ∃ a0 ∈ v.chain, a0.addr = a.addr ∧ a0.offset = a.offset ∧
          a0.size = a.size ∧ a0.flags = a.flags) ∧
        ∀ a ∈ v'.chain, ¬ (offset ≤ a.offset ∧ a.offset + a.size ≤ offset + len) := by
  intro fuel
  induction fuel with
  | zero => intro v c pre post b offset len _ _ _ _ _ _ hf; omega
  | succ fuel ih =>
    intro v c pre post b offset len hw hcb hch hend hblt hpostnc hfuel
    have hwc : chain_wf (pre ++ b :: post) := hch ▸ hw.1
    obtain ⟨p1, p2, p3, p4⟩ := chain_wf_parts hwc
    have hbm : b ∈ v.chain := by rw [hch]; simp
    have hbok := hw.1.2.2 b hbm
    have hd : block_deref v.chain b.addr = some b := chain_wf_deref hw.1 hbm
    have hu : u64 (b.offset + b.size) = b.offset + b.size := u64_of_lt hbok.2.2.2.1
    have hu2 : u64 (offset + len) = offset + len := u64_of_lt hend
    have hprev : block_prev v.chain b.addr = pre.getLast?.map (fun n => n.addr) := by
      rw [hch]; exact block_prev_split pre post b p1
    have hix : index_ok (pre ++ b :: post) c := hch ▸ hw.2.1 c hcb
    have hself : ∀ a ∈ v.chain, ∃ a0 ∈ v.chain, a0.addr = a.addr ∧ a0.offset = a.offset ∧
        a0.size = a.size ∧ a0.flags = a.flags := fun a ha => ⟨a, ha, rfl, rfl, rfl, rfl⟩
    -- descriptors in front of one that starts before the interval are not inside it
    have hprenc : b.offset < offset ∨ b.offset + b.size ≤ offset →
        ∀ a ∈ pre, ¬ (offset ≤ a.offset ∧ a.offset + a.size ≤ offset + len) := by
      intro hb a ha
      have := p3 a ha
      have := (hw.1.2.2 a (by rw [hch]; simp [ha])).1
      have := hbok.1
      omega
    -- the rest of the loop, after the descriptor `b` has been dealt with
    have cont : ∀ (v1 : pmemfile_vinode) (post1 : List pmemfile_block),
        vinode_wf v1 → (∃ c1, v1.blocks = some c1) → v1.chain = pre ++ post1 →
        v1.inode = v.inode →
        (∀ pos, content v1.chain pos =
          if (offset ≤ pos ∧ pos < offset + len) ∧
              (b.offset ≤ pos ∧ pos < b.offset + b.size) then 0
          else content v.chain pos) →
        (∀ a ∈ v1.chain, ∃ a0 ∈ v.chain, a0.addr = a.addr ∧ a0.offset = a.offset ∧
          a0.size = a.size ∧ a0.flags = a.flags) →
        (∀ a ∈ post1, ¬ (offset ≤ a.offset ∧ a.offset + a.size ≤ offset + len)) →
        ∃ v', vinode_remove_interval_loop fuel v1 (pre.getLast?.map (fun n => n.addr))
            offset len = some v' ∧
          vinode_wf v' ∧ (∃ c', v'.blocks = some c') ∧ v'.inode = v.inode ∧
          (∀ pos, content v'.chain pos =
            if offset ≤ pos ∧ pos < offset + len ∧ pos < b.offset + b.size then 0
            else content v.chain pos) ∧
          (∀ a ∈ v'.chain, ∃ a0 ∈ v.chain, a0.addr = a.addr ∧ a0.offset = a.offset ∧
            a0.size = a.size ∧ a0.flags = a.flags) ∧
          ∀ a ∈ v'.chain, ¬ (offset ≤ a.offset ∧ a.offset + a.size ≤ offset + len) := by
      intro v1 post1 hw1 hc1 hch1 hin1 hcont hS1 hS2
      rcases List.eq_nil_or_concat pre with hnil | ⟨pre', pb, hpre⟩
      · subst hnil
        obtain ⟨f, rfl⟩ : ∃ f, fuel = f + 1 := ⟨fuel - 1, by simp at hfuel; omega⟩
        refine ⟨v1, by simp [vinode_remove_interval_loop], hw1, hc1, hin1, ?_, hS1, ?_⟩
        · intro pos
          rw [hcont pos]
          by_cases hI : offset ≤ pos ∧ pos < offset + len ∧ pos < b.offset + b.size
          · rw [if_pos hI]
            by_cases hB : b.offset ≤ pos
            · rw [if_pos ⟨⟨hI.1, hI.2.1⟩, hB, hI.2.2⟩]
            · rw [if_neg (by omega), hch]
              exact content_gap hwc (by omega) (by intro a ha; cases ha)
          · rw [if_neg hI, if_neg (by omega)]
        · intro a ha
          rw [hch1] at ha
          exact hS2 a (by simpa using ha)
      · rw [List.concat_eq_append] at hpre
        subst hpre
        obtain ⟨c1, hc1'⟩ := hc1
        have hch1' : v1.chain = pre' ++ pb :: post1 := by rw [hch1]; simp
        have hchv : v.chain = pre' ++ pb :: (b :: post) := by rw [hch]; simp
        have hwv : chain_wf (pre' ++ pb :: (b :: post)) := hchv ▸ hw.1
        obtain ⟨_, _, q3, q4⟩ := chain_wf_parts hwv
        have hpb := q4 b (by simp)
        have hpbok := hw.1.2.2 pb (by rw [hchv]; simp)
        have hlast : (pre' ++ [pb]).getLast?.map (fun n => n.addr) = some pb.addr := by simp
        rw [hlast]
        obtain ⟨v', r1, r2, r3, r4, r5, r6, r7⟩ :=
          ih v1 c1 pre' post1 pb offset len hw1 hc1' hch1' hend (by omega) hS2
            (by simp at hfuel ⊢; omega)
        refine ⟨v', r1, r2, r3, by rw [r4, hin1], ?_, ?_, r7⟩
        · intro pos
          rw [r5 pos, hcont pos]
          by_cases hI : offset ≤ pos ∧ pos < offset + len ∧ pos < b.offset + b.size
          · rw [if_pos hI]
            by_cases hP : pos < pb.offset + pb.size
            · rw [if_pos (by omega)]
            · rw [if_neg (by omega)]
              by_cases hB : b.offset ≤ pos
              · rw [if_pos (by omega)]
              · rw [if_neg (by omega), hch]
                apply content_gap hwc (by omega)
                intro a ha
                rcases List.mem_append.mp ha with h | h
                · have := q3 a h
                  have := hpbok.1
                  omega
                · simp only [List.mem_singleton] at h
                  subst h
                  omega
          · rw [if_neg hI, if_neg (by omega), if_neg (by omega)]
        · intro a ha
          obtain ⟨a1, ha1, e1, e2, e3, e4⟩ := r6 a ha
          obtain ⟨a0, ha0, f1, f2, f3, f4⟩ := hS1 a1 ha1
          exact ⟨a0, ha0, by rw [f1, e1], by rw [f2, e2], by rw [f3, e3], by rw [f4, e4]⟩
    -- clearing a range of the data of `b`
    have zero_step : ∀ (from_ n : Nat),
        vinode_wf (if is_block_data_initialized b = true then
            { v with chain :=
                block_update v.chain b.addr (fun b0 => zero_block_data b0 from_ n) }
          else v) ∧
        (∃ c1, (if is_block_data_initialized b = true then
            { v with chain :=
                block_update v.chain b.addr (fun b0 => zero_block_data b0 from_ n) }
          else v).blocks = some c1) ∧
        (∃ b1, (if is_block_data_initialized b = true then
            { v with chain :=
                block_update v.chain b.addr (fun b0 => zero_block_data b0 from_ n) }
          else v).chain = pre ++ b1 :: post ∧ b1.addr = b.addr ∧ b1.offset = b.offset ∧
            b1.size = b.size ∧ b1.flags = b.flags) ∧
        (if is_block_data_initialized b = true then
            { v with chain :=
                block_update v.chain b.addr (fun b0 => zero_block_data b0 from_ n) }
          else v).inode = v.inode ∧
        ∀ pos, content (if is_block_data_initialized b = true then
            { v with chain :=
                block_update v.chain b.addr (fun b0 => zero_block_data b0 from_ n) }
          else v).chain pos =
          if b.offset + from_ ≤ pos ∧ pos < b.offset + from_ + n ∧
              pos < b.offset + b.size then 0
          else content v.chain pos := by
      intro from_ n
      by_cases hi : is_block_data_initialized b = true
      · rw [if_pos hi]
        have hup : block_update v.chain b.addr (fun b0 => zero_block_data b0 from_ n) =
            pre ++ zero_block_data b from_ n :: post := by
          rw [hch]; exact block_update_split pre post b _ p1 p2
        rw [hup]
        refine ⟨⟨chain_wf_replace hwc rfl rfl rfl, ?_, hw.2.2⟩, ⟨c, hcb⟩,
          ⟨_, rfl, rfl, rfl, rfl, rfl⟩, rfl, ?_⟩
        · intro c1 hc1
          have : c1 = c := by
            have h2 : v.blocks = some c1 := hc1
            rw [hcb] at h2
            exact (Option.some.inj h2).symm
          subst this
          exact index_ok_same_layout hix (same_layout_replace pre post rfl rfl rfl)
        · intro pos
          show content (pre ++ zero_block_data b from_ n :: post) pos = _
          rw [content_zero hwc, hch]
      · rw [if_neg hi]
        refine ⟨hw, ⟨c, hcb⟩, ⟨b, hch, rfl, rfl, rfl, rfl⟩, rfl, ?_⟩
        intro pos
        by_cases hz : b.offset + from_ ≤ pos ∧ pos < b.offset + from_ + n ∧
            pos < b.offset + b.size
        · rw [if_pos hz, content_of_mem hw.1 hbm (by omega) hz.2.2, if_neg hi]
        · rw [if_neg hz]
    -- the chain after a store into `b` holds descriptors of the old chain
    have hsame : ∀ (ch : List pmemfile_block) (b1 : pmemfile_block),
        ch = pre ++ b1 :: post → b1.addr = b.addr → b1.offset = b.offset →
        b1.size = b.size → b1.flags = b.flags →
        ∀ a ∈ ch, ∃ a0 ∈ v.chain, a0.addr = a.addr ∧ a0.offset = a.offset ∧
          a0.size = a.size ∧ a0.flags = a.flags := by
      intro ch b1 hch1 e1 e2 e3 e4 a ha
      rw [hch1] at ha
      rcases List.mem_append.mp ha with h | h
      · exact ⟨a, by rw [hch]; simp [h], rfl, rfl, rfl, rfl⟩
      · rcases List.mem_cons.mp h with rfl | h
        · exact ⟨b, hbm, e1.symm, e2.symm, e3.symm, e4.symm⟩
        · exact ⟨a, by rw [hch]; simp [h], rfl, rfl, rfl, rfl⟩
    have hnc : ∀ (ch : List pmemfile_block) (b1 : pmemfile_block),
        ch = pre ++ b1 :: post → b1.offset = b.offset → b1.size = b.size →
        b.offset < offset →
        ∀ a ∈ ch, ¬ (offset ≤ a.offset ∧ a.offset + a.size ≤ offset + len) := by
      intro ch b1 hch1 e2 e3 hlt a ha
      rw [hch1] at ha
      rcases List.mem_append.mp ha with h | h
      · exact hprenc (Or.inl hlt) a h
      · rcases List.mem_cons.mp h with rfl | h
        · omega
        · exact hpostnc a h
    unfold vinode_remove_interval_loop
    dsimp only
    rw [hd]
    dsimp only
    rw [hu]
    by_cases hA : b.offset + b.size > offset
    swap
    · rw [if_pos hA]
      refine ⟨v, rfl, hw, ⟨c, hcb⟩, rfl, ?_, hself, ?_⟩
      · intro pos
        rw [if_neg (by omega)]
      · intro a ha
        rw [hch] at ha
        rcases List.mem_append.mp ha with h | h
        · exact hprenc (Or.inr (by omega)) a h
        · rcases List.mem_cons.mp h with rfl | h
          · have := hbok.1
            omega
          · exact hpostnc a h
    rw [if_neg (not_not.mpr hA)]
    by_cases hB : b.offset ≥ offset ∧ b.offset + b.size ≤ offset + len
    · have hB2 : is_block_contained_by_interval b offset len = true := by
        unfold is_block_contained_by_interval
        rw [hu, hu2]
        simp only [Bool.and_eq_true, decide_eq_true_eq]
        exact hB
      rw [if_pos hB2]
      unfold block_list_remove
      dsimp only
      have hf : v.chain.filter (fun x => x.addr != b.addr) = pre ++ post := by
        rw [hch]; exact block_list_remove_split pre post b p1 p2
      rw [hf, hprev, hcb]
      simp only [Option.map_some']
      refine cont _ post ⟨chain_wf_remove hwc, ?_, hw.2.2⟩ ⟨_, rfl⟩ rfl rfl ?_ ?_ hpostnc
      · intro c1 hc1
        simp only [Option.some.injEq] at hc1
        subst hc1
        exact index_ok_remove hwc hix
      · intro pos
        show content (pre ++ post) pos = _
        rw [content_remove hwc, hch]
        by_cases hin : b.offset ≤ pos ∧ pos < b.offset + b.size
        · rw [if_pos hin, if_pos (by omega)]
        · rw [if_neg hin, if_neg (by omega)]
      · intro a ha
        have ha' : a ∈ pre ++ post := ha
        refine ⟨a, ?_, rfl, rfl, rfl, rfl⟩
        rw [hch]
        rcases List.mem_append.mp ha' with h | h
        · simp [h]
        · simp [h]
    have hB2 : is_block_contained_by_interval b offset len = false := by
      unfold is_block_contained_by_interval
      rw [hu, hu2]
      by_contra hc
      simp only [Bool.not_eq_false, Bool.and_eq_true, decide_eq_true_eq] at hc
      exact hB hc
    rw [if_neg (by simp [hB2])]
    by_cases hC : b.offset < offset ∧ b.offset + b.size > offset + len
    · have hC2 : is_interval_contained_by_block b offset len = true := by
        unfold is_interval_contained_by_block
        rw [hu, hu2]
        simp only [Bool.and_eq_true, decide_eq_true_eq]
        exact hC
      rw [if_pos hC2]
      have hs : sub64 offset b.offset = offset - b.offset :=
        sub64_of_le (by omega) (by omega)
      rw [hs]
      obtain ⟨z1, z2, ⟨b1, z3, y1, y2, y3, y4⟩, z4, z5⟩ := zero_step (offset - b.offset) len
      by_cases hi : is_block_data_initialized b = true
      · rw [if_pos hi]
        rw [if_pos hi] at z1 z2 z3 z4 z5
        refine ⟨_, rfl, z1, z2, z4, ?_, hsame _ b1 z3 y1 y2 y3 y4, hnc _ b1 z3 y2 y3 hC.1⟩
        intro pos
        rw [z5 pos]
        by_cases hI : offset ≤ pos ∧ pos < offset + len ∧ pos < b.offset + b.size
        · rw [if_pos hI, if_pos (by omega)]
        · rw [if_neg hI, if_neg (by omega)]
      · rw [if_neg hi]
        rw [if_neg hi] at z3 z5
        refine ⟨_, rfl, hw, ⟨c, hcb⟩, rfl, ?_, hself, hnc _ b1 z3 y2 y3 hC.1⟩
        intro pos
        rw [z5 pos]
        by_cases hI : offset ≤ pos ∧ pos < offset + len ∧ pos < b.offset + b.size
        · rw [if_pos hI, if_pos (by omega)]
        · rw [if_neg hI, if_neg (by omega)]
    have hC2 : is_interval_contained_by_block b offset len = false := by
      unfold is_interval_contained_by_block
      rw [hu, hu2]
      by_contra hc
      simp only [Bool.not_eq_false, Bool.and_eq_true, decide_eq_true_eq] at hc
      exact hC hc
    rw [if_neg (by simp [hC2])]
    by_cases hD : b.offset + b.size > offset + len
    · have hD2 : is_block_at_right_edge b offset len = true := by
        unfold is_block_at_right_edge
        rw [hu, hu2]
        simp only [decide_eq_true_eq]
        exact hD
      rw [if_pos hD2, hu2, hprev]
      have hs : sub64 (offset + len) b.offset = offset + len - b.offset :=
        sub64_of_le (by omega) (by omega)
      rw [hs]
      obtain ⟨z1, z2, ⟨b1, z3, y1, y2, y3, y4⟩, z4, z5⟩ :=
        zero_step 0 (offset + len - b.offset)
      refine cont _ (b1 :: post) z1 z2 z3 z4 ?_ (hsame _ b1 z3 y1 y2 y3 y4) ?_
      · intro pos
        rw [z5 pos]
        by_cases hI : (offset ≤ pos ∧ pos < offset + len) ∧
            (b.offset ≤ pos ∧ pos < b.offset + b.size)
        · rw [if_pos hI, if_pos (by omega)]
        · rw [if_neg hI, if_neg (by omega)]
      · intro a ha
        rcases List.mem_cons.mp ha with rfl | h
        · omega
        · exact hpostnc a h
    · have hD2 : is_block_at_right_edge b offset len = false := by
        unfold is_block_at_right_edge
        rw [hu, hu2]
        simp only [decide_eq_false_iff_not]
        exact hD
      rw [if_neg (by simp [hD2]), hprev]
      have hs : sub64 offset b.offset = offset - b.offset :=
        sub64_of_le (by omega) (by omega)
      have hs2 : sub64 b.size (offset - b.offset) = b.size - (offset - b.offset) :=
        sub64_of_le (by omega) (by have := hbok.2.2.2.2; omega)
      rw [hs, hs2]
      obtain ⟨z1, z2, ⟨b1, z3, y1, y2, y3, y4⟩, z4, z5⟩ :=
        zero_step (offset - b.offset) (b.size - (offset - b.offset))
      refine cont _ (b1 :: post) z1 z2 z3 z4 ?_ (hsame _ b1 z3 y1 y2 y3 y4) ?_
      · intro pos
        rw [z5 pos]
        by_cases hI : (offset ≤ pos ∧ pos < offset + len) ∧
            (b.offset ≤ pos ∧ pos < b.offset + b.size)
        · rw [if_pos hI, if_pos (by omega)]
        · rw [if_neg hI, if_neg (by omega)]
      · intro a ha
        rcases List.mem_cons.mp ha with rfl | h
        · omega
        · exact hpostnc a h

/-- On a well-formed file with a built index `vinode_remove_interval` returns:
the file stays well formed, its inode is untouched, every position of the
interval then reads as zero and every other position keeps its content; the
descriptors that are left are descriptors of the old chain, and none of them
lies inside the interval. -/
theorem vinode_remove_interval_spec {v : pmemfile_vinode} {c : List (Nat × Nat)}
    (hw : vinode_wf v) (hcb : v.blocks = some c) {offset len : Nat} (hl : 0 < len)
    (hend : offset + len < 2 ^ 64) :
    ∃ v', vinode_remove_interval v offset len = some v' ∧
      vinode_wf v' ∧ (∃ c', v'.blocks = some c') ∧ v'.inode = v.inode ∧
      (∀ pos, content v'.chain pos =
        if offset ≤ pos ∧ pos < offset + len then 0 else content v.chain pos) ∧
      (∀ a ∈ v'.chain, ∃ a0 ∈ v.chain, a0.addr = a.addr ∧ a0.offset = a.offset ∧
        a0.size = a.size ∧ a0.flags = a.flags) ∧
      ∀ a ∈ v'.chain, ¬ (offset ≤ a.offset ∧ a.offset + a.size ≤ offset + len) := by
  unfold vinode_remove_interval
  rw [if_neg (by omega), hcb]
  dsimp only
  have hu : u64 (offset + len - 1) = offset + len - 1 := u64_of_lt (by omega)
  rw [hu]
  cases hf : find_block c (offset + len - 1) with
  | none =>
    have hall := find_block_none (hw.2.1 c hcb) hf
    refine ⟨v, by simp [vinode_remove_interval_loop], hw, ⟨c, hcb⟩, rfl, ?_,
      fun a ha => ⟨a, ha, rfl, rfl, rfl, rfl⟩, ?_⟩
    · intro pos
      by_cases hI : offset ≤ pos ∧ pos < offset + len
      · rw [if_pos hI]
        apply content_of_not_covered
        intro a ha
        have := hall a ha
        omega
      · rw [if_neg hI]
    · intro a ha
      have := hall a ha
      have := (hw.1.2.2 a ha).1
      omega
  | some p =>
    obtain ⟨b, hb, hba, hbo, hmax⟩ := find_block_some (hw.2.1 c hcb) hf
    obtain ⟨pre, post, hch, _, _, _, hpost_le⟩ := chain_wf_split hw.1 hb
    have hbok := hw.1.2.2 b hb
    have hpostnc : ∀ a ∈ post, ¬ (offset ≤ a.offset ∧ a.offset + a.size ≤ offset + len) := by
      intro a ha hcon
      have ham : a ∈ v.chain := by rw [hch]; simp [ha]
      have h1 := hpost_le a ha
      have h2 := (hw.1.2.2 a ham).1
      have := hmax a ham (by omega)
      have := hbok.1
      omega
    obtain ⟨v', r1, r2, r3, r4, r5, r6, r7⟩ :=
      remove_loop_spec (v.chain.length + 1) v c pre post b offset len hw hcb hch hend
        (by omega) hpostnc (by rw [hch]; simp)
    rw [hba] at r1
    refine ⟨v', r1, r2, r3, r4, ?_, r6, r7⟩
    intro pos
    rw [r5 pos]
    by_cases hI : offset ≤ pos ∧ pos < offset + len
    · rw [if_pos hI]
      by_cases hE : pos < b.offset + b.size
      · rw [if_pos (by omega)]
      · rw [if_neg (by omega)]
        apply content_of_not_covered
        intro a ha hcov
        have := find_covering hw.1 hb (show b.offset ≤ pos by have := hbok.1; omega)
          (fun x hx hxo => hmax x hx (by omega)) ha hcov.1 hcov.2
        subst this
        omega
    · rw [if_neg hI, if_neg (by omega)]

/-! ## Reading a single byte -/

/-- A read of one byte returns the content of its position. -/
theorem read_at_one {v : pmemfile_vinode} {file : pmemfile_file} {c : List (Nat × Nat)}
    (hw : vinode_wf v) (hcb : v.blocks = some c) (hca : cache_ok v file) {pos : Nat}
    (hpos : pos + 1 < 2 ^ 64) :
    read_at v file pos 1 = some [content v.chain pos] := by
  obtain ⟨blk, file0, f1, _, _, _, f5⟩ :=
    file_find_block_spec hw.1 hcb (hw.2.1 c hcb) hca pos
  unfold read_at iterate_on_file_range
  rw [f1]
  dsimp only
  unfold iterate_on_file_range_loop
  rw [if_neg (by omega)]
  dsimp only
  rw [if_neg (by simp)]
  have hrb : read_block_range none 0 1 = some [0] := by
    unfold read_block_range
    rw [if_neg (by omega)]
    rfl
  cases blk with
  | none =>
    dsimp only at f5
    have hc0 : content v.chain pos = 0 := by
      apply content_of_not_covered
      intro a ha
      have := f5 a ha
      omega
    dsimp only
    rw [if_pos (by simp [is_offset_in_block]), if_neg (by simp)]
    cases hch : v.chain with
    | nil =>
      simp only [find_following_block, hch, List.head?_nil, Option.map_none']
      rw [hrb]
      dsimp only
      rw [read_loop_zero]
      rw [hch] at hc0
      simp [hc0]
    | cons hb rest =>
      have hbm : hb ∈ v.chain := by rw [hch]; simp
      have hbok := hw.1.2.2 hb hbm
      have hlt := f5 hb hbm
      simp only [find_following_block, hch, List.head?_cons, Option.map_some']
      have hd : block_deref (hb :: rest) hb.addr = some hb := by
        simp [block_deref]
      rw [hd]
      dsimp only
      have hs : sub64 hb.offset pos = hb.offset - pos :=
        sub64_of_le (by omega) (by have := hbok.2.2.2.1; omega)
      rw [hs, if_neg (by omega), hrb]
      dsimp only
      rw [read_loop_zero]
      rw [hch] at hc0
      simp [hc0]
  | some p =>
    obtain ⟨b, hbm, hba, hbo, hmax⟩ := f5
    have hbok := hw.1.2.2 b hbm
    obtain ⟨pre, post, hch, hpre, hpost, hpre_le, hpost_le⟩ := chain_wf_split hw.1 hbm
    have hd : block_deref v.chain p = some b := by
      rw [← hba]; exact chain_wf_deref hw.1 hbm
    have hnx : block_next v.chain p = post.head?.map (fun n => n.addr) := by
      rw [hch, ← hba, block_next_split pre post b hpre]
    dsimp only
    rw [hd]
    simp only [Option.map_some']
    have hu : u64 (b.offset + b.size) = b.offset + b.size := u64_of_lt hbok.2.2.2.1
    by_cases hin : pos < b.offset + b.size
    · have hin2 : is_offset_in_block (some b) pos = true := by
        simp only [is_offset_in_block, Bool.and_eq_true, decide_eq_true_eq, hu]
        exact ⟨hbo, hin⟩
      rw [if_neg (by simp [hin2])]
      have hst : sub64 pos b.offset = pos - b.offset := by unfold sub64; omega
      have hl0 : sub64 b.size (pos - b.offset) = b.offset + b.size - pos := by
        have := hbok.2.2.2.2
        unfold sub64; omega
      rw [hst, hl0]
      have hil : (if 1 < b.offset + b.size - pos then 1 else b.offset + b.size - pos) = 1 := by
        split_ifs <;> omega
      rw [hil]
      have hass : (pos - b.offset < b.size ∧ u64 (pos - b.offset + 1) ≤ b.size) := by
        unfold u64; omega
      rw [if_neg (by simp only [not_not]; exact hass)]
      rw [read_block_range_content hw.1 hbm (by omega) hbo (by omega)]
      dsimp only
      rw [read_loop_zero]
      simp [List.range_succ]
    · have hin2 : is_offset_in_block (some b) pos = false := by
        simp only [is_offset_in_block, hu]
        by_contra hc
        simp only [Bool.not_eq_false, Bool.and_eq_true, decide_eq_true_eq] at hc
        exact hin hc.2
      have hc0 : content v.chain pos = 0 := by
        apply content_of_not_covered
        intro a ha hcov
        have := find_covering hw.1 hbm hbo hmax ha hcov.1 hcov.2
        subst this
        omega
      rw [if_pos (by simp [hin2]), if_neg (by simp)]
      simp only [find_following_block]
      rw [hnx]
      cases post with
      | nil =>
        simp only [List.head?_nil, Option.map_none']
        rw [hrb]
        dsimp only
        rw [read_loop_zero]
        simp [hc0]
      | cons nb post1 =>
        simp only [List.head?_cons, Option.map_some']
        have hnm : nb ∈ v.chain := by rw [hch]; simp
        have hnok := hw.1.2.2 nb hnm
        have hnb := hpost_le nb (by simp)
        have hd2 : block_deref v.chain nb.addr = some nb := chain_wf_deref hw.1 hnm
        rw [hd2]
        dsimp only
        have hgt : pos < nb.offset := by
          by_contra hc
          have := hmax nb hnm (by omega)
          have := hbok.1
          omega
        have hs : sub64 nb.offset pos = nb.offset - pos :=
          sub64_of_le (by omega) (by have := hnok.2.2.2.1; omega)
        rw [hs, if_neg (by omega), hrb]
        dsimp only
        rw [read_loop_zero]
        simp [hc0]

/-! ## Termination of the allocation loop -/

theorem file_allocate_block_data_total {cfg : config} (hc : config_ok cfg)
    (ha : alloc_ok cfg) (slot : pmemfile_block) {count : Nat} (h0 : 0 < count)
    (hm : count % FILE_PAGE_SIZE = 0) (use : Bool) :
    ∃ nb, file_allocate_block_data cfg slot count use = some nb := by
  obtain ⟨hB, hM0, hM1, hM2⟩ := hc
  obtain ⟨hP, hU⟩ := ha
  unfold file_allocate_block_data
  rw [if_neg (by omega)]
  rw [if_neg (by unfold FILE_PAGE_SIZE at *; omega)]
  dsimp only
  cases use
  · exact ⟨_, rfl⟩
  · simp only [if_true]
    rw [if_neg (not_lt.mpr (hU _))]
    exact ⟨_, rfl⟩

theorem allocate_block_total {cfg : config} (hc : config_ok cfg) (ha : alloc_ok cfg)
    (v : pmemfile_vinode) (prev : Option Nat) (offset : Nat) {count : Nat} (h0 : 0 < count)
    (hm : count % FILE_PAGE_SIZE = 0) (use : Bool) (trim : Option Nat) :
    ∃ r, allocate_block cfg v prev offset count use trim = some r := by
  unfold allocate_block
  dsimp only
  obtain ⟨nb, hnb⟩ := file_allocate_block_data_total hc ha
    { addr := fresh_addr v.chain, offset := offset, size := 0, flags := 0, data := cfg.fresh }
    h0 hm use
  rw [hnb]
  exact ⟨_, rfl⟩

/-- The allocation loop finishes within two iterations for every byte that is
asked for, provided that the request ends `2 ^ 32` below `2 ^ 64` and that the
distance to the first block, when the request starts before it and reaches it,
is not a multiple of `2 ^ 32`. -/
theorem alloc_loop_total (cfg : config) (hc : config_ok cfg) (hao : alloc_ok cfg)
    (over : Bool) :
    ∀ (fuel : Nat) (v : pmemfile_vinode) (block : Option Nat) (offset size : Nat),
      vinode_wf v → (∃ c, v.blocks = some c) → offset % FILE_PAGE_SIZE = 0 →
      size % FILE_PAGE_SIZE = 0 → 0 < size → offset + size + 2 ^ 32 ≤ 2 ^ 64 →
      (match block with
        | none => ∀ a ∈ v.chain, offset < a.offset
        | some p => ∃ b ∈ v.chain, b.addr = p ∧ b.offset ≤ offset ∧
            ∀ a ∈ v.chain, b.offset < a.offset → offset ≤ a.offset) →
      (block = none → ∀ first, v.chain.head? = some first → first.offset < offset + size →
        (first.offset - offset) % 2 ^ 32 ≠ 0) →
      (2 * size + 2 ≤ fuel ∨
        (2 * size + 1 ≤ fuel ∧ ∃ b ∈ v.chain, block = some b.addr ∧ b.offset ≤ offset ∧
          offset < b.offset + b.size)) →
      ∃ v', vinode_allocate_interval_loop cfg over fuel v block offset size = some v' := by
  intro fuel
  induction fuel with
  | zero =>
    intro v block offset size _ _ _ _ _ _ _ _ hfuel
    rcases hfuel with h | ⟨h, _⟩ <;> omega
  | succ fuel ih =>
    intro v block offset size hw hbl hom hsm hs0 hend hinv hnt hfuel
    obtain ⟨c, hcb⟩ := hbl
    have finish : ∀ (v1 : pmemfile_vinode) (nb1 : pmemfile_block),
        vinode_wf v1 → v1.blocks.isSome → nb1 ∈ v1.chain → nb1.offset = offset →
        0 < nb1.size → 2 * size + 2 ≤ fuel + 1 →
        ∃ v', vinode_allocate_interval_loop cfg over fuel v1 (some nb1.addr) offset size =
          some v' := by
      intro v1 nb1 hw1 hb1 hm1 hno hn0 hf
      exact ih v1 (some nb1.addr) offset size hw1 (Option.isSome_iff_exists.mp hb1) hom hsm
        hs0 hend ⟨nb1, hm1, rfl, by omega, fun a _ hlt => by omega⟩ (by intro h; cases h)
        (Or.inr ⟨by omega, nb1, hm1, rfl, by omega, by omega⟩)
    unfold vinode_allocate_interval_loop
    dsimp only
    cases block with
    | none =>
      dsimp only at hinv ⊢
      have hf2 : 2 * size + 2 ≤ fuel + 1 := by
        rcases hfuel with h | ⟨_, b, _, hb, _⟩
        · exact h
        · cases hb
      cases hh : v.chain.head? with
      | none =>
        dsimp only
        have hnil : v.chain = [] := List.head?_eq_none_iff.mp hh
        obtain ⟨⟨v1, p1⟩, ha⟩ := allocate_block_total hc hao v none offset hs0 hsm over none
        rw [ha]
        dsimp only
        rw [if_pos hs0]
        obtain ⟨nb, nb1, hv1, hko, hka, hp1, hnba, hnbo, hnf, hn0, hnm, hn32, hu, hc0, hex⟩ :=
          allocate_block_spec hc (by intro x hx; cases hx) ha
        rw [block_list_insert_after_none] at hv1
        rw [← hnba]
        have hok : block_ok nb1 := ⟨hn0, by rw [hnbo]; exact hom, hnm, by omega, hn32⟩
        have hw1 := vinode_wf_insert_head hw hko hka hok (by rw [hnba, hp1])
          (by rw [hnil]; simp)
        rw [← hv1] at hw1
        exact finish v1 nb1 hw1 (by rw [hv1, hcb]; rfl) (by rw [hv1]; simp) hnbo hn0 hf2
      | some first =>
        dsimp only
        obtain ⟨rest, hrest⟩ : ∃ rest, v.chain = first :: rest := by
          cases hv : v.chain with
          | nil => rw [hv] at hh; cases hh
          | cons a rest => rw [hv] at hh; simp at hh; exact ⟨rest, by rw [hh]⟩
        have hfm : first ∈ v.chain := by rw [hrest]; simp
        have hfo := hinv first hfm
        have hfok := hw.1.2.2 first hfm
        have hnt1 := hnt rfl first hh
        generalize hcnt : (if u64 (offset + size) > first.offset then
          u32 (sub64 first.offset offset) else size) = count
        have hcp : 0 < count ∧ count % FILE_PAGE_SIZE = 0 ∧ offset + count ≤ first.offset := by
          have h1 := hfok.2.1
          have h2 := hfok.2.2.2.1
          have hu : u64 (offset + size) = offset + size := u64_of_lt (by omega)
          have hs : sub64 first.offset offset = first.offset - offset :=
            sub64_of_le (by omega) (by omega)
          rw [← hcnt, hu, hs]
          by_cases hg : offset + size > first.offset
          · rw [if_pos hg]
            have := hnt1 (by omega)
            unfold u32 FILE_PAGE_SIZE at *
            omega
          · rw [if_neg hg]
            omega
        obtain ⟨⟨v1, p1⟩, ha⟩ :=
          allocate_block_total hc hao v none offset hcp.1 hcp.2.1 false none
        rw [ha]
        dsimp only
        rw [if_pos hs0]
        obtain ⟨nb, nb1, hv1, hko, hka, hp1, hnba, hnbo, hnf, hn0, hnm, hn32, hu, hc0, hex⟩ :=
          allocate_block_spec hc (by intro x hx; cases hx) ha
        rw [block_list_insert_after_none] at hv1
        rw [← hnba]
        have hle : nb1.offset + nb1.size ≤ first.offset := by
          have := hu rfl
          rw [hnbo]
          omega
        have hok : block_ok nb1 := ⟨hn0, by rw [hnbo]; exact hom, hnm, by
          have := hfok.2.2.2.1; omega, hn32⟩
        have hall : ∀ a ∈ v.chain, nb1.offset + nb1.size ≤ a.offset := by
          intro a ha
          rw [hrest] at ha
          rcases List.mem_cons.mp ha with rfl | ha
          · exact hle
          · have hp := hw.1.1
            rw [hrest, List.pairwise_cons] at hp
            have := hp.1 a ha
            omega
        have hw1 := vinode_wf_insert_head hw hko hka hok (by rw [hnba, hp1]) hall
        rw [← hv1] at hw1
        exact finish v1 nb1 hw1 (by rw [hv1, hcb]; rfl) (by rw [hv1]; simp) hnbo hn0 hf2
    | some p =>
      dsimp only at hinv ⊢
      obtain ⟨b, hbm, hba, hbo, hafter⟩ := hinv
      have hd : block_deref v.chain p = some b := by
        rw [← hba]; exact chain_wf_deref hw.1 hbm
      rw [hd]
      dsimp only
      have hbok := hw.1.2.2 b hbm
      obtain ⟨pre, post, hch, hpre, hpost, hpre_le, hpost_le⟩ := chain_wf_split hw.1 hbm
      have hu : u64 (b.offset + b.size) = b.offset + b.size := u64_of_lt hbok.2.2.2.1
      by_cases hin : is_offset_in_block (some b) offset = true
      · rw [if_pos hin]
        simp only [is_offset_in_block, Bool.and_eq_true, decide_eq_true_eq] at hin
        rw [hu] at hin
        have hav : sub64 b.size (sub64 offset b.offset) = b.offset + b.size - offset := by
          have := hbok.2.2.2.1
          unfold sub64; omega
        rw [hav]
        by_cases hge : b.offset + b.size - offset ≥ size
        · rw [if_pos hge]
          exact ⟨v, rfl⟩
        · rw [if_neg hge]
          have h1 : u64 (offset + (b.offset + b.size - offset)) = b.offset + b.size := by
            unfold u64; omega
          have h2 : sub64 size (b.offset + b.size - offset) =
              size - (b.offset + b.size - offset) := by
            unfold sub64; omega
          rw [h1, h2, if_pos (by omega)]
          have hinv1 : ∃ b1 ∈ v.chain, b1.addr = p ∧ b1.offset ≤ b.offset + b.size ∧
              ∀ a ∈ v.chain, b1.offset < a.offset → b.offset + b.size ≤ a.offset :=
            ⟨b, hbm, hba, by omega, fun a ha hlt => chain_wf_after hw.1 ha hbm hlt⟩
          have hal : (b.offset + b.size) % FILE_PAGE_SIZE = 0 ∧
              (size - (b.offset + b.size - offset)) % FILE_PAGE_SIZE = 0 := by
            have := hbok.2.1
            have := hbok.2.2.1
            unfold FILE_PAGE_SIZE at *
            omega
          have hfl : 2 * size + 1 ≤ fuel + 1 := by
            rcases hfuel with h | ⟨h, _⟩ <;> omega
          exact ih v (some p) (b.offset + b.size) (size - (b.offset + b.size - offset)) hw
            ⟨c, hcb⟩ hal.1 hal.2 (by omega) (by omega) hinv1 (by intro h; cases h)
            (Or.inl (by omega))
      · rw [if_neg hin]
        simp only [is_offset_in_block, Bool.and_eq_true, decide_eq_true_eq] at hin
        rw [hu] at hin
        have hbe : b.offset + b.size ≤ offset := by omega
        have hf2 : 2 * size + 2 ≤ fuel + 1 := by
          rcases hfuel with h | ⟨_, b2, hb2, he, h3, h4⟩
          · exact h
          · exfalso
            simp only [Option.some.injEq] at he
            have := chain_wf_addr_inj hw.1 hbm hb2 (by rw [hba, he])
            subst this
            omega
        have hnx : block_next v.chain p = post.head?.map (fun n => n.addr) := by
          rw [hch, ← hba]; exact block_next_split pre post b hpre
        rw [hnx]
        cases post with
        | nil =>
          simp only [List.head?_nil, Option.map_none']
          obtain ⟨⟨v1, p1⟩, ha⟩ :=
            allocate_block_total hc hao v (some p) offset hs0 hsm over none
          rw [ha]
          dsimp only
          rw [if_pos hs0]
          obtain ⟨nb, nb1, hv1, hko, hka, hp1, hnba, hnbo, hnf, hn0, hnm, hn32, hu1, hc0,
            hex⟩ := allocate_block_spec hc (by intro x hx; cases hx) ha
          have hins : block_list_insert_after v.chain (some p) nb1 = pre ++ b :: nb1 :: [] := by
            rw [hch, ← hba]; exact block_list_insert_after_split pre [] b nb1 hpre
          rw [hins] at hv1
          rw [← hnba]
          have hok : block_ok nb1 := ⟨hn0, by rw [hnbo]; exact hom, hnm, by omega, hn32⟩
          have hw1 := vinode_wf_insert_after hw hch hko hka hok (by rw [hnba, hp1])
            (by omega) (by simp)
          rw [← hv1] at hw1
          exact finish v1 nb1 hw1 (by rw [hv1, hcb]; rfl) (by rw [hv1]; simp) hnbo hn0 hf2
        | cons next post1 =>
          simp only [List.head?_cons, Option.map_some']
          have hnm : next ∈ v.chain := by rw [hch]; simp
          have hdn : block_deref v.chain next.addr = some next := chain_wf_deref hw.1 hnm
          rw [hdn]
          dsimp only
          have hnok := hw.1.2.2 next hnm
          have hbn : b.offset + b.size ≤ next.offset := hpost_le next (by simp)
          have hon : offset ≤ next.offset := hafter next hnm (by have := hbok.1; omega)
          have hhc : sub64 next.offset offset = next.offset - offset := by
            have := hnok.2.2.2.1
            unfold sub64; omega
          rw [hhc]
          generalize hcnt : (if next.offset - offset > size then size
            else next.offset - offset) = count
          have hcp : count % FILE_PAGE_SIZE = 0 ∧ offset + count ≤ next.offset ∧
              (count = 0 → next.offset = offset) := by
            have := hnok.2.1
            rw [← hcnt]
            unfold FILE_PAGE_SIZE at *
            split_ifs <;> omega
          by_cases hpos : count > 0
          · rw [if_pos hpos]
            obtain ⟨⟨v1, p1⟩, ha⟩ :=
              allocate_block_total hc hao v (some p) offset hpos hcp.1 false (some count)
            rw [ha]
            dsimp only
            rw [if_pos hs0]
            obtain ⟨nb, nb1, hv1, hko, hka, hp1, hnba, hnbo, hnf, hn0, hnm1, hn32, hu1, hc0,
              hex⟩ := allocate_block_spec hc (by intro x hx; cases hx; rfl) ha
            have hins : block_list_insert_after v.chain (some p) nb1 =
                pre ++ b :: nb1 :: next :: post1 := by
              rw [hch, ← hba]; exact block_list_insert_after_split pre _ b nb1 hpre
            rw [hins] at hv1
            rw [← hnba]
            have hle : nb1.offset + nb1.size ≤ next.offset := by
              have := hu1 rfl
              rw [hnbo]
              omega
            have hok : block_ok nb1 := ⟨hn0, by rw [hnbo]; exact hom, hnm1, by
              have := hnok.2.2.2.1; omega, hn32⟩
            have hw1 := vinode_wf_insert_after hw hch hko hka hok (by rw [hnba, hp1])
              (by omega) (by
                intro a ha
                rcases List.mem_cons.mp ha with rfl | ha
                · exact hle
                · have hp := hw.1.1
                  rw [hch, List.pairwise_append] at hp
                  have := (List.pairwise_cons.mp (List.pairwise_cons.mp hp.2.1).2).1 a ha
                  have := hnok.1
                  omega)
            rw [← hv1] at hw1
            exact finish v1 nb1 hw1 (by rw [hv1, hcb]; rfl) (by rw [hv1]; simp) hnbo hn0 hf2
          · rw [if_neg hpos, if_pos hs0]
            have heq : next.offset = offset := hcp.2.2 (by omega)
            exact ih v (some next.addr) offset size hw ⟨c, hcb⟩ hom hsm hs0 hend
              ⟨next, hnm, rfl, by omega, fun a _ hlt => by omega⟩ (by intro h; cases h)
              (Or.inr ⟨by omega, next, hnm, rfl, by omega, by have := hnok.1; omega⟩)

theorem is_append_total {v : pmemfile_vinode} {c : List (Nat × Nat)} (hw : vinode_wf v)
    (hcb : v.blocks = some c) (offset size : Nat) :
    ∃ o, is_append v c offset size = some o := by
  unfold is_append
  split_ifs
  · exact ⟨false, rfl⟩
  · cases hf : find_last_block c with
    | none => exact ⟨true, rfl⟩
    | some p =>
      unfold find_last_block at hf
      obtain ⟨b, hb, hba, _, _⟩ := find_block_some (hw.2.1 c hcb) hf
      have hd : block_deref v.chain p = some b := by
        rw [← hba]; exact chain_wf_deref hw.1 hb
      dsimp only
      rw [hd]
      exact ⟨_, rfl⟩

/-- `vinode_allocate_interval` returns on a well-formed file with a built
index, when the request ends `2 ^ 33` below `2 ^ 64` and no block starts at a
positive multiple of `2 ^ 32` behind the page of `offset`. -/
theorem vinode_allocate_interval_total {cfg : config} (hc : config_ok cfg)
    (hao : alloc_ok cfg) {v : pmemfile_vinode} {c : List (Nat × Nat)} (hw : vinode_wf v)
    (hcb : v.blocks = some c) {offset size : Nat} (hs0 : 0 < size)
    (hb : offset + size + 2 ^ 33 ≤ 2 ^ 64)
    (hnt : ∀ a ∈ v.chain, page_rounddown offset < a.offset →
      (a.offset - page_rounddown offset) % 2 ^ 32 ≠ 0) :
    ∃ v', vinode_allocate_interval cfg v offset size = some v' := by
  unfold vinode_allocate_interval
  rw [hcb]
  dsimp only
  have hu : u64 (offset + size) = offset + size := u64_of_lt (by omega)
  rw [hu, if_neg (by omega)]
  have hov : ∃ over, (if cfg.pmemfile_overallocate_on_append = true then
      is_append v c offset size else some false) = some over := by
    split_ifs
    · exact is_append_total hw hcb offset size
    · exact ⟨false, rfl⟩
  obtain ⟨over, hover⟩ := hov
  rw [hover]
  dsimp only
  generalize hsz1 : (if over = true then overallocate_size size else size) = size1
  have hs1 : size ≤ size1 ∧ size1 ≤ size + 64 * 1024 * 1024 := by
    rw [← hsz1]
    have := overallocate_size_ge size
    have := overallocate_size_le size
    split_ifs <;> omega
  obtain ⟨e1, e2, e3, e4, e5, e6⟩ :=
    @expand_to_full_pages_spec offset size1 (by unfold FILE_PAGE_SIZE; omega)
  generalize expand_to_full_pages offset size1 = r at *
  have hrd : page_rounddown offset = r.1 := by
    unfold page_rounddown FILE_PAGE_SIZE at *
    omega
  rw [hrd] at hnt
  have hinv : (match find_block c r.1 with
      | none => ∀ a ∈ v.chain, r.1 < a.offset
      | some p => ∃ b ∈ v.chain, b.addr = p ∧ b.offset ≤ r.1 ∧
          ∀ a ∈ v.chain, b.offset < a.offset → r.1 ≤ a.offset) := by
    cases hf : find_block c r.1 with
    | none => exact find_block_none (hw.2.1 c hcb) hf
    | some p =>
      obtain ⟨b, hb, hba, hbo, hmax⟩ := find_block_some (hw.2.1 c hcb) hf
      refine ⟨b, hb, hba, hbo, ?_⟩
      intro a ha hlt
      by_contra hcon
      have := hmax a ha (by omega)
      omega
  refine alloc_loop_total cfg hc hao over (2 * r.2 + 2) v (find_block c r.1) r.1 r.2 hw
    ⟨c, hcb⟩ e1 e2 (by unfold FILE_PAGE_SIZE at *; omega)
    (by unfold FILE_PAGE_SIZE at *; omega) hinv ?_ (Or.inl (le_refl _))
  intro hnone first hfirst _
  rw [hnone] at hinv
  have hfm : first ∈ v.chain := List.mem_of_mem_head? hfirst
  exact hnt first hfm (hinv first hfm)

/-! ## Truncation -/

theorem remove_loop_inode :
    ∀ (fuel : Nat) (v : pmemfile_vinode) (block : Option Nat) (offset len : Nat)
      (v' : pmemfile_vinode),
      vinode_remove_interval_loop fuel v block offset len = some v' → v'.inode = v.inode := by
  intro fuel
  induction fuel with
  | zero => intro v block offset len v' h; simp [vinode_remove_interval_loop] at h
  | succ fuel ih =>
    intro v block offset len v' h
    unfold vinode_remove_interval_loop at h
    cases block with
    | none =>
      simp only [Option.some.injEq] at h
      rw [← h]
    | some p =>
      dsimp only at h
      cases hd : block_deref v.chain p with
      | none => rw [hd] at h; cases h
      | some b =>
        rw [hd] at h
        dsimp only at h
        split_ifs at h <;>
          first
          | (cases h; rfl)
          | (have h5 := ih _ _ _ _ _ h; exact h5)

theorem vinode_remove_interval_inode {v v' : pmemfile_vinode} {offset len : Nat}
    (h : vinode_remove_interval v offset len = some v') : v'.inode = v.inode := by
  unfold vinode_remove_interval at h
  split_ifs at h
  cases hb : v.blocks with
  | none => rw [hb] at h; cases h
  | some c =>
    rw [hb] at h
    exact remove_loop_inode _ _ _ _ _ _ h

/-- What `vinode_truncate` does to the inode, whenever it returns: the size is
the requested one; the inode is untouched when the size was already the
requested one, and otherwise only the size and `mtime` change. -/
theorem vinode_truncate_frame {cfg : config} {now : pmemfile_time}
    {v v' : pmemfile_vinode} {size : Nat} (h : vinode_truncate cfg now v size = some v') :
    v'.inode.size = size ∧
      (v.inode.size = size → v'.inode = v.inode) ∧
      (v.inode.size ≠ size → v'.inode = { v.inode with size := size, mtime := now }) := by
  unfold vinode_truncate at h
  dsimp only at h
  have h0 : (if v.blocks.isNone then vinode_rebuild_block_tree v else v).inode = v.inode := by
    split_ifs <;> rfl
  generalize (if v.blocks.isNone then vinode_rebuild_block_tree v else v) = v0 at h h0
  cases hr : vinode_remove_interval v0 size (UINT64_MAX - size) with
  | none => rw [hr] at h; cases h
  | some v1 =>
    rw [hr] at h
    dsimp only at h
    have h1 := vinode_remove_interval_inode hr
    cases ha : (if v1.inode.size < size then
        vinode_allocate_interval cfg v1 v1.inode.size (size - v1.inode.size)
        else some v1) with
    | none => rw [ha] at h; cases h
    | some v2 =>
      rw [ha] at h
      dsimp only at h
      have h2 : v2.inode = v1.inode := by
        split_ifs at ha
        · exact (vinode_allocate_interval_frame ha).1
        · cases ha; rfl
      have h3 : v2.inode = v.inode := by rw [h2, h1, h0]
      by_cases hs : v2.inode.size ≠ size
      · rw [if_pos hs] at h
        have hv := Option.some.inj h
        rw [← hv]
        refine ⟨rfl, ?_, ?_⟩
        · intro he
          rw [h3] at hs
          exact absurd he hs
        · intro _
          show { v2.inode with size := size, mtime := now } = _
          rw [h3]
      · rw [if_neg hs] at h
        have hv := Option.some.inj h
        rw [← hv]
        have hs' : v2.inode.size = size := not_not.mp hs
        refine ⟨hs', ?_, ?_⟩
        · intro _
          exact h3
        · intro hne
          rw [h3] at hs'
          exact absurd hs' hne

/-- A read at or behind the end of the file returns 0 and copies nothing. -/
theorem pmemfile_read_eof (now : pmemfile_time) {v : pmemfile_vinode} {file : pmemfile_file}
    (hreg : vinode_is_regular_file v = true) (hrd : file.flags &&& PFILE_READ ≠ 0)
    (ho : file.offset < 2 ^ 64) (he : v.inode.size ≤ file.offset) (count : Nat) :
    ∃ v2, pmemfile_read now v file count = some (Except.ok 0, v2, file, []) ∧
      v2.inode.size = v.inode.size := by
  unfold pmemfile_read
  rw [if_neg (by simpa using hreg), if_neg hrd]
  dsimp only
  have hi : (if v.blocks.isNone then vinode_rebuild_block_tree v else v).inode
      = v.inode := by split_ifs <;> rfl
  generalize (if v.blocks.isNone then vinode_rebuild_block_tree v else v) = v1 at hi ⊢
  unfold file_read
  dsimp only
  rw [hi, if_pos (by omega)]
  dsimp only
  have hu : u64 (file.offset + 0) = file.offset := u64_of_lt ho
  rw [hu]
  split_ifs
  · exact ⟨_, rfl, rfl⟩
  · exact ⟨_, rfl, by rw [hi]⟩

/-- `vinode_truncate` returns on a well-formed file when the new size fits
`off_t` and no block in front of the new size starts at a positive multiple of
`2 ^ 32` behind the page of the old size.  The file stays well formed, every
position at or behind the new size reads as zero and every position in front of
it keeps its content. -/
theorem vinode_truncate_total {cfg : config} (hc : config_ok cfg) (hao : alloc_ok cfg)
    (now : pmemfile_time) {v : pmemfile_vinode} (hw : vinode_wf v) {size : Nat}
    (hN : size ≤ SSIZE_MAX)
    (hnt : ∀ a ∈ v.chain, a.offset < size → page_rounddown v.inode.size < a.offset →
      (a.offset - page_rounddown v.inode.size) % 2 ^ 32 ≠ 0) :
    ∃ v', vinode_truncate cfg now v size = some v' ∧ vinode_wf v' ∧
      (∃ c', v'.blocks = some c') ∧
      ∀ pos, content v'.chain pos = if size ≤ pos then 0 else content v.chain pos := by
  unfold SSIZE_MAX at hN
  unfold vinode_truncate
  dsimp only
  obtain ⟨i1, ⟨c, i2⟩, i3, i4⟩ := with_index_wf hw
  generalize (if v.blocks.isNone then vinode_rebuild_block_tree v else v) = v0 at *
  obtain ⟨v1, r1, r2, ⟨c1, r3⟩, r4, r5, r6, r7⟩ :=
    @vinode_remove_interval_spec v0 c i1 i2 size (UINT64_MAX - size)
      (by unfold UINT64_MAX; omega) (by unfold UINT64_MAX; omega)
  rw [r1]
  dsimp only
  have hcont1 : ∀ pos, content v1.chain pos = if size ≤ pos then 0 else content v.chain pos := by
    intro pos
    rw [r5 pos, i3]
    by_cases h1 : size ≤ pos
    · rw [if_pos h1]
      by_cases h2 : pos < size + (UINT64_MAX - size)
      · rw [if_pos ⟨h1, h2⟩]
      · rw [if_neg (by omega)]
        apply content_of_not_covered
        intro a ha
        have := (hw.1.2.2 a ha).2.2.2.1
        unfold UINT64_MAX at h2
        omega
    · rw [if_neg h1, if_neg (by omega)]
  have hsz1 : v1.inode.size = v.inode.size := by rw [r4, i4]
  have hfin : ∀ v2 : pmemfile_vinode, vinode_wf v2 → (∃ c2, v2.blocks = some c2) →
      (∀ pos, content v2.chain pos = content v1.chain pos) →
      ∃ v', (if v2.inode.size ≠ size then
          some { v2 with inode := { v2.inode with size := size, mtime := now } }
        else some v2) = some v' ∧ vinode_wf v' ∧ (∃ c', v'.blocks = some c') ∧
        ∀ pos, content v'.chain pos = if size ≤ pos then 0 else content v.chain pos := by
    intro v2 hw2 hb2 hc2
    by_cases hs : v2.inode.size ≠ size
    · rw [if_pos hs]
      refine ⟨_, rfl, ⟨hw2.1, hw2.2.1, ?_⟩, hb2, ?_⟩
      · show size < 2 ^ 64
        omega
      · intro pos
        show content v2.chain pos = _
        rw [hc2, hcont1]
    · rw [if_neg hs]
      refine ⟨_, rfl, hw2, hb2, ?_⟩
      intro pos
      rw [hc2, hcont1]
  by_cases hgrow : v1.inode.size < size
  · rw [if_pos hgrow]
    have hnt1 : ∀ a ∈ v1.chain, page_rounddown v1.inode.size < a.offset →
        (a.offset - page_rounddown v1.inode.size) % 2 ^ 32 ≠ 0 := by
      intro a ha hlt
      obtain ⟨a0, ha0, _, e2, _, _⟩ := r6 a ha
      have hnc := r7 a ha
      have hend := (r2.1.2.2 a ha).2.2.2.1
      rw [i3] at ha0
      rw [hsz1] at hlt ⊢
      have := hnt a0 ha0 (by unfold UINT64_MAX at hnc; omega) (by omega)
      rw [← e2]
      exact this
    obtain ⟨v2, ha⟩ := vinode_allocate_interval_total hc hao r2 r3
      (show 0 < size - v1.inode.size by omega) (by omega) hnt1
    obtain ⟨q1, q2, _, q4, q5, _⟩ :=
      vinode_allocate_interval_spec hc r2 (by omega) (by omega) ha
    rw [ha]
    dsimp only
    exact hfin v2 q1 q2 (fun pos => content_alloc r2.1 q1.1 q4 q5 pos)
  · rw [if_neg hgrow]
    dsimp only
    exact hfin v1 r2 ⟨c1, r3⟩ (fun _ => rfl)

/-! ## Punching a hole -/

theorem narrow_to_full_pages_spec {offset length : Nat} (h : offset + length < 2 ^ 63) :
    (narrow_to_full_pages offset length).1 = page_roundup offset ∧
      (narrow_to_full_pages offset length).2 =
        page_rounddown (offset + length) - page_roundup offset ∧
      offset ≤ page_roundup offset ∧ page_roundup offset < offset + FILE_PAGE_SIZE ∧
      page_roundup offset % FILE_PAGE_SIZE = 0 ∧
      page_rounddown (offset + length) ≤ offset + length := by
  have hu : u64 (offset + length) = offset + length := u64_of_lt (by omega)
  unfold narrow_to_full_pages
  dsimp only
  rw [hu]
  refine ⟨by split_ifs <;> rfl, ?_, ?_, ?_, ?_, ?_⟩
  · split_ifs
    · rfl
    · show 0 = _
      omega
  all_goals
    simp only [page_roundup, page_rounddown, u64, FILE_PAGE_SIZE]
    omega

/-- `vinode_fallocate` with `PUNCH_HOLE | KEEP_SIZE` on a well-formed regular
file returns 0; the inode is untouched; the whole pages inside
`[offset, offset + length)` then read as zero and every other position keeps
its content. -/
theorem vinode_fallocate_punch_spec (cfg : config) {v : pmemfile_vinode} (hw : vinode_wf v)
    (hreg : vinode_is_regular_file v = true) {mode offset length : Nat}
    (hp : mode &&& PMEMFILE_FL_PUNCH_HOLE ≠ 0) (hk : mode &&& PMEMFILE_FL_KEEP_SIZE ≠ 0)
    (hend : offset + length < 2 ^ 63) :
    ∃ v', vinode_fallocate cfg v mode offset length = some (0, v') ∧ vinode_wf v' ∧
      v'.inode = v.inode ∧
      ∀ pos, content v'.chain pos =
        if page_roundup offset ≤ pos ∧ pos < page_rounddown (offset + length) then 0
        else content v.chain pos := by
  obtain ⟨n1, n2, n3, n4, n5, n6⟩ := @narrow_to_full_pages_spec offset length hend
  unfold vinode_fallocate
  rw [if_neg (by simpa using hreg)]
  dsimp only
  rw [if_pos hp]
  by_cases hz : (narrow_to_full_pages offset length).2 = 0
  · rw [if_pos hz]
    refine ⟨v, rfl, hw, rfl, ?_⟩
    intro pos
    rw [if_neg (by omega)]
  · rw [if_neg hz, if_pos hp, if_neg hk]
    obtain ⟨i1, ⟨c, i2⟩, i3, i4⟩ := with_index_wf hw
    generalize (if v.blocks.isNone then vinode_rebuild_block_tree v else v) = v0 at *
    obtain ⟨v1, r1, r2, _, r4, r5, _, _⟩ :=
      @vinode_remove_interval_spec v0 c i1 i2 (narrow_to_full_pages offset length).1
        (narrow_to_full_pages offset length).2 (by omega) (by omega)
    rw [r1]
    refine ⟨v1, rfl, r2, by rw [r4, i4], ?_⟩
    intro pos
    rw [r5 pos, i3, n1, n2]
    by_cases hI : page_roundup offset ≤ pos ∧ pos < page_rounddown (offset + length)
    · rw [if_pos hI, if_pos (by omega)]
    · rw [if_neg hI, if_neg (by omega)]

/-- A `pmemfile_read` of one byte in front of the end of the file returns the
content of the position of the handle. -/
theorem pmemfile_read_one (now : pmemfile_time) {v : pmemfile_vinode} {g : pmemfile_file}
    (hw : vinode_wf v) (hca : cache_ok v g) (hreg : vinode_is_regular_file v = true)
    (hrd : g.flags &&& PFILE_READ ≠ 0) (hsz : g.offset < v.inode.size) :
    ∃ v2 g2, pmemfile_read now v g 1 =
      some (Except.ok 1, v2, g2, [content v.chain g.offset]) := by
  unfold pmemfile_read
  rw [if_neg (by simpa using hreg), if_neg hrd]
  dsimp only
  rw [if_neg (show ¬ 1 > SSIZE_MAX by unfold SSIZE_MAX; omega)]
  obtain ⟨i1, ⟨c, i2⟩, i3, i4⟩ := with_index_wf hw
  generalize (if v.blocks.isNone then vinode_rebuild_block_tree v else v) = v1 at *
  have hca1 : cache_ok v1 g := by rw [cache_ok, i3]; exact hca
  have hs := hw.2.2
  have hr := read_at_one i1 i2 hca1 (show g.offset + 1 < 2 ^ 64 by omega)
  unfold read_at at hr
  unfold file_read
  dsimp only
  rw [i4, if_neg (show ¬ g.offset ≥ v.inode.size by omega),
    if_neg (show ¬ v.inode.size - g.offset < 1 by omega)]
  cases hit : iterate_on_file_range v1 g g.offset 1 [] cpy_direction.read_from_blocks with
  | none => rw [hit] at hr; cases hr
  | some r =>
    rw [hit] at hr
    simp only [Option.map_some', Option.some.injEq] at hr
    obtain ⟨va, fa, bytes⟩ := r
    simp only at hr
    rw [hr, i3]
    exact ⟨_, _, rfl⟩

/-! ## Signed offsets and time stamps -/

theorem s64_of_range {n : Int} (h1 : -2 ^ 63 ≤ n) (h2 : n < 2 ^ 63) : s64 n = n := by
  unfold s64; omega

theorem s64_of_nat {n : Nat} (h : n < 2 ^ 63) : s64 (n : Int) = (n : Int) := by
  unfold s64; omega

theorem s64_range (n : Int) : -2 ^ 63 ≤ s64 n ∧ s64 n < 2 ^ 63 := by
  unfold s64; omega

theorem u64_of_int_of_nat (n : Nat) (h : n < 2 ^ 64) : u64_of_int (n : Int) = n := by
  unfold u64_of_int; omega

theorem u64_of_int_of_nonneg {n : Int} (h1 : 0 ≤ n) (h2 : n < 2 ^ 64) :
    u64_of_int n = n.toNat := by
  unfold u64_of_int; omega

theorem regular_not_dir {v : pmemfile_vinode} (h : vinode_is_regular_file v = true) :
    vinode_is_dir v = false := by
  unfold vinode_is_regular_file at h
  unfold vinode_is_dir
  rw [beq_iff_eq] at h
  rw [h]
  decide

theorem time_cmp_neg_iff (t1 t2 : pmemfile_time) : time_cmp t1 t2 < 0 ↔ time_lt t1 t2 := by
  unfold time_cmp time_lt
  split_ifs <;> omega

/-! ## SEEK_DATA and SEEK_HOLE -/

theorem chain_head_least {chain : List pmemfile_block} (hw : chain_wf chain)
    {first : pmemfile_block} (hh : chain.head? = some first) :
    ∀ x ∈ chain, first.offset ≤ x.offset := by
  cases chain with
  | nil => cases hh
  | cons a rest =>
    simp only [List.head?_cons, Option.some.injEq] at hh
    subst hh
    intro x hx
    rcases List.mem_cons.mp hx with rfl | hx
    · exact le_refl _
    · have hp := hw.1
      rw [List.pairwise_cons] at hp
      have := hp.1 x hx
      omega

/-- What `lseek_seek_data` returns on a well-formed file whose block offsets
fit `off_t`: the argument when a block holds it; otherwise the start of the
first block behind it, or `fsize` when there is none. -/
theorem lseek_seek_data_spec {v : pmemfile_vinode} (hw : vinode_wf v)
    (h63 : ∀ b ∈ v.chain, b.offset < 2 ^ 63) {a : Nat} (ha : a < 2 ^ 63) (S : Nat) :
    ∃ (r : Nat) (v1 : pmemfile_vinode),
      lseek_seek_data v (a : Int) (S : Int) = some ((r : Int), v1) ∧
      v1.chain = v.chain ∧ v1.inode = v.inode ∧ vinode_wf v1 ∧
      ((∃ b ∈ v.chain, b.offset ≤ a ∧ a < b.offset + b.size) → r = a) ∧
      ((¬ ∃ b ∈ v.chain, b.offset ≤ a ∧ a < b.offset + b.size) →
        (∀ b ∈ v.chain, a < b.offset → (∀ x ∈ v.chain, a < x.offset → b.offset ≤ x.offset) →
          r = b.offset) ∧
        ((∀ b ∈ v.chain, ¬ a < b.offset) → r = S)) ∧
      (r = a ∨ r = S ∨ ∃ b ∈ v.chain, r = b.offset ∧ a < b.offset) := by
  obtain ⟨i1, ⟨c, i2⟩, i3, i4⟩ := with_index_wf hw
  unfold lseek_seek_data
  dsimp only
  generalize (if v.blocks.isNone then vinode_rebuild_block_tree v else v) = v1 at *
  rw [i2]
  dsimp only
  rw [u64_of_int_of_nat a (by omega)]
  rw [← i3] at h63 ⊢
  cases hf : find_block c a with
  | none =>
    have hall := find_block_none (i1.2.1 c i2) hf
    dsimp only
    have hnc : ¬ ∃ b ∈ v1.chain, b.offset ≤ a ∧ a < b.offset + b.size := by
      rintro ⟨b, hb, h1, _⟩
      have := hall b hb
      omega
    cases hh : v1.chain.head? with
    | none =>
      have hnil : v1.chain = [] := List.head?_eq_none_iff.mp hh
      refine ⟨S, v1, rfl, rfl, i4, i1, fun h => absurd h hnc, fun _ => ⟨?_, fun _ => rfl⟩,
        Or.inr (Or.inl rfl)⟩
      intro b hb
      rw [hnil] at hb
      cases hb
    | some first =>
      have hfm : first ∈ v1.chain := List.mem_of_mem_head? hh
      have hleast := chain_head_least i1.1 hh
      have hs : s64 (first.offset : Int) = (first.offset : Int) :=
        s64_of_nat (h63 first hfm)
      dsimp only
      rw [hs]
      refine ⟨first.offset, v1, rfl, rfl, i4, i1, fun h => absurd h hnc, fun _ => ⟨?_, ?_⟩,
        Or.inr (Or.inr ⟨first, hfm, rfl, hall first hfm⟩)⟩
      · intro b hb hab hmin
        have h1 := hmin first hfm (hall first hfm)
        have h2 := hleast b hb
        omega
      · intro hno
        exact absurd (hall first hfm) (hno first hfm)
  | some p =>
    obtain ⟨b, hbm, hba, hbo, hmax⟩ := find_block_some (i1.2.1 c i2) hf
    have hbok := i1.1.2.2 b hbm
    obtain ⟨pre, post, hch, hpre, hpost, hpre_le, hpost_le⟩ := chain_wf_split i1.1 hbm
    have hd : block_deref v1.chain p = some b := by
      rw [← hba]; exact chain_wf_deref i1.1 hbm
    have hnx : block_next v1.chain p = post.head?.map (fun n => n.addr) := by
      rw [hch, ← hba, block_next_split pre post b hpre]
    dsimp only
    rw [hd]
    dsimp only
    have hu : u64 (b.offset + b.size) = b.offset + b.size := u64_of_lt hbok.2.2.2.1
    by_cases hin : a < b.offset + b.size
    · have hin2 : is_offset_in_block (some b) a = true := by
        simp only [is_offset_in_block, Bool.and_eq_true, decide_eq_true_eq, hu]
        exact ⟨hbo, hin⟩
      rw [if_pos hin2]
      refine ⟨a, v1, rfl, rfl, i4, i1, fun _ => rfl, fun h => absurd ⟨b, hbm, hbo, hin⟩ h,
        Or.inl rfl⟩
    · have hin2 : ¬ is_offset_in_block (some b) a = true := by
        simp only [is_offset_in_block, Bool.and_eq_true, decide_eq_true_eq, hu]
        omega
      rw [if_neg hin2, hnx]
      have hnc : ¬ ∃ x ∈ v1.chain, x.offset ≤ a ∧ a < x.offset + x.size := by
        rintro ⟨x, hx, h1, h2⟩
        have := find_covering i1.1 hbm hbo hmax hx h1 h2
        subst this
        omega
      cases post with
      | nil =>
        simp only [List.head?_nil, Option.map_none']
        refine ⟨S, v1, rfl, rfl, i4, i1, fun h => absurd h hnc, fun _ => ⟨?_, fun _ => rfl⟩,
        Or.inr (Or.inl rfl)⟩
        intro x hx hax _
        exfalso
        rw [hch] at hx
        rcases List.mem_append.mp hx with h | h
        · have := hpre_le x h
          omega
        · simp only [List.mem_singleton] at h
          subst h
          omega
      | cons nb post1 =>
        simp only [List.head?_cons, Option.map_some']
        have hnm : nb ∈ v1.chain := by rw [hch]; simp
        have hnok := i1.1.2.2 nb hnm
        have hnb := hpost_le nb (by simp)
        have hd2 : block_deref v1.chain nb.addr = some nb := chain_wf_deref i1.1 hnm
        rw [hd2]
        have hs : s64 (nb.offset : Int) = (nb.offset : Int) := s64_of_nat (h63 nb hnm)
        dsimp only
        rw [hs]
        have hgt : a < nb.offset := by
          by_contra hcon
          have := hmax nb hnm (by omega)
          have := hbok.1
          omega
        refine ⟨nb.offset, v1, rfl, rfl, i4, i1, fun h => absurd h hnc, fun _ => ⟨?_, ?_⟩,
          Or.inr (Or.inr ⟨nb, hnm, rfl, hgt⟩)⟩
        · intro x hx hax hmin
          have h1 := hmin nb hnm hgt
          have h2 : nb.offset ≤ x.offset := by
            have hx2 := hx
            rw [hch] at hx2
            rcases List.mem_append.mp hx2 with h | h
            · have := hpre_le x h
              have := (i1.1.2.2 x hx).1
              omega
            · rcases List.mem_cons.mp h with rfl | h
              · omega
              · rcases List.mem_cons.mp h with rfl | h
                · exact le_refl _
                · have hp := i1.1.1
                  rw [hch, List.pairwise_append] at hp
                  have := (List.pairwise_cons.mp (List.pairwise_cons.mp hp.2.1).2).1 x h
                  omega
          omega
        · intro hno
          exact absurd hgt (hno nb hnm)

/-- The loop of `lseek_seek_hole`, started at a descriptor that begins at or
before the offset while every later descriptor begins behind it, finishes; it
returns an offset `r` at or behind the one given such that every position in
between is covered, and `r` itself is not covered when it is below `fsize`. -/
theorem seek_hole_loop_spec {chain : List pmemfile_block} (hw : chain_wf chain)
    (h63 : ∀ b ∈ chain, b.offset + b.size < 2 ^ 63) (S : Nat) :
    ∀ (fuel : Nat) (pre post : List pmemfile_block) (b : pmemfile_block) (o : Nat),
      chain = pre ++ b :: post → b.offset ≤ o → (∀ x ∈ post, o < x.offset) → o < 2 ^ 63 →
      post.length + 1 ≤ fuel →
      ∃ r : Nat, lseek_seek_hole_loop chain fuel (some b.addr) (o : Int) (S : Int) =
          some (r : Int) ∧
        o ≤ r ∧ r < 2 ^ 63 ∧
        (∀ pos, o ≤ pos → pos < r → ∃ x ∈ chain, x.offset ≤ pos ∧ pos < x.offset + x.size) ∧
        (r < S → ¬ ∃ x ∈ chain, x.offset ≤ r ∧ r < x.offset + x.size) := by
  intro fuel
  induction fuel with
  | zero => intro pre post b o _ _ _ _ hf; omega
  | succ fuel ih =>
    intro pre post b o hch hbo hpost ho hfuel
    have hwc : chain_wf (pre ++ b :: post) := hch ▸ hw
    obtain ⟨p1, p2, p3, p4⟩ := chain_wf_parts hwc
    have hbm : b ∈ chain := by rw [hch]; simp
    have hbok := hw.2.2 b hbm
    have hb63 := h63 b hbm
    have hd : block_deref chain b.addr = some b := chain_wf_deref hw hbm
    have hnx : block_next chain b.addr = post.head?.map (fun n => n.addr) := by
      rw [hch, block_next_split pre post b p1]
    unfold lseek_seek_hole_loop
    dsimp only
    by_cases hlt : (o : Int) < (S : Int)
    swap
    · rw [if_pos hlt]
      exact ⟨o, rfl, le_refl _, ho, fun pos h1 h2 => by omega, fun h => by omega⟩
    rw [if_neg (not_not.mpr hlt), hd]
    dsimp only
    have hs1 : s64 (b.offset : Int) = (b.offset : Int) := s64_of_nat (by omega)
    have hs2 : s64 ((b.offset : Int) + (b.size : Int)) = ((b.offset + b.size : Nat) : Int) := by
      unfold s64; omega
    rw [hs1, hs2, hnx]
    have ho1 : (if ((b.offset + b.size : Nat) : Int) ≥ (o : Int)
        then ((b.offset + b.size : Nat) : Int) else (o : Int)) =
        ((if b.offset + b.size ≥ o then b.offset + b.size else o : Nat) : Int) := by
      split_ifs <;> omega
    rw [ho1]
    generalize ho1d : (if b.offset + b.size ≥ o then b.offset + b.size else o) = o1
    have ho1p : o ≤ o1 ∧ b.offset + b.size ≤ o1 ∧ o1 < 2 ^ 63 ∧
        (o1 = b.offset + b.size ∨ (o1 = o ∧ b.offset + b.size < o)) := by
      rw [← ho1d]; split_ifs <;> omega
    -- positions between `o` and `o1` are covered by `b`
    have hcov1 : ∀ pos, o ≤ pos → pos < o1 →
        ∃ x ∈ chain, x.offset ≤ pos ∧ pos < x.offset + x.size := by
      intro pos h1 h2
      exact ⟨b, hbm, by omega, by omega⟩
    -- `o1` is not covered when every later descriptor begins behind it
    have hnot : (∀ x ∈ post, o1 < x.offset) →
        ¬ ∃ x ∈ chain, x.offset ≤ o1 ∧ o1 < x.offset + x.size := by
      rintro hp ⟨x, hx, h1, h2⟩
      rw [hch] at hx
      rcases List.mem_append.mp hx with h | h
      · have := p3 x h
        have := hbok.1
        omega
      · rcases List.mem_cons.mp h with rfl | h
        · omega
        · have := hp x h
          omega
    cases post with
    | nil =>
      simp only [List.head?_nil, Option.map_none']
      exact ⟨o1, rfl, ho1p.1, ho1p.2.2.1, hcov1, fun _ => hnot (by intro x hx; cases hx)⟩
    | cons nb post1 =>
      simp only [List.head?_cons, Option.map_some']
      have hnm : nb ∈ chain := by rw [hch]; simp
      have hnok := hw.2.2 nb hnm
      have hnb := p4 nb (by simp)
      have hd2 : block_deref chain nb.addr = some nb := chain_wf_deref hw hnm
      rw [hd2]
      dsimp only
      have hs3 : s64 (nb.offset : Int) = (nb.offset : Int) := s64_of_nat (by
        have := h63 nb hnm; omega)
      rw [hs3]
      clear hs3
      have hpost1 : ∀ x ∈ post1, nb.offset + nb.size ≤ x.offset := by
        intro x hx
        have hp := hwc.1
        rw [List.pairwise_append] at hp
        exact (List.pairwise_cons.mp (List.pairwise_cons.mp hp.2.1).2).1 x hx
      by_cases hbr : o1 < nb.offset
      · rw [if_pos (Int.ofNat_lt.mpr hbr)]
        refine ⟨o1, rfl, ho1p.1, ho1p.2.2.1, hcov1, fun _ => hnot ?_⟩
        intro x hx
        rcases List.mem_cons.mp hx with rfl | hx
        · exact hbr
        · have := hpost1 x hx
          have := hnok.1
          omega
      · rw [if_neg (fun h => hbr (Int.ofNat_lt.mp h))]
        have hon := hpost nb (by simp)
        have heq : o1 = nb.offset := by omega
        obtain ⟨r, r1, r2, r3, r4, r5⟩ :=
          ih (pre ++ [b]) post1 nb o1 (by rw [hch]; simp) (by omega)
            (by
              intro x hx
              have := hpost1 x hx
              have := hnok.1
              omega)
            ho1p.2.2.1 (by simp at hfuel ⊢; omega)
        refine ⟨r, r1, by omega, r3, ?_, r5⟩
        intro pos h1 h2
        by_cases hp : pos < o1
        · exact hcov1 pos h1 hp
        · exact r4 pos (by omega) h2

/-- What `lseek_seek_hole` returns on a well-formed file whose block ends fit
`off_t`. -/
theorem lseek_seek_hole_spec {v : pmemfile_vinode} (hw : vinode_wf v)
    (h63 : ∀ b ∈ v.chain, b.offset + b.size < 2 ^ 63) {a : Nat} (ha : a < 2 ^ 63) (S : Nat) :
    ∃ (r : Nat) (v1 : pmemfile_vinode),
      lseek_seek_hole v (a : Int) (S : Int) = some ((r : Int), v1) ∧
      v1.chain = v.chain ∧ v1.inode = v.inode ∧ vinode_wf v1 ∧
      a ≤ r ∧ r < 2 ^ 63 ∧
      (∀ pos, a ≤ pos → pos < r → ∃ x ∈ v.chain, x.offset ≤ pos ∧ pos < x.offset + x.size) ∧
      (r < S → ¬ ∃ x ∈ v.chain, x.offset ≤ r ∧ r < x.offset + x.size) := by
  obtain ⟨i1, ⟨c, i2⟩, i3, i4⟩ := with_index_wf hw
  unfold lseek_seek_hole
  dsimp only
  generalize (if v.blocks.isNone then vinode_rebuild_block_tree v else v) = v1 at *
  rw [i2]
  dsimp only
  rw [u64_of_int_of_nat a (by omega)]
  rw [← i3] at h63 ⊢
  cases hf : find_block c a with
  | none =>
    have hall := find_block_none (i1.2.1 c i2) hf
    refine ⟨a, v1, by simp [lseek_seek_hole_loop], rfl, i4, i1, le_refl _, ha,
      fun pos h1 h2 => by omega, fun _ => ?_⟩
    rintro ⟨x, hx, h1, _⟩
    have := hall x hx
    omega
  | some p =>
    obtain ⟨b, hbm, hba, hbo, hmax⟩ := find_block_some (i1.2.1 c i2) hf
    have hbok := i1.1.2.2 b hbm
    obtain ⟨pre, post, hch, _, _, _, hpost_le⟩ := chain_wf_split i1.1 hbm
    obtain ⟨r, r1, r2, r3, r4, r5⟩ :=
      seek_hole_loop_spec i1.1 h63 S (v1.chain.length + 1) pre post b a hch hbo
        (by
          intro x hx
          by_contra hcon
          have hxm : x ∈ v1.chain := by rw [hch]; simp [hx]
          have := hmax x hxm (by omega)
          have := hpost_le x hx
          have := hbok.1
          omega)
        ha (by rw [hch]; simp; omega)
    rw [hba] at r1
    rw [r1]
    exact ⟨r, v1, rfl, rfl, i4, i1, r2, r3, r4, r5⟩

/-- The frame of `pmemfile_lseek` with `SEEK_DATA` or `SEEK_HOLE`, given what
the search returns: an offset `r` that is not negative and fits `off_t` is
limited to the logical size, returned, and stored in the handle. -/
theorem pmemfile_lseek_found {v v1 : pmemfile_vinode} {file : pmemfile_file}
    (hreg : vinode_is_regular_file v = true) (hp : file.flags &&& PFILE_PATH = 0)
    {a r : Nat} {whence : Int} (hS : v.inode.size < 2 ^ 63) (haS : a ≤ v.inode.size)
    (hr : r < 2 ^ 63)
    (hw : whence = PMEMFILE_SEEK_DATA ∨ whence = PMEMFILE_SEEK_HOLE)
    (hf : (if whence = PMEMFILE_SEEK_DATA then
            lseek_seek_data v (a : Int) (v.inode.size : Int)
          else if whence = PMEMFILE_SEEK_HOLE then
            lseek_seek_hole v (a : Int) (v.inode.size : Int)
          else none) = some ((r : Int), v1)) :
    pmemfile_lseek v file (a : Int) whence =
      some (Except.ok ((min r v.inode.size : Nat) : Int), v1,
        { file with offset := min r v.inode.size }) := by
  have hnd := regular_not_dir hreg
  have hs : s64 (v.inode.size : Int) = (v.inode.size : Int) := s64_of_nat hS
  have hd : lseek_seek_data_or_hole v (a : Int) whence =
      some (((min r v.inode.size : Nat) : Int), v1) := by
    unfold lseek_seek_data_or_hole
    dsimp only
    rw [if_neg (by simp [hreg]), hs, if_neg (show ¬ (a : Int) > (v.inode.size : Int) by omega),
      if_neg (show ¬ (a : Int) < 0 by omega), hf]
    dsimp only
    by_cases hgt : r > v.inode.size
    · rw [if_pos (by omega), min_eq_right (by omega)]
    · rw [if_neg (by omega), min_eq_left (by omega)]
  unfold pmemfile_lseek
  rw [if_neg (by simp [hp]), if_neg (by simp [hnd]), if_neg (by simp [hreg])]
  have e1 : ¬ (whence = PMEMFILE_SEEK_SET) := by
    rcases hw with h | h <;> rw [h] <;> decide
  have e2 : ¬ (whence = PMEMFILE_SEEK_CUR) := by
    rcases hw with h | h <;> rw [h] <;> decide
  have e3 : ¬ (whence = PMEMFILE_SEEK_END) := by
    rcases hw with h | h <;> rw [h] <;> decide
  simp only [e1, e2, e3, if_false, hw, if_true, hd]
  rw [if_neg (show ¬ ((min r v.inode.size : Nat) : Int) < 0 by omega)]
  dsimp only
  rw [if_neg (show ¬ ((min r v.inode.size : Nat) : Int) < 0 by omega),
    u64_of_int_of_nat _ (by
      have := Nat.min_le_right r v.inode.size
      omega)]

/-! ## Sizes of the blocks one allocation call creates -/

/-- Without a forced block size and with an allocator that reports less than a
page of slack, `file_allocate_block_data` gives the block exactly the size asked
for, limited to `MAX_BLOCK_SIZE`, whether or not the usable size is used. -/
theorem file_allocate_block_data_exact {cfg : config} (hc : config_ok cfg)
    (h0 : cfg.pmemfile_posix_block_size = 0)
    (hslack : ∀ n, cfg.usable_size n < n + FILE_PAGE_SIZE)
    {slot nb : pmemfile_block} {count : Nat} {use : Bool}
    (h : file_allocate_block_data cfg slot count use = some nb) :
    nb.size = min count cfg.MAX_BLOCK_SIZE := by
  obtain ⟨_, hM0, hM1, hM2⟩ := hc
  unfold file_allocate_block_data at h
  split at h
  · cases h
  rename_i hcnt
  split at h
  · cases h
  dsimp only at h
  have hsz : (if cfg.pmemfile_posix_block_size ≠ 0 then u32 cfg.pmemfile_posix_block_size
      else if count ≤ cfg.MAX_BLOCK_SIZE then u32 count else u32 cfg.MAX_BLOCK_SIZE) =
      min count cfg.MAX_BLOCK_SIZE := by
    rw [if_neg (not_not.mpr h0)]
    split_ifs with hle
    · rw [u32_of_lt (by omega)]; omega
    · rw [u32_of_lt (by omega)]; omega
  rw [hsz] at h
  have hm : min count cfg.MAX_BLOCK_SIZE % FILE_PAGE_SIZE = 0 := by
    rcases Nat.le_total count cfg.MAX_BLOCK_SIZE with hle | hle
    · rw [min_eq_left hle]
      by_contra hcon
      exact hcnt (Or.inr hcon)
    · rw [min_eq_right hle]
      exact hM2
  generalize hmin : min count cfg.MAX_BLOCK_SIZE = m at h hm
  have hmle : m ≤ cfg.MAX_BLOCK_SIZE := by rw [← hmin]; exact Nat.min_le_right _ _
  cases use
  · simp only [Bool.false_eq_true, if_false, Option.some.injEq] at h
    rw [← h]
  · simp only [if_true] at h
    have hsl := hslack m
    split at h
    · cases h
    rename_i hge
    simp only [Option.some.injEq] at h
    rw [← h]
    dsimp only
    split_ifs with hgt
    · unfold FILE_PAGE_SIZE at *
      omega
    · have hr : page_rounddown (cfg.usable_size m) = m := by
        unfold page_rounddown FILE_PAGE_SIZE at *
        omega
      rw [hr, u32_of_lt (by omega)]

/-- Every descriptor the allocation loop links into the chain starts inside the
range still asked for and is sized from the size still required, which is the
end of the request minus the start of the descriptor: either it is no larger
than that, or it was sized by `file_allocate_block_data` for exactly that
size with `use_usable_size = over`. -/
theorem alloc_loop_sizes (cfg : config) (hc : config_ok cfg) (over : Bool) :
    ∀ (fuel : Nat) (v : pmemfile_vinode) (block : Option Nat) (offset size : Nat)
      (v' : pmemfile_vinode),
      0 < size → offset + size < 2 ^ 64 →
      (block = none → ∀ first, v.chain.head? = some first → offset < first.offset) →
      vinode_allocate_interval_loop cfg over fuel v block offset size = some v' →
      ∀ x ∈ v'.chain, x ∈ v.chain ∨
        (offset ≤ x.offset ∧ x.offset < offset + size ∧
          ((∃ slot, file_allocate_block_data cfg slot (offset + size - x.offset) over =
              some x) ∨
            x.size ≤ offset + size - x.offset)) := by
  intro fuel
  induction fuel with
  | zero => intro v block offset size v' _ _ _ h; cases h
  | succ fuel ih =>
    intro v block offset size v' hs0 hend hinv h
    have finish : ∀ (v1 : pmemfile_vinode) (p1 : Nat) (prev trim : Option Nat) (count : Nat)
        (use : Bool),
        allocate_block cfg v prev offset count use trim = some (v1, p1) →
        (∀ hh, trim = some hh → hh = count) →
        ((use = over ∧ count = size ∧ trim = none) ∨ (use = false ∧ count ≤ size)) →
        vinode_allocate_interval_loop cfg over fuel v1 (some p1) offset size = some v' →
        ∀ x ∈ v'.chain, x ∈ v.chain ∨
          (offset ≤ x.offset ∧ x.offset < offset + size ∧
            ((∃ slot, file_allocate_block_data cfg slot (offset + size - x.offset) over =
                some x) ∨
              x.size ≤ offset + size - x.offset)) := by
      intro v1 p1 prev trim count use ha ht hk hl
      obtain ⟨nb, nb1, hv1, hko, hka, hp1, hnba, hnbo, hnf, hn0, hnm, hn32, hu, hc0, hex⟩ :=
        allocate_block_spec hc ht ha
      intro x hx
      rcases ih v1 (some p1) offset size v' hs0 hend (by intro hcon; cases hcon) hl x hx
        with h1 | h1
      · rw [hv1] at h1
        rcases mem_block_list_insert_after h1 with h2 | h2
        · right
          rw [h2]
          refine ⟨by omega, by omega, ?_⟩
          rcases hk with ⟨k1, k2, k3⟩ | ⟨k1, k2⟩
          · left
            obtain ⟨slot, hs⟩ := hex k3
            refine ⟨slot, ?_⟩
            rw [hnbo, Nat.add_sub_cancel_left, ← k2, ← k1]
            exact hs
          · right
            have := hu k1
            omega
        · exact Or.inl h2
      · exact Or.inr h1
    unfold vinode_allocate_interval_loop at h
    dsimp only at h
    cases block with
    | none =>
      dsimp only at h
      cases hh : v.chain.head? with
      | none =>
        rw [hh] at h
        dsimp only at h
        cases ha : allocate_block cfg v none offset size over none with
        | none => rw [ha] at h; cases h
        | some r =>
          obtain ⟨v1, p1⟩ := r
          rw [ha] at h
          dsimp only at h
          rw [if_pos hs0] at h
          exact finish v1 p1 none none size over ha (by intro x hx; cases hx)
            (Or.inl ⟨rfl, rfl, rfl⟩) h
      | some first =>
        rw [hh] at h
        dsimp only at h
        have hfo := hinv rfl first hh
        cases ha : allocate_block cfg v none offset
            (if u64 (offset + size) > first.offset then u32 (sub64 first.offset offset) else size)
            false none with
        | none => rw [ha] at h; cases h
        | some r =>
          obtain ⟨v1, p1⟩ := r
          rw [ha] at h
          dsimp only at h
          rw [if_pos hs0] at h
          refine finish v1 p1 none none _ false ha (by intro x hx; cases hx) (Or.inr ⟨rfl, ?_⟩) h
          split_ifs with hg
          · have hu : u64 (offset + size) = offset + size := u64_of_lt hend
            rw [hu] at hg
            have hs : sub64 first.offset offset = first.offset - offset :=
              sub64_of_le (by omega) (by omega)
            rw [hs]
            unfold u32
            have := Nat.mod_le (first.offset - offset) (2 ^ 32)
            omega
          · exact le_refl _
    | some p =>
      dsimp only at h
      cases hd : block_deref v.chain p with
      | none => rw [hd] at h; cases h
      | some b =>
        rw [hd] at h
        dsimp only at h
        by_cases hin : is_offset_in_block (some b) offset = true
        · rw [if_pos hin] at h
          by_cases hge : sub64 b.size (sub64 offset b.offset) ≥ size
          · rw [if_pos hge] at h
            cases h
            intro x hx
            exact Or.inl hx
          · rw [if_neg hge] at h
            generalize sub64 b.size (sub64 offset b.offset) = available at h hge
            have h1 : u64 (offset + available) = offset + available := u64_of_lt (by omega)
            have h2 : sub64 size available = size - available :=
              sub64_of_le (by omega) (by omega)
            rw [h1, h2, if_pos (by omega)] at h
            intro x hx
            rcases ih v (some p) (offset + available) (size - available) v' (by omega)
              (by omega) (by intro hcon; cases hcon) h x hx with h3 | ⟨h3, h4, h5⟩
            · exact Or.inl h3
            · right
              have he : offset + available + (size - available) = offset + size := by omega
              rw [he] at h4 h5
              exact ⟨by omega, h4, h5⟩
        · rw [if_neg hin] at h
          cases hnx : block_next v.chain p with
          | none =>
            rw [hnx] at h
            dsimp only at h
            cases ha : allocate_block cfg v (some p) offset size over none with
            | none => rw [ha] at h; cases h
            | some r =>
              obtain ⟨v1, p1⟩ := r
              rw [ha] at h
              dsimp only at h
              rw [if_pos hs0] at h
              exact finish v1 p1 (some p) none size over ha (by intro x hx; cases hx)
                (Or.inl ⟨rfl, rfl, rfl⟩) h
          | some q =>
            rw [hnx] at h
            dsimp only at h
            cases hdn : block_deref v.chain q with
            | none => rw [hdn] at h; cases h
            | some next =>
              rw [hdn] at h
              dsimp only at h
              generalize hhc : (if sub64 next.offset offset > size then size
                else sub64 next.offset offset) = hole_count at h
              have hle : hole_count ≤ size := by
                rw [← hhc]
                split_ifs <;> omega
              by_cases hpos : hole_count > 0
              · rw [if_pos hpos] at h
                cases ha : allocate_block cfg v (some p) offset hole_count false
                    (some hole_count) with
                | none => rw [ha] at h; cases h
                | some r =>
                  obtain ⟨v1, p1⟩ := r
                  rw [ha] at h
                  dsimp only at h
                  rw [if_pos hs0] at h
                  exact finish v1 p1 (some p) (some hole_count) hole_count false ha
                    (by intro x hx; cases hx; rfl) (Or.inr ⟨rfl, hle⟩) h
              · rw [if_neg hpos, if_pos hs0] at h
                exact ih v (some q) offset size v' hs0 hend (by intro hcon; cases hcon) h

/-! ## Bit arithmetic of chmod -/

theorem testBit_allperms (i : Nat) : PMEMFILE_ALLPERMS.testBit i = decide (i < 12) := by
  have h : PMEMFILE_ALLPERMS = 2 ^ 12 - 1 := by decide
  rw [h, Nat.testBit_two_pow_sub_one]

theorem testBit_isgid (i : Nat) : PMEMFILE_S_ISGID.testBit i = decide (i = 10) := by
  have h : PMEMFILE_S_ISGID = 2 ^ 10 := by decide
  rw [h, Nat.testBit_two_pow]
  by_cases hi : i = 10
  · simp [hi]
  · have : ¬ 10 = i := fun h => hi h.symm
    simp [hi, this]

theorem testBit_not64 (x i : Nat) : (not64 x).testBit i = (decide (i < 64) ^^ x.testBit i) := by
  unfold not64
  rw [Nat.testBit_xor, Nat.testBit_two_pow_sub_one]

theorem testBit_of_le_allperms {m : Nat} (hm : m ≤ PMEMFILE_ALLPERMS) {i : Nat} (hi : 12 ≤ i) :
    m.testBit i = false := by
  apply Nat.testBit_lt_two_pow
  have h : PMEMFILE_ALLPERMS = 2 ^ 12 - 1 := by decide
  have h2 : 2 ^ 12 ≤ 2 ^ i := Nat.pow_le_pow_right (by decide) hi
  omega

/-- The permission bits after `flags = (flags & ~ALLPERMS) | mode`. -/
theorem chmod_perm_bits (f : Nat) {m : Nat} (hm : m ≤ PMEMFILE_ALLPERMS) :
    ((f &&& not64 PMEMFILE_ALLPERMS) ||| m) &&& PMEMFILE_ALLPERMS = m := by
  apply Nat.eq_of_testBit_eq
  intro i
  rw [Nat.testBit_and, Nat.testBit_or, Nat.testBit_and, testBit_not64, testBit_allperms]
  by_cases hi : i < 12
  · have h64 : i < 64 := by omega
    simp [hi, h64]
  · rw [testBit_of_le_allperms hm (by omega)]
    simp [hi]

/-- The permission bits after the additional `flags &= ~S_ISGID`. -/
theorem chmod_perm_bits_isgid (f : Nat) {m : Nat} (hm : m ≤ PMEMFILE_ALLPERMS) :
    (((f &&& not64 PMEMFILE_ALLPERMS) ||| m) &&& not64 PMEMFILE_S_ISGID) &&& PMEMFILE_ALLPERMS =
      m &&& not64 PMEMFILE_S_ISGID := by
  apply Nat.eq_of_testBit_eq
  intro i
  rw [Nat.testBit_and, Nat.testBit_and, Nat.testBit_or, Nat.testBit_and, testBit_not64,
    testBit_not64, testBit_allperms, Nat.testBit_and, testBit_not64]
  by_cases hi : i < 12
  · have h64 : i < 64 := by omega
    simp [hi, h64]
  · rw [testBit_of_le_allperms hm (by omega)]
    simp [hi]

/-- Clearing `S_ISGID` in a mode: the bit is gone and every other bit stays. -/
theorem clear_isgid_bits {m : Nat} (hm : m ≤ PMEMFILE_ALLPERMS) (i : Nat) :
    (m &&& not64 PMEMFILE_S_ISGID).testBit i = (m.testBit i && decide (i ≠ 10)) := by
  rw [Nat.testBit_and, testBit_not64, testBit_isgid]
  by_cases hi : i < 12
  · have h64 : i < 64 := by omega
    by_cases h10 : i = 10
    · simp [h10]
    · simp [h64, h10]
  · rw [testBit_of_le_allperms hm (by omega)]
    simp

/-! ## The loop of `_pmemfile_openat` -/

/-- One round of the loop of `_pmemfile_openat` when the parent is a directory
and exactly one component, with a name, is left: what happens depends on the
entry that the name finds. -/
theorem openat_resolve_step (pfp : PMEMfilepool) (flags fuel : Nat) (info : pmemfile_path_info)
    (vparent : Nat) (hv : info.vinode = some vparent) (hd : pfp.vinode_is_dir vparent = true)
    (hm : pfp.more_than_1_component info.remaining = false)
    (hn : pfp.component_length info.remaining ≠ 0) :
    openat_resolve pfp flags (fuel + 1) info =
      match pfp.vinode_lookup_dirent vparent info.remaining
          (pfp.component_length info.remaining) with
      | none => some (.ok (vparent, none, info, pfp.component_length info.remaining))
      | some vi =>
        if pfp.vinode_is_symlink vi then
          if flags &&& PMEMFILE_O_NOFOLLOW ≠ 0 then some (.error ELOOP)
          else if flags &&& (PMEMFILE_O_CREAT ||| PMEMFILE_O_EXCL) =
              (PMEMFILE_O_CREAT ||| PMEMFILE_O_EXCL) then
            some (.ok (vparent, some vi, info, pfp.component_length info.remaining))
          else openat_resolve pfp flags fuel (pfp.resolve_symlink vi info)
        else some (.ok (vparent, some vi, info, pfp.component_length info.remaining)) := by
  rw [openat_resolve, hv]
  dsimp only
  rw [if_neg (by simp [hd]), if_neg (by simp [hm]), if_neg (fun h => hn h.1), if_neg hn]
  all_goals
    cases pfp.vinode_lookup_dirent vparent info.remaining
      (pfp.component_length info.remaining) <;> rfl

/-- A flag word that has both `O_CREAT` and `O_EXCL` has `O_CREAT`. -/
theorem creat_of_creat_excl {flags : Nat}
    (h : flags &&& (PMEMFILE_O_CREAT ||| PMEMFILE_O_EXCL) = PMEMFILE_O_CREAT ||| PMEMFILE_O_EXCL) :
    flags &&& PMEMFILE_O_CREAT = PMEMFILE_O_CREAT := by
  have h1 : (flags &&& (PMEMFILE_O_CREAT ||| PMEMFILE_O_EXCL)) &&& PMEMFILE_O_CREAT =
      (PMEMFILE_O_CREAT ||| PMEMFILE_O_EXCL) &&& PMEMFILE_O_CREAT := by rw [h]
  rw [Nat.and_assoc] at h1
  have h2 : (PMEMFILE_O_CREAT ||| PMEMFILE_O_EXCL) &&& PMEMFILE_O_CREAT = PMEMFILE_O_CREAT := by
    decide
  rw [h2] at h1
  exact h1

/-- The `O_CREAT` bit of a flag word is either clear or the whole of
`O_CREAT`. -/
theorem creat_bit (flags : Nat) :
    flags &&& PMEMFILE_O_CREAT = 0 ∨ flags &&& PMEMFILE_O_CREAT = PMEMFILE_O_CREAT := by
  have h : PMEMFILE_O_CREAT = 2 ^ 6 := by decide
  rw [h, Nat.and_two_pow]
  cases flags.testBit 6
  · left; rfl
  · right; rfl

/-! ## Ranges of the levels of an offset map -/

theorem level_range_zero (M : Nat) : level_range M 0 = M := by
  unfold level_range; simp

theorem level_range_succ (M k : Nat) : level_range M (k + 1) = 16 * level_range M k := by
  unfold level_range
  have h : N_CHILDREN = 16 := by decide
  rw [h, Nat.pow_succ]
  ring

theorem level_range_pos {M : Nat} (hM : 0 < M) (k : Nat) : 0 < level_range M k := by
  induction k with
  | zero => rw [level_range_zero]; exact hM
  | succ k ih => rw [level_range_succ]; omega

theorem level_range_dvd (M k : Nat) : M ∣ level_range M k := by
  unfold level_range
  exact Dvd.intro _ rfl

theorem level_range_shift (M k : Nat) :
    level_range M (k + 1) >>> N_CHILDREN_POW = level_range M k := by
  rw [level_range_succ, Nat.shiftRight_eq_div_pow]
  have h : 2 ^ N_CHILDREN_POW = 16 := by decide
  rw [h]
  omega

theorem level_range_mono (M : Nat) {j k : Nat} (h : j ≤ k) :
    level_range M j ≤ level_range M k := by
  induction h with
  | refl => exact le_refl _
  | step _ ih => rw [level_range_succ]; omega

/-! ## Looking up an offset in an entry -/

theorem entry_lookup_leaf (M k : Nat) (c : Option Nat) (off : Nat) :
    entry_lookup M k (.leaf c) off = c := by
  cases k <;> rfl

theorem entry_lookup_node (M k : Nat) (cs : List offset_map_entry) (off : Nat) :
    entry_lookup M (k + 1) (.node cs) off = array_lookup M k cs off := rfl

theorem array_lookup_of_get {M k : Nat} {cs : List offset_map_entry} {off : Nat}
    {e : offset_map_entry} (h : cs[off / level_range M k]? = some e) :
    array_lookup M k cs off = entry_lookup M k e (off % level_range M k) := by
  unfold array_lookup
  rw [h]

theorem array_lookup_out {M k : Nat} {cs : List offset_map_entry} {off : Nat}
    (h : cs.length ≤ off / level_range M k) : array_lookup M k cs off = none := by
  unfold array_lookup
  rw [List.getElem?_eq_none h]

/-- Storing an entry at the index `i` changes the lookups of the offsets of
that entry only. -/
theorem array_lookup_set (M k : Nat) (cs : List offset_map_entry) (i : Nat)
    (e : offset_map_entry) (off : Nat) :
    array_lookup M k (cs.set i e) off =
      if off / level_range M k = i ∧ i < cs.length then
        entry_lookup M k e (off % level_range M k)
      else array_lookup M k cs off := by
  unfold array_lookup
  by_cases h : off / level_range M k = i
  · by_cases hi : i < cs.length
    · rw [if_pos ⟨h, hi⟩, h, List.getElem?_set_self hi]
    · rw [if_neg (fun hc => hi hc.2), h, List.getElem?_eq_none (by simp; omega),
        List.getElem?_eq_none (by omega)]
  · rw [if_neg (fun hc => h hc.1), List.getElem?_set_ne (fun hc => h hc.symm)]

theorem array_lookup_replicate (M k n : Nat) (off : Nat) :
    array_lookup M k (List.replicate n (.leaf none)) off = none := by
  unfold array_lookup
  cases h : (List.replicate n (offset_map_entry.leaf none))[off / level_range M k]? with
  | none => rfl
  | some e =>
    have hm := List.getElem?_mem h
    rw [List.mem_replicate] at hm
    rw [hm.2]
    exact entry_lookup_leaf M k none _

theorem nonnull_of_lookup {M k : Nat} {e : offset_map_entry} {off a : Nat}
    (h : entry_lookup M k e off = some a) : e.child_is_null = false := by
  cases e with
  | leaf c =>
    rw [entry_lookup_leaf] at h
    rw [h]
    rfl
  | node cs => rfl

theorem array_nonnull_of_lookup {M k : Nat} {cs : List offset_map_entry} {off a : Nat}
    (h : array_lookup M k cs off = some a) : ∃ e ∈ cs, e.child_is_null = false := by
  unfold array_lookup at h
  cases hg : cs[off / level_range M k]? with
  | none => rw [hg] at h; cases h
  | some e =>
    rw [hg] at h
    exact ⟨e, List.getElem?_mem hg, nonnull_of_lookup h⟩

theorem null_eq_leaf {e : offset_map_entry} (h : e.child_is_null = true) : e = .leaf none := by
  cases e with
  | leaf c =>
    cases c with
    | none => rfl
    | some b => cases h
  | node cs => cases h

theorem array_lookup_all_null {M k : Nat} {cs : List offset_map_entry}
    (h : ∀ e ∈ cs, e.child_is_null = true) (off : Nat) : array_lookup M k cs off = none := by
  unfold array_lookup
  cases hg : cs[off / level_range M k]? with
  | none => rfl
  | some e =>
    have := null_eq_leaf (h e (List.getElem?_mem hg))
    rw [this]
    exact entry_lookup_leaf M k none _

/-- An entry of the right shape that is not `NULL` holds a block for some
offset of its range. -/
theorem entry_has_mapped {M : Nat} (hM : 0 < M) :
    ∀ (k : Nat) (e : offset_map_entry), entry_wf k e → e.child_is_null = false →
      ∃ off, off < level_range M k ∧ ∃ a, entry_lookup M k e off = some a := by
  intro k
  induction k with
  | zero =>
    intro e hw hn
    cases e with
    | leaf c =>
      cases c with
      | none => cases hn
      | some b => exact ⟨0, level_range_pos hM 0, b, rfl⟩
    | node cs => exact absurd hw (by simp [entry_wf])
  | succ k ih =>
    intro e hw hn
    cases e with
    | leaf c =>
      cases c with
      | none => cases hn
      | some b => exact ⟨0, level_range_pos hM _, b, rfl⟩
    | node cs =>
      obtain ⟨hlen, hall, c, hc, hcn⟩ := hw
      obtain ⟨off, hoff, a, ha⟩ := ih c (hall c hc) hcn
      obtain ⟨j, hj, hjc⟩ := List.getElem_of_mem hc
      have hR := level_range_pos hM k
      have h16 : N_CHILDREN = 16 := by decide
      refine ⟨j * level_range M k + off, ?_, a, ?_⟩
      · rw [level_range_succ]
        have : j * level_range M k + level_range M k ≤ 16 * level_range M k := by
          have : (j + 1) * level_range M k ≤ 16 * level_range M k :=
            Nat.mul_le_mul_right _ (by omega)
          rw [Nat.add_mul, Nat.one_mul] at this
          exact this
        omega
      · rw [entry_lookup_node]
        have hd : (j * level_range M k + off) / level_range M k = j := by
          rw [Nat.add_comm, Nat.add_mul_div_right _ _ hR, Nat.div_eq_of_lt hoff]
          omega
        have hmod : (j * level_range M k + off) % level_range M k = off := by
          rw [Nat.add_comm, Nat.add_mul_mod_self_right, Nat.mod_eq_of_lt hoff]
        have hg : cs[(j * level_range M k + off) / level_range M k]? = some c := by
          rw [hd, List.getElem?_eq_getElem hj, hjc]
        rw [array_lookup_of_get hg, hmod]
        exact ha

/-! ## Arithmetic of entry indexes -/

theorem div_eq_iff_range {R off i : Nat} (hR : 0 < R) :
    off / R = i ↔ R * i ≤ off ∧ off < R * i + R := by
  constructor
  · intro h
    have h1 := Nat.div_add_mod off R
    have h2 := Nat.mod_lt off hR
    rw [h] at h1
    omega
  · rintro ⟨h1, h2⟩
    have h3 : i ≤ off / R := (Nat.le_div_iff_mul_le hR).mpr (by rw [Nat.mul_comm]; exact h1)
    have h4 : off / R < i + 1 :=
      (Nat.div_lt_iff_lt_mul hR).mpr (by rw [Nat.add_mul, Nat.one_mul, Nat.mul_comm]; exact h2)
    omega

theorem mul_succ_div {R i : Nat} (hR : 0 < R) : (R * i + R) / R = i + 1 := by
  rw [div_eq_iff_range hR]
  constructor
  · rw [Nat.mul_add, Nat.mul_one]
  · rw [Nat.mul_add, Nat.mul_one]; omega

theorem entry_wf_leaf (k : Nat) (c : Option Nat) : entry_wf k (.leaf c) := by
  cases k <;> simp [entry_wf]

/-- Replacing the entry at the index of `offset` by one that holds `block` on
`sr` bytes from `offset` on, and what the old entry held elsewhere, changes the
lookups of the array on these `sr` bytes only. -/
theorem array_lookup_set_range {M k : Nat} (hM : 0 < M) (block : Option Nat)
    (entries : List offset_map_entry) (i offset sr : Nat) (e e1 : offset_map_entry)
    (hg : entries[i]? = some e) (hi : offset / level_range M k = i)
    (hsr : offset % level_range M k + sr ≤ level_range M k)
    (he1 : ∀ x, x < level_range M k → entry_lookup M k e1 x =
      if offset % level_range M k ≤ x ∧ x < offset % level_range M k + sr then block
      else entry_lookup M k e x) :
    ∀ y, array_lookup M k (entries.set i e1) y =
      if offset ≤ y ∧ y < offset + sr then block else array_lookup M k entries y := by
  intro y
  have hR := level_range_pos hM k
  have hilt : i < entries.length := by
    by_contra hcon
    rw [List.getElem?_eq_none (by omega)] at hg
    cases hg
  have ho := Nat.div_add_mod offset (level_range M k)
  have ho2 := Nat.mod_lt offset hR
  rw [hi] at ho
  rw [array_lookup_set]
  by_cases hy : y / level_range M k = i
  · rw [if_pos ⟨hy, hilt⟩]
    have hy1 := Nat.div_add_mod y (level_range M k)
    have hy2 := Nat.mod_lt y hR
    rw [hy] at hy1
    rw [he1 _ hy2]
    have hold : array_lookup M k entries y = entry_lookup M k e (y % level_range M k) :=
      array_lookup_of_get (by rw [hy]; exact hg)
    rw [hold]
    by_cases hc : offset % level_range M k ≤ y % level_range M k ∧
        y % level_range M k < offset % level_range M k + sr
    · rw [if_pos hc, if_pos (by omega)]
    · rw [if_neg hc, if_neg (by omega)]
  · rw [if_neg (fun hc => hy hc.1)]
    have hny : ¬ (offset ≤ y ∧ y < offset + sr) := by
      intro hc
      apply hy
      rw [div_eq_iff_range hR]
      omega
    rw [if_neg hny]

theorem array_lookup_entry {M k : Nat} (hM : 0 < M) {entries : List offset_map_entry} {i : Nat}
    {e : offset_map_entry} (hg : entries[i]? = some e) {x : Nat} (hx : x < level_range M k) :
    array_lookup M k entries (level_range M k * i + x) = entry_lookup M k e x := by
  have hR := level_range_pos hM k
  have hd : (level_range M k * i + x) / level_range M k = i := by
    rw [div_eq_iff_range hR]; omega
  have hm : (level_range M k * i + x) % level_range M k = x := by
    rw [Nat.mul_add_mod, Nat.mod_eq_of_lt hx]
  rw [array_lookup_of_get (by rw [hd]; exact hg), hm]

theorem check_and_free_range_lookup (M k : Nat) (cs : List offset_map_entry)
    (hlen : cs.length = N_CHILDREN) (x : Nat) :
    entry_lookup M (k + 1) (check_and_free_range (.node cs)) x = array_lookup M k cs x := by
  have ht : cs.take N_CHILDREN = cs := by rw [← hlen]; exact List.take_length cs
  simp only [check_and_free_range, ht]
  by_cases h : cs.all (fun e => e.child_is_null) = true
  · rw [if_pos h, entry_lookup_leaf]
    rw [List.all_eq_true] at h
    exact (array_lookup_all_null h x).symm
  · rw [if_neg h]
    rfl

theorem check_and_free_range_wf (k : Nat) (cs : List offset_map_entry)
    (hlen : cs.length = N_CHILDREN) (hall : ∀ e ∈ cs, entry_wf k e) :
    entry_wf (k + 1) (check_and_free_range (.node cs)) := by
  have ht : cs.take N_CHILDREN = cs := by rw [← hlen]; exact List.take_length cs
  simp only [check_and_free_range, ht]
  by_cases h : cs.all (fun e => e.child_is_null) = true
  · rw [if_pos h]
    exact entry_wf_leaf _ _
  · rw [if_neg h]
    refine ⟨hlen, hall, ?_⟩
    rw [List.all_eq_true] at h
    push_neg at h
    obtain ⟨e, he, hne⟩ := h
    exact ⟨e, he, by simpa using hne⟩

/-! ## `set_range` -/

/-- The loop of `set_range` on an array of entries of level `k`, for a range
`[offset, offset + remaining)` of multiples of `MIN_BLOCK_SIZE` that lies within
the array: provided that the entries that the range covers in part hold no
block that reaches beyond the range (when a block is put, the range is empty
before), the loop finishes, the entries keep their shape, and a lookup gives
`block` inside the range and what it gave before outside. -/
theorem set_range_loop_spec {M : Nat} (hM : 0 < M) (block : Option Nat) :
    ∀ (fuel k : Nat) (entries : List offset_map_entry) (i offset remaining : Nat),
      (∀ e ∈ entries, entry_wf k e) →
      M ∣ offset → M ∣ remaining →
      offset + remaining ≤ entries.length * level_range M k →
      (0 < remaining → i = offset / level_range M k) →
      entries.length ≤ 16 → i ≤ 16 →
      17 - i + 18 * k ≤ fuel →
      (block ≠ none → ∀ x, offset ≤ x → x < offset + remaining →
        array_lookup M k entries x = none) →
      (∀ x y c, offset ≤ x → x < offset + remaining → (y < offset ∨ offset + remaining ≤ y) →
        array_lookup M k entries x = some c → array_lookup M k entries y ≠ some c) →
      ∃ entries', set_range_loop block fuel entries i offset remaining (level_range M k) =
          some entries' ∧
        entries'.length = entries.length ∧ (∀ e ∈ entries', entry_wf k e) ∧
        ∀ off, array_lookup M k entries' off =
          if offset ≤ off ∧ off < offset + remaining then block
          else array_lookup M k entries off := by
  intro fuel
  induction fuel with
  | zero =>
    intro k entries i offset remaining _ _ _ _ _ _ hi16 hfuel
    omega
  | succ fuel ih =>
    intro k entries i offset remaining hwf hdo hdr hend hi hlen hi16 hfuel hins hQ
    have hR := level_range_pos hM k
    rw [set_range_loop]
    by_cases hr0 : remaining = 0
    · rw [if_pos hr0]
      exact ⟨entries, rfl, rfl, hwf, fun off => by rw [if_neg (by omega)]⟩
    rw [if_neg hr0, if_neg (by omega)]
    have hidx := hi (by omega)
    have ho := Nat.div_add_mod offset (level_range M k)
    have ho2 := Nat.mod_lt offset hR
    rw [← hidx] at ho
    have hilt : i < entries.length := by
      rw [hidx]
      apply Nat.div_lt_of_lt_mul
      rw [Nat.mul_comm]
      omega
    obtain ⟨e, hg⟩ : ∃ e, entries[i]? = some e :=
      ⟨entries[i], List.getElem?_eq_getElem hilt⟩
    rw [hg]
    dsimp only
    have hewf : entry_wf k e := hwf e (List.getElem?_mem hg)
    have hbound : level_range M k * i + level_range M k ≤
        entries.length * level_range M k := by
      have : (i + 1) * level_range M k ≤ entries.length * level_range M k :=
        Nat.mul_le_mul_right _ hilt
      rw [Nat.add_mul, Nat.one_mul, Nat.mul_comm] at this
      exact this
    -- the rest of the loop, once the entry at `i` has been dealt with
    have finish : ∀ (e1 : offset_map_entry) (sr : Nat), entry_wf k e1 → 0 < sr →
        sr ≤ remaining → M ∣ sr →
        offset % level_range M k + sr ≤ level_range M k →
        (sr < remaining → offset % level_range M k + sr = level_range M k) →
        (∀ x, x < level_range M k → entry_lookup M k e1 x =
          if offset % level_range M k ≤ x ∧ x < offset % level_range M k + sr then block
          else entry_lookup M k e x) →
        ∃ entries', set_range_loop block fuel (entries.set i e1) (i + 1) (offset + sr)
            (remaining - sr) (level_range M k) = some entries' ∧
          entries'.length = entries.length ∧ (∀ e ∈ entries', entry_wf k e) ∧
          ∀ off, array_lookup M k entries' off =
            if offset ≤ off ∧ off < offset + remaining then block
            else array_lookup M k entries off := by
      intro e1 sr hw1 hsr0 hsrle hdsr hfit hall he1
      have H2 := array_lookup_set_range hM block entries i offset sr e e1 hg hidx.symm hfit he1
      have hwf2 : ∀ x ∈ entries.set i e1, entry_wf k x := by
        intro x hx
        rcases List.mem_or_eq_of_mem_set hx with h | h
        · exact hwf x h
        · rw [h]; exact hw1
      have hidx2 : 0 < remaining - sr → i + 1 = (offset + sr) / level_range M k := by
        intro hpos
        have h1 := hall (by omega)
        have h2 : offset + sr = level_range M k * i + level_range M k := by omega
        rw [h2, mul_succ_div hR]
      have hins2 : block ≠ none → ∀ x, offset + sr ≤ x → x < offset + sr + (remaining - sr) →
          array_lookup M k (entries.set i e1) x = none := by
        intro hb x hx1 hx2
        rw [H2 x, if_neg (by omega)]
        exact hins hb x (by omega) (by omega)
      have hQ2 : ∀ x y c, offset + sr ≤ x → x < offset + sr + (remaining - sr) →
          (y < offset + sr ∨ offset + sr + (remaining - sr) ≤ y) →
          array_lookup M k (entries.set i e1) x = some c →
          array_lookup M k (entries.set i e1) y ≠ some c := by
        intro x y c hx1 hx2 hy hxc
        rw [H2 x, if_neg (by omega)] at hxc
        rw [H2 y]
        by_cases hyin : offset ≤ y ∧ y < offset + sr
        · rw [if_pos hyin]
          cases hb : block with
          | none => simp
          | some b =>
            have := hins (by rw [hb]; simp) x (by omega) (by omega)
            rw [this] at hxc
            cases hxc
        · rw [if_neg hyin]
          exact hQ x y c (by omega) (by omega) (by omega) hxc
      obtain ⟨entries', q1, q2, q3, q4⟩ :=
        ih k (entries.set i e1) (i + 1) (offset + sr) (remaining - sr) hwf2
          (Nat.dvd_add hdo hdsr) (Nat.dvd_sub' hdr hdsr)
          (by rw [List.length_set]; omega) hidx2 (by rw [List.length_set]; exact hlen)
          (by omega) (by omega) hins2 hQ2
      refine ⟨entries', q1, by rw [q2, List.length_set], q3, ?_⟩
      intro off
      rw [q4 off, H2 off]
      by_cases h1 : offset + sr ≤ off ∧ off < offset + sr + (remaining - sr)
      · rw [if_pos h1, if_pos (by omega)]
      · rw [if_neg h1]
        by_cases h2 : offset ≤ off ∧ off < offset + sr
        · rw [if_pos h2, if_pos (by omega)]
        · rw [if_neg h2, if_neg (by omega)]
    by_cases hwhole : offset % level_range M k = 0 ∧ remaining ≥ level_range M k
    · rw [if_pos hwhole]
      refine finish (.leaf block) (level_range M k) (entry_wf_leaf _ _) hR hwhole.2
        (level_range_dvd M k) (by omega) (fun _ => by omega) ?_
      intro x hx
      rw [entry_lookup_leaf, if_pos (by omega)]
    · rw [if_neg hwhole]
      cases k with
      | zero =>
        exfalso
        rw [level_range_zero] at hwhole hR
        apply hwhole
        refine ⟨Nat.mod_eq_zero_of_dvd hdo, ?_⟩
        exact Nat.le_of_dvd (by omega) hdr
      | succ k =>
        have hR1 := level_range_pos hM k
        have h16 := level_range_succ M k
        have hshift := level_range_shift M k
        -- the part of the range that lies in the entry at `i`
        generalize hsr : (if remaining < level_range M (k + 1) - offset % level_range M (k + 1)
          then remaining else level_range M (k + 1) - offset % level_range M (k + 1)) = sr
        have hsrp : 0 < sr ∧ sr ≤ remaining ∧
            offset % level_range M (k + 1) + sr ≤ level_range M (k + 1) ∧
            (sr < remaining → offset % level_range M (k + 1) + sr = level_range M (k + 1)) := by
          rw [← hsr]
          split_ifs <;> omega
        have hdmod : M ∣ offset % level_range M (k + 1) :=
          (Nat.dvd_mod_iff (level_range_dvd M (k + 1))).mpr hdo
        have hdsr : M ∣ sr := by
          rw [← hsr]
          split_ifs
          · exact hdr
          · exact Nat.dvd_sub' (level_range_dvd M (k + 1)) hdmod
        -- what is to be shown for a child array that stands for the entry
        have part : ∀ cs : List offset_map_entry, cs.length = N_CHILDREN →
            (∀ c ∈ cs, entry_wf k c) →
            (∀ x, x < level_range M (k + 1) →
              array_lookup M k cs x = entry_lookup M (k + 1) e x) →
            ∃ entries',
              (if level_range M (k + 1) >>> N_CHILDREN_POW = 0 then none
                else
                  match set_range_loop block fuel cs
                      (offset % level_range M (k + 1) /
                        (level_range M (k + 1) >>> N_CHILDREN_POW))
                      (offset % level_range M (k + 1)) sr
                      (level_range M (k + 1) >>> N_CHILDREN_POW) with
                  | none => none
                  | some cs1 =>
                    set_range_loop block fuel
                      (entries.set i
                        (if block = none then check_and_free_range (.node cs1) else .node cs1))
                      (i + 1) (offset + sr) (remaining - sr) (level_range M (k + 1))) =
                some entries' ∧
              entries'.length = entries.length ∧ (∀ e ∈ entries', entry_wf (k + 1) e) ∧
              ∀ off, array_lookup M (k + 1) entries' off =
                if offset ≤ off ∧ off < offset + remaining then block
                else array_lookup M (k + 1) entries off := by
          intro cs hcl hcw hcs
          have hcl16 : cs.length = 16 := hcl
          rw [hshift, if_neg (by omega)]
          -- lookups of the child array are lookups of the array
          have hup : ∀ x, x < level_range M (k + 1) →
              array_lookup M k cs x =
                array_lookup M (k + 1) entries (level_range M (k + 1) * i + x) := by
            intro x hx
            rw [hcs x hx, array_lookup_entry hM hg hx]
          have hcins : block ≠ none → ∀ x, offset % level_range M (k + 1) ≤ x →
              x < offset % level_range M (k + 1) + sr → array_lookup M k cs x = none := by
            intro hb x hx1 hx2
            rw [hup x (by omega)]
            exact hins hb _ (by omega) (by omega)
          have hcQ : ∀ x y c, offset % level_range M (k + 1) ≤ x →
              x < offset % level_range M (k + 1) + sr →
              (y < offset % level_range M (k + 1) ∨ offset % level_range M (k + 1) + sr ≤ y) →
              array_lookup M k cs x = some c → array_lookup M k cs y ≠ some c := by
            intro x y c hx1 hx2 hy hxc
            by_cases hyR : y < level_range M (k + 1)
            · rw [hup x (by omega)] at hxc
              rw [hup y hyR]
              refine hQ _ _ c (by omega) (by omega) ?_ hxc
              rcases hy with hy | hy
              · left; omega
              · right
                by_cases hlt : sr < remaining
                · have := hsrp.2.2.2 hlt
                  omega
                · omega
            · rw [array_lookup_out]
              · simp
              · rw [hcl16]
                apply (Nat.le_div_iff_mul_le hR1).mpr
                omega
          have hi1 : offset % level_range M (k + 1) / level_range M k < 16 := by
            apply Nat.div_lt_of_lt_mul
            omega
          generalize hi1d : offset % level_range M (k + 1) / level_range M k = i1 at hi1 ⊢
          obtain ⟨cs1, c1, c2, c3, c4⟩ :=
            ih k cs i1 (offset % level_range M (k + 1)) sr hcw hdmod hdsr
              (by rw [hcl16]; omega) (fun _ => hi1d.symm) (by omega) (by omega)
              (by omega) hcins hcQ
          rw [c1]
          dsimp only
          have hl1 : cs1.length = N_CHILDREN := by rw [c2, hcl]
          refine finish _ sr ?_ hsrp.1 hsrp.2.1 hdsr hsrp.2.2.1 hsrp.2.2.2 ?_
          · by_cases hb : block = none
            · rw [if_pos hb]
              exact check_and_free_range_wf k cs1 hl1 c3
            · rw [if_neg hb]
              refine ⟨hl1, c3, ?_⟩
              obtain ⟨b, hbb⟩ := Option.ne_none_iff_exists'.mp hb
              have := c4 (offset % level_range M (k + 1))
              rw [if_pos (by omega), hbb] at this
              exact array_nonnull_of_lookup this
          · intro x hx
            have hlk : entry_lookup M (k + 1)
                (if block = none then check_and_free_range (.node cs1) else .node cs1) x =
                array_lookup M k cs1 x := by
              by_cases hb : block = none
              · rw [if_pos hb]
                exact check_and_free_range_lookup M k cs1 hl1 x
              · rw [if_neg hb]
                rfl
            rw [hlk, c4 x, hcs x hx]
        cases e with
        | leaf c =>
          cases c with
          | none =>
            dsimp only
            refine part (List.replicate N_CHILDREN (.leaf none)) (List.length_replicate _ _)
              ?_ ?_
            · intro c hc
              rw [(List.mem_replicate.mp hc).2]
              exact entry_wf_leaf _ _
            · intro x _
              rw [array_lookup_replicate, entry_lookup_leaf]
          | some b =>
            exfalso
            have hx0 : array_lookup M (k + 1) entries offset = some b := by
              have := @array_lookup_entry M (k + 1) hM entries i _ hg
                (offset % level_range M (k + 1)) ho2
              rw [ho] at this
              rw [this, entry_lookup_leaf]
            by_cases hs0 : offset % level_range M (k + 1) = 0
            · have hrem : remaining < level_range M (k + 1) := by
                by_contra hcon
                exact hwhole ⟨hs0, by omega⟩
              have hy : array_lookup M (k + 1) entries (offset + remaining) = some b := by
                have := @array_lookup_entry M (k + 1) hM entries i _ hg remaining hrem
                have he : level_range M (k + 1) * i + remaining = offset + remaining := by omega
                rw [he] at this
                rw [this, entry_lookup_leaf]
              exact hQ offset (offset + remaining) b (le_refl _) (by omega) (Or.inr (le_refl _))
                hx0 hy
            · have hy : array_lookup M (k + 1) entries (level_range M (k + 1) * i) = some b := by
                have := @array_lookup_entry M (k + 1) hM entries i _ hg 0 hR
                simp only [Nat.add_zero] at this
                rw [this, entry_lookup_leaf]
              exact hQ offset (level_range M (k + 1) * i) b (le_refl _) (by omega)
                (Or.inl (by omega)) hx0 hy
        | node cs =>
          dsimp only
          obtain ⟨w1, w2, _⟩ := hewf
          exact part cs w1 w2 (fun x _ => rfl)

/-! ## `set_range` on the root, `insert_block` and `remove_block` -/

theorem level_le_of_range_lt {M k : Nat} (hM : 0 < M) (h : level_range M k < 2 ^ 64) :
    k ≤ 15 := by
  by_contra hcon
  have h16 : 16 ≤ k := by omega
  have h1 := level_range_mono M h16
  have h2 : 2 ^ 64 ≤ level_range M 16 := by
    unfold level_range
    have h : N_CHILDREN ^ 16 = 2 ^ 64 := by
      have h : N_CHILDREN = 16 := by decide
      rw [h]
      norm_num
    rw [h]
    exact Nat.le_mul_of_pos_left _ hM
  omega

theorem array_lookup_singleton {M k : Nat} (hM : 0 < M) (entry : offset_map_entry) (off : Nat) :
    array_lookup M k [entry] off =
      if off < level_range M k then entry_lookup M k entry off else none := by
  have hR := level_range_pos hM k
  by_cases h : off < level_range M k
  · rw [if_pos h]
    have := @array_lookup_entry M k hM [entry] 0 entry rfl off h
    simp only [Nat.mul_zero, Nat.zero_add] at this
    exact this
  · rw [if_neg h]
    apply array_lookup_out
    apply (Nat.le_div_iff_mul_le hR).mpr
    simp only [List.length_singleton, Nat.one_mul]
    omega

/-- Source `set_range` on the root entry of a map of `k` levels, for a range of
multiples of `MIN_BLOCK_SIZE` within the range of the map. -/
theorem set_range_spec {M : Nat} (hM : 0 < M) (block : Option Nat) {k : Nat}
    {entry : offset_map_entry} {offset remaining : Nat} (hw : entry_wf k entry)
    (hdo : M ∣ offset) (hdr : M ∣ remaining) (hr : 0 < remaining)
    (hend : offset + remaining ≤ level_range M k) (h64 : level_range M k < 2 ^ 64)
    (hins : block ≠ none → ∀ x, offset ≤ x → x < offset + remaining →
      entry_lookup M k entry x = none)
    (hQ : ∀ x y c, offset ≤ x → x < offset + remaining →
      (y < offset ∨ offset + remaining ≤ y) → y < level_range M k →
      entry_lookup M k entry x = some c → entry_lookup M k entry y ≠ some c) :
    ∃ e1, set_range entry block offset remaining (level_range M k) = some e1 ∧
      entry_wf k e1 ∧
      ∀ off, off < level_range M k → entry_lookup M k e1 off =
        if offset ≤ off ∧ off < offset + remaining then block
        else entry_lookup M k entry off := by
  have hR := level_range_pos hM k
  have hk := level_le_of_range_lt hM h64
  have hi0 : offset / level_range M k = 0 := Nat.div_eq_of_lt (by omega)
  have hfuel : offset_map_fuel = 306 := by decide
  obtain ⟨entries1, q1, q2, q3, q4⟩ :=
    set_range_loop_spec hM block offset_map_fuel k [entry] (offset / level_range M k) offset
      remaining
      (by intro e he; rw [List.mem_singleton] at he; rw [he]; exact hw) hdo hdr
      (by simp only [List.length_singleton, Nat.one_mul]; exact hend) (fun _ => rfl)
      (by simp) (by rw [hi0]; omega) (by rw [hi0, hfuel]; omega)
      (by
        intro hb x hx1 hx2
        rw [array_lookup_singleton hM, if_pos (by omega)]
        exact hins hb x hx1 hx2)
      (by
        intro x y c hx1 hx2 hy hxc
        rw [array_lookup_singleton hM, if_pos (by omega)] at hxc
        rw [array_lookup_singleton hM]
        by_cases hyR : y < level_range M k
        · rw [if_pos hyR]
          exact hQ x y c hx1 hx2 hy hyR hxc
        · rw [if_neg hyR]
          simp)
  simp only [List.length_singleton] at q2
  obtain ⟨e1, he1⟩ := List.length_eq_one.mp q2
  subst he1
  refine ⟨e1, ?_, q3 e1 (by simp), ?_⟩
  · unfold set_range
    rw [if_neg (by omega), q1]
  · intro off hoff
    have := q4 off
    rw [array_lookup_singleton hM, array_lookup_singleton hM, if_pos hoff, if_pos hoff] at this
    exact this

/-! ## The blocks of a map -/

theorem blocks_disjoint_of_ne {M : Nat} {bs : List pmemfile_block} (hok : map_blocks_ok M bs)
    {a b : pmemfile_block} (ha : a ∈ bs) (hb : b ∈ bs) (hne : a ≠ b) :
    a.offset + a.size ≤ b.offset ∨ b.offset + b.size ≤ a.offset :=
  List.Pairwise.forall (fun _ _ h => Or.symm h) hok.2.1 ha hb hne

theorem block_eq_of_overlap {M : Nat} {bs : List pmemfile_block} (hok : map_blocks_ok M bs)
    {a b : pmemfile_block} (ha : a ∈ bs) (hb : b ∈ bs) {x : Nat}
    (hxa : a.offset ≤ x ∧ x < a.offset + a.size) (hxb : b.offset ≤ x ∧ x < b.offset + b.size) :
    a = b := by
  by_contra hne
  rcases blocks_disjoint_of_ne hok ha hb hne with h | h <;> omega

theorem block_eq_of_addr {M : Nat} {bs : List pmemfile_block} (hok : map_blocks_ok M bs)
    {a b : pmemfile_block} (ha : a ∈ bs) (hb : b ∈ bs) (h : a.addr = b.addr) : a = b := by
  by_contra hne
  exact List.Pairwise.forall (fun _ _ h => Ne.symm h) hok.2.2 ha hb hne h

theorem map_blocks_ok_perm {M : Nat} {bs bs1 : List pmemfile_block} (hp : bs.Perm bs1)
    (hok : map_blocks_ok M bs) : map_blocks_ok M bs1 := by
  obtain ⟨h1, h2, h3⟩ := hok
  refine ⟨fun b hb => h1 b (hp.mem_iff.mpr hb), ?_, ?_⟩
  · exact (hp.pairwise_iff (fun h => Or.symm h)).mp h2
  · exact (hp.pairwise_iff (fun h => Ne.symm h)).mp h3

theorem map_blocks_ok_sublist {M : Nat} {bs bs1 : List pmemfile_block} (hp : bs1.Sublist bs)
    (hok : map_blocks_ok M bs) : map_blocks_ok M bs1 := by
  obtain ⟨h1, h2, h3⟩ := hok
  exact ⟨fun b hb => h1 b (hp.subset hb), h2.sublist hp, h3.sublist hp⟩

theorem map_repr_at_congr {M k : Nat} {m : offset_map} {bs bs1 : List pmemfile_block}
    (h : ∀ b, b ∈ bs ↔ b ∈ bs1) (hr : map_repr_at M k m bs) : map_repr_at M k m bs1 := by
  obtain ⟨h1, h2, h3, h4, h5, h6⟩ := hr
  refine ⟨h1, h2, h3, h4, fun b hb => h5 b ((h b).mpr hb), fun off hoff a => ?_⟩
  rw [h6 off hoff a]
  constructor
  · rintro ⟨b, hb, hx⟩
    exact ⟨b, (h b).mp hb, hx⟩
  · rintro ⟨b, hb, hx⟩
    exact ⟨b, (h b).mpr hb, hx⟩

theorem map_repr_congr {M : Nat} {m : offset_map} {bs bs1 : List pmemfile_block}
    (h : ∀ b, b ∈ bs ↔ b ∈ bs1) (hr : map_repr M m bs) : map_repr M m bs1 := by
  obtain ⟨k, hk⟩ := hr
  exact ⟨k, map_repr_at_congr h hk⟩

/-- Every offset of a block of the map finds the block. -/
theorem map_repr_at_lookup {M k : Nat} {m : offset_map} {bs : List pmemfile_block}
    (hr : map_repr_at M k m bs) {b : pmemfile_block} (hb : b ∈ bs) {x : Nat}
    (h1 : b.offset ≤ x) (h2 : x < b.offset + b.size) :
    entry_lookup M k m.entry x = some b.addr := by
  obtain ⟨_, _, _, _, h5, h6⟩ := hr
  have := h5 b hb
  exact (h6 x (by omega) b.addr).mpr ⟨b, hb, rfl, h1, h2⟩

/-- A map whose root is `NULL` holds no block. -/
theorem map_repr_at_null {M k : Nat} {m : offset_map} {bs : List pmemfile_block}
    (hok : map_blocks_ok M bs) (hr : map_repr_at M k m bs) (hn : m.entry = .leaf none) :
    ∀ b, b ∉ bs := by
  intro b hb
  have h := map_repr_at_lookup hr hb (le_refl b.offset) (by have := (hok.1 b hb).1; omega)
  rw [hn, entry_lookup_leaf] at h
  cases h

theorem map_repr_new {M : Nat} (h64 : M < 2 ^ 64) :
    map_repr_at M 0 (offset_map_new M) [] := by
  refine ⟨(level_range_zero M).symm, h64, entry_wf_leaf _ _, ?_, ?_, ?_⟩
  · intro c h
    simp [offset_map_new] at h
  · intro b hb
    cases hb
  · intro off _ a
    simp [offset_map_new, entry_lookup_leaf]

/-! ## `add_new_level` and `insert_block` -/

theorem add_new_level_range {m : offset_map} (h64 : 16 * m.range < 2 ^ 64) :
    (add_new_level m).range = 16 * m.range := by
  have hs : m.range <<< N_CHILDREN_POW = 16 * m.range := by
    rw [Nat.shiftLeft_eq]
    have h : 2 ^ N_CHILDREN_POW = 16 := by decide
    rw [h]
    omega
  unfold add_new_level
  dsimp only
  rw [hs, u64_of_lt h64]
  split <;> rfl

theorem add_new_level_repr {M k : Nat} {m : offset_map} {bs : List pmemfile_block}
    (hM : 0 < M) (hok : map_blocks_ok M bs) (hr : map_repr_at M k m bs)
    (h64 : 16 * m.range < 2 ^ 64) : map_repr_at M (k + 1) (add_new_level m) bs := by
  have hrange := add_new_level_range h64
  obtain ⟨h1, h2, h3, h4, h5, h6⟩ := hr
  have hR := level_range_pos hM k
  have hN : N_CHILDREN = 16 := by decide
  have hentry : (add_new_level m).entry =
      if m.entry.child_is_null then .leaf none
      else .node ((List.replicate N_CHILDREN (.leaf none)).set 0 m.entry) := by
    unfold add_new_level
    dsimp only
    split <;> rfl
  by_cases hn : m.entry.child_is_null = true
  · rw [if_pos hn] at hentry
    have hnone := map_repr_at_null hok ⟨h1, h2, h3, h4, h5, h6⟩ (null_eq_leaf hn)
    refine ⟨by rw [hrange, h1, level_range_succ], by rw [hrange]; exact h64, ?_, ?_, ?_, ?_⟩
    · rw [hentry]
      exact entry_wf_leaf _ _
    · intro c h
      rw [hentry] at h
      cases h
    · intro b hb
      exact absurd hb (hnone b)
    · intro off _ a
      rw [hentry, entry_lookup_leaf]
      constructor
      · intro h
        cases h
      · rintro ⟨b, hb, _⟩
        exact absurd hb (hnone b)
  · rw [if_neg hn] at hentry
    have hlen : ((List.replicate N_CHILDREN (offset_map_entry.leaf none)).set 0 m.entry).length =
        N_CHILDREN := by simp
    have hget : ((List.replicate N_CHILDREN (offset_map_entry.leaf none)).set 0 m.entry)[0]? =
        some m.entry := by
      rw [List.getElem?_set_self (by simp [hN])]
    refine ⟨by rw [hrange, h1, level_range_succ], by rw [hrange]; exact h64, ?_, ?_, ?_, ?_⟩
    · rw [hentry]
      refine ⟨hlen, ?_, m.entry, List.getElem?_mem hget, by simpa using hn⟩
      intro e he
      rcases List.mem_or_eq_of_mem_set he with h | h
      · rw [List.mem_replicate] at h
        rw [h.2]
        exact entry_wf_leaf _ _
      · rw [h]
        exact h3
    · intro c h
      rw [hentry] at h
      cases h
    · intro b hb
      have := h5 b hb
      omega
    · intro off hoff a
      rw [hentry, entry_lookup_node, array_lookup_set]
      by_cases ho : off < level_range M k
      · have hd : off / level_range M k = 0 := Nat.div_eq_of_lt ho
        rw [if_pos ⟨hd, by simp [hN]⟩, Nat.mod_eq_of_lt ho]
        exact h6 off (by omega) a
      · have hd : ¬ off / level_range M k = 0 := by
          intro hc
          rw [Nat.div_eq_zero_iff hR] at hc
          exact ho hc
        rw [if_neg (fun hc => hd hc.1), array_lookup_replicate]
        constructor
        · intro h
          cases h
        · rintro ⟨b, hb, _, hb1, hb2⟩
          have := h5 b hb
          omega

/-- The loop of `insert_block` that adds levels ends with a map of the same
blocks whose range lies beyond the end of the new block. -/
theorem insert_block_grow_spec {M : Nat} (hM : 0 < M) {bs : List pmemfile_block}
    (hok : map_blocks_ok M bs) (block : pmemfile_block)
    (hend : block.offset + block.size < 2 ^ 60) :
    ∀ (fuel k : Nat) (m : offset_map), map_repr_at M k m bs → 17 ≤ fuel + k →
      ∃ m1 k1, insert_block_grow block fuel m = some m1 ∧ map_repr_at M k1 m1 bs ∧
        block.offset + block.size < m1.range := by
  intro fuel
  induction fuel with
  | zero =>
    intro k m hr hf
    have := level_le_of_range_lt hM (by rw [← hr.1]; exact hr.2.1)
    omega
  | succ fuel ih =>
    intro k m hr hf
    unfold insert_block_grow
    rw [u64_of_lt (by omega)]
    by_cases hle : m.range ≤ block.offset + block.size
    · rw [if_pos hle]
      have h64 : 16 * m.range < 2 ^ 64 := by omega
      exact ih (k + 1) (add_new_level m) (add_new_level_repr hM hok hr h64) (by omega)
    · rw [if_neg hle]
      exact ⟨m, k, rfl, hr, by omega⟩

/-- Source `insert_block` on a map of the blocks `bs`, for a block that is
disjoint from them: it returns, and the map holds the block and `bs`. -/
theorem insert_block_repr {M : Nat} (hM : 0 < M) {bs : List pmemfile_block} {m : offset_map}
    {b : pmemfile_block} (hok : map_blocks_ok M (b :: bs)) (hr : map_repr M m bs) :
    ∃ m1, insert_block m b = some m1 ∧ map_repr M m1 (b :: bs) := by
  obtain ⟨k, hk⟩ := hr
  have hokbs : map_blocks_ok M bs := map_blocks_ok_sublist (List.sublist_cons_self b bs) hok
  obtain ⟨hb0, hbo, hbs, hbe⟩ := hok.1 b (List.mem_cons_self b bs)
  obtain ⟨m1, k1, hg, hr1, hlt⟩ := insert_block_grow_spec hM hokbs b hbe 64 k m hk (by omega)
  have hdisj : ∀ c ∈ bs, b.offset + b.size ≤ c.offset ∨ c.offset + c.size ≤ b.offset :=
    (List.pairwise_cons.mp hok.2.1).1
  have haddr : ∀ c ∈ bs, b.addr ≠ c.addr := (List.pairwise_cons.mp hok.2.2).1
  obtain ⟨g1, g2, g3, g4, g5, g6⟩ := hr1
  have hunmapped : ∀ x, b.offset ≤ x → x < b.offset + b.size →
      entry_lookup M k1 m1.entry x = none := by
    intro x hx1 hx2
    cases hl : entry_lookup M k1 m1.entry x with
    | none => rfl
    | some a =>
      obtain ⟨c, hc, _, hc1, hc2⟩ := (g6 x (by omega) a).mp hl
      rcases hdisj c hc with h | h <;> omega
  obtain ⟨e1, hset, hwf, hlook⟩ := @set_range_spec M hM (some b.addr) k1 m1.entry b.offset
    b.size g3 hbo hbs hb0 (by rw [← g1]; omega) (by rw [← g1]; exact g2)
    (fun _ => hunmapped)
    (by
      intro x y c hx1 hx2 _ _ hxc
      rw [hunmapped x hx1 hx2] at hxc
      cases hxc)
  refine ⟨{ m1 with entry := e1 }, ?_, k1, g1, g2, hwf, ?_, ?_, ?_⟩
  · unfold insert_block
    rw [hg]
    dsimp only
    rw [g1, hset]
    rfl
  · intro c hc
    dsimp only at hc
    have hA := hlook b.offset (by rw [← g1]; omega)
    rw [if_pos ⟨le_refl _, by omega⟩, hc, entry_lookup_leaf] at hA
    have hB := hlook (m1.range - 1) (by rw [← g1]; omega)
    rw [if_neg (by omega), hc, entry_lookup_leaf] at hB
    obtain ⟨c1, hc1, hc2, _⟩ := (g6 (m1.range - 1) (by omega) c).mp hB.symm
    have hcb : c = b.addr := by injection hA
    exact haddr c1 hc1 (by rw [hc2, hcb])
  · intro c hc
    rcases List.mem_cons.mp hc with h | h
    · rw [h]
      show b.offset + b.size ≤ m1.range
      omega
    · exact g5 c h
  · intro off hoff a
    dsimp only at hoff ⊢
    rw [hlook off (by rw [← g1]; exact hoff)]
    by_cases hin : b.offset ≤ off ∧ off < b.offset + b.size
    · rw [if_pos hin]
      constructor
      · intro h
        injection h with h
        exact ⟨b, List.mem_cons_self b bs, h, hin.1, hin.2⟩
      · rintro ⟨c, hc, hca, hc1, hc2⟩
        rcases List.mem_cons.mp hc with h | h
        · rw [← hca, h]
        · rcases hdisj c h with h | h <;> omega
    · rw [if_neg hin, g6 off hoff a]
      constructor
      · rintro ⟨c, hc, hx⟩
        exact ⟨c, List.mem_cons_of_mem b hc, hx⟩
      · rintro ⟨c, hc, hca, hc1, hc2⟩
        rcases List.mem_cons.mp hc with h | h
        · rw [h] at hc1 hc2
          exact absurd ⟨hc1, hc2⟩ hin
        · exact ⟨c, h, hca, hc1, hc2⟩

/-- Inserting a list of blocks, one after the other, into a map returns a map
of all the blocks. -/
theorem insert_blocks_repr {M : Nat} (hM : 0 < M) :
    ∀ (rest acc : List pmemfile_block) (m : offset_map), map_repr M m acc →
      map_blocks_ok M (rest ++ acc) →
      ∃ m1, insert_blocks m rest = some m1 ∧ map_repr M m1 (rest ++ acc) := by
  intro rest
  induction rest with
  | nil =>
    intro acc m hr _
    exact ⟨m, rfl, hr⟩
  | cons b rest ih =>
    intro acc m hr hok
    have hsub : (b :: acc).Sublist (b :: (rest ++ acc)) :=
      List.Sublist.cons₂ b (List.sublist_append_right rest acc)
    obtain ⟨m1, h1, hr1⟩ := insert_block_repr hM (map_blocks_ok_sublist hsub hok) hr
    have hperm : (b :: (rest ++ acc)).Perm (rest ++ b :: acc) := List.perm_middle.symm
    obtain ⟨m2, h2, hr2⟩ := ih (b :: acc) m1 hr1 (map_blocks_ok_perm hperm hok)
    refine ⟨m2, ?_, map_repr_congr (fun x => hperm.mem_iff.symm) hr2⟩
    show (insert_block m b).bind (fun m1 => insert_blocks m1 rest) = some m2
    rw [h1]
    exact h2

/-! ## `remove_block` -/

/-- The root of a map without blocks is `NULL`. -/
theorem map_repr_at_empty_root {M k : Nat} {m : offset_map} (hM : 0 < M)
    (hr : map_repr_at M k m []) : m.entry = .leaf none := by
  obtain ⟨h1, _, h3, h4, _, h6⟩ := hr
  cases he : m.entry with
  | leaf c =>
    cases c with
    | none => rfl
    | some c => exact absurd he (h4 c)
  | node cs =>
    rw [he] at h3
    obtain ⟨off, hoff, a, ha⟩ := entry_has_mapped hM k (.node cs) h3 rfl
    rw [← he] at ha
    obtain ⟨b, hb, _⟩ := (h6 off (by rw [h1]; exact hoff) a).mp ha
    cases hb

theorem array_lookup_tail_null {M k : Nat} (hM : 0 < M) {e0 : offset_map_entry}
    {rest : List offset_map_entry} (hnull : ∀ e ∈ rest, e.child_is_null = true) {x : Nat}
    (hx : level_range M k ≤ x) : array_lookup M k (e0 :: rest) x = none := by
  have hR := level_range_pos hM k
  have hne : x / level_range M k ≠ 0 := by
    intro hc
    rw [Nat.div_eq_zero_iff hR] at hc
    omega
  obtain ⟨i, hi⟩ := Nat.exists_eq_succ_of_ne_zero hne
  unfold array_lookup
  rw [hi, Nat.succ_eq_add_one, List.getElem?_cons_succ]
  cases hg : rest[i]? with
  | none => rfl
  | some e =>
    have := null_eq_leaf (hnull e (List.getElem?_mem hg))
    rw [this]
    exact entry_lookup_leaf M k none _

/-- The clean-up loop of `remove_block` returns a map of the same blocks, of
range `MIN_BLOCK_SIZE` when there is no block. -/
theorem remove_block_shrink_spec {M : Nat} (hM : 0 < M) {bs : List pmemfile_block}
    (hok : map_blocks_ok M bs) :
    ∀ (fuel k : Nat) (m : offset_map), map_repr_at M k m bs → k + 2 ≤ fuel →
      ∃ m1 k1, remove_block_shrink M fuel m = some m1 ∧ map_repr_at M k1 m1 bs ∧
        (bs = [] → m1.range = M) := by
  intro fuel
  induction fuel with
  | zero => intro k m _ hf; omega
  | succ fuel ih =>
    intro k m hr hf
    obtain ⟨entry, range⟩ := m
    have hr0 := hr
    obtain ⟨h1, h2, h3, h4, h5, h6⟩ := hr
    dsimp only at h1 h2 h3 h4 h5 h6
    have hMle : M ≤ range := by
      have := level_range_mono M (Nat.zero_le k)
      rw [level_range_zero] at this
      omega
    have hempty : bs = [] → ∀ cs, entry ≠ .node cs := by
      intro hbs cs hc
      rw [hbs] at hr0
      have := map_repr_at_empty_root hM hr0
      dsimp only at this
      rw [hc] at this
      cases this
    unfold remove_block_shrink
    dsimp only
    by_cases hgt : range > M
    · rw [if_pos hgt]
      have hk : k ≠ 0 := by
        intro hc
        rw [hc, level_range_zero] at h1
        omega
      cases entry with
      | leaf c =>
        dsimp only
        have hc : c = none := by
          cases c with
          | none => rfl
          | some c => exact absurd rfl (h4 c)
        subst hc
        have hnone := map_repr_at_null hok hr0 rfl
        have hr1 : map_repr_at M 0 { entry := .leaf none, range := M } bs := by
          refine ⟨(level_range_zero M).symm, by dsimp only; omega, entry_wf_leaf _ _, h4,
            fun b hb => absurd hb (hnone b), ?_⟩
          intro off _ a
          dsimp only
          rw [entry_lookup_leaf]
          constructor
          · intro h
            cases h
          · rintro ⟨b, hb, _⟩
            exact absurd hb (hnone b)
        exact ih 0 _ hr1 (by omega)
      | node child =>
        cases k with
        | zero => exact absurd rfl hk
        | succ k0 =>
          have h3a : child.length = N_CHILDREN ∧ (∀ e ∈ child, entry_wf k0 e) ∧
              ∃ e ∈ child, e.child_is_null = false := h3
          obtain ⟨hlen, hall, _⟩ := h3a
          have hN : N_CHILDREN = 16 := by decide
          cases child with
          | nil =>
            rw [hN] at hlen
            cases hlen
          | cons e0 rest =>
            simp only [List.getElem?_cons_zero]
            cases e0 with
            | leaf c0 =>
              exact ⟨_, k0 + 1, rfl, hr0, fun hbs => absurd rfl (hempty hbs _)⟩
            | node gc =>
              have ht : (offset_map_entry.node gc :: rest).take N_CHILDREN =
                  offset_map_entry.node gc :: rest := by
                rw [← hlen]
                exact List.take_length _
              rw [ht, List.drop_succ_cons, List.drop_zero]
              dsimp only
              by_cases hnull : rest.all (fun e => e.child_is_null) = true
              · rw [if_pos hnull]
                rw [List.all_eq_true] at hnull
                have hsh : range >>> N_CHILDREN_POW = level_range M k0 := by
                  rw [h1, level_range_shift]
                have hle := level_range_mono M (show k0 ≤ k0 + 1 by omega)
                have hR := level_range_pos hM k0
                have hsame : ∀ off, off < level_range M k0 →
                    entry_lookup M (k0 + 1) (.node (.node gc :: rest)) off =
                      entry_lookup M k0 (.node gc) off := by
                  intro off hoff
                  have := @array_lookup_entry M k0 hM (offset_map_entry.node gc :: rest) 0
                    (.node gc) List.getElem?_cons_zero off hoff
                  simp only [Nat.mul_zero, Nat.zero_add] at this
                  rw [entry_lookup_node]
                  exact this
                have hr1 : map_repr_at M k0
                    { entry := .node gc, range := range >>> N_CHILDREN_POW } bs := by
                  refine ⟨hsh, by dsimp only; rw [hsh]; omega,
                    hall _ (List.mem_cons_self _ _), (fun c h => by cases h), ?_, ?_⟩
                  · intro b hb
                    dsimp only
                    rw [hsh]
                    by_contra hcon
                    have hb0 := (hok.1 b hb).1
                    have hlk := map_repr_at_lookup hr0 hb
                      (show b.offset ≤ b.offset + b.size - 1 by omega) (by omega)
                    dsimp only at hlk
                    rw [entry_lookup_node, array_lookup_tail_null hM hnull (by omega)] at hlk
                    cases hlk
                  · intro off hoff a
                    dsimp only at hoff ⊢
                    rw [hsh] at hoff
                    rw [← hsame off hoff]
                    exact h6 off (by omega) a
                exact ih k0 _ hr1 (by omega)
              · rw [if_neg hnull]
                exact ⟨_, k0 + 1, rfl, hr0, fun hbs => absurd rfl (hempty hbs _)⟩
    · rw [if_neg hgt]
      exact ⟨_, k, rfl, hr0, fun _ => by dsimp only; omega⟩

/-- Source `remove_block` for a block of the map: it returns, the map holds the
other blocks, and its range is `MIN_BLOCK_SIZE` when no block is left. -/
theorem remove_block_repr {M : Nat} (hM : 0 < M) {bs : List pmemfile_block} {m : offset_map}
    {b : pmemfile_block} (hok : map_blocks_ok M bs) (hb : b ∈ bs) (hr : map_repr M m bs) :
    ∃ m1, remove_block M m b = some m1 ∧
      map_repr M m1 (bs.filter (fun x => x.addr != b.addr)) ∧
      (bs.filter (fun x => x.addr != b.addr) = [] → m1.range = M) := by
  obtain ⟨k, hk⟩ := hr
  have hk0 := hk
  obtain ⟨g1, g2, g3, g4, g5, g6⟩ := hk
  obtain ⟨hb0, hbo, hbs, _⟩ := hok.1 b hb
  have hbe := g5 b hb
  have hmem : ∀ c, c ∈ bs.filter (fun x => x.addr != b.addr) ↔ c ∈ bs ∧ c.addr ≠ b.addr := by
    intro c
    rw [List.mem_filter]
    simp
  obtain ⟨e1, hset, hwf, hlook⟩ := @set_range_spec M hM none k m.entry b.offset
    b.size g3 hbo hbs hb0 (by rw [← g1]; exact hbe) (by rw [← g1]; exact g2)
    (fun h => absurd rfl h)
    (by
      intro x y c hx1 hx2 hy hyR hxc hyc
      obtain ⟨c1, hc1, hc1a, hc1x, hc1y⟩ := (g6 x (by omega) c).mp hxc
      obtain ⟨c2, hc2, hc2a, hc2x, hc2y⟩ := (g6 y (by rw [g1]; exact hyR) c).mp hyc
      have e1 : c1 = b := block_eq_of_overlap hok hc1 hb ⟨hc1x, hc1y⟩ ⟨hx1, hx2⟩
      have e2 : c2 = c1 := block_eq_of_addr hok hc2 hc1 (by rw [hc1a, hc2a])
      rw [e2, e1] at hc2x hc2y
      omega)
  have hok1 : map_blocks_ok M (bs.filter (fun x => x.addr != b.addr)) :=
    map_blocks_ok_sublist (List.filter_sublist _) hok
  have hr1 : map_repr_at M k { m with entry := e1 } (bs.filter (fun x => x.addr != b.addr)) := by
    refine ⟨g1, g2, hwf, ?_, ?_, ?_⟩
    · intro c hc
      dsimp only at hc
      have hA := hlook b.offset (by rw [← g1]; omega)
      rw [if_pos ⟨le_refl _, by omega⟩, hc, entry_lookup_leaf] at hA
      cases hA
    · intro c hc
      exact g5 c ((hmem c).mp hc).1
    · intro off hoff a
      dsimp only at hoff ⊢
      rw [hlook off (by rw [← g1]; exact hoff)]
      by_cases hin : b.offset ≤ off ∧ off < b.offset + b.size
      · rw [if_pos hin]
        constructor
        · intro h
          cases h
        · rintro ⟨c, hc, _, hc1, hc2⟩
          have hc3 := (hmem c).mp hc
          have := block_eq_of_overlap hok hc3.1 hb ⟨hc1, hc2⟩ hin
          rw [this] at hc3
          exact absurd rfl hc3.2
      · rw [if_neg hin, g6 off hoff a]
        constructor
        · rintro ⟨c, hc, hca, hc1, hc2⟩
          refine ⟨c, (hmem c).mpr ⟨hc, ?_⟩, hca, hc1, hc2⟩
          intro hcon
          have := block_eq_of_addr hok hc hb hcon
          rw [this] at hc1 hc2
          exact hin ⟨hc1, hc2⟩
        · rintro ⟨c, hc, hx⟩
          exact ⟨c, ((hmem c).mp hc).1, hx⟩
  have hkle := level_le_of_range_lt hM (by rw [← g1]; exact g2)
  obtain ⟨m1, k1, hs, hr2, hrange⟩ :=
    remove_block_shrink_spec hM hok1 64 k { m with entry := e1 } hr1 (by omega)
  refine ⟨m1, ?_, ⟨k1, hr2⟩, hrange⟩
  unfold remove_block
  rw [g1, hset]
  dsimp only
  rw [← g1]
  exact hs

/-! ## The loops of `block_find_closest` -/

theorem mul_succ_le {R i n : Nat} (h : i < n) : R * i + R ≤ R * n := by
  have := Nat.mul_le_mul_left R (show i + 1 ≤ n by omega)
  rw [Nat.mul_succ] at this
  exact this

theorem getElem?_of_lt_length {cs : List offset_map_entry} {i : Nat} (h : i < cs.length) :
    ∃ e, cs[i]? = some e := by
  cases hg : cs[i]? with
  | none =>
    have := List.getElem?_eq_none_iff.mp hg
    omega
  | some e => exact ⟨e, rfl⟩

/-- An array of entries of the right shape with an entry that is not `NULL`
holds a block for some offset. -/
theorem array_has_mapped {M : Nat} (hM : 0 < M) {j : Nat} {cs : List offset_map_entry}
    (hall : ∀ e ∈ cs, entry_wf j e) (hex : ∃ e ∈ cs, e.child_is_null = false) :
    ∃ x a, x < level_range M j * cs.length ∧ array_lookup M j cs x = some a := by
  obtain ⟨e, he, hn⟩ := hex
  obtain ⟨i, hget⟩ := List.getElem?_of_mem he
  have hi : i < cs.length := by
    by_contra hc
    rw [List.getElem?_eq_none (by omega)] at hget
    cases hget
  obtain ⟨off, hoff, a, ha⟩ := entry_has_mapped hM j e (hall e he) hn
  refine ⟨level_range M j * i + off, a, ?_, ?_⟩
  · have := @mul_succ_le (level_range M j) i cs.length hi
    omega
  · rw [array_lookup_entry hM hget hoff]
    exact ha

/-- The descent of `block_find_closest` ends at a leaf entry that holds what the
map holds for the offset; unless that entry is the entry the descent started
from, it lies in the array of an internal entry, `base` bytes into the range. -/
theorem find_entry_spec {M : Nat} (hM : 0 < M) :
    ∀ (k fuel : Nat) (children : Option (List offset_map_entry)) (idx : Nat)
      (entry : offset_map_entry) (offset : Nat),
      entry_wf k entry → offset < level_range M k → k + 1 ≤ fuel →
      ∃ children1 idx1 c j,
        find_entry fuel children idx entry offset (level_range M k) =
          some (children1, idx1, .leaf c, level_range M j) ∧
        c = entry_lookup M k entry offset ∧
        ((j = k ∧ children1 = children ∧ idx1 = idx ∧ entry = .leaf c) ∨
          (j < k ∧ ∃ cs base, children1 = some cs ∧ cs.length = N_CHILDREN ∧
            (∀ e ∈ cs, entry_wf j e) ∧ (∃ e ∈ cs, e.child_is_null = false) ∧
            cs[idx1]? = some (.leaf c) ∧
            base + 16 * level_range M j ≤ level_range M k ∧
            base + level_range M j * idx1 ≤ offset ∧
            offset < base + level_range M j * idx1 + level_range M j ∧
            ∀ x, x < 16 * level_range M j →
              array_lookup M j cs x = entry_lookup M k entry (base + x))) := by
  intro k
  induction k with
  | zero =>
    intro fuel children idx entry offset hw _ hf
    cases fuel with
    | zero => omega
    | succ fuel =>
      cases entry with
      | leaf c =>
        exact ⟨children, idx, c, 0, rfl, (entry_lookup_leaf M 0 c offset).symm,
          Or.inl ⟨rfl, rfl, rfl, rfl⟩⟩
      | node cs => exact absurd hw (by simp [entry_wf])
  | succ k ih =>
    intro fuel children idx entry offset hw hoff hf
    cases fuel with
    | zero => omega
    | succ fuel =>
      cases entry with
      | leaf c =>
        exact ⟨children, idx, c, k + 1, rfl, (entry_lookup_leaf M (k + 1) c offset).symm,
          Or.inl ⟨rfl, rfl, rfl, rfl⟩⟩
      | node cs =>
        have hw1 : cs.length = N_CHILDREN ∧ (∀ e ∈ cs, entry_wf k e) ∧
            ∃ e ∈ cs, e.child_is_null = false := hw
        obtain ⟨hlen, hall, hex⟩ := hw1
        have hN : N_CHILDREN = 16 := by decide
        have hR := level_range_pos hM k
        have hsucc := level_range_succ M k
        have hi : offset / level_range M k < 16 :=
          Nat.div_lt_of_lt_mul (by omega)
        obtain ⟨e, hg⟩ := @getElem?_of_lt_length cs (offset / level_range M k) (by omega)
        have hdm := Nat.div_add_mod offset (level_range M k)
        have hml := Nat.mod_lt offset hR
        have h16 := @mul_succ_le (level_range M k) (offset / level_range M k) 16 hi
        obtain ⟨children1, idx1, c, j, hfe, hc, hcase⟩ :=
          ih fuel (some cs) (offset / level_range M k) e (offset % level_range M k)
            (hall e (List.getElem?_mem hg)) hml (by omega)
        refine ⟨children1, idx1, c, j, ?_, ?_, Or.inr ?_⟩
        · simp only [find_entry, level_range_shift, hg]
          rw [if_neg (by omega)]
          exact hfe
        · rw [entry_lookup_node, array_lookup_of_get hg]
          exact hc
        · rcases hcase with ⟨hj, hch, hidx, he⟩ | ⟨hj, cs1, base1, hch, hlen1, hall1, hex1, hget1,
            hb1, hb2, hb3, hlk⟩
          · subst hj
            subst hidx
            refine ⟨by omega, cs, 0, hch, hlen, hall, hex, ?_, by omega, by omega, by omega, ?_⟩
            · rw [← he]
              exact hg
            · intro x _
              rw [Nat.zero_add]
              rfl
          · refine ⟨by omega, cs1, level_range M k * (offset / level_range M k) + base1, hch,
              hlen1, hall1, hex1, hget1, by omega, by omega, by omega, ?_⟩
            intro x hx
            rw [entry_lookup_node, Nat.add_assoc, array_lookup_entry hM hg (by omega)]
            exact hlk x hx

/-- The loop of `block_find_closest` over the entries with lower offsets, from
the entry before the index `k` down: it returns what the array holds at the
greatest offset below the entry `k` that holds a block, and it ends when there
is no such offset. -/
theorem find_lower_spec {M : Nat} (hM : 0 < M) :
    ∀ (fuel j : Nat) (cs : List offset_map_entry) (k : Nat) (moved : Bool),
      cs.length = N_CHILDREN → (∀ e ∈ cs, entry_wf j e) → k ≤ 16 → k + 17 * j + 1 ≤ fuel →
      ((∀ x, x < level_range M j * k → array_lookup M j cs x = none) ∧
          (moved = false → find_lower fuel cs k moved = some none)) ∨
        ∃ x a, x < level_range M j * k ∧ array_lookup M j cs x = some a ∧
          (∀ y, x < y → y < level_range M j * k → array_lookup M j cs y = none) ∧
          find_lower fuel cs k moved = some (some (some a)) := by
  intro fuel
  induction fuel with
  | zero => intro j cs k moved _ _ _ hf; omega
  | succ fuel ih =>
    intro j cs k moved hlen hall hk hf
    have hN : N_CHILDREN = 16 := by decide
    have hR := level_range_pos hM j
    cases k with
    | zero =>
      left
      refine ⟨fun x hx => by rw [Nat.mul_zero] at hx; omega, ?_⟩
      intro hm
      subst hm
      rfl
    | succ k1 =>
      have hmul : level_range M j * (k1 + 1) = level_range M j * k1 + level_range M j :=
        Nat.mul_succ _ _
      obtain ⟨e, hg⟩ := @getElem?_of_lt_length cs k1 (by omega)
      have hslot : ∀ x, level_range M j * k1 ≤ x →
          x < level_range M j * k1 + level_range M j →
          array_lookup M j cs x = entry_lookup M j e (x - level_range M j * k1) := by
        intro x h1 h2
        have := @array_lookup_entry M j hM cs k1 e hg (x - level_range M j * k1) (by omega)
        rw [← this]
        congr 1
        omega
      rw [hmul]
      cases e with
      | leaf c =>
        cases c with
        | none =>
          have hu : find_lower (fuel + 1) cs (k1 + 1) moved = find_lower fuel cs k1 moved := by
            simp only [find_lower, hg]
          rw [hu]
          have hnone : ∀ x, level_range M j * k1 ≤ x →
              x < level_range M j * k1 + level_range M j → array_lookup M j cs x = none := by
            intro x h1 h2
            rw [hslot x h1 h2, entry_lookup_leaf]
          rcases ih j cs k1 moved hlen hall (by omega) (by omega) with ⟨h1, h2⟩ | ⟨x, a, h1, h2,
            h3, h4⟩
          · left
            refine ⟨fun x hx => ?_, h2⟩
            by_cases hx1 : x < level_range M j * k1
            · exact h1 x hx1
            · exact hnone x (by omega) hx
          · right
            refine ⟨x, a, by omega, h2, fun y hy1 hy2 => ?_, h4⟩
            by_cases hy : y < level_range M j * k1
            · exact h3 y hy1 hy
            · exact hnone y (by omega) hy2
        | some b =>
          have hu : find_lower (fuel + 1) cs (k1 + 1) moved = some (some (some b)) := by
            simp only [find_lower, hg]
          right
          refine ⟨level_range M j * k1 + (level_range M j - 1), b, by omega, ?_,
            fun y hy1 hy2 => by omega, hu⟩
          rw [hslot _ (by omega) (by omega), entry_lookup_leaf]
      | node cs1 =>
        have hu : find_lower (fuel + 1) cs (k1 + 1) moved = find_lower fuel cs1 N_CHILDREN true := by
          simp only [find_lower, hg]
        rw [hu, hN]
        have hwe := hall _ (List.getElem?_mem hg)
        cases j with
        | zero => exact absurd hwe (by simp [entry_wf])
        | succ j0 =>
          have hw1 : cs1.length = N_CHILDREN ∧ (∀ e ∈ cs1, entry_wf j0 e) ∧
              ∃ e ∈ cs1, e.child_is_null = false := hwe
          obtain ⟨hlen1, hall1, hex1⟩ := hw1
          have hsucc := level_range_succ M j0
          have hin : ∀ x, x < level_range M (j0 + 1) →
              array_lookup M (j0 + 1) cs (level_range M (j0 + 1) * k1 + x) =
                array_lookup M j0 cs1 x := by
            intro x hx
            rw [array_lookup_entry hM hg hx]
            rfl
          rcases ih j0 cs1 16 true hlen1 hall1 (le_refl _) (by omega) with ⟨h1, _⟩ | ⟨x, a, h1,
            h2, h3, h4⟩
          · exfalso
            obtain ⟨x, a, hx, ha⟩ := array_has_mapped hM hall1 hex1
            rw [hlen1, hN] at hx
            rw [h1 x hx] at ha
            cases ha
          · right
            refine ⟨level_range M (j0 + 1) * k1 + x, a, by omega, ?_, fun y hy1 hy2 => ?_, h4⟩
            · rw [hin x (by omega)]
              exact h2
            · have hy : y = level_range M (j0 + 1) * k1 + (y - level_range M (j0 + 1) * k1) := by
                omega
              rw [hy, hin _ (by omega)]
              exact h3 _ (by omega) (by omega)

/-- The loop of `block_find_closest` over the entries with higher offsets, from
the index `k` up: it returns the `prev` of what the array holds at the least
offset from the entry `k` on that holds a block, and `NULL` when there is no
such offset. -/
theorem find_higher_spec {M : Nat} (hM : 0 < M) (chain : List pmemfile_block) :
    ∀ (fuel j : Nat) (cs : List offset_map_entry) (k : Nat),
      cs.length = N_CHILDREN → (∀ e ∈ cs, entry_wf j e) → k ≤ 16 → 17 + 17 * j ≤ fuel + k →
      ((∀ x, level_range M j * k ≤ x → x < level_range M j * 16 →
            array_lookup M j cs x = none) ∧
          find_higher chain fuel cs k = some none) ∨
        ∃ x a, level_range M j * k ≤ x ∧ x < level_range M j * 16 ∧
          array_lookup M j cs x = some a ∧
          (∀ y, level_range M j * k ≤ y → y < x → array_lookup M j cs y = none) ∧
          find_higher chain fuel cs k = some (block_prev chain a) := by
  intro fuel
  induction fuel with
  | zero => intro j cs k _ _ hk hf; omega
  | succ fuel ih =>
    intro j cs k hlen hall hk hf
    have hN : N_CHILDREN = 16 := by decide
    have hR := level_range_pos hM j
    by_cases hk16 : k < 16
    · have hmul : level_range M j * (k + 1) = level_range M j * k + level_range M j :=
        Nat.mul_succ _ _
      have hle := @mul_succ_le (level_range M j) k 16 hk16
      obtain ⟨e, hg⟩ := @getElem?_of_lt_length cs k (by omega)
      have hslot : ∀ x, level_range M j * k ≤ x →
          x < level_range M j * k + level_range M j →
          array_lookup M j cs x = entry_lookup M j e (x - level_range M j * k) := by
        intro x h1 h2
        have := @array_lookup_entry M j hM cs k e hg (x - level_range M j * k) (by omega)
        rw [← this]
        congr 1
        omega
      have hlt : k < N_CHILDREN := by omega
      cases e with
      | leaf c =>
        cases c with
        | none =>
          have hu : find_higher chain (fuel + 1) cs k = find_higher chain fuel cs (k + 1) := by
            simp only [find_higher, hg, hlt, if_true]
          rw [hu]
          have hnone : ∀ x, level_range M j * k ≤ x →
              x < level_range M j * k + level_range M j → array_lookup M j cs x = none := by
            intro x h1 h2
            rw [hslot x h1 h2, entry_lookup_leaf]
          rcases ih j cs (k + 1) hlen hall (by omega) (by omega) with ⟨h1, h2⟩ | ⟨x, a, h1, h2,
            h3, h4, h5⟩
          · left
            refine ⟨fun x hx1 hx2 => ?_, h2⟩
            by_cases hx : x < level_range M j * k + level_range M j
            · exact hnone x hx1 hx
            · exact h1 x (by omega) hx2
          · right
            refine ⟨x, a, by omega, h2, h3, fun y hy1 hy2 => ?_, h5⟩
            by_cases hy : y < level_range M j * k + level_range M j
            · exact hnone y hy1 hy
            · exact h4 y (by omega) hy2
        | some b =>
          have hu : find_higher chain (fuel + 1) cs k = some (block_prev chain b) := by
            simp only [find_higher, hg, hlt, if_true]
          right
          refine ⟨level_range M j * k, b, le_refl _, by omega, ?_, fun y hy1 hy2 => by omega, hu⟩
          rw [hslot _ (le_refl _) (by omega), entry_lookup_leaf]
      | node cs1 =>
        have hu : find_higher chain (fuel + 1) cs k = find_higher chain fuel cs1 0 := by
          simp only [find_higher, hg, hlt, if_true]
        rw [hu]
        have hwe := hall _ (List.getElem?_mem hg)
        cases j with
        | zero => exact absurd hwe (by simp [entry_wf])
        | succ j0 =>
          have hw1 : cs1.length = N_CHILDREN ∧ (∀ e ∈ cs1, entry_wf j0 e) ∧
              ∃ e ∈ cs1, e.child_is_null = false := hwe
          obtain ⟨hlen1, hall1, hex1⟩ := hw1
          have hsucc := level_range_succ M j0
          have hin : ∀ x, x < level_range M (j0 + 1) →
              array_lookup M (j0 + 1) cs (level_range M (j0 + 1) * k + x) =
                array_lookup M j0 cs1 x := by
            intro x hx
            rw [array_lookup_entry hM hg hx]
            rfl
          rcases ih j0 cs1 0 hlen1 hall1 (by omega) (by omega) with ⟨h1, _⟩ | ⟨x, a, h1,
            h2, h3, h4, h5⟩
          · exfalso
            obtain ⟨x, a, hx, ha⟩ := array_has_mapped hM hall1 hex1
            rw [hlen1, hN] at hx
            rw [h1 x (by omega) hx] at ha
            cases ha
          · right
            refine ⟨level_range M (j0 + 1) * k + x, a, by omega, by omega, ?_,
              fun y hy1 hy2 => ?_, h5⟩
            · rw [hin x (by omega)]
              exact h3
            · have hy : y = level_range M (j0 + 1) * k + (y - level_range M (j0 + 1) * k) := by
                omega
              rw [hy, hin _ (by omega)]
              exact h4 _ (by omega) (by omega)
    · have hk2 : k = 16 := by omega
      left
      refine ⟨fun x hx1 hx2 => by rw [hk2] at hx1; omega, ?_⟩
      have hlt : ¬ k < N_CHILDREN := by omega
      simp only [find_higher, hlt, if_false]

/-! ## `block_find_closest` -/

theorem level_range_lt (M : Nat) (hM : 0 < M) {j k : Nat} (h : j < k) :
    level_range M j < level_range M k := by
  have h1 := level_range_mono M (show j + 1 ≤ k by omega)
  have h2 := level_range_pos hM j
  rw [level_range_succ] at h1
  omega

theorem find_le_answer_congr {bs bs1 : List pmemfile_block} {q : Nat} {r : Option Nat}
    (h : ∀ b, b ∈ bs ↔ b ∈ bs1) (ha : find_le_answer bs q r) : find_le_answer bs1 q r := by
  cases r with
  | none =>
    intro b hb
    exact ha b ((h b).mpr hb)
  | some a =>
    obtain ⟨b, hb, h1, h2, h3⟩ := ha
    exact ⟨b, (h b).mp hb, h1, h2, fun c hc => h3 c ((h c).mpr hc)⟩

/-- There is one answer only. -/
theorem find_le_answer_unique {M : Nat} {bs : List pmemfile_block} {q : Nat}
    {r1 r2 : Option Nat} (hok : map_blocks_ok M bs) (h1 : find_le_answer bs q r1)
    (h2 : find_le_answer bs q r2) : r1 = r2 := by
  cases r1 with
  | none =>
    cases r2 with
    | none => rfl
    | some a =>
      obtain ⟨b, hb, _, hq, _⟩ := h2
      have := h1 b hb
      omega
  | some a1 =>
    cases r2 with
    | none =>
      obtain ⟨b, hb, _, hq, _⟩ := h1
      have := h2 b hb
      omega
    | some a2 =>
      obtain ⟨b1, hb1, ha1, hq1, hm1⟩ := h1
      obtain ⟨b2, hb2, ha2, hq2, hm2⟩ := h2
      have e1 := hm1 b2 hb2 hq2
      have e2 := hm2 b1 hb1 hq1
      have s1 := (hok.1 b1 hb1).1
      have s2 := (hok.1 b2 hb2).1
      have : b1 = b2 := block_eq_of_overlap hok hb1 hb2 (x := b1.offset)
        ⟨le_refl _, by omega⟩ ⟨by omega, by omega⟩
      rw [← ha1, ← ha2, this]

/-- The answer is the block that holds the offset, when there is one. -/
theorem find_le_answer_contains {M : Nat} {bs : List pmemfile_block} {q : Nat}
    {r : Option Nat} (hok : map_blocks_ok M bs) (h : find_le_answer bs q r)
    {b : pmemfile_block} (hb : b ∈ bs) (h1 : b.offset ≤ q) (h2 : q < b.offset + b.size) :
    r = some b.addr := by
  cases r with
  | none =>
    have := h b hb
    omega
  | some a =>
    obtain ⟨g, hg, hga, hgq, hmax⟩ := h
    have := hmax b hb h1
    have hg0 := (hok.1 g hg).1
    have : g = b := by
      by_contra hne
      rcases blocks_disjoint_of_ne hok hg hb hne with h | h <;> omega
    rw [← hga, this]

/-- In a chain in the order of the offsets, the `prev` of the first block
behind `q` is the answer for `q`. -/
theorem block_prev_answer {M : Nat} {chain : List pmemfile_block}
    (hok : map_blocks_ok M chain) (hs : chain.Pairwise (fun a b => a.offset < b.offset))
    {b : pmemfile_block} (hb : b ∈ chain) {q : Nat} (hq : q < b.offset)
    (hgap : ∀ c ∈ chain, c.offset ≤ q ∨ b.offset ≤ c.offset) :
    find_le_answer chain q (block_prev chain b.addr) := by
  obtain ⟨pre, post, hsplit⟩ := List.append_of_mem hb
  subst hsplit
  have hs1 := List.pairwise_append.mp hs
  have ha1 := List.pairwise_append.mp hok.2.2
  rw [block_prev_split pre post b (fun a ha => ha1.2.2 a ha b (List.mem_cons_self b post))]
  have hpost : ∀ c ∈ post, b.offset < c.offset := (List.pairwise_cons.mp hs1.2.1).1
  rcases List.eq_nil_or_concat pre with hnil | ⟨pre1, l, hcat⟩
  · subst hnil
    show ∀ c ∈ [] ++ b :: post, q < c.offset
    intro c hc
    simp only [List.nil_append, List.mem_cons] at hc
    rcases hc with hc | hc
    · rw [hc]
      exact hq
    · have := hpost c hc
      omega
  · rw [List.concat_eq_append] at hcat
    subst hcat
    have hlast : (pre1 ++ [l]).getLast? = some l := by simp
    rw [hlast]
    have hl : l ∈ pre1 ++ [l] := by simp
    have hlb := hs1.2.2 l hl b (List.mem_cons_self b post)
    refine ⟨l, by simp, rfl, ?_, ?_⟩
    · rcases hgap l (by simp) with h | h
      · exact h
      · omega
    · intro c hc hcq
      simp only [List.mem_append, List.mem_cons, List.not_mem_nil, or_false] at hc
      rcases hc with (hc | hc) | hc | hc
      · have := (List.pairwise_append.mp hs1.1).2.2 c hc l (List.mem_singleton_self l)
        omega
      · rw [hc]
      · rw [hc] at hcq
        omega
      · have := hpost c hc
        omega

/-- An offset that holds a block, with no block held between it and `q`, gives
the answer for `q`. -/
theorem answer_of_mapped_below {M : Nat} {chain : List pmemfile_block}
    (hok : map_blocks_ok M chain) {range : Nat} {L : Nat → Option Nat}
    (hL : ∀ off, off < range → ∀ a, L off = some a ↔
      ∃ b ∈ chain, b.addr = a ∧ b.offset ≤ off ∧ off < b.offset + b.size)
    {q x a : Nat} (hq : q < range) (hx : x ≤ q) (hxa : L x = some a)
    (hnone : ∀ y, x < y → y ≤ q → L y = none) : find_le_answer chain q (some a) := by
  obtain ⟨b, hb, hba, hb1, hb2⟩ := (hL x (by omega) a).mp hxa
  refine ⟨b, hb, hba, by omega, ?_⟩
  intro c hc hcq
  by_contra hcon
  have hc0 := (hok.1 c hc).1
  by_cases hcx : x < c.offset
  · have h1 := hnone c.offset hcx hcq
    have h2 := (hL c.offset (by omega) c.addr).mpr ⟨c, hc, rfl, le_refl _, by omega⟩
    rw [h1] at h2
    cases h2
  · have : c = b := block_eq_of_overlap hok hc hb (x := c.offset)
      ⟨le_refl _, by omega⟩ ⟨by omega, by omega⟩
    rw [this] at hcon
    omega

/-- The first offset behind `q` that holds a block gives the answer for `q`
through the `prev` of that block. -/
theorem answer_of_mapped_above {M : Nat} {chain : List pmemfile_block}
    (hok : map_blocks_ok M chain) (hs : chain.Pairwise (fun a b => a.offset < b.offset))
    {range : Nat} {L : Nat → Option Nat}
    (hL : ∀ off, off < range → ∀ a, L off = some a ↔
      ∃ b ∈ chain, b.addr = a ∧ b.offset ≤ off ∧ off < b.offset + b.size)
    {q x a : Nat} (hxr : x < range) (hx : q < x) (hxa : L x = some a)
    (hnone : ∀ y, q ≤ y → y < x → L y = none) :
    find_le_answer chain q (block_prev chain a) := by
  obtain ⟨b, hb, hba, hb1, hb2⟩ := (hL x hxr a).mp hxa
  have hbx : b.offset = x := by
    by_contra hne
    have h1 := hnone (max b.offset q) (le_max_right _ _) (by
      rcases le_total b.offset q with h | h
      · rw [max_eq_right h]; exact hx
      · rw [max_eq_left h]; omega)
    have h2 := (hL (max b.offset q) (by
      rcases le_total b.offset q with h | h
      · rw [max_eq_right h]; omega
      · rw [max_eq_left h]; omega) b.addr).mpr ⟨b, hb, rfl, le_max_left _ _, by
      rcases le_total b.offset q with h | h
      · rw [max_eq_right h]; omega
      · rw [max_eq_left h]; omega⟩
    rw [h1] at h2
    cases h2
  rw [← hba]
  refine block_prev_answer hok hs hb (by omega) ?_
  intro c hc
  by_contra hcon
  push_neg at hcon
  have hc0 := (hok.1 c hc).1
  have h1 := hnone c.offset (by omega) (by omega)
  have h2 := (hL c.offset (by omega) c.addr).mpr ⟨c, hc, rfl, le_refl _, by omega⟩
  rw [h1] at h2
  cases h2

theorem block_offset_step {M : Nat} {chain : List pmemfile_block} (hok : map_blocks_ok M chain)
    {range : Nat} (hdr : M ∣ range) (hends : ∀ b ∈ chain, b.offset + b.size ≤ range)
    {b : pmemfile_block} (hb : b ∈ chain) : b.offset + M ≤ range := by
  obtain ⟨h0, h1, _, _⟩ := hok.1 b hb
  have h2 := hends b hb
  exact Nat.le_of_lt_add_of_dvd (by omega) (Dvd.dvd.add h1 (dvd_refl M)) hdr

/-- The answer for the last unit of the range of the map is the answer for
every offset behind the range. -/
theorem answer_clamp {M : Nat} {chain : List pmemfile_block} (hok : map_blocks_ok M chain)
    {range : Nat} (hdr : M ∣ range) (hends : ∀ b ∈ chain, b.offset + b.size ≤ range)
    {q : Nat} {r : Option Nat} (hge : range ≤ q)
    (h : find_le_answer chain (range - M) r) : find_le_answer chain q r := by
  cases r with
  | none =>
    intro b hb
    have h1 := h b hb
    have h2 := block_offset_step hok hdr hends hb
    omega
  | some a =>
    obtain ⟨b, hb, hba, hbq, hmax⟩ := h
    refine ⟨b, hb, hba, by omega, fun c hc _ => hmax c hc ?_⟩
    have h2 := block_offset_step hok hdr hends hc
    omega

theorem block_find_closest_clamp {M : Nat} (chain : List pmemfile_block) {m : offset_map}
    {q : Nat} (hM : 0 < M) (hMle : M ≤ m.range) (h64 : m.range < 2 ^ 64) (hge : m.range ≤ q) :
    block_find_closest M chain m q = block_find_closest M chain m (m.range - M) := by
  unfold block_find_closest
  have h1 : q ≥ m.range := hge
  have h2 : ¬ m.range - M ≥ m.range := by omega
  simp only [if_pos h1, if_neg h2, sub64_of_le hMle h64]

/-- Source `block_find_closest` on a map of the blocks of a chain that is in
the order of the offsets: for an offset of the range of the map it returns the
answer of `find_le`. -/
theorem block_find_closest_in_range {M : Nat} (hM : 0 < M) {chain : List pmemfile_block}
    {m : offset_map} {k : Nat} (hok : map_blocks_ok M chain)
    (hs : chain.Pairwise (fun a b => a.offset < b.offset)) (hr : map_repr_at M k m chain)
    {q : Nat} (hq : q < m.range) :
    ∃ r, block_find_closest M chain m q = some r ∧ find_le_answer chain q r := by
  have hr0 := hr
  obtain ⟨g1, g2, g3, g4, g5, g6⟩ := hr
  have hkle := level_le_of_range_lt hM (by rw [← g1]; exact g2)
  have hfuel : offset_map_fuel = 306 := by decide
  have hN : N_CHILDREN = 16 := by decide
  obtain ⟨children1, idx1, c, j, hfe, hc, hcase⟩ :=
    find_entry_spec hM k offset_map_fuel none 0 m.entry q g3 (by rw [← g1]; exact hq)
      (by rw [hfuel]; omega)
  have hnq : ¬ q ≥ m.range := by omega
  unfold block_find_closest
  simp only [if_neg hnq]
  rw [g1, hfe]
  dsimp only
  cases c with
  | some a =>
    exact ⟨some a, rfl, answer_of_mapped_below hok g6 hq (le_refl q) hc.symm
      (fun y h1 h2 => by omega)⟩
  | none =>
    dsimp only
    rcases hcase with ⟨hj, _, _, he⟩ | ⟨hj, cs, base, hch, hlen, hall, hex, hget, hb1, hb2, hb3,
      hlk⟩
    · rw [if_pos (by rw [hj])]
      have hnone := map_repr_at_null hok hr0 he
      exact ⟨none, rfl, fun b hb => absurd hb (hnone b)⟩
    · rw [if_neg (by have := level_range_lt M hM hj; omega)]
      subst hch
      dsimp only
      have hRj := level_range_pos hM j
      have hidx : idx1 < 16 := by
        by_contra hcon
        rw [List.getElem?_eq_none (by omega)] at hget
        cases hget
      have hle := @mul_succ_le (level_range M j) idx1 16 hidx
      have hslot : ∀ y, level_range M j * idx1 ≤ y →
          y < level_range M j * idx1 + level_range M j → array_lookup M j cs y = none := by
        intro y h1 h2
        have := @array_lookup_entry M j hM cs idx1 (.leaf none) hget
          (y - level_range M j * idx1) (by omega)
        rw [entry_lookup_leaf] at this
        rw [← this]
        congr 1
        omega
      have hL : ∀ y, base ≤ y → y < base + 16 * level_range M j →
          entry_lookup M k m.entry y = array_lookup M j cs (y - base) := by
        intro y h1 h2
        rw [hlk (y - base) (by omega)]
        congr 1
        omega
      rcases find_lower_spec hM offset_map_fuel j cs idx1 false hlen hall (by omega)
        (by rw [hfuel]; omega) with ⟨hl1, hl2⟩ | ⟨x, a, hx1, hx2, hx3, hfl⟩
      · rw [hl2 rfl]
        dsimp only
        rcases find_higher_spec hM chain offset_map_fuel j cs (idx1 + 1) hlen hall (by omega)
          (by rw [hfuel]; omega) with ⟨hh1, _⟩ | ⟨x, a, hx1, hx2, hx3, hx4, hfh⟩
        · exfalso
          obtain ⟨x, a, hx, ha⟩ := array_has_mapped hM hall hex
          rw [hlen, hN] at hx
          have hmul : level_range M j * (idx1 + 1) = level_range M j * idx1 + level_range M j :=
            Nat.mul_succ _ _
          have : array_lookup M j cs x = none := by
            by_cases c1 : x < level_range M j * idx1
            · exact hl1 x c1
            · by_cases c2 : x < level_range M j * idx1 + level_range M j
              · exact hslot x (by omega) c2
              · exact hh1 x (by omega) hx
          rw [this] at ha
          cases ha
        · rw [hfh]
          have hmul : level_range M j * (idx1 + 1) = level_range M j * idx1 + level_range M j :=
            Nat.mul_succ _ _
          refine ⟨block_prev chain a, rfl, answer_of_mapped_above hok hs g6 (x := base + x)
            (by omega) (by omega) ?_ ?_⟩
          · rw [hL (base + x) (by omega) (by omega), Nat.add_sub_cancel_left]
            exact hx3
          · intro y hy1 hy2
            rw [hL y (by omega) (by omega)]
            by_cases c2 : y - base < level_range M j * idx1 + level_range M j
            · exact hslot _ (by omega) c2
            · exact hx4 _ (by omega) (by omega)
      · rw [hfl]
        refine ⟨some a, rfl, answer_of_mapped_below hok g6 hq (x := base + x) (by omega) ?_ ?_⟩
        · rw [hL (base + x) (by omega) (by omega), Nat.add_sub_cancel_left]
          exact hx2
        · intro y hy1 hy2
          rw [hL y (by omega) (by omega)]
          by_cases c1 : y - base < level_range M j * idx1
          · exact hx3 _ (by omega) c1
          · exact hslot _ (by omega) (by omega)

/-- Source `block_find_closest` on a map of the blocks of a chain that is in
the order of the offsets returns the answer of `find_le` for every offset. -/
theorem block_find_closest_spec {M : Nat} (hM : 0 < M) {chain : List pmemfile_block}
    {m : offset_map} (hok : map_blocks_ok M chain)
    (hs : chain.Pairwise (fun a b => a.offset < b.offset)) (hr : map_repr M m chain)
    (q : Nat) : ∃ r, block_find_closest M chain m q = some r ∧ find_le_answer chain q r := by
  obtain ⟨k, hk⟩ := hr
  have hMle : M ≤ m.range := by
    have := level_range_mono M (Nat.zero_le k)
    rw [level_range_zero, ← hk.1] at this
    exact this
  by_cases hq : q < m.range
  · exact block_find_closest_in_range hM hok hs hk hq
  · obtain ⟨r, h1, h2⟩ := block_find_closest_in_range hM hok hs hk
      (show m.range - M < m.range by omega)
    refine ⟨r, ?_, answer_clamp hok (by rw [hk.1]; exact level_range_dvd M k) hk.2.2.2.2.1
      (by omega) h2⟩
    rw [block_find_closest_clamp chain hM hMle hk.2.1 (by omega)]
    exact h1

/-! ## Locks of a transaction -/

theorem foldl_unlock_cb (l : List tx_lock) (ev : List lock_event) :
    l.foldl (fun ev arg => unlock_cb arg ev) ev = ev ++ l.map lock_event.release := by
  induction l generalizing ev with
  | nil => simp
  | cons a l ih =>
    rw [List.foldl_cons, ih]
    simp [unlock_cb]

theorem released_append (e1 e2 : List lock_event) :
    released (e1 ++ e2) = released e1 ++ released e2 := by
  induction e1 with
  | nil => rfl
  | cons a e1 ih =>
    cases a with
    | acquire l => simpa [released] using ih
    | release l => simpa [released] using ih

theorem released_acquire (l : List tx_lock) : released (l.map lock_event.acquire) = [] := by
  induction l with
  | nil => rfl
  | cons a l ih => simpa [released] using ih

theorem released_release (l : List tx_lock) : released (l.map lock_event.release) = l := by
  induction l with
  | nil => rfl
  | cons a l ih => simpa [released] using ih

/-- The queues and the events after the body of a transaction. -/
theorem tx_body_spec (ops : List tx_op) :
    ∀ st : tx_callbacks,
      (tx_body ops st).onabort = (tx_acquired ops).reverse ++ st.onabort ∧
        (tx_body ops st).oncommit = st.oncommit ++ tx_scheduled ops ∧
        (tx_body ops st).events = st.events ++ (tx_acquired ops).map lock_event.acquire := by
  induction ops with
  | nil => intro st; simp [tx_body, tx_acquired, tx_scheduled]
  | cons op ops ih =>
    intro st
    cases op with
    | wlock l =>
      obtain ⟨h1, h2, h3⟩ := ih (rwlock_tx_wlock l st)
      simp only [tx_body, tx_acquired, tx_scheduled]
      rw [h1, h2, h3]
      simp [rwlock_tx_wlock, cb_push_front]
    | unlock_on_commit l =>
      obtain ⟨h1, h2, h3⟩ := ih (rwlock_tx_unlock_on_commit l st)
      simp only [tx_body, tx_acquired, tx_scheduled]
      rw [h1, h2, h3]
      simp [rwlock_tx_unlock_on_commit, cb_push_back]
    | mutex_lock m =>
      obtain ⟨h1, h2, h3⟩ := ih (mutex_tx_lock m st)
      simp only [tx_body, tx_acquired, tx_scheduled]
      rw [h1, h2, h3]
      simp [mutex_tx_lock, cb_push_front]
    | mutex_unlock_on_commit m =>
      obtain ⟨h1, h2, h3⟩ := ih (mutex_tx_unlock_on_commit m st)
      simp only [tx_body, tx_acquired, tx_scheduled]
      rw [h1, h2, h3]
      simp [mutex_tx_unlock_on_commit, cb_push_back]

theorem released_on_abort (ops : List tx_op) :
    released (cb_queue .TX_STAGE_ONABORT (tx_body ops tx_begin)) = (tx_acquired ops).reverse := by
  obtain ⟨h1, _, h3⟩ := tx_body_spec ops tx_begin
  unfold cb_queue
  dsimp only
  rw [foldl_unlock_cb, h1, h3, released_append, released_append, released_release]
  simp [tx_begin, released_acquire, released]

theorem released_on_commit (ops : List tx_op) :
    released (cb_queue .TX_STAGE_ONCOMMIT (tx_body ops tx_begin)) = tx_scheduled ops := by
  obtain ⟨_, h2, h3⟩ := tx_body_spec ops tx_begin
  unfold cb_queue
  dsimp only
  rw [foldl_unlock_cb, h2, h3, released_append, released_append, released_release]
  simp [tx_begin, released_acquire, released]

/-! ## Symbolic links -/

theorem and_eq_zero_of_subset {l y x : Nat} (h : l &&& y = 0) (hx : y &&& x = x) :
    l &&& x = 0 := by
  rw [← hx, ← Nat.and_assoc, h, Nat.zero_and]

theorem or_and_of_disjoint {a l m : Nat} (h : l &&& m = 0) : (a ||| l) &&& m = a &&& m := by
  rw [Nat.and_comm, Nat.and_or_distrib_left, Nat.and_comm m l, h, Nat.or_zero, Nat.and_comm]

theorem c_string_memcpy (buf target : List Nat) (hz : ∀ c ∈ target, c ≠ 0) :
    c_string (memcpy buf (target ++ [0])) = target := by
  unfold c_string memcpy
  generalize List.drop (target ++ [0]).length buf = rest
  induction target with
  | nil => simp
  | cons c t ih =>
    have hc : c ≠ 0 := hz c (by simp)
    simp only [List.cons_append, List.takeWhile_cons]
    have : (c != 0) = true := by simpa using hc
    rw [this]
    simp only [if_true]
    congr 1
    exact ih (fun x hx => hz x (by simp [hx]))

/-! ## The rebuild of the index from the block arrays -/

theorem mem_used_slots {a : List pmemfile_block} {b : pmemfile_block} (h : b ∈ used_slots a) :
    b ∈ a ∧ b.size ≠ 0 := by
  induction a with
  | nil => cases h
  | cons x rest ih =>
    unfold used_slots at h
    by_cases hx : x.size = 0
    · rw [if_pos hx] at h
      cases h
    · rw [if_neg hx] at h
      rcases List.mem_cons.mp h with h1 | h1
      · rw [h1]
        exact ⟨List.mem_cons_self _ _, hx⟩
      · exact ⟨List.mem_cons_of_mem _ (ih h1).1, (ih h1).2⟩

theorem mem_used_blocks {arrays : List (List pmemfile_block)} {b : pmemfile_block} :
    b ∈ used_blocks arrays ↔ ∃ a ∈ arrays, b ∈ used_slots a := by
  induction arrays with
  | nil => simp [used_blocks]
  | cons a rest ih =>
    simp only [used_blocks, List.mem_append, ih, List.mem_cons, exists_eq_or_imp]

/-- The loop over one block array: with the descriptors `seen` in the tree and
`first` the one of them with the least offset, the loop adds the descriptors
in front of the first descriptor of size 0. -/
theorem rebuild_block_array_spec :
    ∀ (a seen : List pmemfile_block) (c : List (Nat × Nat)) (first : Option pmemfile_block),
      index_ok seen c →
      ((first = none ∧ seen = []) ∨
        ∃ f, first = some f ∧ f ∈ seen ∧ ∀ x ∈ seen, f.offset ≤ x.offset) →
      (seen ++ used_slots a).Pairwise (fun x y => x.offset ≠ y.offset) →
      index_ok (seen ++ used_slots a) (rebuild_block_array a (c, first)).1 ∧
        (((rebuild_block_array a (c, first)).2 = none ∧ seen ++ used_slots a = []) ∨
          ∃ f, (rebuild_block_array a (c, first)).2 = some f ∧ f ∈ seen ++ used_slots a ∧
            ∀ x ∈ seen ++ used_slots a, f.offset ≤ x.offset) := by
  intro a
  induction a with
  | nil =>
    intro seen c first hi hf _
    simp only [used_slots, List.append_nil, rebuild_block_array]
    exact ⟨hi, hf⟩
  | cons block rest ih =>
    intro seen c first hi hf hd
    unfold used_slots at hd ⊢
    unfold rebuild_block_array
    by_cases hz : block.size = 0
    · rw [if_pos hz] at hd ⊢
      rw [if_pos hz]
      simp only [List.append_nil]
      exact ⟨hi, hf⟩
    · rw [if_neg hz] at hd ⊢
      rw [if_neg hz]
      dsimp only
      have hassoc : seen ++ block :: used_slots rest = (seen ++ [block]) ++ used_slots rest := by
        simp
      rw [hassoc] at hd ⊢
      have hfresh : ∀ x ∈ seen, x.offset ≠ block.offset := by
        intro x hx
        have := (List.pairwise_append.mp (List.pairwise_append.mp hd).1).2.2 x hx block
          (List.mem_singleton_self _)
        exact this
      have hi1 : index_ok (seen ++ [block]) (block_cache_insert_block c block) :=
        index_ok_insert hi block block rfl rfl hfresh (by
          intro x
          simp only [List.mem_append, List.mem_singleton]
          tauto)
      apply ih (seen ++ [block]) _ _ hi1 _ hd
      right
      rcases hf with ⟨h1, h2⟩ | ⟨f, h1, h2, h3⟩
      · subst h1
        subst h2
        exact ⟨block, rfl, by simp, by simp⟩
      · subst h1
        dsimp only
        by_cases hlt : block.offset < f.offset
        · rw [if_pos hlt]
          refine ⟨block, rfl, by simp, ?_⟩
          intro x hx
          simp only [List.mem_append, List.mem_singleton] at hx
          rcases hx with hx | hx
          · have := h3 x hx
            omega
          · rw [hx]
        · rw [if_neg hlt]
          refine ⟨f, rfl, by simp [h2], ?_⟩
          intro x hx
          simp only [List.mem_append, List.mem_singleton] at hx
          rcases hx with hx | hx
          · exact h3 x hx
          · rw [hx]
            omega

/-- The loop over the chain of block arrays. -/
theorem rebuild_block_arrays_spec :
    ∀ (arrays : List (List pmemfile_block)) (seen : List pmemfile_block)
      (c : List (Nat × Nat)) (first : Option pmemfile_block),
      index_ok seen c →
      ((first = none ∧ seen = []) ∨
        ∃ f, first = some f ∧ f ∈ seen ∧ ∀ x ∈ seen, f.offset ≤ x.offset) →
      (seen ++ used_blocks arrays).Pairwise (fun x y => x.offset ≠ y.offset) →
      index_ok (seen ++ used_blocks arrays) (rebuild_block_arrays arrays (c, first)).1 ∧
        (((rebuild_block_arrays arrays (c, first)).2 = none ∧ seen ++ used_blocks arrays = []) ∨
          ∃ f, (rebuild_block_arrays arrays (c, first)).2 = some f ∧
            f ∈ seen ++ used_blocks arrays ∧
            ∀ x ∈ seen ++ used_blocks arrays, f.offset ≤ x.offset) := by
  intro arrays
  induction arrays with
  | nil =>
    intro seen c first hi hf _
    simp only [used_blocks, List.append_nil, rebuild_block_arrays]
    exact ⟨hi, hf⟩
  | cons a rest ih =>
    intro seen c first hi hf hd
    unfold used_blocks at hd ⊢
    unfold rebuild_block_arrays
    rw [← List.append_assoc] at hd ⊢
    obtain ⟨h1, h2⟩ := rebuild_block_array_spec a seen c first hi hf
      (List.pairwise_append.mp hd).1
    exact ih (seen ++ used_slots a) _ _ h1 h2 hd

/-- The lookup of the offset of a descriptor in an index of descriptors with
different offsets finds the descriptor. -/
theorem find_block_exact {chain : List pmemfile_block} {c : List (Nat × Nat)}
    (hi : index_ok chain c) (hd : chain.Pairwise (fun x y => x.offset ≠ y.offset))
    {b : pmemfile_block} (hb : b ∈ chain) : find_block c b.offset = some b.addr := by
  cases hf : find_block c b.offset with
  | none =>
    have := find_block_none hi hf b hb
    omega
  | some p =>
    obtain ⟨b1, hb1, hba, hbo, hmax⟩ := find_block_some hi hf
    have h1 := hmax b hb (le_refl _)
    have : b1 = b := by
      by_contra hne
      exact List.Pairwise.forall (fun _ _ h => Ne.symm h) hd hb1 hb hne (by omega)
    rw [← hba, this]

/-! ## The descriptors that `vinode_remove_interval` leaves -/

theorem block_update_map_addr (chain : List pmemfile_block) (p : Nat)
    (f : pmemfile_block → pmemfile_block) (hf : ∀ b, (f b).addr = b.addr) :
    (block_update chain p f).map (fun b => b.addr) = chain.map (fun b => b.addr) := by
  unfold block_update
  rw [List.map_map]
  apply List.map_congr_left
  intro b _
  simp only [Function.comp]
  split_ifs
  · exact hf b
  · rfl

theorem block_update_zero_mem {chain : List pmemfile_block} (p x y : Nat)
    {a0 : pmemfile_block} (h : a0 ∈ chain) :
    ∃ a1 ∈ block_update chain p (fun b0 => zero_block_data b0 x y),
      a1.addr = a0.addr ∧ a1.offset = a0.offset ∧ a1.size = a0.size ∧ a1.flags = a0.flags := by
  refine ⟨if a0.addr = p then zero_block_data a0 x y else a0, ?_, ?_⟩
  · unfold block_update
    exact List.mem_map_of_mem _ h
  · split_ifs <;> exact ⟨rfl, rfl, rfl, rfl⟩

theorem contained_congr {a b : pmemfile_block} (ho : a.offset = b.offset)
    (hs : a.size = b.size) (start len : Nat) :
    is_block_contained_by_interval a start len = is_block_contained_by_interval b start len := by
  unfold is_block_contained_by_interval
  rw [ho, hs]

/-- Every descriptor that the interval does not contain is still linked after
the loop of `vinode_remove_interval`, with its offset, size and flags. -/
theorem remove_loop_keeps :
    ∀ (fuel : Nat) (v : pmemfile_vinode) (block : Option Nat) (offset len : Nat)
      (v' : pmemfile_vinode),
      (v.chain.map (fun b => b.addr)).Nodup →
      vinode_remove_interval_loop fuel v block offset len = some v' →
      ∀ a0 ∈ v.chain, is_block_contained_by_interval a0 offset len = false →
        ∃ a ∈ v'.chain, a.addr = a0.addr ∧ a.offset = a0.offset ∧ a.size = a0.size ∧
          a.flags = a0.flags := by
  intro fuel
  induction fuel with
  | zero => intro v block offset len v' _ h; simp [vinode_remove_interval_loop] at h
  | succ fuel ih =>
    intro v block offset len v' hnd h a0 ha0 hnc
    have hself : ∃ a ∈ v.chain, a.addr = a0.addr ∧ a.offset = a0.offset ∧ a.size = a0.size ∧
        a.flags = a0.flags := ⟨a0, ha0, rfl, rfl, rfl, rfl⟩
    have hupd : ∀ (x y : Nat) (fuel1 : Nat) (blk : Option Nat),
        vinode_remove_interval_loop fuel
          { v with chain := block_update v.chain x (fun b0 => zero_block_data b0 y fuel1) }
          blk offset len = some v' →
        ∃ a ∈ v'.chain, a.addr = a0.addr ∧ a.offset = a0.offset ∧ a.size = a0.size ∧
          a.flags = a0.flags := by
      intro x y z blk hl
      obtain ⟨a1, ha1, e1, e2, e3, e4⟩ := @block_update_zero_mem v.chain x y z a0 ha0
      obtain ⟨a, ha, f1, f2, f3, f4⟩ := ih _ blk offset len v'
        (by
          show (List.map (fun b => b.addr)
            (block_update v.chain x (fun b0 => zero_block_data b0 y z))).Nodup
          rw [block_update_map_addr v.chain x (fun b0 => zero_block_data b0 y z)
            (fun _ => rfl)]
          exact hnd) hl a1 ha1 (by rw [contained_congr e2 e3]; exact hnc)
      exact ⟨a, ha, by omega, by omega, by omega, by omega⟩
    unfold vinode_remove_interval_loop at h
    cases block with
    | none =>
      simp only [Option.some.injEq] at h
      rw [← h]
      exact hself
    | some p =>
      dsimp only at h
      cases hd : block_deref v.chain p with
      | none => rw [hd] at h; cases h
      | some b =>
        rw [hd] at h
        dsimp only at h
        obtain ⟨hbm, hba⟩ := block_deref_some hd
        have hrem : is_block_contained_by_interval b offset len = true →
            vinode_remove_interval_loop fuel
              { v with
                  chain := (block_list_remove v.chain p).1
                  blocks := v.blocks.map (fun c => ctree_remove_unlocked c b.offset) }
              (block_list_remove v.chain p).2 offset len = some v' →
            ∃ a ∈ v'.chain, a.addr = a0.addr ∧ a.offset = a0.offset ∧ a.size = a0.size ∧
              a.flags = a0.flags := by
          intro c2 hl
          refine ih _ _ offset len v' ?_ hl a0 ?_ hnc
          · show (List.map (fun b => b.addr) (block_list_remove v.chain p).1).Nodup
            unfold block_list_remove
            exact hnd.sublist ((List.filter_sublist _).map _)
          · show a0 ∈ (block_list_remove v.chain p).1
            unfold block_list_remove
            rw [List.mem_filter]
            refine ⟨ha0, ?_⟩
            simp only [bne_iff_ne, ne_eq]
            intro hap
            have : a0 = b := List.inj_on_of_nodup_map hnd ha0 hbm (by rw [hap, hba])
            rw [this, c2] at hnc
            cases hnc
        split_ifs at h <;>
          first
          | (cases h; exact hself)
          | (cases h; exact block_update_zero_mem p _ _ ha0)
          | exact hupd _ _ _ _ h
          | exact ih _ _ offset len v' hnd h a0 ha0 hnc
          | exact hrem (by assumption) h

/-! ## Where allocation and truncation leave descriptors -/

/-- Every descriptor that `vinode_allocate_interval` links starts less than
`2 ^ 27` bytes behind the end of the range asked for. -/
theorem vinode_allocate_interval_offsets {cfg : config} (hc : config_ok cfg)
    {v v' : pmemfile_vinode} {offset size : Nat} (hw : vinode_wf v)
    (hs : size < 2 ^ 63)
    (h : vinode_allocate_interval cfg v offset size = some v') :
    ∀ x ∈ v'.chain, x ∈ v.chain ∨ x.offset < offset + size + 2 ^ 27 := by
  unfold vinode_allocate_interval at h
  cases hcb : v.blocks with
  | none => rw [hcb] at h; cases h
  | some c =>
    rw [hcb] at h
    dsimp only at h
    split at h
    · cases h
    rename_i hassert
    have hs0 : 0 < size := by omega
    have hnov : offset + size < 2 ^ 64 := by
      have : u64 (offset + size) > offset := by
        by_contra hcon; exact hassert (Or.inr hcon)
      unfold u64 at this; omega
    split at h
    · cases h
    rename_i over hover
    generalize hsz1 : (if over = true then overallocate_size size else size) = size1 at h
    have hs1 : size ≤ size1 ∧ size1 ≤ size + 64 * 1024 * 1024 := by
      rw [← hsz1]
      have := overallocate_size_ge size
      have := overallocate_size_le size
      split_ifs <;> omega
    obtain ⟨e1, e2, e3, e4, e5, e6⟩ :=
      @expand_to_full_pages_spec offset size1
        (by unfold FILE_PAGE_SIZE; omega)
    generalize expand_to_full_pages offset size1 = r at *
    by_cases hov : r.1 + r.2 < 2 ^ 64
    · have hinv : find_block c r.1 = none →
          ∀ first, v.chain.head? = some first → r.1 < first.offset := by
        intro hf first hfirst
        exact find_block_none (hw.2.1 c hcb) hf first (List.mem_of_mem_head? hfirst)
      have hall := alloc_loop_sizes cfg hc over _ v _ r.1 r.2 v' (by omega) hov hinv h
      intro x hx
      rcases hall x hx with h1 | ⟨_, h2, _⟩
      · exact Or.inl h1
      · right
        unfold FILE_PAGE_SIZE at e6
        omega
    · exfalso
      have := alloc_loop_overflow_none cfg hc over (2 * r.2 + 2) v (find_block c r.1) r.1 r.2
        (fun b hb => (hw.1.2.2 b hb).2.2.2.2) (by omega)
        (by unfold FILE_PAGE_SIZE at *; omega) (by unfold FILE_PAGE_SIZE at *; omega) (by omega)
      rw [this] at h; cases h

/-- After `vinode_truncate` every descriptor starts less than `2 ^ 27` bytes
behind the new size. -/
theorem vinode_truncate_offsets {cfg : config} (hc : config_ok cfg) {now : pmemfile_time}
    {v v' : pmemfile_vinode} (hw : vinode_wf v) {size : Nat} (hN : size ≤ SSIZE_MAX)
    (h : vinode_truncate cfg now v size = some v') :
    ∀ a ∈ v'.chain, a.offset < size + 2 ^ 27 := by
  unfold SSIZE_MAX at hN
  unfold vinode_truncate at h
  dsimp only at h
  obtain ⟨i1, ⟨c, i2⟩, i3, i4⟩ := with_index_wf hw
  generalize (if v.blocks.isNone then vinode_rebuild_block_tree v else v) = v0 at *
  obtain ⟨v1, r1, r2, ⟨c1, r3⟩, r4, _, _, r7⟩ :=
    @vinode_remove_interval_spec v0 c i1 i2 size (UINT64_MAX - size)
      (by unfold UINT64_MAX; omega) (by unfold UINT64_MAX; omega)
  rw [r1] at h
  dsimp only at h
  have hold : ∀ a ∈ v1.chain, a.offset < size := by
    intro a ha
    have h1 := r7 a ha
    have h2 := (r2.1.2.2 a ha).2.2.2.1
    unfold UINT64_MAX at h1
    omega
  cases ha : (if v1.inode.size < size then
      vinode_allocate_interval cfg v1 v1.inode.size (size - v1.inode.size)
      else some v1) with
  | none => rw [ha] at h; cases h
  | some v2 =>
    rw [ha] at h
    dsimp only at h
    have h2 : ∀ a ∈ v2.chain, a.offset < size + 2 ^ 27 := by
      intro a ham
      by_cases hg : v1.inode.size < size
      · rw [if_pos hg] at ha
        rcases vinode_allocate_interval_offsets hc r2 (by omega) ha a ham with h3 | h3
        · have := hold a h3
          omega
        · omega
      · rw [if_neg hg] at ha
        cases ha
        have := hold a ham
        omega
    split_ifs at h <;> (cases h; exact h2)

/-- The file type is what it was after `vinode_truncate`. -/
theorem vinode_truncate_regular {cfg : config} {now : pmemfile_time}
    {v v' : pmemfile_vinode} {size : Nat} (h : vinode_truncate cfg now v size = some v')
    (hreg : vinode_is_regular_file v = true) : vinode_is_regular_file v' = true := by
  obtain ⟨_, h2, h3⟩ := vinode_truncate_frame h
  unfold vinode_is_regular_file at hreg ⊢
  by_cases hs : v.inode.size = size
  · rw [h2 hs]
    exact hreg
  · rw [h3 hs]
    exact hreg

/-! ## The ranges of the calls of `set_range` -/

/-- `set_range_trace` computes what `set_range_loop` computes. -/
theorem set_range_trace_fst (block : Option Nat) :
    ∀ (fuel : Nat) (entries : List offset_map_entry) (i offset remaining range : Nat),
      (set_range_trace block fuel entries i offset remaining range).map Prod.fst =
        set_range_loop block fuel entries i offset remaining range := by
  intro fuel
  induction fuel with
  | zero => intro entries i offset remaining range; rfl
  | succ fuel ih =>
    intro entries i offset remaining range
    rw [set_range_trace, set_range_loop]
    by_cases hr0 : remaining = 0
    · rw [if_pos hr0, if_pos hr0]
      rfl
    rw [if_neg hr0, if_neg hr0]
    by_cases hrange : range = 0
    · rw [if_pos hrange, if_pos hrange]
      rfl
    rw [if_neg hrange, if_neg hrange]
    cases hg : entries[i]? with
    | none => rfl
    | some e =>
      dsimp only
      by_cases hcov : offset % range = 0 ∧ remaining ≥ range
      · rw [if_pos hcov, if_pos hcov]
        exact ih _ _ _ _ _
      rw [if_neg hcov, if_neg hcov]
      have inner : ∀ cs : List offset_map_entry,
          Option.map Prod.fst
            (if range >>> N_CHILDREN_POW = 0 then none
            else
              match set_range_trace block fuel cs (offset % range / range >>> N_CHILDREN_POW)
                  (offset % range)
                  (if remaining < range - offset % range then remaining
                    else range - offset % range) (range >>> N_CHILDREN_POW) with
              | none => none
              | some (cs1, t1) =>
                match set_range_trace block fuel
                    (entries.set i
                      (if block = none then check_and_free_range (.node cs1) else .node cs1))
                    (i + 1)
                    (offset + if remaining < range - offset % range then remaining
                      else range - offset % range)
                    (remaining - if remaining < range - offset % range then remaining
                      else range - offset % range) range with
                | none => none
                | some (entries1, t2) =>
                  some (entries1, range >>> N_CHILDREN_POW :: t1 ++ t2)) =
          (if range >>> N_CHILDREN_POW = 0 then none
            else
              match set_range_loop block fuel cs (offset % range / range >>> N_CHILDREN_POW)
                  (offset % range)
                  (if remaining < range - offset % range then remaining
                    else range - offset % range) (range >>> N_CHILDREN_POW) with
              | none => none
              | some cs1 =>
                set_range_loop block fuel
                  (entries.set i
                    (if block = none then check_and_free_range (.node cs1) else .node cs1))
                  (i + 1)
                  (offset + if remaining < range - offset % range then remaining
                    else range - offset % range)
                  (remaining - if remaining < range - offset % range then remaining
                    else range - offset % range) range) := by
        intro cs
        by_cases hr1 : range >>> N_CHILDREN_POW = 0
        · rw [if_pos hr1, if_pos hr1]
          rfl
        rw [if_neg hr1, if_neg hr1]
        have ih1 := ih cs (offset % range / range >>> N_CHILDREN_POW) (offset % range)
          (if remaining < range - offset % range then remaining else range - offset % range)
          (range >>> N_CHILDREN_POW)
        cases ht1 : set_range_trace block fuel cs (offset % range / range >>> N_CHILDREN_POW)
            (offset % range)
            (if remaining < range - offset % range then remaining else range - offset % range)
            (range >>> N_CHILDREN_POW) with
        | none =>
          rw [ht1] at ih1
          rw [← ih1]
          rfl
        | some r1 =>
          obtain ⟨cs1, t1⟩ := r1
          rw [ht1] at ih1
          rw [← ih1]
          dsimp only [Option.map_some']
          have ih2 := ih
            (entries.set i
              (if block = none then check_and_free_range (.node cs1) else .node cs1))
            (i + 1)
            (offset + if remaining < range - offset % range then remaining
              else range - offset % range)
            (remaining - if remaining < range - offset % range then remaining
              else range - offset % range) range
          rw [← ih2]
          cases set_range_trace block fuel
              (entries.set i
                (if block = none then check_and_free_range (.node cs1) else .node cs1))
              (i + 1)
              (offset + if remaining < range - offset % range then remaining
                else range - offset % range)
              (remaining - if remaining < range - offset % range then remaining
                else range - offset % range) range with
          | none => rfl
          | some r2 => rfl
      cases e with
      | leaf c =>
        cases c with
        | none => exact inner _
        | some b => rfl
      | node cs => exact inner cs

/-- On an array of level `k`, for an offset and a length that are multiples of
`MIN_BLOCK_SIZE`, every recursive call of `set_range` is made with the range
of a level below `k`. -/
theorem set_range_trace_ranges {M : Nat} (hM : 0 < M) (block : Option Nat) :
    ∀ (fuel k : Nat) (entries : List offset_map_entry) (i offset remaining : Nat)
      (es : List offset_map_entry) (tr : List Nat),
      M ∣ offset → M ∣ remaining →
      set_range_trace block fuel entries i offset remaining (level_range M k) = some (es, tr) →
      ∀ r ∈ tr, ∃ j, j < k ∧ r = level_range M j := by
  intro fuel
  induction fuel with
  | zero => intro k entries i offset remaining es tr _ _ h; cases h
  | succ fuel ih =>
    intro k entries i offset remaining es tr hdo hdr h
    have hR := level_range_pos hM k
    have hdR := level_range_dvd M k
    rw [set_range_trace] at h
    by_cases hr0 : remaining = 0
    · rw [if_pos hr0] at h
      cases h
      intro r hr
      cases hr
    rw [if_neg hr0, if_neg (by omega)] at h
    cases hg : entries[i]? with
    | none => rw [hg] at h; cases h
    | some e =>
      rw [hg] at h
      dsimp only at h
      by_cases hcov : offset % level_range M k = 0 ∧ remaining ≥ level_range M k
      · rw [if_pos hcov] at h
        exact ih k _ _ _ _ es tr (Dvd.dvd.add hdo hdR) (Nat.dvd_sub' hdr hdR) h
      rw [if_neg hcov] at h
      cases k with
      | zero =>
        exfalso
        rw [level_range_zero] at hcov
        apply hcov
        exact ⟨Nat.mod_eq_zero_of_dvd hdo, Nat.le_of_dvd (by omega) hdr⟩
      | succ k0 =>
        have hsh := level_range_shift M k0
        have hR0 := level_range_pos hM k0
        have hso : M ∣ offset % level_range M (k0 + 1) := (Nat.dvd_mod_iff hdR).mpr hdo
        have hsr : M ∣ (if remaining < level_range M (k0 + 1) - offset % level_range M (k0 + 1)
            then remaining else level_range M (k0 + 1) - offset % level_range M (k0 + 1)) := by
          split_ifs
          · exact hdr
          · exact Nat.dvd_sub' hdR hso
        generalize hsrd : (if remaining < level_range M (k0 + 1) -
            offset % level_range M (k0 + 1) then remaining
            else level_range M (k0 + 1) - offset % level_range M (k0 + 1)) = sub_remaining
          at h hsr
        have hsub : sub_remaining ≤ remaining := by
          rw [← hsrd]
          split_ifs <;> omega
        have inner : ∀ cs : List offset_map_entry,
            (if level_range M (k0 + 1) >>> N_CHILDREN_POW = 0 then none
              else
                match set_range_trace block fuel cs
                    (offset % level_range M (k0 + 1) /
                      level_range M (k0 + 1) >>> N_CHILDREN_POW)
                    (offset % level_range M (k0 + 1)) sub_remaining
                    (level_range M (k0 + 1) >>> N_CHILDREN_POW) with
                | none => none
                | some (cs1, t1) =>
                  match set_range_trace block fuel
                      (entries.set i
                        (if block = none then check_and_free_range (.node cs1) else .node cs1))
                      (i + 1) (offset + sub_remaining) (remaining - sub_remaining)
                      (level_range M (k0 + 1)) with
                  | none => none
                  | some (entries1, t2) =>
                    some (entries1,
                      level_range M (k0 + 1) >>> N_CHILDREN_POW :: t1 ++ t2)) =
              some (es, tr) →
            ∀ r ∈ tr, ∃ j, j < k0 + 1 ∧ r = level_range M j := by
          intro cs hin
          rw [hsh, if_neg (by omega)] at hin
          cases ht1 : set_range_trace block fuel cs
              (offset % level_range M (k0 + 1) / level_range M k0)
              (offset % level_range M (k0 + 1)) sub_remaining (level_range M k0) with
          | none => rw [ht1] at hin; cases hin
          | some r1 =>
            obtain ⟨cs1, t1⟩ := r1
            rw [ht1] at hin
            dsimp only at hin
            cases ht2 : set_range_trace block fuel
                (entries.set i
                  (if block = none then check_and_free_range (.node cs1) else .node cs1))
                (i + 1) (offset + sub_remaining) (remaining - sub_remaining)
                (level_range M (k0 + 1)) with
            | none => rw [ht2] at hin; cases hin
            | some r2 =>
              obtain ⟨es2, t2⟩ := r2
              rw [ht2] at hin
              dsimp only at hin
              injection hin with hin
              injection hin with _ htr
              rw [← htr]
              intro r hr
              rcases List.mem_cons.mp hr with hr | hr
              · exact ⟨k0, by omega, hr⟩
              · rcases List.mem_append.mp hr with hr | hr
                · obtain ⟨j, hj, e1⟩ := ih k0 _ _ _ _ cs1 t1 hso hsr ht1 r hr
                  exact ⟨j, by omega, e1⟩
                · exact ih (k0 + 1) _ _ _ _ es2 t2 (Dvd.dvd.add hdo hsr)
                    (Nat.dvd_sub' hdr hsr) ht2 r hr
        cases e with
        | leaf c =>
          cases c with
          | none => exact inner _ h
          | some b => cases h
        | node cs => exact inner cs h

/-- When `set_range` on the root returns, so does `set_range_trace`, with the
same entry. -/
theorem set_range_some_trace {entry e : offset_map_entry} {block : Option Nat}
    {offset remaining range : Nat}
    (h : set_range entry block offset remaining range = some e) :
    ∃ tr, set_range_trace block offset_map_fuel [entry] (offset / range) offset remaining range =
      some ([e], tr) := by
  unfold set_range at h
  split at h
  · cases h
  have hf := set_range_trace_fst block offset_map_fuel [entry] (offset / range) offset
    remaining range
  rw [← hf] at h
  cases ht : set_range_trace block offset_map_fuel [entry] (offset / range) offset remaining
      range with
  | none =>
    rw [ht] at h
    cases h
  | some r =>
    obtain ⟨es, tr⟩ := r
    rw [ht] at h
    refine ⟨tr, ?_⟩
    cases es with
    | nil => cases h
    | cons x rest =>
      cases rest with
      | nil =>
        simp only [Option.map_some', Option.some.injEq] at h
        rw [h]
      | cons y rest => cases h

/-! ## The maps that inserts and removes reach -/

/-- The calls of `map_ops_ok` return, and the map holds the blocks of
`map_blocks`. -/
theorem map_apply_repr {M : Nat} (hM : 0 < M) :
    ∀ (ops : List map_op) (bs : List pmemfile_block) (m : offset_map),
      map_ops_ok M bs ops → map_blocks_ok M bs → map_repr M m bs →
      ∃ m1, map_apply M m ops = some m1 ∧ map_repr M m1 (map_blocks bs ops) ∧
        map_blocks_ok M (map_blocks bs ops) := by
  intro ops
  induction ops with
  | nil =>
    intro bs m _ hok hr
    exact ⟨m, rfl, hr, hok⟩
  | cons op ops ih =>
    intro bs m hops hok hr
    cases op with
    | insert b =>
      obtain ⟨h1, h2⟩ : map_blocks_ok M (b :: bs) ∧ map_ops_ok M (b :: bs) ops := hops
      obtain ⟨m1, e1, hr1⟩ := insert_block_repr hM h1 hr
      obtain ⟨m2, e2, hr2, hok2⟩ := ih (b :: bs) m1 h2 h1 hr1
      refine ⟨m2, ?_, hr2, hok2⟩
      show (insert_block m b).bind (fun m1 => map_apply M m1 ops) = some m2
      rw [e1]
      exact e2
    | remove b =>
      obtain ⟨h1, h2⟩ : b ∈ bs ∧
        map_ops_ok M (bs.filter (fun x => x.addr != b.addr)) ops := hops
      obtain ⟨m1, e1, hr1, _⟩ := remove_block_repr hM hok h1 hr
      obtain ⟨m2, e2, hr2, hok2⟩ := ih _ m1 h2
        (map_blocks_ok_sublist (List.filter_sublist _) hok) hr1
      refine ⟨m2, ?_, hr2, hok2⟩
      show (remove_block M m b).bind (fun m1 => map_apply M m1 ops) = some m2
      rw [e1]
      exact e2

theorem level_range_eq (M k : Nat) : level_range M k = M * 16 ^ k := by
  unfold level_range
  have h : N_CHILDREN = 16 := by decide
  rw [h]

theorem level_range_ge (M k : Nat) : M ≤ level_range M k := by
  have := level_range_mono M (Nat.zero_le k)
  rw [level_range_zero] at this
  exact this

theorem vinode_wf_of_index {v : pmemfile_vinode} {c : List (Nat × Nat)}
    (hb : v.blocks = some c) (h1 : chain_wf v.chain) (h2 : index_ok v.chain c)
    (h3 : v.inode.size < 2 ^ 64) : vinode_wf v := by
  refine ⟨h1, ?_, h3⟩
  intro c1 hc1
  rw [hb] at hc1
  cases hc1
  exact h2

theorem vinode_wf_of_no_index {v : pmemfile_vinode}
    (hb : v.blocks = none) (h1 : chain_wf v.chain)
    (h3 : v.inode.size < 2 ^ 64) : vinode_wf v := by
  refine ⟨h1, ?_, h3⟩
  intro c1 hc1
  rw [hb] at hc1
  cases hc1

theorem cache_ok_of_none {v : pmemfile_vinode} {file : pmemfile_file}
    (h : file.block_pointer_cache = none) : cache_ok v file := by
  intro p hp
  rw [h] at hp
  cases hp

/-- C1 (write/read round trip).  Let the file be well formed (sorted, disjoint,
page-aligned chain; index, when built, reflecting the chain), let the pointer
cache of the handle be valid, and let the forced block size, if there is one,
be at most one page.  If `pmemfile_write` of the non-empty
buffer `buf` returns `buf.length`, then every handle with `PFILE_READ` and a
valid pointer cache (the writing handle is one) that is positioned where the
data went (the handle offset, or the old file size for an `O_APPEND` handle)
reads back exactly `buf` with a `pmemfile_read` of `buf.length` bytes. -/
theorem write_read_round_trip (cfg : config) (now now2 : pmemfile_time)
    (v v' : pmemfile_vinode) (file file' : pmemfile_file) (buf : List Nat)
    (hc : config_ok cfg) (hw : vinode_wf v) (hca : cache_ok v file)
    (ho : file.offset < 2 ^ 64) (hne : buf ≠ [])
    (hwr : pmemfile_write cfg now v file buf buf.length =
      some (Except.ok buf.length, v', file')) :
    cache_ok v' file' ∧ file'.flags = file.flags ∧
    ∀ g : pmemfile_file, g.flags &&& PFILE_READ ≠ 0 → cache_ok v' g →
      g.offset = (if file.flags &&& PFILE_APPEND ≠ 0 then v.inode.size else file.offset) →
      ∃ v2 g2, pmemfile_read now2 v' g buf.length =
        some (Except.ok buf.length, v2, g2, buf) := by
  have hlen : 0 < buf.length := List.length_pos.mpr hne
  obtain ⟨s1, s2, s3, s4, s5, s6, s7, s8, s9, s10, s11, s12, s13, s14, s15⟩ :=
    pmemfile_write_spec hc hw hca ho hwr hlen
  refine ⟨s12, s11, ?_⟩
  intro g hrd hcg hgo
  have hreg : vinode_is_regular_file v' = true := by
    unfold vinode_is_regular_file at s1 ⊢
    rw [s9]; exact s1
  have hsz : g.offset + buf.length ≤ v'.inode.size := by
    rw [s9, hgo]
    exact le_max_right _ _
  obtain ⟨v2, g2, r1, _⟩ :=
    pmemfile_read_covered now2 s7 hcg hreg hrd hlen s4 hsz (by rw [hgo]; exact s13)
  refine ⟨v2, g2, ?_⟩
  rw [r1]
  have hb : (List.range buf.length).map (fun i => content v'.chain (g.offset + i)) = buf := by
    conv => rhs; rw [← map_range_getD buf]
    apply List.map_congr_left
    intro i hi
    rw [List.mem_range] at hi
    rw [s15, hgo, if_pos (by omega)]
    congr 1; omega
  rw [hb]

theorem write_read_round_trip_witness :
    ∃ v2 g2, pmemfile_read ex_later ex_hello_written ex_file 5 =
      some (Except.ok 5, v2, g2, [104, 101, 108, 108, 111]) :=
  (write_read_round_trip ex_cfg ex_time ex_later ex_empty ex_hello_written ex_file
    ex_hello_handle ex_hello (by decide) (vinode_wf_of_no_index rfl (by decide) (by decide))
    (cache_ok_of_none rfl) (by decide) (by decide) (by rfl)).2.2 ex_file (by decide)
    (cache_ok_of_none rfl) (by rfl)

/-- C4.  If a `pmemfile_write` of `len > 0` bytes (`len` at most `SSIZE_MAX`,
handle offset plus `len` below `2 ^ 64`) returns a count, then the count is
`len`, the new logical size is `max S (o + len)` and the handle offset is
`o + len`, where `S` is the old logical size and `o` the position of the
write: the handle offset, or `S` for an `O_APPEND` handle. -/
theorem write_extends_size (cfg : config) (now : pmemfile_time)
    (v v' : pmemfile_vinode) (file file' : pmemfile_file) (buf : List Nat) (len r : Nat)
    (ho : file.offset < 2 ^ 64) (hs : v.inode.size < 2 ^ 64)
    (hlen : 0 < len) (hmax : len ≤ SSIZE_MAX) (hov : file.offset + len < 2 ^ 64)
    (hwr : pmemfile_write cfg now v file buf len = some (Except.ok r, v', file')) :
    r = len ∧
    v'.inode.size = max v.inode.size
      ((if file.flags &&& PFILE_APPEND ≠ 0 then v.inode.size else file.offset) + len) ∧
    file'.offset =
      (if file.flags &&& PFILE_APPEND ≠ 0 then v.inode.size else file.offset) + len := by
  obtain ⟨_, h1, h2⟩ := pmemfile_write_frame ho hs hwr
  have hr : r = len := h1 hmax hov
  subst hr
  rcases h2 with ⟨hz, _, _⟩ | ⟨_, _, h3, h4, _⟩
  · omega
  · exact ⟨rfl, by rw [h3], h4⟩

theorem write_extends_size_witness :
    5 = 5 ∧
    ex_hello_written.inode.size = max ex_empty.inode.size
      ((if ex_file.flags &&& PFILE_APPEND ≠ 0 then ex_empty.inode.size
        else ex_file.offset) + 5) ∧
    ex_hello_handle.offset =
      (if ex_file.flags &&& PFILE_APPEND ≠ 0 then ex_empty.inode.size
       else ex_file.offset) + 5 :=
  write_extends_size ex_cfg ex_time ex_empty ex_hello_written ex_file ex_hello_handle
    ex_hello 5 5 (by decide) (by decide) (by decide) (by decide) (by decide) (by rfl)

/-- C5 (append).  Let the file be well formed and the handle have `PFILE_APPEND`
and a valid pointer cache, whatever its offset, and let the forced block size,
if there is one, be at most one page.  If `pmemfile_write` of `buf`
returns `k`, the new logical size is the old one plus `k`, and a read of `k`
bytes at the position `size - k` (the last `k` bytes of the file) returns the
first `k` bytes of `buf`, which is all of `buf` unless the count was clamped. -/
theorem append_write (cfg : config) (now now2 : pmemfile_time)
    (v v' : pmemfile_vinode) (file file' : pmemfile_file) (buf : List Nat) (k : Nat)
    (hc : config_ok cfg) (hw : vinode_wf v) (hca : cache_ok v file)
    (ho : file.offset < 2 ^ 64) (happ : file.flags &&& PFILE_APPEND ≠ 0)
    (hwr : pmemfile_write cfg now v file buf buf.length = some (Except.ok k, v', file')) :
    v'.inode.size = v.inode.size + k ∧ k ≤ buf.length ∧
    (buf.length ≤ SSIZE_MAX → file.offset + buf.length < 2 ^ 64 → k = buf.length) ∧
    ∀ g : pmemfile_file, g.flags &&& PFILE_READ ≠ 0 → cache_ok v' g →
      g.offset = v'.inode.size - k →
      ∃ v2 g2, pmemfile_read now2 v' g k = some (Except.ok k, v2, g2, buf.take k) := by
  obtain ⟨hreg, hk1, h2⟩ := pmemfile_write_frame ho hw.2.2 hwr
  by_cases hk : k = 0
  · subst hk
    rcases h2 with ⟨_, hv, _⟩ | ⟨hpos, _⟩
    swap
    · omega
    subst hv
    refine ⟨rfl, Nat.zero_le _, hk1, ?_⟩
    intro g hrd _ hgo
    unfold pmemfile_read
    rw [if_neg (by simpa using hreg), if_neg hrd]
    dsimp only
    have hi : (if v'.blocks.isNone then vinode_rebuild_block_tree v' else v').inode
        = v'.inode := by split_ifs <;> rfl
    unfold file_read
    dsimp only
    rw [hi, if_pos (by omega)]
    exact ⟨_, _, rfl⟩
  · have hpos : 0 < k := by omega
    obtain ⟨s1, s2, s3, s4, s5, s6, s7, s8, s9, s10, s11, s12, s13, s14, s15⟩ :=
      pmemfile_write_spec hc hw hca ho hwr hpos
    rw [if_pos happ] at s9 s13 s14 s15
    have hsize : v'.inode.size = v.inode.size + k := by
      rw [s9]
      exact max_eq_right (by omega)
    refine ⟨hsize, s3, hk1, ?_⟩
    intro g hrd hcg hgo
    have hgo2 : g.offset = v.inode.size := by omega
    have hreg2 : vinode_is_regular_file v' = true := by
      unfold vinode_is_regular_file at s1 ⊢
      rw [s9]; exact s1
    obtain ⟨v2, g2, r1, _⟩ :=
      pmemfile_read_covered now2 s7 hcg hreg2 hrd hpos s4 (by omega)
        (by rw [hgo2]; exact s13)
    refine ⟨v2, g2, ?_⟩
    rw [r1]
    have hb : (List.range k).map (fun i => content v'.chain (g.offset + i)) = buf.take k := by
      rw [← map_range_getD_take buf k s3]
      apply List.map_congr_left
      intro i hi
      rw [List.mem_range] at hi
      rw [s15, hgo2, if_pos (by omega)]
      congr 1; omega
    rw [hb]

theorem append_write_witness :
    ex_appended.inode.size = ex_empty.inode.size + 5 ∧
    ∃ v2 g2, pmemfile_read ex_later ex_appended ex_file 5 =
      some (Except.ok 5, v2, g2, [104, 101, 108, 108, 111]) :=
  have h := append_write ex_cfg ex_time ex_later ex_empty ex_appended ex_file_append
    ex_appended_handle ex_hello 5 (by decide)
    (vinode_wf_of_no_index rfl (by decide) (by decide))
    (cache_ok_of_none rfl) (by decide) (by decide) (by rfl)
  ⟨h.1, h.2.2.2 ex_file (by decide) (cache_ok_of_none rfl) (by rfl)⟩

theorem ex_hello_written_wf : vinode_wf ex_hello_written ∧ ex_hello_written.inode.size = 5 :=
  have hwr : pmemfile_write ex_cfg ex_time ex_empty ex_file ex_hello ex_hello.length =
      some (Except.ok 5, ex_hello_written, ex_hello_handle) := by rfl
  have h := pmemfile_write_spec (by decide)
    (vinode_wf_of_no_index rfl (by decide) (by decide))
    (cache_ok_of_none rfl) (by decide) hwr (by decide)
  ⟨h.2.2.2.2.2.2.1, by rfl⟩

/-- C2 fails on a sparse file.  The file `ex_sparse` (well formed, size 8194)
has initialised blocks at `[0, 4096)` (all bytes 65) and `[8192, 12288)` (all
bytes 66).  A `pmemfile_read` of 4100 bytes at offset 4094, a range inside the
logical size, returns 4100 bytes that start with 65, 65, 0 and end with 0, 0,
although the last two positions, 8192 and 8193, are covered by the initialised
second block, whose stored bytes there are 66.  A read that starts at 8192
returns 66, 66. -/
theorem read_across_hole_skips_block :
    vinode_wf ex_sparse ∧
    (pmemfile_read ex_later ex_sparse { ex_file with offset := 4094 } 4100).map
        (fun r => (r.1, r.2.2.2.take 3, r.2.2.2.drop 4098)) =
      some (Except.ok 4100, [65, 65, 0], [0, 0]) ∧
    (covering ex_sparse.chain 8192).map
        (fun b => (b.offset, is_block_data_initialized b, b.data (8192 - b.offset))) =
      some (8192, true, 66) ∧
    (covering ex_sparse.chain 8193).map
        (fun b => (b.offset, is_block_data_initialized b, b.data (8193 - b.offset))) =
      some (8192, true, 66) ∧
    (pmemfile_read ex_later ex_sparse { ex_file with offset := 8192 } 2).map
        (fun r => (r.1, r.2.2.2)) = some (Except.ok 2, [66, 66]) := by
  refine ⟨@vinode_wf_of_index ex_sparse [(0, 1), (8192, 2)] rfl (by decide) (by decide)
    (by decide), ?_, by decide, by decide, by rfl⟩
  set_option maxRecDepth 100000 in
  rfl

/-- C3 (reads stop at EOF).  On a well-formed regular file of logical size `S`,
through a handle with `PFILE_READ`, a valid pointer cache and offset `o`,
`pmemfile_read` with a count `c` of at most `SSIZE_MAX` returns, its return
value is 0 when `o ≥ S` and `min c (S - o)` otherwise, it copies that many
bytes, and the handle offset grows by that number; `pmemfile_readv` with
buffers whose lengths sum to `c` returns the same value and advances the
handle offset by it. -/
theorem read_stops_at_eof (now : pmemfile_time) (v : pmemfile_vinode)
    (file : pmemfile_file) (c : Nat) (iov : List Nat)
    (hw : vinode_wf v) (hca : cache_ok v file)
    (hreg : vinode_is_regular_file v = true) (hrd : file.flags &&& PFILE_READ ≠ 0)
    (ho : file.offset < 2 ^ 64) (hc : c ≤ SSIZE_MAX) (hsum : iov.sum = c) :
    (∃ v2 g2 bytes,
      pmemfile_read now v file c =
        some (Except.ok (if file.offset ≥ v.inode.size then 0
                         else min c (v.inode.size - file.offset)), v2, g2, bytes) ∧
      bytes.length = (if file.offset ≥ v.inode.size then 0
                      else min c (v.inode.size - file.offset)) ∧
      g2.offset = file.offset + (if file.offset ≥ v.inode.size then 0
                                 else min c (v.inode.size - file.offset))) ∧
    ∃ v2, pmemfile_readv now v file iov =
      (Except.ok (if file.offset ≥ v.inode.size then 0
                  else min c (v.inode.size - file.offset)), v2,
       { file with offset := file.offset + (if file.offset ≥ v.inode.size then 0
                                             else min c (v.inode.size - file.offset)) }) := by
  have hr : (if file.offset ≥ v.inode.size then 0
      else if v.inode.size - file.offset < c then v.inode.size - file.offset else c) =
      (if file.offset ≥ v.inode.size then 0 else min c (v.inode.size - file.offset)) := by
    rw [Nat.min_def]; split_ifs <;> omega
  have hs := hw.2.2
  constructor
  · obtain ⟨v2, g2, bytes, r1, r2, r3, _⟩ := pmemfile_read_total now hw hca hreg hrd ho hc
    rw [hr] at r1 r2 r3
    exact ⟨v2, g2, bytes, r1, r2, r3⟩
  · unfold pmemfile_readv pmemfile_preadv_internal
    rw [if_neg (by simpa using hreg), if_neg hrd]
    by_cases hz : iov.length = 0
    · rw [if_pos hz]
      have hnil : iov = [] := List.length_eq_zero.mp hz
      subst hnil
      have hc0 : c = 0 := by rw [← hsum]; rfl
      subst hc0
      have h0 : (if file.offset ≥ v.inode.size then 0
          else min 0 (v.inode.size - file.offset)) = 0 := by
        split_ifs <;> simp
      rw [h0]
      refine ⟨v, ?_⟩
      dsimp only
      rw [u64_of_lt (by omega)]
    · rw [if_neg hz]
      dsimp only
      have hl := preadv_loop_spec v hs iov 0 file.offset ho (by omega)
      rw [Nat.zero_add, hsum, hr] at hl
      rw [hl]
      have hu : u64 (file.offset + (if file.offset ≥ v.inode.size then 0
          else min c (v.inode.size - file.offset))) =
          file.offset + (if file.offset ≥ v.inode.size then 0
            else min c (v.inode.size - file.offset)) := by
        apply u64_of_lt
        split_ifs
        · omega
        · have := Nat.min_le_right c (v.inode.size - file.offset)
          omega
      rw [hu]
      exact ⟨_, rfl⟩

theorem read_stops_at_eof_witness :
    (∃ v2 g2 bytes,
      pmemfile_read ex_later ex_hello_written ex_file 9 =
        some (Except.ok 5, v2, g2, bytes) ∧ bytes.length = 5 ∧ g2.offset = 0 + 5) ∧
    ∃ v2, pmemfile_readv ex_later ex_hello_written ex_file [4, 5] =
      (Except.ok 5, v2, { ex_file with offset := 0 + 5 }) :=
  read_stops_at_eof ex_later ex_hello_written ex_file 9 [4, 5] ex_hello_written_wf.1
    (cache_ok_of_none rfl) (by rfl) (by decide) (by decide) (by decide) (by rfl)

theorem ex_sparse_wf : vinode_wf ex_sparse :=
  @vinode_wf_of_index ex_sparse [(0, 1), (8192, 2)] rfl (by decide) (by decide) (by decide)

theorem ex_cfg_alloc_ok : alloc_ok ex_cfg := ⟨by decide, fun n => Nat.le_refl n⟩

/-- C6 as stated fails.  On `ex_sparse`, whose first page holds the byte 65
everywhere, `vinode_fallocate` with `PUNCH_HOLE | KEEP_SIZE` on offset 0 and
length 100 returns 0 and leaves the file as it was, so that a read of byte 0,
a position of `[0, 100)`, still returns 65. -/
theorem punch_hole_inside_a_page_clears_nothing :
    vinode_fallocate ex_cfg ex_sparse (PMEMFILE_FL_PUNCH_HOLE ||| PMEMFILE_FL_KEEP_SIZE) 0 100 =
      some (0, ex_sparse) ∧
    (pmemfile_read ex_later ex_sparse ex_file 1).map (fun r => (r.1, r.2.2.2)) =
      some (Except.ok 1, [65]) :=
  ⟨by rfl, by rfl⟩

/-- C6, amended.  On a well-formed regular file, for `offset + length` below
`2 ^ 63`, `vinode_fallocate` with `PUNCH_HOLE | KEEP_SIZE` returns 0, keeps the
file well formed and the inode unchanged.  Afterwards every position of
`[page_roundup offset, page_rounddown (offset + length))`, the whole pages
inside the range, holds 0, and every other position, those of the range that
lie in a partly covered page included, holds the byte it held before; a
`pmemfile_read` of one byte in front of the end of the file returns that
byte. -/
theorem punch_hole_whole_pages (cfg : config) (v : pmemfile_vinode)
    (mode offset length : Nat) (hw : vinode_wf v)
    (hreg : vinode_is_regular_file v = true)
    (hp : mode &&& PMEMFILE_FL_PUNCH_HOLE ≠ 0) (hk : mode &&& PMEMFILE_FL_KEEP_SIZE ≠ 0)
    (hend : offset + length < 2 ^ 63) :
    ∃ v', vinode_fallocate cfg v mode offset length = some (0, v') ∧ vinode_wf v' ∧
      v'.inode = v.inode ∧
      (∀ pos, content v'.chain pos =
        if page_roundup offset ≤ pos ∧ pos < page_rounddown (offset + length) then 0
        else content v.chain pos) ∧
      ∀ (now : pmemfile_time) (g : pmemfile_file), cache_ok v' g →
        g.flags &&& PFILE_READ ≠ 0 → g.offset < v.inode.size →
        ∃ v2 g2, pmemfile_read now v' g 1 =
          some (Except.ok 1, v2, g2,
            [if page_roundup offset ≤ g.offset ∧ g.offset < page_rounddown (offset + length)
              then 0 else content v.chain g.offset]) := by
  obtain ⟨v', h1, h2, h3, h4⟩ := vinode_fallocate_punch_spec cfg hw hreg hp hk hend
  refine ⟨v', h1, h2, h3, h4, ?_⟩
  intro now g hca hrd hsz
  have hreg2 : vinode_is_regular_file v' = true := by
    unfold vinode_is_regular_file at hreg ⊢
    rw [h3]; exact hreg
  obtain ⟨v2, g2, hr⟩ := pmemfile_read_one now h2 hca hreg2 hrd (by rw [h3]; exact hsz)
  rw [h4] at hr
  exact ⟨v2, g2, hr⟩

theorem punch_hole_whole_pages_witness :
    ∃ v', vinode_fallocate ex_cfg ex_sparse 3 0 5000 = some (0, v') ∧ vinode_wf v' ∧
      v'.inode = ex_sparse.inode ∧
      (∀ pos, content v'.chain pos =
        if page_roundup 0 ≤ pos ∧ pos < page_rounddown (0 + 5000) then 0
        else content ex_sparse.chain pos) ∧
      ∀ (now : pmemfile_time) (g : pmemfile_file), cache_ok v' g →
        g.flags &&& PFILE_READ ≠ 0 → g.offset < ex_sparse.inode.size →
        ∃ v2 g2, pmemfile_read now v' g 1 =
          some (Except.ok 1, v2, g2,
            [if page_roundup 0 ≤ g.offset ∧ g.offset < page_rounddown (0 + 5000)
              then 0 else content ex_sparse.chain g.offset]) :=
  punch_hole_whole_pages ex_cfg ex_sparse 3 0 5000 ex_sparse_wf (by rfl) (by decide)
    (by decide) (by decide)

/-- C7.  Let `v` be a regular file.  Whenever `vinode_truncate` to `N` returns,
the logical size is `N`, the file is still regular, and a `pmemfile_read`
through any handle with `PFILE_READ` whose offset is at or behind `N` returns 0
and copies no byte.  And it does return when the file is well formed, `N`
fits `off_t`, the forced block size is a page multiple, the allocator reports
usable sizes that are not below the requested ones, and no block in front of
`N` starts at a positive multiple of `2 ^ 32` behind the page of the old
size. -/
theorem truncate_then_read (cfg : config) (now : pmemfile_time) (v : pmemfile_vinode)
    (N : Nat) (hreg : vinode_is_regular_file v = true) :
    (∀ v', vinode_truncate cfg now v N = some v' →
      v'.inode.size = N ∧ vinode_is_regular_file v' = true ∧
      ∀ (now2 : pmemfile_time) (g : pmemfile_file) (count : Nat),
        g.flags &&& PFILE_READ ≠ 0 → N ≤ g.offset → g.offset < 2 ^ 64 →
        ∃ v2, pmemfile_read now2 v' g count = some (Except.ok 0, v2, g, [])) ∧
    (config_ok cfg → alloc_ok cfg → vinode_wf v → N ≤ SSIZE_MAX →
      (∀ a ∈ v.chain, a.offset < N → page_rounddown v.inode.size < a.offset →
        (a.offset - page_rounddown v.inode.size) % 2 ^ 32 ≠ 0) →
      ∃ v', vinode_truncate cfg now v N = some v') := by
  constructor
  · intro v' h
    obtain ⟨f1, f2, f3⟩ := vinode_truncate_frame h
    have hreg2 : vinode_is_regular_file v' = true := by
      unfold vinode_is_regular_file at hreg ⊢
      by_cases he : v.inode.size = N
      · rw [f2 he]; exact hreg
      · rw [f3 he]; exact hreg
    refine ⟨f1, hreg2, ?_⟩
    intro now2 g count hrd hge ho
    obtain ⟨v2, hr, _⟩ := pmemfile_read_eof now2 hreg2 hrd ho (by rw [f1]; exact hge) count
    exact ⟨v2, hr⟩
  · intro hc hao hw hN hnt
    obtain ⟨v', h, _⟩ := vinode_truncate_total hc hao now hw hN hnt
    exact ⟨v', h⟩

theorem truncate_then_read_witness :
    ∃ v', vinode_truncate ex_cfg ex_later ex_sparse 100 = some v' ∧ v'.inode.size = 100 ∧
      ∃ v2, pmemfile_read ex_later v' { ex_file with offset := 100 } 7 =
        some (Except.ok 0, v2, { ex_file with offset := 100 }, []) :=
  have h := truncate_then_read ex_cfg ex_later ex_sparse 100 (by rfl)
  (h.2 (by decide) ex_cfg_alloc_ok ex_sparse_wf (by decide) (by decide)).imp
    (fun v' hv => ⟨hv, (h.1 v' hv).1,
      (h.1 v' hv).2.2 ex_later { ex_file with offset := 100 } 7 (by decide) (by decide)
        (by decide)⟩)

/-- C8 as stated fails.  `vinode_truncate` of `ex_sparse`, of size 8194 and
with `mtime = ex_time`, to the size 8194 at the later time `ex_later` returns a
file whose `mtime` is still `ex_time`. -/
theorem truncate_to_same_size_keeps_mtime :
    (vinode_truncate ex_cfg ex_later ex_sparse 8194).map
        (fun v => (v.inode.size, v.inode.mtime)) = some (8194, ex_time) ∧
    ex_sparse.inode.size = 8194 ∧ ex_time ≠ ex_later := by
  decide

/-- C8, amended.  On a well-formed file `vinode_truncate` to a `new_size` that
fits `off_t` returns (under the conditions on the knobs, the allocator and the
block offsets named for C7) and keeps the file well formed; the logical size
is then `new_size`; when `new_size` differs from the old size, `mtime` is the
current time and the other fields of the inode are the old ones; when
`new_size` is the old size, the inode, `mtime` included, is the old one. -/
theorem truncate_size_and_mtime (cfg : config) (now : pmemfile_time) (v : pmemfile_vinode)
    (new_size : Nat) (hc : config_ok cfg) (hao : alloc_ok cfg) (hw : vinode_wf v)
    (hN : new_size ≤ SSIZE_MAX)
    (hnt : ∀ a ∈ v.chain, a.offset < new_size → page_rounddown v.inode.size < a.offset →
      (a.offset - page_rounddown v.inode.size) % 2 ^ 32 ≠ 0) :
    ∃ v', vinode_truncate cfg now v new_size = some v' ∧ vinode_wf v' ∧
      v'.inode.size = new_size ∧
      (v.inode.size ≠ new_size →
        v'.inode = { v.inode with size := new_size, mtime := now }) ∧
      (v.inode.size = new_size → v'.inode = v.inode) := by
  obtain ⟨v', h, hw', _⟩ := vinode_truncate_total hc hao now hw hN hnt
  obtain ⟨f1, f2, f3⟩ := vinode_truncate_frame h
  exact ⟨v', h, hw', f1, f3, f2⟩

theorem truncate_size_and_mtime_witness :
    ∃ v', vinode_truncate ex_cfg ex_later ex_sparse 100 = some v' ∧ vinode_wf v' ∧
      v'.inode.size = 100 ∧
      (ex_sparse.inode.size ≠ 100 →
        v'.inode = { ex_sparse.inode with size := 100, mtime := ex_later }) ∧
      (ex_sparse.inode.size = 100 → v'.inode = ex_sparse.inode) :=
  truncate_size_and_mtime ex_cfg ex_later ex_sparse 100 (by decide) ex_cfg_alloc_ok
    ex_sparse_wf (by decide) (by decide)

/-- C9.  On a well-formed file with a built index, for `len > 0` and
`offset + len` below `2 ^ 64`, `vinode_remove_interval` returns; the file is
still well formed and its inode unchanged; every position of
`[offset, offset + len)` then holds 0 (a hole, a block that is not
initialised, or cleared block data) and every other position holds the byte it
held before; a `pmemfile_read` of one byte in front of the end of the file
returns that byte. -/
theorem remove_interval_content (v : pmemfile_vinode) (c : List (Nat × Nat))
    (offset len : Nat) (hw : vinode_wf v) (hcb : v.blocks = some c) (hl : 0 < len)
    (hend : offset + len < 2 ^ 64) :
    ∃ v', vinode_remove_interval v offset len = some v' ∧ vinode_wf v' ∧
      v'.inode = v.inode ∧
      (∀ pos, content v'.chain pos =
        if offset ≤ pos ∧ pos < offset + len then 0 else content v.chain pos) ∧
      ∀ (now : pmemfile_time) (g : pmemfile_file), vinode_is_regular_file v = true →
        cache_ok v' g → g.flags &&& PFILE_READ ≠ 0 → g.offset < v.inode.size →
        ∃ v2 g2, pmemfile_read now v' g 1 =
          some (Except.ok 1, v2, g2,
            [if offset ≤ g.offset ∧ g.offset < offset + len then 0
             else content v.chain g.offset]) := by
  obtain ⟨v', h1, h2, _, h3, h4, _, _⟩ := vinode_remove_interval_spec hw hcb hl hend
  refine ⟨v', h1, h2, h3, h4, ?_⟩
  intro now g hreg hca hrd hsz
  have hreg2 : vinode_is_regular_file v' = true := by
    unfold vinode_is_regular_file at hreg ⊢
    rw [h3]; exact hreg
  obtain ⟨v2, g2, hr⟩ := pmemfile_read_one now h2 hca hreg2 hrd (by rw [h3]; exact hsz)
  rw [h4] at hr
  exact ⟨v2, g2, hr⟩

theorem remove_interval_content_witness :
    ∃ v', vinode_remove_interval ex_sparse 100 9000 = some v' ∧ vinode_wf v' ∧
      v'.inode = ex_sparse.inode ∧
      (∀ pos, content v'.chain pos =
        if 100 ≤ pos ∧ pos < 100 + 9000 then 0 else content ex_sparse.chain pos) ∧
      ∀ (now : pmemfile_time) (g : pmemfile_file), vinode_is_regular_file ex_sparse = true →
        cache_ok v' g → g.flags &&& PFILE_READ ≠ 0 → g.offset < ex_sparse.inode.size →
        ∃ v2 g2, pmemfile_read now v' g 1 =
          some (Except.ok 1, v2, g2,
            [if 100 ≤ g.offset ∧ g.offset < 100 + 9000 then 0
             else content ex_sparse.chain g.offset]) :=
  remove_interval_content ex_sparse [(0, 1), (8192, 2)] 100 9000 ex_sparse_wf rfl
    (by decide) (by decide)

/-- C10 fails when the hole before the first block is a multiple of `2 ^ 32`.
The file `ex_far` is well formed, its only block starts at `2 ^ 32`, its index
is consistent.  The request `offset = 0`, `size = 2 ^ 32 + 4096` does not
overflow, the branch "in a hole before the first block" computes
`count = (uint32_t)(first_offset - offset) = 0`, and `file_allocate_block_data`
stops at `ASSERT(count > 0)`: the call yields no file in which the range is
covered. -/
theorem allocate_before_far_block_fails :
    vinode_wf ex_far ∧
    ex_far.chain.map (fun b => (b.offset, b.size)) = [(2 ^ 32, 4096)] ∧
    u32 (sub64 (2 ^ 32) 0) = 0 ∧
    (file_allocate_block_data ex_cfg
      { addr := 2, offset := 0, size := 0, flags := 0, data := fun _ => 0 } 0 false).isNone
      = true ∧
    vinode_allocate_interval ex_cfg ex_far 0 (2 ^ 32 + 4096) = none :=
  ⟨@vinode_wf_of_index ex_far [(2 ^ 32, 1)] rfl (by decide) (by decide) (by decide),
    by decide, by decide, by decide, by rfl⟩

/-- C12.  `overallocate_size` follows the tiered schedule: 16 KiB for a count of
at most 4 KiB, 256 KiB for a count above 4 KiB and at most 64 KiB, 4 MiB for a
count above 64 KiB and at most 1 MiB, 64 MiB for a count above 1 MiB and at
most 64 MiB, and the count itself above that. -/
theorem overallocate_size_schedule (count : Nat) :
    (count ≤ 4 * 1024 → overallocate_size count = 16 * 1024) ∧
    (4 * 1024 < count → count ≤ 64 * 1024 → overallocate_size count = 256 * 1024) ∧
    (64 * 1024 < count → count ≤ 1024 * 1024 → overallocate_size count = 4 * 1024 * 1024) ∧
    (1024 * 1024 < count → count ≤ 64 * 1024 * 1024 →
      overallocate_size count = 64 * 1024 * 1024) ∧
    (64 * 1024 * 1024 < count → overallocate_size count = count) := by
  unfold overallocate_size
  refine ⟨?_, ?_, ?_, ?_, ?_⟩ <;> intros <;> split_ifs <;> omega

/-- C14.  `expand_to_full_pages` rounds outward.  For
`offset + length + 4095 < 2 ^ 64` the new offset and the new length are
multiples of 4096, the new range contains `[offset, offset + length)`, the new
offset is less than a page below `offset` and the new end less than a page
above `offset + length`; for a range that is not empty, every page-aligned
range that contains it contains the new range. -/
theorem expand_to_full_pages_outward (offset length : Nat)
    (h : offset + length + 4095 < 2 ^ 64) :
    (expand_to_full_pages offset length).1 % 4096 = 0 ∧
    (expand_to_full_pages offset length).2 % 4096 = 0 ∧
    (expand_to_full_pages offset length).1 ≤ offset ∧
    offset + length ≤
      (expand_to_full_pages offset length).1 + (expand_to_full_pages offset length).2 ∧
    offset - (expand_to_full_pages offset length).1 < 4096 ∧
    ((expand_to_full_pages offset length).1 + (expand_to_full_pages offset length).2) -
      (offset + length) < 4096 ∧
    ∀ o l : Nat, o % 4096 = 0 → l % 4096 = 0 → o ≤ offset → offset + length ≤ o + l →
      0 < length →
      o ≤ (expand_to_full_pages offset length).1 ∧
      (expand_to_full_pages offset length).1 + (expand_to_full_pages offset length).2 ≤ o + l := by
  simp only [expand_to_full_pages, page_roundup, page_rounddown, u64, FILE_PAGE_SIZE]
  refine ⟨?_, ?_, ?_, ?_, ?_, ?_, ?_⟩
  all_goals omega

theorem expand_to_full_pages_outward_witness :
    (expand_to_full_pages 5000 100).1 % 4096 = 0 ∧
    (expand_to_full_pages 5000 100).2 % 4096 = 0 ∧
    (expand_to_full_pages 5000 100).1 ≤ 5000 ∧
    5000 + 100 ≤ (expand_to_full_pages 5000 100).1 + (expand_to_full_pages 5000 100).2 ∧
    5000 - (expand_to_full_pages 5000 100).1 < 4096 ∧
    ((expand_to_full_pages 5000 100).1 + (expand_to_full_pages 5000 100).2) -
      (5000 + 100) < 4096 ∧
    ∀ o l : Nat, o % 4096 = 0 → l % 4096 = 0 → o ≤ 5000 → 5000 + 100 ≤ o + l →
      0 < 100 →
      o ≤ (expand_to_full_pages 5000 100).1 ∧
      (expand_to_full_pages 5000 100).1 + (expand_to_full_pages 5000 100).2 ≤ o + l :=
  expand_to_full_pages_outward 5000 100 (by decide)

/-- C15.  `narrow_to_full_pages` rounds inward.  For
`offset + length + 4095 < 2 ^ 64` the new offset and the new length are
multiples of 4096; a position lies in the new range exactly when it lies in a
page `[4096 k, 4096 (k + 1))` that is contained in `[offset, offset + length)`;
the new length is 0 when the range contains no whole page. -/
theorem narrow_to_full_pages_inward (offset length : Nat)
    (h : offset + length + 4095 < 2 ^ 64) :
    (narrow_to_full_pages offset length).1 % 4096 = 0 ∧
    (narrow_to_full_pages offset length).2 % 4096 = 0 ∧
    (∀ pos : Nat,
      ((narrow_to_full_pages offset length).1 ≤ pos ∧
        pos < (narrow_to_full_pages offset length).1 + (narrow_to_full_pages offset length).2) ↔
      ∃ k : Nat, 4096 * k ≤ pos ∧ pos < 4096 * (k + 1) ∧ offset ≤ 4096 * k ∧
        4096 * (k + 1) ≤ offset + length) ∧
    ((∀ k : Nat, ¬ (offset ≤ 4096 * k ∧ 4096 * (k + 1) ≤ offset + length)) →
      (narrow_to_full_pages offset length).2 = 0) := by
  have hu : u64 (offset + length) = offset + length := u64_of_lt (by omega)
  have hr : page_roundup offset = (offset + 4095) / 4096 * 4096 := by
    simp only [page_roundup, page_rounddown, u64, FILE_PAGE_SIZE]
    omega
  have hd : page_rounddown (offset + length) = (offset + length) / 4096 * 4096 := by
    simp only [page_rounddown, FILE_PAGE_SIZE]
    omega
  have h1 : (narrow_to_full_pages offset length).1 = (offset + 4095) / 4096 * 4096 := by
    unfold narrow_to_full_pages
    dsimp only
    rw [hr]
    split_ifs <;> rfl
  have h2 : (narrow_to_full_pages offset length).2 =
      (offset + length) / 4096 * 4096 - (offset + 4095) / 4096 * 4096 := by
    unfold narrow_to_full_pages
    dsimp only
    rw [hu, hr, hd]
    split_ifs
    · rfl
    · show 0 = _
      omega
  rw [h1, h2]
  refine ⟨by omega, by omega, ?_, ?_⟩
  · intro pos
    constructor
    · intro hp
      exact ⟨pos / 4096, by omega, by omega, by omega, by omega⟩
    · rintro ⟨k, k1, k2, k3, k4⟩
      omega
  · intro hk
    have := hk ((offset + 4095) / 4096)
    omega

theorem narrow_to_full_pages_inward_witness :
    (narrow_to_full_pages 100 9000).1 % 4096 = 0 ∧
    (narrow_to_full_pages 100 9000).2 % 4096 = 0 ∧
    (∀ pos : Nat,
      ((narrow_to_full_pages 100 9000).1 ≤ pos ∧
        pos < (narrow_to_full_pages 100 9000).1 + (narrow_to_full_pages 100 9000).2) ↔
      ∃ k : Nat, 4096 * k ≤ pos ∧ pos < 4096 * (k + 1) ∧ 100 ≤ 4096 * k ∧
        4096 * (k + 1) ≤ 100 + 9000) ∧
    ((∀ k : Nat, ¬ (100 ≤ 4096 * k ∧ 4096 * (k + 1) ≤ 100 + 9000)) →
      (narrow_to_full_pages 100 9000).2 = 0) :=
  narrow_to_full_pages_inward 100 9000 (by decide)

/-- C16.  `pmemfile_lseek` with `SEEK_SET`, `SEEK_CUR` or `SEEK_END` on a
regular file, through a handle that is not path-only, with the handle offset
and the logical size in the range of `off_t`.  The target is `offset`, the
handle offset plus `offset`, or the logical size plus `offset`, computed in
`off_t`.  A target that is not negative is returned and becomes the handle
offset.  A negative target gives `-1` and leaves the handle as it was, with
`EINVAL` for `SEEK_SET`, and for `SEEK_CUR` and `SEEK_END` with `EINVAL` when
`offset` is negative and `EOVERFLOW` otherwise.  The target computed in
`off_t` is the exact sum unless that sum is `2 ^ 63` or more, in which case the
target is negative. -/
theorem lseek_set_cur_end (v : pmemfile_vinode) (file : pmemfile_file) (offset whence : Int)
    (hreg : vinode_is_regular_file v = true) (hp : file.flags &&& PFILE_PATH = 0)
    (ho1 : -2 ^ 63 ≤ offset) (ho2 : offset < 2 ^ 63)
    (hfo : file.offset < 2 ^ 63) (hs : v.inode.size < 2 ^ 63)
    (hw : whence = PMEMFILE_SEEK_SET ∨ whence = PMEMFILE_SEEK_CUR ∨
      whence = PMEMFILE_SEEK_END) :
    pmemfile_lseek v file offset whence =
      (if 0 ≤ (if whence = PMEMFILE_SEEK_SET then offset
               else if whence = PMEMFILE_SEEK_CUR then s64 ((file.offset : Int) + offset)
               else s64 ((v.inode.size : Int) + offset)) then
        some (Except.ok (if whence = PMEMFILE_SEEK_SET then offset
               else if whence = PMEMFILE_SEEK_CUR then s64 ((file.offset : Int) + offset)
               else s64 ((v.inode.size : Int) + offset)), v,
          { file with offset := (if whence = PMEMFILE_SEEK_SET then offset
               else if whence = PMEMFILE_SEEK_CUR then s64 ((file.offset : Int) + offset)
               else s64 ((v.inode.size : Int) + offset)).toNat })
      else
        some (Except.error (if whence = PMEMFILE_SEEK_SET then EINVAL
               else if offset < 0 then EINVAL else EOVERFLOW), v, file)) ∧
    (∀ base : Nat, base < 2 ^ 63 →
      ((base : Int) + offset < 2 ^ 63 → s64 ((base : Int) + offset) = (base : Int) + offset) ∧
      (2 ^ 63 ≤ (base : Int) + offset → s64 ((base : Int) + offset) < 0 ∧ 0 ≤ offset)) := by
  constructor
  · have hnd := regular_not_dir hreg
    have hf1 : s64 (file.offset : Int) = (file.offset : Int) := s64_of_nat hfo
    have hf2 : s64 (v.inode.size : Int) = (v.inode.size : Int) := s64_of_nat hs
    unfold pmemfile_lseek
    rw [if_neg (by simp [hp]), if_neg (by simp [hnd]), if_neg (by simp [hreg])]
    rw [hf1, hf2]
    rcases hw with hw | hw | hw
    · subst hw
      simp only [if_true]
      by_cases hneg : offset < 0
      · rw [if_pos hneg, if_neg (show ¬ 0 ≤ offset by omega)]
      · rw [if_neg hneg, if_pos (show 0 ≤ offset by omega),
          u64_of_int_of_nonneg (show 0 ≤ offset by omega) (by omega)]
    · subst hw
      have e1 : ¬ (PMEMFILE_SEEK_CUR = PMEMFILE_SEEK_SET) := by decide
      simp only [e1, if_false, if_true]
      have hr := s64_range ((file.offset : Int) + offset)
      generalize s64 ((file.offset : Int) + offset) = t at *
      by_cases hneg : t < 0
      · rw [if_pos hneg, if_pos hneg, if_neg (show ¬ 0 ≤ t by omega)]
      · rw [if_neg hneg, if_pos (show 0 ≤ t by omega),
          u64_of_int_of_nonneg (show 0 ≤ t by omega) (by omega)]
    · subst hw
      have e1 : ¬ (PMEMFILE_SEEK_END = PMEMFILE_SEEK_SET) := by decide
      have e2 : ¬ (PMEMFILE_SEEK_END = PMEMFILE_SEEK_CUR) := by decide
      simp only [e1, e2, if_false, if_true]
      have hr := s64_range ((v.inode.size : Int) + offset)
      generalize s64 ((v.inode.size : Int) + offset) = t at *
      by_cases hneg : t < 0
      · rw [if_pos hneg, if_pos hneg, if_neg (show ¬ 0 ≤ t by omega)]
      · rw [if_neg hneg, if_pos (show 0 ≤ t by omega),
          u64_of_int_of_nonneg (show 0 ≤ t by omega) (by omega)]
  · intro base hb
    unfold s64
    constructor
    · intro h1
      omega
    · intro h1
      omega

theorem lseek_set_cur_end_witness :
    pmemfile_lseek ex_sparse { ex_file with offset := 10 } (-4) PMEMFILE_SEEK_CUR =
      some (Except.ok 6, ex_sparse, { ex_file with offset := 6 }) ∧
    pmemfile_lseek ex_sparse { ex_file with offset := 10 } (2 ^ 63 - 1) PMEMFILE_SEEK_CUR =
      some (Except.error EOVERFLOW, ex_sparse, { ex_file with offset := 10 }) :=
  ⟨(lseek_set_cur_end ex_sparse { ex_file with offset := 10 } (-4) PMEMFILE_SEEK_CUR
      (by rfl) (by decide) (by decide) (by decide) (by decide) (by decide)
      (Or.inr (Or.inl rfl))).1,
   (lseek_set_cur_end ex_sparse { ex_file with offset := 10 } (2 ^ 63 - 1) PMEMFILE_SEEK_CUR
      (by rfl) (by decide) (by decide) (by decide) (by decide) (by decide)
      (Or.inr (Or.inl rfl))).1⟩

/-- C19.  On a regular file, through a handle that is not path-only,
`pmemfile_lseek` with `SEEK_DATA` or `SEEK_HOLE` and an offset beyond the
logical size returns `-1` with `ENXIO` and leaves the handle, its offset
included, and the file as they were. -/
theorem lseek_data_hole_beyond_eof (v : pmemfile_vinode) (file : pmemfile_file)
    (offset whence : Int)
    (hreg : vinode_is_regular_file v = true) (hp : file.flags &&& PFILE_PATH = 0)
    (ho : offset < 2 ^ 63) (hbeyond : (v.inode.size : Int) < offset)
    (hw : whence = PMEMFILE_SEEK_DATA ∨ whence = PMEMFILE_SEEK_HOLE) :
    pmemfile_lseek v file offset whence = some (Except.error ENXIO, v, file) := by
  have hnd := regular_not_dir hreg
  have hs : s64 (v.inode.size : Int) = (v.inode.size : Int) := by
    unfold s64; omega
  have hd : lseek_seek_data_or_hole v offset whence = some (-( ENXIO : Int), v) := by
    unfold lseek_seek_data_or_hole
    dsimp only
    rw [if_neg (by simp [hreg]), hs, if_pos (by omega)]
  unfold pmemfile_lseek
  rw [if_neg (by simp [hp]), if_neg (by simp [hnd]), if_neg (by simp [hreg])]
  have e1 : ¬ (whence = PMEMFILE_SEEK_SET) := by
    rcases hw with h | h <;> rw [h] <;> decide
  have e2 : ¬ (whence = PMEMFILE_SEEK_CUR) := by
    rcases hw with h | h <;> rw [h] <;> decide
  have e3 : ¬ (whence = PMEMFILE_SEEK_END) := by
    rcases hw with h | h <;> rw [h] <;> decide
  simp only [e1, e2, e3, if_false, hw, if_true, hd]
  rfl

theorem lseek_data_hole_beyond_eof_witness :
    pmemfile_lseek ex_sparse ex_file 9000 PMEMFILE_SEEK_HOLE =
      some (Except.error ENXIO, ex_sparse, ex_file) :=
  lseek_data_hole_beyond_eof ex_sparse ex_file 9000 PMEMFILE_SEEK_HOLE (by rfl) (by decide)
    (by decide) (by decide) (Or.inr rfl)

/-- C20 (relatime).  On a regular file, through a handle with `PFILE_READ`:
whenever `pmemfile_read` returns a count, and for every `pmemfile_readv` with
at least one buffer, the inode afterwards is the old inode with `atime` set to
the current time when the handle has no `PFILE_NOATIME` and `atime < ctime`, or
`atime < mtime`, or `atime < now - 86400 s` (time stamps compared
lexicographically on `(sec, nsec)`), and it is the old inode, `atime` included,
in every other case, so in particular whenever the handle has `PFILE_NOATIME`.
And `pmemfile_read` does return a count on a well-formed file. -/
theorem relatime (now : pmemfile_time) (v : pmemfile_vinode) (g : pmemfile_file)
    (count : Nat) (iov : List Nat)
    (hreg : vinode_is_regular_file v = true) (hrd : g.flags &&& PFILE_READ ≠ 0) :
    (∀ n v2 g2 bytes, pmemfile_read now v g count = some (Except.ok n, v2, g2, bytes) →
      v2.inode =
        if g.flags &&& PFILE_NOATIME = 0 ∧
            (time_lt v.inode.atime v.inode.ctime ∨ time_lt v.inode.atime v.inode.mtime ∨
              time_lt v.inode.atime { sec := now.sec - 86400, nsec := now.nsec })
        then { v.inode with atime := now } else v.inode) ∧
    (iov ≠ [] →
      (pmemfile_readv now v g iov).2.1.inode =
        if g.flags &&& PFILE_NOATIME = 0 ∧
            (time_lt v.inode.atime v.inode.ctime ∨ time_lt v.inode.atime v.inode.mtime ∨
              time_lt v.inode.atime { sec := now.sec - 86400, nsec := now.nsec })
        then { v.inode with atime := now } else v.inode) ∧
    (vinode_wf v → cache_ok v g → g.offset < 2 ^ 64 → count ≤ SSIZE_MAX →
      ∃ n v2 g2 bytes, pmemfile_read now v g count = some (Except.ok n, v2, g2, bytes)) := by
  have hcond : ∀ i : pmemfile_inode,
      ((decide (g.flags &&& PFILE_NOATIME = 0) &&
        (decide (time_cmp i.atime { sec := now.sec - 86400, nsec := now.nsec } < 0) ||
          decide (time_cmp i.atime i.ctime < 0) ||
          decide (time_cmp i.atime i.mtime < 0))) = true) ↔
      (g.flags &&& PFILE_NOATIME = 0 ∧
        (time_lt i.atime i.ctime ∨ time_lt i.atime i.mtime ∨
          time_lt i.atime { sec := now.sec - 86400, nsec := now.nsec })) := by
    intro i
    simp only [Bool.and_eq_true, Bool.or_eq_true, decide_eq_true_eq, time_cmp_neg_iff]
    tauto
  refine ⟨?_, ?_, ?_⟩
  · intro n v2 g2 bytes h
    unfold pmemfile_read at h
    rw [if_neg (by simpa using hreg), if_neg hrd] at h
    dsimp only at h
    have hi : (if v.blocks.isNone then vinode_rebuild_block_tree v else v).inode
        = v.inode := by split_ifs <;> rfl
    generalize (if v.blocks.isNone then vinode_rebuild_block_tree v else v) = v1 at h hi
    cases hfr : file_read v1 g (if count > SSIZE_MAX then SSIZE_MAX else count) with
    | none => rw [hfr] at h; cases h
    | some r =>
      obtain ⟨br, f1, bs⟩ := r
      rw [hfr] at h
      dsimp only at h
      simp only [Option.some.injEq, Prod.mk.injEq] at h
      obtain ⟨_, h2, _, _⟩ := h
      rw [← h2]
      have hc := hcond v1.inode
      by_cases hu : g.flags &&& PFILE_NOATIME = 0 ∧
          (time_lt v.inode.atime v.inode.ctime ∨ time_lt v.inode.atime v.inode.mtime ∨
            time_lt v.inode.atime { sec := now.sec - 86400, nsec := now.nsec })
      · have hb := hc.mpr (by rw [hi]; exact hu)
        rw [if_pos hu, if_pos hb]
        show { v1.inode with atime := now } = _
        rw [hi]
      · have hb : ¬ _ := fun hb => hu (by have h3 := hc.mp hb; rw [hi] at h3; exact h3)
        rw [if_neg hu, if_neg hb]
        exact hi
  · intro hne
    unfold pmemfile_readv pmemfile_preadv_internal
    rw [if_neg (by simpa using hreg), if_neg hrd,
      if_neg (show ¬ iov.length = 0 by
        intro hl; exact hne (List.length_eq_zero.mp hl))]
    dsimp only
    have hc := hcond v.inode
    by_cases hu : g.flags &&& PFILE_NOATIME = 0 ∧
        (time_lt v.inode.atime v.inode.ctime ∨ time_lt v.inode.atime v.inode.mtime ∨
          time_lt v.inode.atime { sec := now.sec - 86400, nsec := now.nsec })
    · rw [if_pos hu, if_pos (hc.mpr hu)]
    · rw [if_neg hu, if_neg (fun hb => hu (hc.mp hb))]
  · intro hw hca ho hcnt
    obtain ⟨v2, g2, bytes, h, _⟩ := pmemfile_read_total now hw hca hreg hrd ho hcnt
    exact ⟨_, v2, g2, bytes, h⟩

theorem relatime_witness :
    (pmemfile_readv { sec := 100000, nsec := 0 } ex_sparse ex_file [3]).2.1.inode =
      { ex_sparse.inode with atime := { sec := 100000, nsec := 0 } } ∧
    (pmemfile_readv ex_later ex_sparse ex_file [3]).2.1.inode = ex_sparse.inode ∧
    (pmemfile_readv { sec := 100000, nsec := 0 } ex_sparse
      { ex_file with flags := 5 } [3]).2.1.inode = ex_sparse.inode :=
  ⟨(relatime { sec := 100000, nsec := 0 } ex_sparse ex_file 3 [3] (by rfl)
      (by decide)).2.1 (by decide),
   (relatime ex_later ex_sparse ex_file 3 [3] (by rfl) (by decide)).2.1 (by decide),
   (relatime { sec := 100000, nsec := 0 } ex_sparse { ex_file with flags := 5 } 3 [3]
      (by rfl) (by decide)).2.1 (by decide)⟩

/-! ## C11: the chain invariant under allocation with a forced block size -/

/-- C11 (evaluation of the failing input): the file `ex_second_page` has one
block at `[4096, 8192)` and is well formed; the forced block size 8192 is a
multiple of the page size below `MAX_BLOCK_SIZE`. Allocating `[0, 4096)` takes
the "hole before the first block" branch, where `file_allocate_block_data`
replaces the size by the forced 8192 and nothing trims it: the chain becomes
`[0, 8192)`, `[4096, 8192)`, two descriptors that overlap. -/
theorem forced_block_size_overlaps_first_block :
    vinode_wf ex_second_page ∧
    ex_cfg_forced.pmemfile_posix_block_size ≤ ex_cfg_forced.MAX_BLOCK_SIZE ∧
    ex_cfg_forced.pmemfile_posix_block_size % FILE_PAGE_SIZE = 0 ∧
    (vinode_allocate_interval ex_cfg_forced ex_second_page 0 4096).map
        (fun v => v.chain.map (fun b => (b.offset, b.size))) =
      some [(0, 8192), (4096, 4096)] ∧
    (vinode_allocate_interval ex_cfg_forced ex_second_page 0 4096).map
        (fun v => decide (chain_wf v.chain)) = some false :=
  ⟨@vinode_wf_of_index ex_second_page [(4096, 1)] rfl (by decide) (by decide) (by decide),
    by decide, by decide, by decide, by decide⟩

/-! ## C17: SEEK_DATA -/

/-- C17 (counterexample): the file `ex_far` has logical size 0 and one block at
offset `2 ^ 32`; offset 0 lies in no block and the smallest offset behind it
that lies inside a block is `2 ^ 32`, yet `lseek(0, SEEK_DATA)` returns 0, the
logical size, because `lseek_seek_data_or_hole` limits the result to it. -/
theorem seek_data_is_limited_to_size :
    pmemfile_lseek ex_far ex_file 0 PMEMFILE_SEEK_DATA = some (Except.ok 0, ex_far, ex_file) ∧
    ex_far.inode.size = 0 ∧ (covering ex_far.chain 0).isNone = true ∧
    (covering ex_far.chain (2 ^ 32)).map (fun b => (b.offset, b.size)) = some (2 ^ 32, 4096) ∧
    (∀ b ∈ ex_far.chain, 2 ^ 32 ≤ b.offset) :=
  ⟨by rfl, by rfl, by decide, by decide, by decide⟩

/-- C17 (amended): on a well-formed regular file of logical size `S` whose block
offsets fit `off_t`, for an argument `a ≤ S`, `lseek(a, SEEK_DATA)` returns an
offset `r` with `a ≤ r ≤ S` and stores it in the handle: `r = a` when `a` lies
inside a block; otherwise `r` is the smallest offset behind `a` that lies inside
a block, limited to `S`; and `r = S` when no block begins behind `a`. -/
theorem seek_data_limited (v : pmemfile_vinode) (file : pmemfile_file) (a : Nat)
    (hw : vinode_wf v) (hreg : vinode_is_regular_file v = true)
    (hp : file.flags &&& PFILE_PATH = 0)
    (h63 : ∀ b ∈ v.chain, b.offset < 2 ^ 63)
    (hS : v.inode.size < 2 ^ 63) (haS : a ≤ v.inode.size) :
    ∃ (r : Nat) (v1 : pmemfile_vinode),
      pmemfile_lseek v file (a : Int) PMEMFILE_SEEK_DATA =
        some (Except.ok (r : Int), v1, { file with offset := r }) ∧
      v1.chain = v.chain ∧ v1.inode = v.inode ∧
      a ≤ r ∧ r ≤ v.inode.size ∧
      ((∃ b ∈ v.chain, b.offset ≤ a ∧ a < b.offset + b.size) → r = a) ∧
      ((¬ ∃ b ∈ v.chain, b.offset ≤ a ∧ a < b.offset + b.size) →
        (∀ d, a < d → (∃ b ∈ v.chain, b.offset ≤ d ∧ d < b.offset + b.size) →
          (∀ e, a < e → (∃ b ∈ v.chain, b.offset ≤ e ∧ e < b.offset + b.size) → d ≤ e) →
          r = min d v.inode.size) ∧
        ((∀ b ∈ v.chain, ¬ a < b.offset) → r = v.inode.size)) := by
  obtain ⟨r0, v1, h1, h2, h3, _, h5, h6, h7⟩ :=
    @lseek_seek_data_spec v hw h63 a (by omega) v.inode.size
  have hr0 : a ≤ r0 ∧ r0 < 2 ^ 63 := by
    rcases h7 with h | h | ⟨b, hb, hbo, hab⟩
    · omega
    · omega
    · have := h63 b hb
      omega
  have hfound := @pmemfile_lseek_found v v1 file hreg hp a r0 PMEMFILE_SEEK_DATA hS haS hr0.2
    (Or.inl rfl) (by rw [if_pos rfl]; exact h1)
  refine ⟨min r0 v.inode.size, v1, hfound, h2, h3, by omega, by omega, ?_, ?_⟩
  · intro hc
    rw [h5 hc]
    omega
  · intro hnc
    refine ⟨?_, ?_⟩
    · intro d had ⟨b, hb, hbd, hdb⟩ hmin
      have hbok := hw.1.2.2 b hb
      have hpos := hbok.1
      have hab : a < b.offset := by
        by_contra hcon
        exact hnc ⟨b, hb, by omega, by omega⟩
      have hd : d = b.offset := by
        have := hmin b.offset hab ⟨b, hb, le_refl _, by omega⟩
        omega
      have hleast : ∀ x ∈ v.chain, a < x.offset → b.offset ≤ x.offset := by
        intro x hx hax
        have hxpos := (hw.1.2.2 x hx).1
        have := hmin x.offset hax ⟨x, hx, le_refl _, by omega⟩
        omega
      rw [(h6 hnc).1 b hb hab hleast, hd]
    · intro hno
      rw [(h6 hnc).2 hno]
      omega

/-- C17 (amended), instance: in `ex_sparse` (blocks `[0, 4096)` and
`[8192, 12288)`, size 8194) the argument 5000 lies in the hole and the call
returns 8192, the start of the second block. -/
theorem seek_data_limited_witness :
    ∃ (r : Nat) (v1 : pmemfile_vinode),
      pmemfile_lseek ex_sparse ex_file ((5000 : Nat) : Int) PMEMFILE_SEEK_DATA =
        some (Except.ok (r : Int), v1, { ex_file with offset := r }) ∧
      v1.chain = ex_sparse.chain ∧ v1.inode = ex_sparse.inode ∧
      5000 ≤ r ∧ r ≤ ex_sparse.inode.size ∧
      ((∃ b ∈ ex_sparse.chain, b.offset ≤ 5000 ∧ 5000 < b.offset + b.size) → r = 5000) ∧
      ((¬ ∃ b ∈ ex_sparse.chain, b.offset ≤ 5000 ∧ 5000 < b.offset + b.size) →
        (∀ d, 5000 < d → (∃ b ∈ ex_sparse.chain, b.offset ≤ d ∧ d < b.offset + b.size) →
          (∀ e, 5000 < e → (∃ b ∈ ex_sparse.chain, b.offset ≤ e ∧ e < b.offset + b.size) →
            d ≤ e) →
          r = min d ex_sparse.inode.size) ∧
        ((∀ b ∈ ex_sparse.chain, ¬ 5000 < b.offset) → r = ex_sparse.inode.size)) :=
  seek_data_limited ex_sparse ex_file 5000 ex_sparse_wf (by decide) (by decide) (by decide)
    (by decide) (by decide)

/-! ## C18: SEEK_HOLE -/

/-- C18: on a well-formed regular file of logical size `S` whose block ends fit
`off_t`, for an argument `a ≤ S`, `lseek(a, SEEK_HOLE)` returns an offset `r`
with `a ≤ r ≤ S` and stores it in the handle; every offset from `a` up to `r`
is covered by a block and `r`, when below `S`, is covered by none; `r = a` when
`a` is covered by no block; and in general `r` is the smallest offset at or
behind `a` that no block covers, limited to `S`. -/
theorem seek_hole_first_uncovered (v : pmemfile_vinode) (file : pmemfile_file) (a : Nat)
    (hw : vinode_wf v) (hreg : vinode_is_regular_file v = true)
    (hp : file.flags &&& PFILE_PATH = 0)
    (h63 : ∀ b ∈ v.chain, b.offset + b.size < 2 ^ 63)
    (hS : v.inode.size < 2 ^ 63) (haS : a ≤ v.inode.size) :
    ∃ (r : Nat) (v1 : pmemfile_vinode),
      pmemfile_lseek v file (a : Int) PMEMFILE_SEEK_HOLE =
        some (Except.ok (r : Int), v1, { file with offset := r }) ∧
      v1.chain = v.chain ∧ v1.inode = v.inode ∧
      a ≤ r ∧ r ≤ v.inode.size ∧
      (∀ pos, a ≤ pos → pos < r → ∃ b ∈ v.chain, b.offset ≤ pos ∧ pos < b.offset + b.size) ∧
      (r < v.inode.size → ¬ ∃ b ∈ v.chain, b.offset ≤ r ∧ r < b.offset + b.size) ∧
      ((¬ ∃ b ∈ v.chain, b.offset ≤ a ∧ a < b.offset + b.size) → r = a) ∧
      (∀ h, a ≤ h → (¬ ∃ b ∈ v.chain, b.offset ≤ h ∧ h < b.offset + b.size) →
        (∀ e, a ≤ e → (¬ ∃ b ∈ v.chain, b.offset ≤ e ∧ e < b.offset + b.size) → h ≤ e) →
        r = min h v.inode.size) := by
  obtain ⟨r0, v1, h1, h2, h3, _, h5, h6, h7, h8⟩ :=
    @lseek_seek_hole_spec v hw h63 a (by omega) v.inode.size
  have hfound := @pmemfile_lseek_found v v1 file hreg hp a r0 PMEMFILE_SEEK_HOLE hS haS h6
    (Or.inr rfl) (by rw [if_neg (by decide), if_pos rfl]; exact h1)
  have hge : ∀ h, a ≤ h → (¬ ∃ b ∈ v.chain, b.offset ≤ h ∧ h < b.offset + b.size) →
      r0 ≤ h := by
    intro h hah hnc
    by_contra hcon
    exact hnc (h7 h hah (by omega))
  refine ⟨min r0 v.inode.size, v1, hfound, h2, h3, by omega, by omega, ?_, ?_, ?_, ?_⟩
  · intro pos hp1 hp2
    exact h7 pos hp1 (by omega)
  · intro hlt
    have hr : min r0 v.inode.size = r0 := by omega
    rw [hr]
    exact h8 (by omega)
  · intro hnc
    have := hge a (le_refl _) hnc
    omega
  · intro h hah hnc hmin
    have h9 := hge h hah hnc
    by_cases hlt : r0 < v.inode.size
    · have := hmin r0 h5 (h8 hlt)
      omega
    · omega

/-- C18, instance: in `ex_sparse` (blocks `[0, 4096)` and `[8192, 12288)`, size
8194) the argument 100 lies in the first block and the call returns 4096, the
end of that block. -/
theorem seek_hole_first_uncovered_witness :
    ∃ (r : Nat) (v1 : pmemfile_vinode),
      pmemfile_lseek ex_sparse ex_file ((100 : Nat) : Int) PMEMFILE_SEEK_HOLE =
        some (Except.ok (r : Int), v1, { ex_file with offset := r }) ∧
      v1.chain = ex_sparse.chain ∧ v1.inode = ex_sparse.inode ∧
      100 ≤ r ∧ r ≤ ex_sparse.inode.size ∧
      (∀ pos, 100 ≤ pos → pos < r →
        ∃ b ∈ ex_sparse.chain, b.offset ≤ pos ∧ pos < b.offset + b.size) ∧
      (r < ex_sparse.inode.size →
        ¬ ∃ b ∈ ex_sparse.chain, b.offset ≤ r ∧ r < b.offset + b.size) ∧
      ((¬ ∃ b ∈ ex_sparse.chain, b.offset ≤ 100 ∧ 100 < b.offset + b.size) → r = 100) ∧
      (∀ h, 100 ≤ h → (¬ ∃ b ∈ ex_sparse.chain, b.offset ≤ h ∧ h < b.offset + b.size) →
        (∀ e, 100 ≤ e → (¬ ∃ b ∈ ex_sparse.chain, b.offset ≤ e ∧ e < b.offset + b.size) →
          h ≤ e) →
        r = min h ex_sparse.inode.size) :=
  seek_hole_first_uncovered ex_sparse ex_file 100 ex_sparse_wf (by decide) (by decide)
    (by decide) (by decide) (by decide)

/-! ## C13: block sizes of an appending call with over-allocation -/

/-- C13 (counterexample): with over-allocation on append enabled and an
allocator that reports one page more than was asked for, a request for
`[0, 2 ^ 32)` on the empty file is an append; `overallocate_size` leaves the
size as it is, the first block gets `MAX_BLOCK_SIZE = 2 ^ 32 - 4096` bytes, and
the later block, for which 4096 bytes are still required, gets 8192: it is
allocated with `use_usable_size` set like the first one. -/
theorem later_block_grows_too :
    ex_cfg_slack.pmemfile_overallocate_on_append = true ∧
    is_append ex_empty_indexed [] 0 (2 ^ 32) = some true ∧
    overallocate_size (2 ^ 32) = 2 ^ 32 ∧
    ex_cfg_slack.MAX_BLOCK_SIZE = 2 ^ 32 - 4096 ∧
    (vinode_allocate_interval ex_cfg_slack ex_empty_indexed 0 (2 ^ 32)).map
        (fun v => v.chain.map (fun b => (b.offset, b.size))) =
      some [(0, 2 ^ 32 - 4096), (2 ^ 32 - 4096, 8192)] :=
  ⟨by decide, by decide, by decide, by decide, by decide⟩

/-- C13 (amended): in one `vinode_allocate_interval` call, with `over` the result
of the append detection, the request is inflated once by `overallocate_size`
when `over` holds and rounded to pages; every descriptor `x` the call adds starts
inside the rounded request and is sized from the size still required, the end
of the rounded request minus `x.offset`: either `x` is no larger than that, or
it was sized by `file_allocate_block_data` for exactly that size with
`use_usable_size = over`, the first added block and the later ones alike. When
no block size is forced and the allocator reports less than a page of slack, no
added block exceeds the size still required, and one sized with
`use_usable_size = over` has exactly that size, limited to `MAX_BLOCK_SIZE`. -/
theorem allocation_block_sizes (cfg : config) (v v' : pmemfile_vinode) (offset size : Nat)
    (hc : config_ok cfg) (hw : vinode_wf v) (hb : offset + size + 2 ^ 33 ≤ 2 ^ 64)
    (h : vinode_allocate_interval cfg v offset size = some v') :
    ∃ (c : List (Nat × Nat)) (over : Bool) (o1 s1 : Nat),
      v.blocks = some c ∧
      (if cfg.pmemfile_overallocate_on_append then is_append v c offset size
        else some false) = some over ∧
      expand_to_full_pages offset (if over then overallocate_size size else size) = (o1, s1) ∧
      ∀ x ∈ v'.chain, x ∈ v.chain ∨
        (o1 ≤ x.offset ∧ x.offset < o1 + s1 ∧
          ((∃ slot, file_allocate_block_data cfg slot (o1 + s1 - x.offset) over = some x) ∨
            x.size ≤ o1 + s1 - x.offset) ∧
          (cfg.pmemfile_posix_block_size = 0 →
            (∀ n, cfg.usable_size n < n + FILE_PAGE_SIZE) →
            x.size ≤ o1 + s1 - x.offset ∧
            ((∃ slot, file_allocate_block_data cfg slot (o1 + s1 - x.offset) over = some x) →
              x.size = min (o1 + s1 - x.offset) cfg.MAX_BLOCK_SIZE))) := by
  unfold vinode_allocate_interval at h
  cases hcb : v.blocks with
  | none => rw [hcb] at h; cases h
  | some c =>
    rw [hcb] at h
    dsimp only at h
    split at h
    · cases h
    rename_i hassert
    have hs0 : 0 < size := by omega
    split at h
    · cases h
    rename_i over hover
    generalize hsz1 : (if over = true then overallocate_size size else size) = size1 at h
    have hs1 : size ≤ size1 ∧ size1 ≤ size + 64 * 1024 * 1024 := by
      rw [← hsz1]
      have := overallocate_size_ge size
      have := overallocate_size_le size
      split_ifs <;> omega
    obtain ⟨e1, e2, e3, e4, e5, e6⟩ :=
      @expand_to_full_pages_spec offset size1 (by unfold FILE_PAGE_SIZE; omega)
    generalize hr : expand_to_full_pages offset size1 = r at h e1 e2 e3 e4 e5 e6
    obtain ⟨o1, s1⟩ := r
    dsimp only at h e1 e2 e3 e4 e5 e6
    have hinv : find_block c o1 = none → ∀ first, v.chain.head? = some first →
        o1 < first.offset := by
      intro hf first hh
      exact find_block_none (hw.2.1 c hcb) hf first (List.mem_of_mem_head? hh)
    have hl := alloc_loop_sizes cfg hc over (2 * s1 + 2) v (find_block c o1) o1 s1 v'
      (by unfold FILE_PAGE_SIZE at *; omega) (by unfold FILE_PAGE_SIZE at *; omega) hinv h
    refine ⟨c, over, o1, s1, rfl, hover, by rw [hsz1]; exact hr, ?_⟩
    intro x hx
    rcases hl x hx with h1 | ⟨h1, h2, h3⟩
    · exact Or.inl h1
    · right
      refine ⟨h1, h2, h3, ?_⟩
      intro h0 hslack
      have hex : ∀ slot, file_allocate_block_data cfg slot (o1 + s1 - x.offset) over = some x →
          x.size = min (o1 + s1 - x.offset) cfg.MAX_BLOCK_SIZE :=
        fun slot hs => file_allocate_block_data_exact hc h0 hslack hs
      refine ⟨?_, fun ⟨slot, hs⟩ => hex slot hs⟩
      rcases h3 with ⟨slot, hs⟩ | h4
      · rw [hex slot hs]
        exact Nat.min_le_left _ _
      · exact h4

/-- C13 (amended), instance: one byte appended to the empty file with
over-allocation enabled and the allocator of `ex_cfg_slack`. -/
theorem allocation_block_sizes_witness :
    ∃ (c : List (Nat × Nat)) (over : Bool) (o1 s1 : Nat),
      ex_empty_indexed.blocks = some c ∧
      (if ex_cfg_slack.pmemfile_overallocate_on_append then is_append ex_empty_indexed c 0 1
        else some false) = some over ∧
      expand_to_full_pages 0 (if over then overallocate_size 1 else 1) = (o1, s1) ∧
      ∀ x ∈ ((vinode_allocate_interval ex_cfg_slack ex_empty_indexed 0 1).getD ex_empty).chain,
        x ∈ ex_empty_indexed.chain ∨
        (o1 ≤ x.offset ∧ x.offset < o1 + s1 ∧
          ((∃ slot, file_allocate_block_data ex_cfg_slack slot (o1 + s1 - x.offset) over =
              some x) ∨
            x.size ≤ o1 + s1 - x.offset) ∧
          (ex_cfg_slack.pmemfile_posix_block_size = 0 →
            (∀ n, ex_cfg_slack.usable_size n < n + FILE_PAGE_SIZE) →
            x.size ≤ o1 + s1 - x.offset ∧
            ((∃ slot, file_allocate_block_data ex_cfg_slack slot (o1 + s1 - x.offset) over =
                some x) →
              x.size = min (o1 + s1 - x.offset) ex_cfg_slack.MAX_BLOCK_SIZE))) :=
  allocation_block_sizes ex_cfg_slack ex_empty_indexed
    ((vinode_allocate_interval ex_cfg_slack ex_empty_indexed 0 1).getD ex_empty) 0 1
    (by decide) (@vinode_wf_of_index ex_empty_indexed [] rfl (by decide) (by decide) (by decide))
    (by decide) (by rfl)

/-! ## C21: the size after `vinode_fallocate` -/

/-- C21: on a regular file of logical size `S`, for `length > 0` and a range
whose page-rounded end fits 64 bits, every call of `vinode_fallocate` that
returns 0 leaves the logical size at `max S (offset + length)`, of the caller's
own arguments, in the default mode (neither `PUNCH_HOLE` nor `KEEP_SIZE`), and
at `S` when `KEEP_SIZE` or `PUNCH_HOLE` is given. -/
theorem fallocate_size_effect (cfg : config) (v v' : pmemfile_vinode) (mode offset length : Nat)
    (hreg : vinode_is_regular_file v = true) (hl : 0 < length)
    (hend : offset + length + 2 * FILE_PAGE_SIZE ≤ 2 ^ 64)
    (h : vinode_fallocate cfg v mode offset length = some (0, v')) :
    (mode &&& PMEMFILE_FL_PUNCH_HOLE = 0 ∧ mode &&& PMEMFILE_FL_KEEP_SIZE = 0 →
      v'.inode.size = max v.inode.size (offset + length)) ∧
    (mode &&& PMEMFILE_FL_KEEP_SIZE ≠ 0 ∨ mode &&& PMEMFILE_FL_PUNCH_HOLE ≠ 0 →
      v'.inode.size = v.inode.size) := by
  have hv0 : (if v.blocks.isNone then vinode_rebuild_block_tree v else v).inode = v.inode := by
    split_ifs
    · rfl
    · rfl
  have hu : u64 (offset + length) = offset + length :=
    u64_of_lt (by unfold FILE_PAGE_SIZE at hend; omega)
  unfold vinode_fallocate at h
  rw [if_neg (by simpa using hreg)] at h
  dsimp only at h
  by_cases hp : mode &&& PMEMFILE_FL_PUNCH_HOLE ≠ 0
  · -- punching a hole never touches the inode
    simp only [hp, ne_eq, not_false_eq_true, if_true] at h
    have hsame : v'.inode.size = v.inode.size := by
      split at h
      · cases h; rfl
      · split at h
        · cases h
        · cases hr : vinode_remove_interval
              (if v.blocks.isNone then vinode_rebuild_block_tree v else v)
              (narrow_to_full_pages offset length).1 (narrow_to_full_pages offset length).2 with
          | none => rw [hr] at h; cases h
          | some v1 =>
            rw [hr] at h
            simp only [Option.map_some', Option.some.injEq, Prod.mk.injEq, true_and] at h
            rw [← h, vinode_remove_interval_inode hr, hv0]
    exact ⟨fun hc => absurd hc.1 hp, fun _ => hsame⟩
  · have hp0 : mode &&& PMEMFILE_FL_PUNCH_HOLE = 0 := by
      by_contra hcon
      exact hp hcon
    simp only [hp0, ne_eq, not_true_eq_false, if_false] at h
    obtain ⟨e1, e2, e3, e4, e5, e6⟩ :=
      @expand_to_full_pages_spec offset length (by omega)
    have hr2 : (expand_to_full_pages offset length).2 ≠ 0 := by omega
    rw [if_neg hr2] at h
    cases ha : vinode_allocate_interval cfg
        (if v.blocks.isNone then vinode_rebuild_block_tree v else v)
        (expand_to_full_pages offset length).1 (expand_to_full_pages offset length).2 with
    | none => rw [ha] at h; cases h
    | some v1 =>
      rw [ha] at h
      dsimp only at h
      have hi : v1.inode = v.inode := by
        rw [(vinode_allocate_interval_frame ha).1, hv0]
      rw [hu] at h
      by_cases hk : mode &&& PMEMFILE_FL_KEEP_SIZE = 0
      · refine ⟨fun _ => ?_, fun hc => ?_⟩
        · by_cases hlt : v1.inode.size < offset + length
          · rw [if_pos ⟨hk, hlt⟩] at h
            simp only [Option.some.injEq, Prod.mk.injEq, true_and] at h
            rw [← h]
            dsimp only
            rw [hi] at hlt
            omega
          · rw [if_neg (fun hc => hlt hc.2)] at h
            simp only [Option.some.injEq, Prod.mk.injEq, true_and] at h
            rw [← h, hi]
            rw [hi] at hlt
            omega
        · rcases hc with hc | hc
          · exact absurd hk hc
          · exact absurd hc hp
      · rw [if_neg (fun hc => hk hc.1)] at h
        simp only [Option.some.injEq, Prod.mk.injEq, true_and] at h
        refine ⟨fun hc => absurd hc.2 hk, fun _ => ?_⟩
        rw [← h, hi]

/-- C21, instance: the default mode on `ex_sparse` (size 8194) with the range
`[8000, 9000)` succeeds. -/
theorem fallocate_size_effect_witness :
    (0 &&& PMEMFILE_FL_PUNCH_HOLE = 0 ∧ 0 &&& PMEMFILE_FL_KEEP_SIZE = 0 →
      (((vinode_fallocate ex_cfg ex_sparse 0 8000 1000).map (fun r => r.2)).getD
        ex_empty).inode.size = max ex_sparse.inode.size (8000 + 1000)) ∧
    (0 &&& PMEMFILE_FL_KEEP_SIZE ≠ 0 ∨ 0 &&& PMEMFILE_FL_PUNCH_HOLE ≠ 0 →
      (((vinode_fallocate ex_cfg ex_sparse 0 8000 1000).map (fun r => r.2)).getD
        ex_empty).inode.size = ex_sparse.inode.size) :=
  fallocate_size_effect ex_cfg ex_sparse
    (((vinode_fallocate ex_cfg ex_sparse 0 8000 1000).map (fun r => r.2)).getD ex_empty)
    0 8000 1000 (by decide) (by decide) (by decide) (by rfl)

/-! ## C24, C25: chmod -/

/-- C24: `vinode_chmod` fails with `EPERM` exactly when the inode's owner is not
the caller's `fsuid` and the caller's capabilities lack `CAP_FOWNER`; it fails
with no other error; when it fails the inode, its flags and `ctime` among the
rest, is unchanged. -/
theorem chmod_ownership_check (now : pmemfile_time) (cred : pmemfile_cred)
    (v : pmemfile_vinode) (mode : Nat) :
    ((vinode_chmod now cred v mode).1 = EPERM ↔
      (v.inode.uid ≠ cred.fsuid ∧ cred.caps &&& (1 <<< PMEMFILE_CAP_FOWNER) = 0)) ∧
    ((vinode_chmod now cred v mode).1 ≠ 0 →
      (vinode_chmod now cred v mode).1 = EPERM ∧
      (vinode_chmod now cred v mode).2.inode.flags = v.inode.flags ∧
      (vinode_chmod now cred v mode).2.inode.ctime = v.inode.ctime ∧
      (vinode_chmod now cred v mode).2.inode = v.inode) := by
  unfold vinode_chmod
  by_cases hc : v.inode.uid ≠ cred.fsuid ∧ cred.caps &&& (1 <<< PMEMFILE_CAP_FOWNER) = 0
  · rw [if_pos hc]
    exact ⟨⟨fun _ => hc, fun _ => rfl⟩, fun _ => ⟨rfl, rfl, rfl, rfl⟩⟩
  · rw [if_neg hc]
    refine ⟨⟨fun h => ?_, fun h => absurd h hc⟩, fun h => absurd rfl h⟩
    have h0 : (0 : Nat) = EPERM := h
    exact absurd h0 (by decide)

/-- C25: for a mode `m` within `PMEMFILE_ALLPERMS`, after a `vinode_chmod` that
returned 0 the inode's `ctime` is the current time and its permission bits
`flags & ALLPERMS` are `m`, except that `S_ISGID` (bit 10) is cleared, every
other bit of `m` staying, when the inode's group is neither the caller's
`fsgid` nor one of the supplementary groups and the caller lacks
`CAP_FSETID`. -/
theorem chmod_result (now : pmemfile_time) (cred : pmemfile_cred) (v : pmemfile_vinode)
    (m : Nat) (hm : m ≤ PMEMFILE_ALLPERMS) (hok : (vinode_chmod now cred v m).1 = 0) :
    (vinode_chmod now cred v m).2.inode.ctime = now ∧
    (vinode_chmod now cred v m).2.inode.flags &&& PMEMFILE_ALLPERMS =
      (if v.inode.gid ≠ cred.fsgid ∧ gid_in_list cred v.inode.gid = false ∧
          cred.caps &&& (1 <<< PMEMFILE_CAP_FSETID) = 0 then
        m &&& not64 PMEMFILE_S_ISGID
      else m) ∧
    (∀ i, (m &&& not64 PMEMFILE_S_ISGID).testBit i = (m.testBit i && decide (i ≠ 10))) := by
  have hc : ¬ (v.inode.uid ≠ cred.fsuid ∧ cred.caps &&& (1 <<< PMEMFILE_CAP_FOWNER) = 0) := by
    intro hc
    unfold vinode_chmod at hok
    rw [if_pos hc] at hok
    have h0 : EPERM = 0 := hok
    exact absurd h0 (by decide)
  unfold vinode_chmod
  rw [if_neg hc]
  dsimp only
  refine ⟨rfl, ?_, clear_isgid_bits hm⟩
  by_cases hg : v.inode.gid ≠ cred.fsgid ∧ gid_in_list cred v.inode.gid = false ∧
      cred.caps &&& (1 <<< PMEMFILE_CAP_FSETID) = 0
  · rw [if_pos hg, if_pos hg]
    exact chmod_perm_bits_isgid v.inode.flags hm
  · rw [if_neg hg, if_neg hg]
    exact chmod_perm_bits v.inode.flags hm

/-- C25, instance: mode `02755` set by the owner, who is not in the file's
group and has no capabilities, on `ex_sparse`. -/
theorem chmod_result_witness :
    (vinode_chmod ex_later { fsuid := 0, fsgid := 5, groups := [], caps := 0 } ex_sparse
      0o2755).2.inode.ctime = ex_later ∧
    (vinode_chmod ex_later { fsuid := 0, fsgid := 5, groups := [], caps := 0 } ex_sparse
      0o2755).2.inode.flags &&& PMEMFILE_ALLPERMS =
      (if ex_sparse.inode.gid ≠ 5 ∧
          gid_in_list { fsuid := 0, fsgid := 5, groups := [], caps := 0 } ex_sparse.inode.gid =
            false ∧
          0 &&& (1 <<< PMEMFILE_CAP_FSETID) = 0 then
        0o2755 &&& not64 PMEMFILE_S_ISGID
      else 0o2755) ∧
    (∀ i, (0o2755 &&& not64 PMEMFILE_S_ISGID).testBit i =
      (Nat.testBit 0o2755 i && decide (i ≠ 10))) :=
  chmod_result ex_later { fsuid := 0, fsgid := 5, groups := [], caps := 0 } ex_sparse 0o2755
    (by decide) (by decide)

/-! ## C26, C27, C28: open -/

/-- C26 (counterexample): in `ex_pool` the name `l` of the root is a symlink;
`open` with `O_TMPFILE | O_CREAT | O_EXCL | O_RDWR`, which has both `O_CREAT`
and `O_EXCL` and lacks `O_NOFOLLOW`, does not follow the link and fails with
`ENOTDIR`, not with `EEXIST`: the `O_TMPFILE` checks come first. -/
theorem open_excl_on_symlink_tmpfile :
    ex_pool.vinode_lookup_dirent 1 ['l'] 1 = some 2 ∧ ex_pool.vinode_is_symlink 2 = true ∧
    (PMEMFILE_O_TMPFILE ||| PMEMFILE_O_CREAT ||| PMEMFILE_O_EXCL ||| PMEMFILE_O_RDWR) &&&
      PMEMFILE_O_NOFOLLOW = 0 ∧
    (PMEMFILE_O_TMPFILE ||| PMEMFILE_O_CREAT ||| PMEMFILE_O_EXCL ||| PMEMFILE_O_RDWR) &&&
      (PMEMFILE_O_CREAT ||| PMEMFILE_O_EXCL) = PMEMFILE_O_CREAT ||| PMEMFILE_O_EXCL ∧
    _pmemfile_openat ex_pool 8 { vinode := some 1, remaining := ['l'] }
      (PMEMFILE_O_TMPFILE ||| PMEMFILE_O_CREAT ||| PMEMFILE_O_EXCL ||| PMEMFILE_O_RDWR) 0o600 =
      some (.error ENOTDIR) ∧
    ENOTDIR ≠ EEXIST :=
  ⟨by decide, by decide, by decide, by decide, by rfl, by decide⟩

/-- C26 (amended): when the flags pass `check_flags`, the parent is a
directory, one component with a name is left and the name finds a symlink
(which is not a directory): with `O_NOFOLLOW` the open fails with `ELOOP`; with
`O_CREAT | O_EXCL` and without `O_NOFOLLOW` the loop ends at the symlink without
following it and the open fails, with `EEXIST` when `O_TMPFILE` is not given
and no `/` is left in the path, and with `ENOTDIR` otherwise; in every other
case the link is followed (`resolve_symlink`) and the loop resolves the final
component again. -/
theorem open_symlink_final (pfp : PMEMfilepool) (fuel : Nat) (info : pmemfile_path_info)
    (flags mode vparent vi : Nat)
    (hcf : check_flags flags = .ok ()) (hv : info.vinode = some vparent)
    (hd : pfp.vinode_is_dir vparent = true)
    (hm : pfp.more_than_1_component info.remaining = false)
    (hn : pfp.component_length info.remaining ≠ 0)
    (hl : pfp.vinode_lookup_dirent vparent info.remaining
      (pfp.component_length info.remaining) = some vi)
    (hs : pfp.vinode_is_symlink vi = true) (hnd : pfp.vinode_is_dir vi = false) :
    (flags &&& PMEMFILE_O_NOFOLLOW ≠ 0 →
      _pmemfile_openat pfp (fuel + 1) info flags mode = some (.error ELOOP)) ∧
    (flags &&& PMEMFILE_O_NOFOLLOW = 0 →
      flags &&& (PMEMFILE_O_CREAT ||| PMEMFILE_O_EXCL) = PMEMFILE_O_CREAT ||| PMEMFILE_O_EXCL →
      openat_resolve pfp flags (fuel + 1) info =
        some (.ok (vparent, some vi, info, pfp.component_length info.remaining)) ∧
      _pmemfile_openat pfp (fuel + 1) info flags mode =
        some (.error (if is_tmpfile flags = true ∨ '/' ∈ info.remaining then ENOTDIR
          else EEXIST))) ∧
    (flags &&& PMEMFILE_O_NOFOLLOW = 0 →
      flags &&& (PMEMFILE_O_CREAT ||| PMEMFILE_O_EXCL) ≠ PMEMFILE_O_CREAT ||| PMEMFILE_O_EXCL →
      openat_resolve pfp flags (fuel + 1) info =
        openat_resolve pfp flags fuel (pfp.resolve_symlink vi info) ∧
      _pmemfile_openat pfp (fuel + 1) info flags mode =
        _pmemfile_openat pfp fuel (pfp.resolve_symlink vi info) flags mode) := by
  have hstep := openat_resolve_step pfp flags fuel info vparent hv hd hm hn
  rw [hl] at hstep
  dsimp only at hstep
  rw [if_pos hs] at hstep
  refine ⟨fun hnf => ?_, fun hnf hce => ?_, fun hnf hce => ?_⟩
  · rw [if_pos hnf] at hstep
    unfold _pmemfile_openat
    rw [hcf]
    dsimp only
    rw [hstep]
  · rw [if_neg (not_not.mpr hnf), if_pos hce] at hstep
    refine ⟨hstep, ?_⟩
    unfold _pmemfile_openat
    rw [hcf]
    dsimp only
    rw [hstep]
    dsimp only
    by_cases hsl : '/' ∈ info.remaining
    · simp [hnd, hsl]
    · by_cases htmp : is_tmpfile flags = true
      · simp [hnd, hsl, htmp]
      · simp [hnd, hsl, htmp, hce]
  · rw [if_neg (not_not.mpr hnf), if_neg hce] at hstep
    refine ⟨hstep, ?_⟩
    unfold _pmemfile_openat
    rw [hcf]
    dsimp only
    rw [hstep]

/-- C26 (amended), instance: the symlink `l` of the root of `ex_pool`, opened
with `O_CREAT | O_EXCL | O_RDWR`. -/
theorem open_symlink_final_witness :
    ((PMEMFILE_O_CREAT ||| PMEMFILE_O_EXCL ||| PMEMFILE_O_RDWR) &&& PMEMFILE_O_NOFOLLOW ≠ 0 →
      _pmemfile_openat ex_pool (7 + 1) { vinode := some 1, remaining := ['l'] }
        (PMEMFILE_O_CREAT ||| PMEMFILE_O_EXCL ||| PMEMFILE_O_RDWR) 0o600 =
        some (.error ELOOP)) ∧
    ((PMEMFILE_O_CREAT ||| PMEMFILE_O_EXCL ||| PMEMFILE_O_RDWR) &&& PMEMFILE_O_NOFOLLOW = 0 →
      (PMEMFILE_O_CREAT ||| PMEMFILE_O_EXCL ||| PMEMFILE_O_RDWR) &&&
        (PMEMFILE_O_CREAT ||| PMEMFILE_O_EXCL) = PMEMFILE_O_CREAT ||| PMEMFILE_O_EXCL →
      openat_resolve ex_pool (PMEMFILE_O_CREAT ||| PMEMFILE_O_EXCL ||| PMEMFILE_O_RDWR) (7 + 1)
          { vinode := some 1, remaining := ['l'] } =
        some (.ok (1, some 2, { vinode := some 1, remaining := ['l'] },
          ex_pool.component_length ['l'])) ∧
      _pmemfile_openat ex_pool (7 + 1) { vinode := some 1, remaining := ['l'] }
          (PMEMFILE_O_CREAT ||| PMEMFILE_O_EXCL ||| PMEMFILE_O_RDWR) 0o600 =
        some (.error (if is_tmpfile
            (PMEMFILE_O_CREAT ||| PMEMFILE_O_EXCL ||| PMEMFILE_O_RDWR) = true ∨
            '/' ∈ ['l'] then ENOTDIR else EEXIST))) ∧
    ((PMEMFILE_O_CREAT ||| PMEMFILE_O_EXCL ||| PMEMFILE_O_RDWR) &&& PMEMFILE_O_NOFOLLOW = 0 →
      (PMEMFILE_O_CREAT ||| PMEMFILE_O_EXCL ||| PMEMFILE_O_RDWR) &&&
        (PMEMFILE_O_CREAT ||| PMEMFILE_O_EXCL) ≠ PMEMFILE_O_CREAT ||| PMEMFILE_O_EXCL →
      openat_resolve ex_pool (PMEMFILE_O_CREAT ||| PMEMFILE_O_EXCL ||| PMEMFILE_O_RDWR) (7 + 1)
          { vinode := some 1, remaining := ['l'] } =
        openat_resolve ex_pool (PMEMFILE_O_CREAT ||| PMEMFILE_O_EXCL ||| PMEMFILE_O_RDWR) 7
          (ex_pool.resolve_symlink 2 { vinode := some 1, remaining := ['l'] }) ∧
      _pmemfile_openat ex_pool (7 + 1) { vinode := some 1, remaining := ['l'] }
          (PMEMFILE_O_CREAT ||| PMEMFILE_O_EXCL ||| PMEMFILE_O_RDWR) 0o600 =
        _pmemfile_openat ex_pool 7
          (ex_pool.resolve_symlink 2 { vinode := some 1, remaining := ['l'] })
          (PMEMFILE_O_CREAT ||| PMEMFILE_O_EXCL ||| PMEMFILE_O_RDWR) 0o600) :=
  open_symlink_final ex_pool 7 { vinode := some 1, remaining := ['l'] }
    (PMEMFILE_O_CREAT ||| PMEMFILE_O_EXCL ||| PMEMFILE_O_RDWR) 0o600 1 2
    (by rfl) (by rfl) (by decide) (by decide) (by decide) (by decide) (by decide) (by decide)

/-- C27 (counterexample): in `ex_pool` the name `f` of the root is a regular
file; for the path `f/`, of one component, `open` with
`O_CREAT | O_EXCL | O_RDWR` and without `O_TMPFILE` finds the name, which is not
a symlink, in a parent that is a directory, and fails with `ENOTDIR`, not with
`EEXIST`: the check for a `/` behind the name of something that is not a
directory comes first. -/
theorem open_excl_on_file_with_slash :
    is_tmpfile (PMEMFILE_O_CREAT ||| PMEMFILE_O_EXCL ||| PMEMFILE_O_RDWR) = false ∧
    ex_pool.vinode_is_dir 1 = true ∧
    ex_pool.more_than_1_component ['f', '/'] = false ∧
    ex_pool.vinode_lookup_dirent 1 ['f', '/'] (ex_pool.component_length ['f', '/']) = some 3 ∧
    ex_pool.vinode_is_symlink 3 = false ∧
    (PMEMFILE_O_CREAT ||| PMEMFILE_O_EXCL ||| PMEMFILE_O_RDWR) &&&
      (PMEMFILE_O_CREAT ||| PMEMFILE_O_EXCL) = PMEMFILE_O_CREAT ||| PMEMFILE_O_EXCL ∧
    _pmemfile_openat ex_pool 8 { vinode := some 1, remaining := ['f', '/'] }
      (PMEMFILE_O_CREAT ||| PMEMFILE_O_EXCL ||| PMEMFILE_O_RDWR) 0o600 =
      some (.error ENOTDIR) ∧
    ENOTDIR ≠ EEXIST :=
  ⟨by decide, by decide, by decide, by decide, by decide, by decide, by rfl, by decide⟩

/-- C27 (amended): when the flags pass `check_flags` and lack `O_TMPFILE`, the
parent is a directory and one component with a name is left: if the name is
missing and `O_CREAT` is not set, the open fails with `ENOENT` (and creates
nothing); if the name finds an inode that is not a symlink and both `O_CREAT`
and `O_EXCL` are set, the open fails, with `EEXIST` unless the inode is not a
directory and a `/` is left in the path, where it fails with `ENOTDIR`; if the
name is missing and `O_CREAT` is set, `create_file` creates a regular file
with the permission bits of `mode` under the name in the parent. -/
theorem open_existence_check (pfp : PMEMfilepool) (fuel : Nat) (info : pmemfile_path_info)
    (flags mode vparent : Nat)
    (hcf : check_flags flags = .ok ()) (htmp : is_tmpfile flags = false)
    (hv : info.vinode = some vparent) (hd : pfp.vinode_is_dir vparent = true)
    (hm : pfp.more_than_1_component info.remaining = false)
    (hn : pfp.component_length info.remaining ≠ 0) :
    (pfp.vinode_lookup_dirent vparent info.remaining (pfp.component_length info.remaining) =
        none →
      flags &&& PMEMFILE_O_CREAT = 0 →
      _pmemfile_openat pfp (fuel + 1) info flags mode = some (.error ENOENT)) ∧
    (∀ vi, pfp.vinode_lookup_dirent vparent info.remaining
        (pfp.component_length info.remaining) = some vi →
      pfp.vinode_is_symlink vi = false →
      flags &&& (PMEMFILE_O_CREAT ||| PMEMFILE_O_EXCL) = PMEMFILE_O_CREAT ||| PMEMFILE_O_EXCL →
      _pmemfile_openat pfp (fuel + 1) info flags mode =
        some (.error (if pfp.vinode_is_dir vi = false ∧ '/' ∈ info.remaining then ENOTDIR
          else EEXIST))) ∧
    (pfp.vinode_lookup_dirent vparent info.remaining (pfp.component_length info.remaining) =
        none →
      flags &&& PMEMFILE_O_CREAT ≠ 0 →
      ∃ file_flags, _pmemfile_openat pfp (fuel + 1) info flags mode =
        some (.ok (.created vparent info.remaining (pfp.component_length info.remaining)
          (PMEMFILE_S_IFREG ||| (mode &&& PMEMFILE_ALLPERMS)) false, file_flags))) := by
  have hstep := openat_resolve_step pfp flags fuel info vparent hv hd hm hn
  refine ⟨fun hl hc => ?_, fun vi hl hs hce => ?_, fun hl hc => ?_⟩
  · rw [hl] at hstep
    dsimp only at hstep
    have hnce : ¬ flags &&& (PMEMFILE_O_CREAT ||| PMEMFILE_O_EXCL) =
        PMEMFILE_O_CREAT ||| PMEMFILE_O_EXCL := by
      intro hce
      have := creat_of_creat_excl hce
      rw [hc] at this
      exact absurd this (by decide)
    have hnc : ¬ flags &&& PMEMFILE_O_CREAT = PMEMFILE_O_CREAT := by
      rw [hc]; decide
    unfold _pmemfile_openat
    rw [hcf]
    dsimp only
    rw [hstep]
    simp [htmp, hnce, hnc]
  · rw [hl] at hstep
    dsimp only at hstep
    rw [if_neg (by simp [hs])] at hstep
    unfold _pmemfile_openat
    rw [hcf]
    dsimp only
    rw [hstep]
    dsimp only
    by_cases hsl : pfp.vinode_is_dir vi = false ∧ '/' ∈ info.remaining
    · simp [hsl]
    · rw [if_neg hsl]
      simp only [decide_eq_true_eq, if_neg hsl, htmp, hce]
      simp
  · rw [hl] at hstep
    dsimp only at hstep
    have hc1 : flags &&& PMEMFILE_O_CREAT = PMEMFILE_O_CREAT := by
      rcases creat_bit flags with h | h
      · exact absurd h hc
      · exact h
    unfold _pmemfile_openat
    rw [hcf]
    dsimp only
    rw [hstep]
    simp only [htmp, hd, hc1, hc, create_file]
    have h64 : ¬ PMEMFILE_O_CREAT = 0 := by decide
    by_cases hce : flags &&& (PMEMFILE_O_CREAT ||| PMEMFILE_O_EXCL) =
        PMEMFILE_O_CREAT ||| PMEMFILE_O_EXCL
    · simp [hce, h64]
    · simp [hce, h64]

/-- C27 (amended), instance: the missing name `n` in the root of `ex_pool`,
opened with `O_CREAT | O_RDWR`. -/
theorem open_existence_check_witness :
    (ex_pool.vinode_lookup_dirent 1 ['n'] (ex_pool.component_length ['n']) = none →
      (PMEMFILE_O_CREAT ||| PMEMFILE_O_RDWR) &&& PMEMFILE_O_CREAT = 0 →
      _pmemfile_openat ex_pool (7 + 1) { vinode := some 1, remaining := ['n'] }
        (PMEMFILE_O_CREAT ||| PMEMFILE_O_RDWR) 0o600 = some (.error ENOENT)) ∧
    (∀ vi, ex_pool.vinode_lookup_dirent 1 ['n'] (ex_pool.component_length ['n']) = some vi →
      ex_pool.vinode_is_symlink vi = false →
      (PMEMFILE_O_CREAT ||| PMEMFILE_O_RDWR) &&& (PMEMFILE_O_CREAT ||| PMEMFILE_O_EXCL) =
        PMEMFILE_O_CREAT ||| PMEMFILE_O_EXCL →
      _pmemfile_openat ex_pool (7 + 1) { vinode := some 1, remaining := ['n'] }
          (PMEMFILE_O_CREAT ||| PMEMFILE_O_RDWR) 0o600 =
        some (.error (if ex_pool.vinode_is_dir vi = false ∧ '/' ∈ ['n'] then ENOTDIR
          else EEXIST))) ∧
    (ex_pool.vinode_lookup_dirent 1 ['n'] (ex_pool.component_length ['n']) = none →
      (PMEMFILE_O_CREAT ||| PMEMFILE_O_RDWR) &&& PMEMFILE_O_CREAT ≠ 0 →
      ∃ file_flags, _pmemfile_openat ex_pool (7 + 1) { vinode := some 1, remaining := ['n'] }
          (PMEMFILE_O_CREAT ||| PMEMFILE_O_RDWR) 0o600 =
        some (.ok (.created 1 ['n'] (ex_pool.component_length ['n'])
          (PMEMFILE_S_IFREG ||| (0o600 &&& PMEMFILE_ALLPERMS)) false, file_flags))) :=
  open_existence_check ex_pool 7 { vinode := some 1, remaining := ['n'] }
    (PMEMFILE_O_CREAT ||| PMEMFILE_O_RDWR) 0o600 1
    (by rfl) (by decide) (by rfl) (by decide) (by decide) (by decide)

/-- C28: `open_file` aborts the transaction with `ENOTDIR` when `O_DIRECTORY` is
set and the inode is not a directory; otherwise, with `O_TRUNC`, it aborts
with `EINVAL` when the inode is not a regular file and with `EACCES` when the
access mode is `O_RDONLY`, and truncates the file otherwise; without `O_TRUNC`
it changes nothing. -/
theorem open_file_checks (pfp : PMEMfilepool) (vinode flags : Nat) :
    (flags &&& PMEMFILE_O_DIRECTORY ≠ 0 ∧ pfp.vinode_is_dir vinode = false →
      open_file pfp vinode flags = .error ENOTDIR) ∧
    (¬ (flags &&& PMEMFILE_O_DIRECTORY ≠ 0 ∧ pfp.vinode_is_dir vinode = false) →
      (flags &&& PMEMFILE_O_TRUNC ≠ 0 →
        (pfp.vinode_is_regular_file vinode = false →
          open_file pfp vinode flags = .error EINVAL) ∧
        (pfp.vinode_is_regular_file vinode = true →
          flags &&& PMEMFILE_O_ACCMODE = PMEMFILE_O_RDONLY →
          open_file pfp vinode flags = .error EACCES) ∧
        (pfp.vinode_is_regular_file vinode = true →
          flags &&& PMEMFILE_O_ACCMODE ≠ PMEMFILE_O_RDONLY →
          open_file pfp vinode flags = .ok true)) ∧
      (flags &&& PMEMFILE_O_TRUNC = 0 → open_file pfp vinode flags = .ok false)) := by
  unfold open_file
  refine ⟨fun h => by rw [if_pos h], fun h => ⟨fun ht => ⟨fun hr => ?_, fun hr ha => ?_,
    fun hr ha => ?_⟩, fun ht => ?_⟩⟩
  · rw [if_neg h, if_pos ht, if_pos hr]
  · rw [if_neg h, if_pos ht, if_neg (by simp [hr]), if_pos ha]
  · rw [if_neg h, if_pos ht, if_neg (by simp [hr]), if_neg ha]
  · rw [if_neg h, if_neg (not_not.mpr ht)]

/-! ## C29, C30: rename -/

/-- C29: a rename with flags 0 whose two parents are directories, with one
component left on each side, and whose source name finds a directory returns
`-1` with `ENOTSUP`; no lock is taken and the transaction that changes the
directories is not run. -/
theorem rename_directory_rejected (pfp : PMEMfilepool) (tx_error : Nat)
    (src dst : pmemfile_path_info) (src_parent dst_parent src_vinode : Nat)
    (hs : src.vinode = some src_parent) (hd : dst.vinode = some dst_parent)
    (hsd : pfp.vinode_is_dir src_parent = true) (hdd : pfp.vinode_is_dir dst_parent = true)
    (hsm : pfp.more_than_1_component src.remaining = false)
    (hdm : pfp.more_than_1_component dst.remaining = false)
    (hl : pfp.vinode_lookup_dirent src_parent src.remaining
      (pfp.component_length src.remaining) = some src_vinode)
    (hdir : pfp.vinode_is_dir src_vinode = true) :
    _pmemfile_renameat2 pfp tx_error src dst 0 = (ENOTSUP, []) := by
  unfold _pmemfile_renameat2
  rw [if_neg (by decide), hs, hd]
  dsimp only
  rw [if_neg (by simp [hsd]), if_neg (by simp [hdd]), if_neg (by simp [hsm]),
    if_neg (by simp [hdm]), hl]
  dsimp only
  rw [if_pos hdir]

/-- C29, instance: renaming the directory `d` of the root of `ex_pool`. -/
theorem rename_directory_rejected_witness :
    _pmemfile_renameat2 ex_pool 0 { vinode := some 1, remaining := ['d'] }
      { vinode := some 1, remaining := ['x'] } 0 = (ENOTSUP, []) :=
  rename_directory_rejected ex_pool 0 { vinode := some 1, remaining := ['d'] }
    { vinode := some 1, remaining := ['x'] } 1 1 4 (by rfl) (by rfl) (by decide) (by decide)
    (by decide) (by decide) (by decide) (by decide)

/-- C30: a rename that reaches its transaction (flags 0, both parents
directories, one component left on each side, the source name finding an inode
that is not a directory) takes one write lock when the two parents are the
same vinode and otherwise the write locks of both, the one at the lower address
first; the transaction follows, and after it every lock that was taken is
released, each exactly once. -/
theorem rename_lock_order (pfp : PMEMfilepool) (tx_error : Nat)
    (src dst : pmemfile_path_info) (src_parent dst_parent src_vinode : Nat)
    (hs : src.vinode = some src_parent) (hd : dst.vinode = some dst_parent)
    (hsd : pfp.vinode_is_dir src_parent = true) (hdd : pfp.vinode_is_dir dst_parent = true)
    (hsm : pfp.more_than_1_component src.remaining = false)
    (hdm : pfp.more_than_1_component dst.remaining = false)
    (hl : pfp.vinode_lookup_dirent src_parent src.remaining
      (pfp.component_length src.remaining) = some src_vinode)
    (hdir : pfp.vinode_is_dir src_vinode = false) :
    ∃ locks unlocks : List Nat,
      (_pmemfile_renameat2 pfp tx_error src dst 0).2 =
        locks.map rename_event.wrlock ++
          [rename_event.transaction dst_parent dst.remaining src_parent src.remaining
            src_vinode] ++
          unlocks.map rename_event.unlock ∧
      (_pmemfile_renameat2 pfp tx_error src dst 0).1 = tx_error ∧
      (src_parent = dst_parent → locks = [dst_parent]) ∧
      (src_parent ≠ dst_parent →
        locks = [min src_parent dst_parent, max src_parent dst_parent]) ∧
      locks.Nodup ∧ unlocks.Nodup ∧ (∀ p, p ∈ unlocks ↔ p ∈ locks) := by
  unfold _pmemfile_renameat2
  rw [if_neg (by decide), hs, hd]
  dsimp only
  rw [if_neg (by simp [hsd]), if_neg (by simp [hdd]), if_neg (by simp [hsm]),
    if_neg (by simp [hdm]), hl]
  dsimp only
  rw [if_neg (by simp [hdir])]
  by_cases he : src_parent = dst_parent
  · rw [if_pos he, if_pos he]
    refine ⟨[dst_parent], [dst_parent], rfl, rfl, fun _ => rfl, fun h => absurd he h,
      List.nodup_singleton _, List.nodup_singleton _, fun p => Iff.rfl⟩
  · rw [if_neg he, if_neg he]
    by_cases hlt : src_parent < dst_parent
    · rw [if_pos hlt]
      refine ⟨[src_parent, dst_parent], [src_parent, dst_parent], rfl, rfl,
        fun h => absurd h he, fun _ => ?_, ?_, ?_, fun p => Iff.rfl⟩
      · rw [min_eq_left (by omega), max_eq_right (by omega)]
      · simp [he]
      · simp [he]
    · rw [if_neg hlt]
      refine ⟨[dst_parent, src_parent], [src_parent, dst_parent], rfl, rfl,
        fun h => absurd h he, fun _ => ?_, ?_, ?_, fun p => ?_⟩
      · rw [min_eq_right (by omega), max_eq_left (by omega)]
      · simp [Ne.symm he]
      · simp [he]
      · simp only [List.mem_cons, List.mem_singleton, List.not_mem_nil, or_false]
        exact or_comm

/-- C30, instance: renaming the file `f` of the root of `ex_pool` (vinode 1)
into the directory `d` (vinode 4): the root, at the lower address, is locked
first. -/
theorem rename_lock_order_witness :
    ∃ locks unlocks : List Nat,
      (_pmemfile_renameat2 ex_pool 0 { vinode := some 1, remaining := ['f'] }
          { vinode := some 4, remaining := ['y'] } 0).2 =
        locks.map rename_event.wrlock ++
          [rename_event.transaction 4 ['y'] 1 ['f'] 3] ++
          unlocks.map rename_event.unlock ∧
      (_pmemfile_renameat2 ex_pool 0 { vinode := some 1, remaining := ['f'] }
          { vinode := some 4, remaining := ['y'] } 0).1 = 0 ∧
      ((1 : Nat) = 4 → locks = [4]) ∧
      ((1 : Nat) ≠ 4 → locks = [min 1 4, max 1 4]) ∧
      locks.Nodup ∧ unlocks.Nodup ∧ (∀ p, p ∈ unlocks ↔ p ∈ locks) :=
  rename_lock_order ex_pool 0
    { vinode := some 1, remaining := ['f'] } { vinode := some 4, remaining := ['y'] } 1 4 3
    (by rfl) (by rfl) (by decide) (by decide) (by decide) (by decide) (by decide) (by decide)

/-! ## C22: `block_find_closest` is `find_le` -/

/-- C22: for blocks with positive sizes, offsets and sizes that are multiples
of `MIN_BLOCK_SIZE`, ends below `2 ^ 60`, pairwise disjoint ranges and distinct
descriptors (`map_blocks_ok`), inserted in any order into a new map, every
`insert_block` returns; and with the descriptors linked in the order of the
offsets (`chain`), `block_find_closest` on the map returns for every offset `q`
the inserted block with the greatest offset that is not above `q`, and `NULL`
when no inserted block has an offset that is not above `q`, as with no block
at all (`find_le_answer`); this is the block that contains `q` when there is
one. -/
theorem find_le_greatest_block (M : Nat) (hM : 0 < M) (hM64 : M < 2 ^ 64)
    (inserted chain : List pmemfile_block) (hok : map_blocks_ok M inserted)
    (hperm : chain.Perm inserted)
    (hsorted : chain.Pairwise (fun a b => a.offset < b.offset)) :
    ∃ m, insert_blocks (offset_map_new M) inserted = some m ∧
      ∀ q, ∃ r, block_find_closest M chain m q = some r ∧ find_le_answer inserted q r ∧
        ∀ b ∈ inserted, b.offset ≤ q → q < b.offset + b.size → r = some b.addr := by
  obtain ⟨m, h1, hr⟩ := insert_blocks_repr hM inserted [] (offset_map_new M)
    ⟨0, map_repr_new hM64⟩ (by rw [List.append_nil]; exact hok)
  rw [List.append_nil] at hr
  refine ⟨m, h1, fun q => ?_⟩
  have hokc : map_blocks_ok M chain := map_blocks_ok_perm hperm.symm hok
  have hrc : map_repr M m chain := map_repr_congr (fun b => hperm.mem_iff.symm) hr
  obtain ⟨r, h2, h3⟩ := block_find_closest_spec hM hokc hsorted hrc q
  have h4 := find_le_answer_congr (fun b => hperm.mem_iff) h3
  exact ⟨r, h2, h4, fun b hb hb1 hb2 => find_le_answer_contains hok h4 hb hb1 hb2⟩

/-- C22, instance: three blocks of units of 4096 bytes, inserted in another
order than the order of their offsets. -/
theorem find_le_greatest_block_witness :
    map_blocks_ok 4096 [ex_map_block3, ex_map_block1, ex_map_block2] ∧
      ∃ m, insert_blocks (offset_map_new 4096) [ex_map_block3, ex_map_block1, ex_map_block2] =
          some m ∧
        ∀ q, ∃ r, block_find_closest 4096 [ex_map_block1, ex_map_block2, ex_map_block3] m q =
            some r ∧
          find_le_answer [ex_map_block3, ex_map_block1, ex_map_block2] q r ∧
          ∀ b ∈ [ex_map_block3, ex_map_block1, ex_map_block2], b.offset ≤ q →
            q < b.offset + b.size → r = some b.addr :=
  ⟨by unfold map_blocks_ok; decide,
    find_le_greatest_block 4096 (by decide) (by decide)
      [ex_map_block3, ex_map_block1, ex_map_block2]
      [ex_map_block1, ex_map_block2, ex_map_block3] (by unfold map_blocks_ok; decide)
      (show ([ex_map_block1, ex_map_block2] ++ [ex_map_block3]).Perm
        ([ex_map_block3] ++ [ex_map_block1, ex_map_block2]) from List.perm_append_comm)
      (by decide)⟩

/-! ## C23: `remove_block` undoes `insert_block` -/

/-- C23: for a map `m` built by inserting blocks into a new map, and a block
`b` such that `b` and the inserted blocks have positive sizes, offsets and
sizes that are multiples of `MIN_BLOCK_SIZE`, ends below `2 ^ 60`, pairwise
disjoint ranges and distinct descriptors, `insert_block` of `b` and then
`remove_block` of `b` return; on the map they leave, `block_find_closest`
(with the inserted blocks linked in the order of their offsets) returns for
every offset what it returns on `m`, which is never `b`; and the range of the
map is `MIN_BLOCK_SIZE` when no block was inserted before `b`. -/
theorem remove_undoes_insert (M : Nat) (hM : 0 < M) (hM64 : M < 2 ^ 64)
    (inserted chain : List pmemfile_block) (b : pmemfile_block)
    (hok : map_blocks_ok M (b :: inserted)) (hperm : chain.Perm inserted)
    (hsorted : chain.Pairwise (fun x y => x.offset < y.offset)) (m : offset_map)
    (hm : insert_blocks (offset_map_new M) inserted = some m) :
    ∃ m1 m2, insert_block m b = some m1 ∧ remove_block M m1 b = some m2 ∧
      (∀ q, ∃ r, block_find_closest M chain m q = some r ∧
        block_find_closest M chain m2 q = some r ∧ r ≠ some b.addr) ∧
      (inserted = [] → m2.range = M) := by
  have hoki : map_blocks_ok M inserted :=
    map_blocks_ok_sublist (List.sublist_cons_self b inserted) hok
  have haddr : ∀ c ∈ inserted, b.addr ≠ c.addr := (List.pairwise_cons.mp hok.2.2).1
  obtain ⟨m0, h0, hr0⟩ := insert_blocks_repr hM inserted [] (offset_map_new M)
    ⟨0, map_repr_new hM64⟩ (by rw [List.append_nil]; exact hoki)
  rw [List.append_nil] at hr0
  rw [hm] at h0
  injection h0 with h0
  subst h0
  obtain ⟨m1, h1, hr1⟩ := insert_block_repr hM hok hr0
  obtain ⟨m2, h2, hr2, hrange⟩ := remove_block_repr hM hok (List.mem_cons_self b inserted) hr1
  have hmem : ∀ x, x ∈ (b :: inserted).filter (fun x => x.addr != b.addr) ↔ x ∈ inserted := by
    intro x
    rw [List.mem_filter]
    constructor
    · rintro ⟨hx, hne⟩
      rcases List.mem_cons.mp hx with h | h
      · rw [h] at hne
        simp at hne
      · exact h
    · intro hx
      refine ⟨List.mem_cons_of_mem b hx, ?_⟩
      have := haddr x hx
      simp only [bne_iff_ne, ne_eq]
      exact fun h => this h.symm
  have hr3 : map_repr M m2 inserted := map_repr_congr hmem hr2
  have hokc : map_blocks_ok M chain := map_blocks_ok_perm hperm.symm hoki
  refine ⟨m1, m2, h1, h2, fun q => ?_, fun hnil => hrange ?_⟩
  · obtain ⟨r, g1, g2⟩ := block_find_closest_spec hM hokc hsorted
      (map_repr_congr (fun x => hperm.mem_iff.symm) hr0) q
    obtain ⟨r2, g3, g4⟩ := block_find_closest_spec hM hokc hsorted
      (map_repr_congr (fun x => hperm.mem_iff.symm) hr3) q
    have he : r2 = r := find_le_answer_unique hokc g4 g2
    rw [he] at g3
    refine ⟨r, g1, g3, ?_⟩
    intro hcon
    rw [hcon] at g2
    obtain ⟨c, hc, hca, _⟩ := g2
    exact haddr c (hperm.mem_iff.mp hc) hca.symm
  · rw [hnil]
    simp

/-- C23, instance: `ex_map` holds two blocks in one array of its tree; the
block `ex_map_block3` lies behind the range of `ex_map`, so that the insert
adds a level and the remove takes it away. -/
theorem remove_undoes_insert_witness :
    insert_blocks (offset_map_new 4096) [ex_map_block1, ex_map_block2] = some ex_map ∧
      ∃ m1 m2, insert_block ex_map ex_map_block3 = some m1 ∧
        remove_block 4096 m1 ex_map_block3 = some m2 ∧
        (∀ q, ∃ r, block_find_closest 4096 [ex_map_block1, ex_map_block2] ex_map q = some r ∧
          block_find_closest 4096 [ex_map_block1, ex_map_block2] m2 q = some r ∧
          r ≠ some ex_map_block3.addr) ∧
        ([ex_map_block1, ex_map_block2] = [] → m2.range = 4096) :=
  ⟨rfl,
    remove_undoes_insert 4096 (by decide) (by decide) [ex_map_block1, ex_map_block2]
      [ex_map_block1, ex_map_block2] ex_map_block3 (by unfold map_blocks_ok; decide)
      (List.Perm.refl _) (by decide) ex_map rfl⟩

/-! ## C31: the locks of a transaction -/

/-- C31: let the body of a transaction call `rwlock_tx_wlock`, `mutex_tx_lock`,
`rwlock_tx_unlock_on_commit` and `mutex_tx_unlock_on_commit` in any order, and
let the locks passed to the two `unlock_on_commit` functions be the locks that
were acquired (each as often as it was acquired).  When the transaction aborts
after any number `n` of these calls, the callbacks of `TX_STAGE_ONABORT`
release the locks acquired by then, each once, in the reverse order of the
acquisitions; when it commits, the callbacks of `TX_STAGE_ONCOMMIT` release
the acquired locks, each once, in the order in which they were passed to the
`unlock_on_commit` functions. -/
theorem tx_locks_released_once (ops : List tx_op)
    (h : (tx_scheduled ops).Perm (tx_acquired ops)) :
    (∀ n, released (cb_queue .TX_STAGE_ONABORT (tx_body (ops.take n) tx_begin)) =
        (tx_acquired (ops.take n)).reverse ∧
      (released (cb_queue .TX_STAGE_ONABORT (tx_body (ops.take n) tx_begin))).Perm
        (tx_acquired (ops.take n))) ∧
      released (cb_queue .TX_STAGE_ONCOMMIT (tx_body ops tx_begin)) = tx_scheduled ops ∧
      (released (cb_queue .TX_STAGE_ONCOMMIT (tx_body ops tx_begin))).Perm (tx_acquired ops) := by
  refine ⟨fun n => ?_, released_on_commit ops, ?_⟩
  · rw [released_on_abort]
    exact ⟨rfl, List.reverse_perm _⟩
  · rw [released_on_commit]
    exact h

/-- C31, instance: the transaction of `create_file`, which takes the lock of
the parent and passes it to `rwlock_tx_unlock_on_commit`. -/
theorem tx_locks_released_once_witness :
    (tx_scheduled ex_create_file_locks).Perm (tx_acquired ex_create_file_locks) ∧
      ((∀ n, released (cb_queue .TX_STAGE_ONABORT
            (tx_body (ex_create_file_locks.take n) tx_begin)) =
          (tx_acquired (ex_create_file_locks.take n)).reverse ∧
        (released (cb_queue .TX_STAGE_ONABORT
            (tx_body (ex_create_file_locks.take n) tx_begin))).Perm
          (tx_acquired (ex_create_file_locks.take n))) ∧
        released (cb_queue .TX_STAGE_ONCOMMIT (tx_body ex_create_file_locks tx_begin)) =
          tx_scheduled ex_create_file_locks ∧
        (released (cb_queue .TX_STAGE_ONCOMMIT (tx_body ex_create_file_locks tx_begin))).Perm
          (tx_acquired ex_create_file_locks)) :=
  ⟨by decide, tx_locks_released_once ex_create_file_locks (by decide)⟩

/-! ## C32: symbolic links -/

/-- C32: let `target` be a string (no byte of it is 0) for which
`_pmemfile_symlinkat` returns 0, and let the flag `PMEMFILE_S_LONGSYMLINK` be
a bit outside the file type and the permission bits.  The new inode is a
symlink with the permission bits 0777 and the size `strlen(target)`.  When the
target and its NUL fit the buffer of `PMEMFILE_IN_INODE_STORAGE` bytes, they
are stored there and the flag is clear; otherwise they are stored in a block
of their own and the flag is set.  In both cases `get_symlink` returns a
string equal to `target`. -/
theorem symlink_round_trip (env : symlink_env) (target : List Nat) (inode : symlink_inode)
    (hz : ∀ c ∈ target, c ≠ 0)
    (hflag : env.PMEMFILE_S_LONGSYMLINK &&& (PMEMFILE_S_IFMT ||| PMEMFILE_ALLPERMS) = 0)
    (hflag0 : env.PMEMFILE_S_LONGSYMLINK ≠ 0)
    (h : _pmemfile_symlinkat env target = .ok inode) :
    inode.flags &&& PMEMFILE_S_IFMT = PMEMFILE_S_IFLNK ∧
      inode.flags &&& PMEMFILE_ALLPERMS = 0o777 ∧
      inode.size = target.length ∧
      (target.length + 1 ≤ PMEMFILE_IN_INODE_STORAGE →
        inode_is_longsymlink env inode = false ∧
        ∃ rest, inode.file_data = .short_symlink (target ++ [0] ++ rest)) ∧
      (¬ target.length + 1 ≤ PMEMFILE_IN_INODE_STORAGE →
        inode_is_longsymlink env inode = true ∧
        ∃ rest, inode.file_data = .long_symlink (target ++ [0] ++ rest)) ∧
      (get_symlink env inode).map c_string = some target := by
  have hL1 : env.PMEMFILE_S_LONGSYMLINK &&& PMEMFILE_S_IFMT = 0 :=
    and_eq_zero_of_subset hflag (by decide)
  have hL2 : env.PMEMFILE_S_LONGSYMLINK &&& PMEMFILE_ALLPERMS = 0 :=
    and_eq_zero_of_subset hflag (by decide)
  have hL3 : env.PMEMFILE_S_LONGSYMLINK &&& (PMEMFILE_S_IFLNK ||| PMEMFILE_ACCESSPERMS) = 0 :=
    and_eq_zero_of_subset hflag (by decide)
  have hL4 : (PMEMFILE_S_IFLNK ||| PMEMFILE_ACCESSPERMS) &&& env.PMEMFILE_S_LONGSYMLINK = 0 := by
    rw [Nat.and_comm]
    exact hL3
  unfold _pmemfile_symlinkat at h
  split at h
  · cases h
  split at h
  · cases h
  dsimp only at h
  split at h
  · cases h
  split at h
  · cases h
  by_cases hs : target.length + 1 ≤ PMEMFILE_IN_INODE_STORAGE
  · rw [if_pos hs] at h
    simp only [inode_alloc] at h
    injection h with h
    subst h
    have hnl : inode_is_longsymlink env
        { flags := PMEMFILE_S_IFLNK ||| PMEMFILE_ACCESSPERMS, size := target.length,
          file_data := symlink_data.short_symlink
            (memcpy (fresh_bytes env.fresh PMEMFILE_IN_INODE_STORAGE) (target ++ [0])) } =
        false := by
      simp only [inode_is_longsymlink, hL4]
      rfl
    refine ⟨?_, ?_, rfl, fun _ => ⟨hnl, _, rfl⟩, fun hn => absurd hs hn, ?_⟩
    · show (PMEMFILE_S_IFLNK ||| PMEMFILE_ACCESSPERMS) &&& PMEMFILE_S_IFMT = PMEMFILE_S_IFLNK
      decide
    · show (PMEMFILE_S_IFLNK ||| PMEMFILE_ACCESSPERMS) &&& PMEMFILE_ALLPERMS = 0o777
      decide
    unfold get_symlink
    rw [hnl]
    simp only [Bool.false_eq_true, if_false, Option.map_some']
    rw [c_string_memcpy _ _ hz]
  · rw [if_neg hs] at h
    simp only [inode_alloc] at h
    injection h with h
    subst h
    have hfl : (PMEMFILE_S_IFLNK ||| PMEMFILE_ACCESSPERMS ||| env.PMEMFILE_S_LONGSYMLINK) &&&
        env.PMEMFILE_S_LONGSYMLINK = env.PMEMFILE_S_LONGSYMLINK := by
      rw [Nat.and_comm, Nat.and_or_distrib_left, hL3, Nat.zero_or, Nat.and_self]
    have hl : inode_is_longsymlink env
        { flags := PMEMFILE_S_IFLNK ||| PMEMFILE_ACCESSPERMS ||| env.PMEMFILE_S_LONGSYMLINK,
          size := target.length,
          file_data := symlink_data.long_symlink
            (memcpy (fresh_bytes env.fresh env.block_size) (target ++ [0])) } = true := by
      simp only [inode_is_longsymlink, hfl]
      simpa using hflag0
    refine ⟨?_, ?_, rfl, fun hn => absurd hn hs, fun _ => ⟨hl, _, rfl⟩, ?_⟩
    · show (PMEMFILE_S_IFLNK ||| PMEMFILE_ACCESSPERMS ||| env.PMEMFILE_S_LONGSYMLINK) &&&
        PMEMFILE_S_IFMT = PMEMFILE_S_IFLNK
      rw [or_and_of_disjoint hL1]
      decide
    · show (PMEMFILE_S_IFLNK ||| PMEMFILE_ACCESSPERMS ||| env.PMEMFILE_S_LONGSYMLINK) &&&
        PMEMFILE_ALLPERMS = 0o777
      rw [or_and_of_disjoint hL2]
      decide
    · unfold get_symlink
      rw [hl]
      simp only [if_true, Option.map_some']
      rw [c_string_memcpy _ _ hz]

/-- C32, instance: the link to `/aaa` of the test `permissions.symlink`. -/
theorem symlink_round_trip_witness :
    _pmemfile_symlinkat ex_symlink_env [47, 97, 97, 97] = .ok ex_symlink_inode ∧
      ex_symlink_inode.flags &&& PMEMFILE_S_IFMT = PMEMFILE_S_IFLNK ∧
      ex_symlink_inode.flags &&& PMEMFILE_ALLPERMS = 0o777 ∧
      ex_symlink_inode.size = [47, 97, 97, 97].length ∧
      ([47, 97, 97, 97].length + 1 ≤ PMEMFILE_IN_INODE_STORAGE →
        inode_is_longsymlink ex_symlink_env ex_symlink_inode = false ∧
        ∃ rest, ex_symlink_inode.file_data =
          .short_symlink ([47, 97, 97, 97] ++ [0] ++ rest)) ∧
      (¬ [47, 97, 97, 97].length + 1 ≤ PMEMFILE_IN_INODE_STORAGE →
        inode_is_longsymlink ex_symlink_env ex_symlink_inode = true ∧
        ∃ rest, ex_symlink_inode.file_data =
          .long_symlink ([47, 97, 97, 97] ++ [0] ++ rest)) ∧
      (get_symlink ex_symlink_env ex_symlink_inode).map c_string = some [47, 97, 97, 97] :=
  ⟨rfl, symlink_round_trip ex_symlink_env [47, 97, 97, 97] ex_symlink_inode (by decide)
    (by decide) (by decide) rfl⟩

/-! ## C33: `fcntl(F_GETFL)` -/

/-- C33 (evaluation): the file `f` of `ex_pool` opened with `O_RDWR` gives a
handle with `PFILE_READ | PFILE_WRITE`; for it `pmemfile_fcntl(F_GETFL)`
returns `O_LARGEFILE | O_WRONLY | O_RDWR`, whose access mode bits are 3 and not
`O_RDWR`.  For the handles of `O_RDONLY` and `O_WRONLY` the access mode is the
one given to open. -/
theorem getfl_rdwr_reports_wronly_and_rdwr :
    opened_flags (_pmemfile_openat ex_pool 8 { vinode := some 1, remaining := ['f'] }
        PMEMFILE_O_RDWR 0) = PFILE_READ ||| PFILE_WRITE ∧
      pmemfile_fcntl (PFILE_READ ||| PFILE_WRITE) PMEMFILE_F_GETFL =
        .ok (PMEMFILE_O_LARGEFILE ||| PMEMFILE_O_WRONLY ||| PMEMFILE_O_RDWR) ∧
      (PMEMFILE_O_LARGEFILE ||| PMEMFILE_O_WRONLY ||| PMEMFILE_O_RDWR) &&& PMEMFILE_O_ACCMODE =
        3 ∧
      PMEMFILE_O_RDWR = 2 ∧
      pmemfile_fcntl PFILE_READ PMEMFILE_F_GETFL = .ok (PMEMFILE_O_LARGEFILE ||| PMEMFILE_O_RDONLY) ∧
      pmemfile_fcntl PFILE_WRITE PMEMFILE_F_GETFL =
        .ok (PMEMFILE_O_LARGEFILE ||| PMEMFILE_O_WRONLY) :=
  ⟨by rfl, by rfl, by decide, by decide, by rfl, by rfl⟩

/-! ## C34: `write_block_range` -/

/-- C34: for a block (whose size fits its `uint32_t` field) and a range
`[off, off + len)` inside it with `len > 0`, `write_block_range` returns; the
block is then initialised, with the same offset and size; the bytes of
`[off, off + len)` are the bytes of the buffer; and every other byte of the
block is 0 when the block was not initialised before, and what it was when the
block was initialised before. -/
theorem write_block_range_effect (block : pmemfile_block) (off len : Nat) (buf : List Nat)
    (hlen : 0 < len) (hend : off + len ≤ block.size) (hsize : block.size < 2 ^ 32)
    (hbuf : buf.length = len) :
    ∃ b1, write_block_range block off len buf = some b1 ∧
      is_block_data_initialized b1 = true ∧ b1.offset = block.offset ∧
      b1.size = block.size ∧
      (∀ i, ∀ hi : i < buf.length, b1.data (off + i) = buf[i]) ∧
      ∀ i, i < block.size → ¬ (off ≤ i ∧ i < off + len) →
        b1.data i = if is_block_data_initialized block then block.data i else 0 := by
  have hu : u64 (off + len) = off + len := u64_of_lt (by omega)
  have hsome : ∃ b1, write_block_range block off len buf = some b1 := by
    unfold write_block_range
    rw [hu, if_neg (by omega)]
    exact ⟨_, rfl⟩
  obtain ⟨b1, hb1⟩ := hsome
  obtain ⟨_, h2, h3, h4, h5⟩ := write_block_range_spec hb1
  refine ⟨b1, hb1, h4, h2, h3, ?_, ?_⟩
  · intro i hi
    rw [h5 (off + i) (by omega), if_pos ⟨by omega, by omega⟩, Nat.add_sub_cancel_left]
    exact (List.getD_eq_getElem _ _ hi)
  · intro i hi hout
    rw [h5 i hi, if_neg hout]

/-- C34, instance: five bytes written into the second half of a page that was
never written. -/
theorem write_block_range_effect_witness :
    ∃ b1, write_block_range
        { addr := 1, offset := 0, size := 4096, flags := 0, data := fun _ => 0x66 } 2048 5
        ex_hello = some b1 ∧
      is_block_data_initialized b1 = true ∧ b1.offset = 0 ∧ b1.size = 4096 ∧
      (∀ i, ∀ hi : i < ex_hello.length, b1.data (2048 + i) = ex_hello[i]) ∧
      ∀ i, i < 4096 → ¬ (2048 ≤ i ∧ i < 2048 + 5) →
        b1.data i =
          if is_block_data_initialized
              { addr := 1, offset := 0, size := 4096, flags := 0, data := fun _ => 0x66 } then
            0x66
          else 0 :=
  write_block_range_effect
    { addr := 1, offset := 0, size := 4096, flags := 0, data := fun _ => 0x66 } 2048 5 ex_hello
    (by decide) (by decide) (by decide) (by decide)

/-! ## C35: the descriptors after `vinode_remove_interval` -/

/-- C35 (counterexample): the only block of `ex_top` is the page
`[2 ^ 64 - 8192, 2 ^ 64 - 4096)`, which lies inside the interval of the
offset `2 ^ 64 - 8192` and the length 12288; `offset + len` does not fit 64
bits, `vinode_remove_interval` looks for the block at `offset + len - 1`
wrapped around, which is 4095, finds none, and leaves the block in the chain
and in the index. -/
theorem remove_interval_wraps_past_block :
    vinode_wf ex_top ∧
      (∀ b ∈ ex_top.chain, 2 ^ 64 - 8192 ≤ b.offset ∧
        b.offset + b.size ≤ 2 ^ 64 - 8192 + 12288) ∧
      u64 (2 ^ 64 - 8192 + 12288 - 1) = 4095 ∧
      (vinode_remove_interval ex_top (2 ^ 64 - 8192) 12288).map
          (fun v => (v.chain.map (fun b => (b.addr, b.offset, b.size)), v.blocks)) =
        some ([(1, 2 ^ 64 - 8192, 4096)], some [(2 ^ 64 - 8192, 1)]) :=
  ⟨@vinode_wf_of_index ex_top [(2 ^ 64 - 8192, 1)] rfl (by decide) (by decide) (by decide),
    by decide, by decide, by rfl⟩

/-- C35 (amended): on a well-formed file with a built index, for `len > 0` and
`offset + len` below `2 ^ 64`, `vinode_remove_interval` returns; the chain is
sorted and disjoint and the index holds its descriptors; the descriptors of the
chain are those of the old chain that do not lie inside
`[offset, offset + len)`, each with the offset, the size and the flags it
had. -/
theorem remove_interval_structure (v : pmemfile_vinode) (c : List (Nat × Nat))
    (offset len : Nat) (hw : vinode_wf v) (hcb : v.blocks = some c) (hl : 0 < len)
    (hend : offset + len < 2 ^ 64) :
    ∃ v' c', vinode_remove_interval v offset len = some v' ∧ v'.blocks = some c' ∧
      chain_wf v'.chain ∧ index_ok v'.chain c' ∧
      (∀ a ∈ v'.chain, ∃ a0 ∈ v.chain, a0.addr = a.addr ∧ a0.offset = a.offset ∧
        a0.size = a.size ∧ a0.flags = a.flags ∧
        ¬ (offset ≤ a0.offset ∧ a0.offset + a0.size ≤ offset + len)) ∧
      ∀ a0 ∈ v.chain, ¬ (offset ≤ a0.offset ∧ a0.offset + a0.size ≤ offset + len) →
        ∃ a ∈ v'.chain, a.addr = a0.addr ∧ a.offset = a0.offset ∧ a.size = a0.size ∧
          a.flags = a0.flags := by
  obtain ⟨v', r1, r2, ⟨c', r3⟩, _, _, r6, r7⟩ := vinode_remove_interval_spec hw hcb hl hend
  refine ⟨v', c', r1, r3, r2.1, r2.2.1 c' r3, ?_, ?_⟩
  · intro a ha
    obtain ⟨a0, ha0, e1, e2, e3, e4⟩ := r6 a ha
    have := r7 a ha
    exact ⟨a0, ha0, e1, e2, e3, e4, by omega⟩
  · intro a0 ha0 hnc
    have hloop := r1
    unfold vinode_remove_interval at hloop
    rw [if_neg (by omega), hcb] at hloop
    dsimp only at hloop
    refine remove_loop_keeps _ v _ offset len v' hw.1.2.1 hloop a0 ha0 ?_
    unfold is_block_contained_by_interval
    rw [u64_of_lt (hw.1.2.2 a0 ha0).2.2.2.1, u64_of_lt hend]
    by_contra hcon
    rw [Bool.not_eq_false, Bool.and_eq_true, decide_eq_true_eq, decide_eq_true_eq] at hcon
    exact hnc ⟨hcon.1, hcon.2⟩

/-- C35 (amended), instance: the first page of `ex_sparse` is removed, the block
behind the hole stays. -/
theorem remove_interval_structure_witness :
    ∃ v' c', vinode_remove_interval ex_sparse 0 5000 = some v' ∧ v'.blocks = some c' ∧
      chain_wf v'.chain ∧ index_ok v'.chain c' ∧
      (∀ a ∈ v'.chain, ∃ a0 ∈ ex_sparse.chain, a0.addr = a.addr ∧ a0.offset = a.offset ∧
        a0.size = a.size ∧ a0.flags = a.flags ∧
        ¬ (0 ≤ a0.offset ∧ a0.offset + a0.size ≤ 0 + 5000)) ∧
      ∀ a0 ∈ ex_sparse.chain, ¬ (0 ≤ a0.offset ∧ a0.offset + a0.size ≤ 0 + 5000) →
        ∃ a ∈ v'.chain, a.addr = a0.addr ∧ a.offset = a0.offset ∧ a.size = a0.size ∧
          a.flags = a0.flags :=
  remove_interval_structure ex_sparse [(0, 1), (8192, 2)] 0 5000 ex_sparse_wf rfl (by decide)
    (by decide)

/-! ## C36: the rebuild of the index -/

/-- C36 (counterexample): the block array `ex_block_array` holds a descriptor
of size 0 in its first slot and a block of one page at the offset 0 in its
second slot.  The loop of `vinode_rebuild_block_tree` ends at the first slot:
the index is empty, the lookup of the offset 0 finds nothing and `first_block`
is `NULL`. -/
theorem rebuild_skips_block_behind_free_slot :
    ex_block_array.map (fun b => (b.addr, b.offset, b.size)) = [(1, 0, 0), (2, 0, 4096)] ∧
      (rebuild_block_tree [ex_block_array]).1 = [] ∧
      find_block (rebuild_block_tree [ex_block_array]).1 0 = none ∧
      (rebuild_block_tree [ex_block_array]).2 = none := by
  decide

/-- C36 (amended): let every block array be filled from the front (no
descriptor of size 0 stands in front of a descriptor of another size), and let
the descriptors of a size other than 0 have different offsets.  After
`vinode_rebuild_block_tree`, the lookup of the offset of each of these
descriptors returns the descriptor, every entry of the index is the offset and
the address of one of them, and `first_block` is the one of them with the least
offset, `NULL` if there is none. -/
theorem rebuild_index_faithful (arrays : List (List pmemfile_block))
    (hfront : ∀ a ∈ arrays, ∀ b ∈ a, b.size ≠ 0 → b ∈ used_slots a)
    (hdist : (used_blocks arrays).Pairwise (fun x y => x.offset ≠ y.offset)) :
    (∀ a ∈ arrays, ∀ b ∈ a, b.size ≠ 0 →
        find_block (rebuild_block_tree arrays).1 b.offset = some b.addr) ∧
      (∀ e ∈ (rebuild_block_tree arrays).1, ∃ a ∈ arrays, ∃ b ∈ a, b.size ≠ 0 ∧
        e = (b.offset, b.addr)) ∧
      (((rebuild_block_tree arrays).2 = none ∧ ∀ a ∈ arrays, ∀ b ∈ a, b.size = 0) ∨
        ∃ a ∈ arrays, ∃ f ∈ a, f.size ≠ 0 ∧ (rebuild_block_tree arrays).2 = some f.addr ∧
          ∀ a1 ∈ arrays, ∀ x ∈ a1, x.size ≠ 0 → f.offset ≤ x.offset) := by
  obtain ⟨h1, h2⟩ := rebuild_block_arrays_spec arrays [] [] none
    ⟨(fun e he => by cases he), (fun b hb => by cases hb)⟩ (Or.inl ⟨rfl, rfl⟩)
    (by rw [List.nil_append]; exact hdist)
  rw [List.nil_append] at h1 h2
  have hmem : ∀ a ∈ arrays, ∀ b ∈ a, b.size ≠ 0 → b ∈ used_blocks arrays :=
    fun a ha b hb hs => mem_used_blocks.mpr ⟨a, ha, hfront a ha b hb hs⟩
  refine ⟨?_, ?_, ?_⟩
  · intro a ha b hb hs
    exact find_block_exact h1 hdist (hmem a ha b hb hs)
  · intro e he
    obtain ⟨b, hb, e1, e2⟩ := h1.1 e he
    obtain ⟨a, ha, hba⟩ := mem_used_blocks.mp hb
    exact ⟨a, ha, b, (mem_used_slots hba).1, (mem_used_slots hba).2, by
      rw [e1, e2]⟩
  · rcases h2 with ⟨e1, e2⟩ | ⟨f, e1, e2, e3⟩
    · left
      refine ⟨by show Option.map _ _ = none; rw [e1]; rfl, ?_⟩
      intro a ha b hb
      by_contra hs
      have := hmem a ha b hb hs
      rw [e2] at this
      cases this
    · right
      obtain ⟨a, ha, hfa⟩ := mem_used_blocks.mp e2
      refine ⟨a, ha, f, (mem_used_slots hfa).1, (mem_used_slots hfa).2, by
        show Option.map _ _ = some f.addr; rw [e1]; rfl, ?_⟩
      intro a1 ha1 x hx hs
      exact e3 x (hmem a1 ha1 x hx hs)

/-- C36 (amended), instance: two block arrays with three blocks, which are not
in the order of their offsets. -/
theorem rebuild_index_faithful_witness :
    (∀ a ∈ ex_block_arrays, ∀ b ∈ a, b.size ≠ 0 →
        find_block (rebuild_block_tree ex_block_arrays).1 b.offset = some b.addr) ∧
      (∀ e ∈ (rebuild_block_tree ex_block_arrays).1, ∃ a ∈ ex_block_arrays, ∃ b ∈ a,
        b.size ≠ 0 ∧ e = (b.offset, b.addr)) ∧
      (((rebuild_block_tree ex_block_arrays).2 = none ∧
          ∀ a ∈ ex_block_arrays, ∀ b ∈ a, b.size = 0) ∨
        ∃ a ∈ ex_block_arrays, ∃ f ∈ a, f.size ≠ 0 ∧
          (rebuild_block_tree ex_block_arrays).2 = some f.addr ∧
          ∀ a1 ∈ ex_block_arrays, ∀ x ∈ a1, x.size ≠ 0 → f.offset ≤ x.offset) :=
  rebuild_index_faithful ex_block_arrays
    (by
      intro a ha b hb hs
      simp only [ex_block_arrays, List.mem_cons, List.mem_singleton, List.not_mem_nil,
        or_false] at ha
      rcases ha with ha | ha
      · subst ha
        simp only [List.mem_cons, List.not_mem_nil, or_false] at hb
        rcases hb with hb | hb <;> subst hb <;> simp [used_slots]
      · subst ha
        simp only [List.mem_cons, List.not_mem_nil, or_false] at hb
        rcases hb with hb | hb <;> subst hb
        · simp [used_slots]
        · exact absurd rfl hs)
    (by decide)

/-! ## C37: `chmod` and the file type -/

/-- C37 (evaluation): `pmemfile_fchmod` on the regular file `ex_regular` (flags
`0100644`) with the mode `040755` returns 0 and leaves the flags `0140755`:
the bits outside `PMEMFILE_ALLPERMS` are `0140000`, no longer `0100000`.
`_pmemfile_fchmodat`, which masks the mode, leaves them as they were. -/
theorem fchmod_changes_file_type :
    (pmemfile_fchmod ex_time ex_cred ex_regular ex_file 0o040755).1 = 0 ∧
      (pmemfile_fchmod ex_time ex_cred ex_regular ex_file 0o040755).2.inode.flags = 0o140755 ∧
      (pmemfile_fchmod ex_time ex_cred ex_regular ex_file 0o040755).2.inode.flags &&&
        not64 PMEMFILE_ALLPERMS = 0o140000 ∧
      ex_regular.inode.flags &&& not64 PMEMFILE_ALLPERMS = 0o100000 ∧
      (_pmemfile_fchmodat ex_time ex_cred 0 ex_regular 0o040755 0).2.inode.flags = 0o100755 := by
  decide

/-! ## C38: truncation and stale data -/

/-- C38: let `v` be a well-formed regular file, with the knobs and the
allocator as the allocation code asks (`config_ok`, `alloc_ok`), let
`N < M` with `M` in the range of `off_t`, and let no block in front of `N`
start at a positive multiple of `2 ^ 32` behind the page of the size of the
file (the condition under which the first allocation returns).  Then
`vinode_truncate` to `N` and then to `M` return, the size is `M`, every
position from `N` on holds 0 and every position in front of `N` holds the byte
it held before the first call; a `pmemfile_read` of one byte at a position in
front of `M` returns 0 when the position is not in front of `N`, and that
byte otherwise. -/
theorem truncate_exposes_no_stale_data (cfg : config) (now1 now2 : pmemfile_time)
    (v : pmemfile_vinode) (N M : Nat) (hc : config_ok cfg) (hao : alloc_ok cfg)
    (hw : vinode_wf v) (hreg : vinode_is_regular_file v = true) (hNM : N < M)
    (hM : M ≤ SSIZE_MAX)
    (hnt : ∀ a ∈ v.chain, a.offset < N → page_rounddown v.inode.size < a.offset →
      (a.offset - page_rounddown v.inode.size) % 2 ^ 32 ≠ 0) :
    ∃ v1 v2, vinode_truncate cfg now1 v N = some v1 ∧
      vinode_truncate cfg now2 v1 M = some v2 ∧ v2.inode.size = M ∧
      (∀ pos, content v2.chain pos = if pos < N then content v.chain pos else 0) ∧
      ∀ (now3 : pmemfile_time) (g : pmemfile_file), cache_ok v2 g →
        g.flags &&& PFILE_READ ≠ 0 → g.offset < M →
        ∃ v3 g3, pmemfile_read now3 v2 g 1 =
          some (Except.ok 1, v3, g3, [if g.offset < N then content v.chain g.offset else 0]) := by
  obtain ⟨v1, t1, w1, _, c1⟩ := vinode_truncate_total hc hao now1 hw (by omega) hnt
  have hsz1 : v1.inode.size = N := (vinode_truncate_frame t1).1
  have hoff := vinode_truncate_offsets hc hw (by omega) t1
  have hnt1 : ∀ a ∈ v1.chain, a.offset < M → page_rounddown v1.inode.size < a.offset →
      (a.offset - page_rounddown v1.inode.size) % 2 ^ 32 ≠ 0 := by
    intro a ha _ hlt
    have h1 := hoff a ha
    rw [hsz1] at hlt ⊢
    have h2 := page_rounddown_gt N
    unfold FILE_PAGE_SIZE at h2
    omega
  obtain ⟨v2, t2, w2, _, c2⟩ := vinode_truncate_total hc hao now2 w1 hM hnt1
  have hsz2 : v2.inode.size = M := (vinode_truncate_frame t2).1
  have hcont : ∀ pos, content v2.chain pos = if pos < N then content v.chain pos else 0 := by
    intro pos
    rw [c2 pos, c1 pos]
    by_cases h1 : pos < N
    · rw [if_neg (by omega), if_neg (by omega), if_pos h1]
    · rw [if_neg h1]
      split_ifs
      · rfl
      · rfl
      · omega
  refine ⟨v1, v2, t1, t2, hsz2, hcont, ?_⟩
  intro now3 g hca hrd hlt
  have hreg2 : vinode_is_regular_file v2 = true :=
    vinode_truncate_regular t2 (vinode_truncate_regular t1 hreg)
  obtain ⟨v3, g3, hr⟩ := pmemfile_read_one now3 w2 hca hreg2 hrd (by rw [hsz2]; exact hlt)
  rw [hcont] at hr
  exact ⟨v3, g3, hr⟩

/-- C38, instance: `ex_sparse`, whose first page holds the byte 65 everywhere,
cut to 100 bytes and then grown to 5000 bytes. -/
theorem truncate_exposes_no_stale_data_witness :
    ∃ v1 v2, vinode_truncate ex_cfg ex_later ex_sparse 100 = some v1 ∧
      vinode_truncate ex_cfg ex_later v1 5000 = some v2 ∧ v2.inode.size = 5000 ∧
      (∀ pos, content v2.chain pos = if pos < 100 then content ex_sparse.chain pos else 0) ∧
      ∀ (now3 : pmemfile_time) (g : pmemfile_file), cache_ok v2 g →
        g.flags &&& PFILE_READ ≠ 0 → g.offset < 5000 →
        ∃ v3 g3, pmemfile_read now3 v2 g 1 =
          some (Except.ok 1, v3, g3,
            [if g.offset < 100 then content ex_sparse.chain g.offset else 0]) :=
  truncate_exposes_no_stale_data ex_cfg ex_later ex_later ex_sparse 100 5000 (by decide)
    ex_cfg_alloc_ok ex_sparse_wf (by rfl) (by decide) (by decide) (by decide)

/-! ## C39: the count of a write -/

/-- C39 (evaluation): a write of two bytes at the offset `2 ^ 63 - 1` of an
empty file leaves a file of size `2 ^ 63 + 1` with the layout of `ex_huge`.  On
`ex_huge`, a write of `SSIZE_MAX` bytes through the `O_APPEND` handle
`ex_append_handle`, whose offset is 0, passes the overflow check with the
count `SSIZE_MAX`, and then fails the assertion `offset + size > offset` of
`vinode_allocate_interval`, which is called with the offset `2 ^ 63 + 1`. -/
theorem append_write_count_not_clamped :
    (pmemfile_write ex_cfg ex_time ex_empty_indexed
        { offset := 2 ^ 63 - 1, flags := 3, block_pointer_cache := none } [1, 2] 2).map
        (fun r => (r.2.1.inode.size,
          r.2.1.chain.map (fun b => (b.addr, b.offset, b.size, b.flags)), r.2.1.blocks)) =
        some (ex_huge.inode.size,
          ex_huge.chain.map (fun b => (b.addr, b.offset, b.size, b.flags)), ex_huge.blocks) ∧
      u64 (ex_append_handle.offset + SSIZE_MAX) ≥ ex_append_handle.offset ∧
      u64 (ex_huge.inode.size + SSIZE_MAX) = 0 ∧
      vinode_allocate_interval ex_cfg ex_huge ex_huge.inode.size SSIZE_MAX = none ∧
      (pmemfile_write ex_cfg ex_later ex_huge ex_append_handle [] SSIZE_MAX).isNone = true :=
  ⟨by rfl, by decide, by decide, by rfl, by rfl⟩

/-! ## C40: the range of an offset map -/

/-- C40: on a new map let `insert_block` and `remove_block` be called in any
order, each insert with a block of positive size that is disjoint from the
blocks in the map, has an offset and a size that are multiples of
`MIN_BLOCK_SIZE`, an end below `2 ^ 60` and a descriptor of its own, each
remove with a block of the map (`map_ops_ok`).  All calls return.  In the map
`m` they leave, the range is `MIN_BLOCK_SIZE * 16 ^ k` for some `k`, every block
of the map ends at or below the range, and the root is internal when the map
holds a block.  The call of `set_range` that `remove_block` makes for a block of
the map, and the call that `insert_block` makes for a further such block after
it has added levels, return, are made with a range that is not below
`MIN_BLOCK_SIZE`, and make every recursive call with a range that is not below
`MIN_BLOCK_SIZE`; `set_range_trace` is `set_range_loop` with these ranges
recorded. -/
theorem offset_map_range_invariant (M : Nat) (hM : 0 < M) (hM64 : M < 2 ^ 64)
    (ops : List map_op) (hops : map_ops_ok M [] ops) :
    ∃ m, map_apply M (offset_map_new M) ops = some m ∧
      (∃ k, m.range = M * 16 ^ k) ∧
      (∀ b ∈ map_blocks [] ops, b.offset + b.size ≤ m.range) ∧
      (map_blocks [] ops ≠ [] → ∃ cs, m.entry = .node cs) ∧
      (∀ b ∈ map_blocks [] ops, ∃ e tr,
        set_range_trace none offset_map_fuel [m.entry] (b.offset / m.range) b.offset b.size
          m.range = some ([e], tr) ∧
        M ≤ m.range ∧ ∀ r ∈ tr, M ≤ r) ∧
      (∀ b, map_blocks_ok M (b :: map_blocks [] ops) → ∃ m1 e tr,
        insert_block_grow b 64 m = some m1 ∧
        set_range_trace (some b.addr) offset_map_fuel [m1.entry] (b.offset / m1.range) b.offset
          b.size m1.range = some ([e], tr) ∧
        M ≤ m1.range ∧ ∀ r ∈ tr, M ≤ r) ∧
      ∀ (block : Option Nat) (fuel : Nat) (entries : List offset_map_entry)
        (i offset remaining range : Nat),
        (set_range_trace block fuel entries i offset remaining range).map Prod.fst =
          set_range_loop block fuel entries i offset remaining range := by
  obtain ⟨m, e1, hr, hok⟩ := map_apply_repr hM ops [] (offset_map_new M) hops
    ⟨(fun b hb => by cases hb), List.Pairwise.nil, List.Pairwise.nil⟩ ⟨0, map_repr_new hM64⟩
  obtain ⟨k, hk⟩ := hr
  have hk0 := hk
  obtain ⟨g1, g2, g3, g4, g5, g6⟩ := hk
  refine ⟨m, e1, ⟨k, by rw [g1, level_range_eq]⟩, g5, ?_, ?_, ?_, set_range_trace_fst⟩
  · intro hne
    cases hentry : m.entry with
    | leaf c =>
      exfalso
      cases c with
      | none =>
        have hnone := map_repr_at_null hok hk0 hentry
        cases hbs : map_blocks [] ops with
        | nil => exact hne hbs
        | cons b rest => exact hnone b (by rw [hbs]; exact List.mem_cons_self _ _)
      | some c => exact g4 c hentry
    | node cs => exact ⟨cs, rfl⟩
  · intro b hb
    obtain ⟨m1, r1, _, _⟩ := remove_block_repr hM hok hb ⟨k, hk0⟩
    have hset : ∃ e, set_range m.entry none b.offset b.size m.range = some e := by
      unfold remove_block at r1
      cases hs : set_range m.entry none b.offset b.size m.range with
      | none => rw [hs] at r1; cases r1
      | some e => exact ⟨e, rfl⟩
    obtain ⟨e, hs⟩ := hset
    obtain ⟨tr, ht⟩ := set_range_some_trace hs
    refine ⟨e, tr, ht, by rw [g1]; exact level_range_ge M k, ?_⟩
    intro r hr
    rw [g1] at ht
    obtain ⟨j, _, ej⟩ := set_range_trace_ranges hM none _ k _ _ _ _ _ _
      (hok.1 b hb).2.1 (hok.1 b hb).2.2.1 ht r hr
    rw [ej]
    exact level_range_ge M j
  · intro b hokb
    obtain ⟨_, hbo, hbs, hbe⟩ := hokb.1 b (List.mem_cons_self _ _)
    obtain ⟨m1, k1, hg, hr1, _⟩ := insert_block_grow_spec hM hok b hbe 64 k m hk0 (by omega)
    obtain ⟨m2, r2, _⟩ := insert_block_repr hM hokb ⟨k, hk0⟩
    have hset : ∃ e, set_range m1.entry (some b.addr) b.offset b.size m1.range = some e := by
      unfold insert_block at r2
      rw [hg] at r2
      dsimp only at r2
      cases hs : set_range m1.entry (some b.addr) b.offset b.size m1.range with
      | none => rw [hs] at r2; cases r2
      | some e => exact ⟨e, rfl⟩
    obtain ⟨e, hs⟩ := hset
    obtain ⟨tr, ht⟩ := set_range_some_trace hs
    refine ⟨m1, e, tr, hg, ht, by rw [hr1.1]; exact level_range_ge M k1, ?_⟩
    intro r hr
    rw [hr1.1] at ht
    obtain ⟨j, _, ej⟩ := set_range_trace_ranges hM (some b.addr) _ k1 _ _ _ _ _ _ hbo hbs ht r hr
    rw [ej]
    exact level_range_ge M j

/-- C40, instance: two inserts, a remove and another insert, with
`MIN_BLOCK_SIZE = 4096`. -/
theorem offset_map_range_invariant_witness :
    map_ops_ok 4096 [] ex_map_ops ∧
      ∃ m, map_apply 4096 (offset_map_new 4096) ex_map_ops = some m ∧
        (∃ k, m.range = 4096 * 16 ^ k) ∧
        (∀ b ∈ map_blocks [] ex_map_ops, b.offset + b.size ≤ m.range) ∧
        (map_blocks [] ex_map_ops ≠ [] → ∃ cs, m.entry = .node cs) ∧
        (∀ b ∈ map_blocks [] ex_map_ops, ∃ e tr,
          set_range_trace none offset_map_fuel [m.entry] (b.offset / m.range) b.offset b.size
            m.range = some ([e], tr) ∧
          4096 ≤ m.range ∧ ∀ r ∈ tr, 4096 ≤ r) ∧
        (∀ b, map_blocks_ok 4096 (b :: map_blocks [] ex_map_ops) → ∃ m1 e tr,
          insert_block_grow b 64 m = some m1 ∧
          set_range_trace (some b.addr) offset_map_fuel [m1.entry] (b.offset / m1.range)
            b.offset b.size m1.range = some ([e], tr) ∧
          4096 ≤ m1.range ∧ ∀ r ∈ tr, 4096 ≤ r) ∧
        ∀ (block : Option Nat) (fuel : Nat) (entries : List offset_map_entry)
          (i offset remaining range : Nat),
          (set_range_trace block fuel entries i offset remaining range).map Prod.fst =
            set_range_loop block fuel entries i offset remaining range :=
  have hops : map_ops_ok 4096 [] ex_map_ops :=
    ⟨by unfold map_blocks_ok; decide, by unfold map_blocks_ok; decide,
      List.mem_cons_of_mem _ (List.mem_cons_self _ _),
      by unfold map_blocks_ok; decide, trivial⟩
  ⟨hops, offset_map_range_invariant 4096 (by decide) (by decide) ex_map_ops hops⟩

end Pmemfile
